import Mathlib

/-!
# EAN-13 decoder of TritonVisionApp (`pattern.h`, `ean13_reader.h`, `ean13_reader.cpp`)

Shallow embedding of the one-dimensional symbol decoder.

Conventions of the embedding

* `int` is `Int`, `uint16_t` run lengths are naturals reduced `% 65536` where the
  source narrows them, pixels are naturals (`0` is black).
* `float` arithmetic is exact rational arithmetic (`ℚ`); the literals `0.48f`, `0.7f`,
  `0.5f` are the rationals `12/25`, `7/10`, `1/2`, and `FLT_MAX` is its exact value.
* A pointer into a `std::vector` is the offset from the vector's first element; the null
  pointer is `none`.  Every read through a pointer is checked: a read outside the vector
  yields `Res.outOfRange`.
* Loops that the source bounds only by a pointer comparison carry a fuel counter; running
  out of fuel yields `Res.outOfFuel`.
* `std::string` is `List Char`; `std::set<std::string>` is the strictly increasing list of
  its elements.
-/

namespace TritonVisionApp

/-! ## Results of possibly faulting computations -/

/-- Outcome of a computation that reads memory: a value, a read outside a vector, or an
exhausted loop budget. -/
inductive Res (α : Type) where
  | ok : α → Res α
  | outOfRange : Res α
  | outOfFuel : Res α
deriving DecidableEq

/-- Sequencing of faulting computations. -/
def Res.bind {α β : Type} (x : Res α) (f : α → Res β) : Res β :=
  match x with
  | Res.ok a => f a
  | Res.outOfRange => Res.outOfRange
  | Res.outOfFuel => Res.outOfFuel

instance : Monad Res where
  pure := Res.ok
  bind := Res.bind

/-- Checked read of element `i` of a vector. -/
def readAt (v : List Nat) (i : Int) : Res Nat :=
  if i < 0 then Res.outOfRange
  else match v.get? i.toNat with
    | some x => Res.ok x
    | none => Res.outOfRange

/-- The cast `narrow_cast<uint16_t>`. -/
def narrow16 (x : Int) : Nat := (x % 65536).toNat

/-! ## `pattern.h` -/

/-- `PatternView`: a window `[_data, _data + _size)` into the run vector `bars`
(`_base` is offset `0`, `_end` is offset `bars.length`). -/
structure PatternView where
  bars : List Nat
  data : Option Int
  size : Int
deriving DecidableEq

namespace PatternView

/-- `PatternView()`: all pointers null, size 0. -/
def null : PatternView := ⟨[], none, 0⟩

/-- `PatternView(const std::vector<uint16_t>& bars)`: starts at the first bar. -/
def ofBars (bars : List Nat) : PatternView := ⟨bars, some 1, (bars.length : Int) - 1⟩

/-- Offset of `_end`. -/
def endOff (v : PatternView) : Int := v.bars.length

/-- `operator[]`: the run `_data[i]`, checked. -/
def get (v : PatternView) (i : Int) : Res Nat :=
  match v.data with
  | none => Res.outOfRange
  | some d => readAt v.bars (d + i)

/-- `std::accumulate(_data + from, _data + from + n, acc)`. -/
def accumulate (v : PatternView) : Nat → Int → Int → Res Int
  | 0, _, acc => Res.ok acc
  | n + 1, i, acc =>
    match v.get i with
    | Res.ok x => accumulate v n (i + 1) (acc + x)
    | Res.outOfRange => Res.outOfRange
    | Res.outOfFuel => Res.outOfFuel

/-- `sum(n)`: sum of the first `n` runs, of all runs when `n = 0`. -/
def sum (v : PatternView) (n : Int) : Res Int :=
  v.accumulate (if n = 0 then v.size else n).toNat 0 0

/-- `index()`. -/
def index (v : PatternView) : Int :=
  match v.data with
  | none => -1
  | some d => d - 1

/-- `isAtFirstBar()`. -/
def isAtFirstBar (v : PatternView) : Bool :=
  match v.data with
  | none => false
  | some d => d == 1

/-- `isAtLastBar()`. -/
def isAtLastBar (v : PatternView) : Bool :=
  match v.data with
  | none => v.size == -1
  | some d => d + v.size == v.endOff - 1

/-- `isValid(n)`. -/
def isValidN (v : PatternView) (n : Int) : Bool :=
  match v.data with
  | none => false
  | some d => decide (0 ≤ d) && decide (d + n ≤ v.endOff)

/-- `isValid()`. -/
def isValid (v : PatternView) : Bool := v.isValidN v.size

/-- `subView(offset, size)`. -/
def subView (v : PatternView) (offset : Int) (size : Int) : PatternView :=
  let size1 := if size = 0 then v.size - offset
    else if size < 0 then v.size - offset + size else size
  ⟨v.bars, v.data.map (fun d => d + offset), max size1 0⟩

/-- `shift(n)`: the result and the moved view. -/
def shift (v : PatternView) (n : Int) : Bool × PatternView :=
  match v.data with
  | none => (false, v)
  | some d => (decide (d + n + v.size ≤ v.endOff), { v with data := some (d + n) })

/-- `skipPair()`. -/
def skipPair (v : PatternView) : Bool × PatternView := v.shift 2

/-- `skipSymbol()`. -/
def skipSymbol (v : PatternView) : Bool × PatternView := v.shift v.size

/-- `extend()`. -/
def extend (v : PatternView) : PatternView :=
  match v.data with
  | none => { v with size := max 0 (v.endOff - 0) }
  | some d => { v with size := max 0 (v.endOff - d) }

end PatternView

/-- `FixedPattern<N, SUM, false>`: the `N` module widths and their declared sum. -/
structure FixedPattern where
  data : List Nat
  SUM : Int
deriving DecidableEq

/-- `FixedPattern::size()`. -/
def FixedPattern.size (p : FixedPattern) : Int := p.data.length

/-- The comparison loop of `IsPattern`: `true` when some run is beyond the threshold. -/
def IsPattern.exceeds (view : PatternView) (pattern : List Nat) (moduleSizeRef threshold : ℚ) :
    Nat → Int → Res Bool
  | 0, _ => Res.ok false
  | n + 1, x =>
    match view.get x, readAt pattern x with
    | Res.ok c, Res.ok p =>
      if |(c : ℚ) - (p : ℚ) * moduleSizeRef| > threshold then Res.ok true
      else IsPattern.exceeds view pattern moduleSizeRef threshold n (x + 1)
    | Res.outOfFuel, _ => Res.outOfFuel
    | _, Res.outOfFuel => Res.outOfFuel
    | _, _ => Res.outOfRange

/-- `IsPattern<false>(view, pattern, spaceInPixel, minQuietZone, moduleSizeRef)` for a
non-sparse pattern; the result `0` is "no match". -/
def IsPattern (view : PatternView) (pattern : FixedPattern) (spaceInPixel : Int)
    (minQuietZone : ℚ) (moduleSizeRef : ℚ) : Res ℚ :=
  match view.sum pattern.size with
  | Res.ok width =>
    if pattern.SUM > pattern.size ∧ width < pattern.SUM then Res.ok 0
    else
      let moduleSize : ℚ := (width : ℚ) / (pattern.SUM : ℚ)
      if minQuietZone ≠ 0 ∧ (spaceInPixel : ℚ) < minQuietZone * moduleSize - 1 then Res.ok 0
      else
        let ref : ℚ := if moduleSizeRef = 0 then moduleSize else moduleSizeRef
        let threshold : ℚ := ref * (1 / 2 + 0 * (1 / 4)) + 1 / 2
        match IsPattern.exceeds view pattern.data ref threshold pattern.data.length 0 with
        | Res.ok true => Res.ok 0
        | Res.ok false => Res.ok moduleSize
        | Res.outOfRange => Res.outOfRange
        | Res.outOfFuel => Res.outOfFuel
  | Res.outOfRange => Res.outOfRange
  | Res.outOfFuel => Res.outOfFuel

/-- `std::numeric_limits<int>::max()`. -/
def INT_MAX : Int := 2147483647

/-- `IsRightGuard(view, pattern, minQuietZone)` with `moduleSizeRef = 0.f`. -/
def IsRightGuard (view : PatternView) (pattern : FixedPattern) (minQuietZone : ℚ) : Res Bool :=
  let space : Res Int :=
    if view.isAtLastBar then Res.ok INT_MAX
    else match view.get view.size with
      | Res.ok x => Res.ok (x : Int)
      | Res.outOfRange => Res.outOfRange
      | Res.outOfFuel => Res.outOfFuel
  match space with
  | Res.ok spaceInPixel =>
    match IsPattern view pattern spaceInPixel minQuietZone 0 with
    | Res.ok m => Res.ok (decide (m ≠ 0))
    | Res.outOfRange => Res.outOfRange
    | Res.outOfFuel => Res.outOfFuel
  | Res.outOfRange => Res.outOfRange
  | Res.outOfFuel => Res.outOfFuel

/-- The `for` loop of `FindLeftGuard`: `endOff` is `view.end() - minSize`. -/
def FindLeftGuard.loop (pattern : FixedPattern) (minQuietZone : ℚ) (endOff : Int) :
    Nat → PatternView → Res PatternView
  | 0, _ => Res.outOfFuel
  | fuel + 1, window =>
    match window.data with
    | none => Res.ok PatternView.null
    | some d =>
      if d < endOff then
        match window.get (-1) with
        | Res.ok space =>
          match IsPattern window pattern space minQuietZone 0 with
          | Res.ok m =>
            if m ≠ 0 then Res.ok window
            else FindLeftGuard.loop pattern minQuietZone endOff fuel window.skipPair.2
          | Res.outOfRange => Res.outOfRange
          | Res.outOfFuel => Res.outOfFuel
        | Res.outOfRange => Res.outOfRange
        | Res.outOfFuel => Res.outOfFuel
      else Res.ok PatternView.null

/-- `FindLeftGuard(view, minSize, pattern, minQuietZone)`. -/
def FindLeftGuard (view : PatternView) (minSize : Int) (pattern : FixedPattern)
    (minQuietZone : ℚ) : Res PatternView :=
  let minSize1 := max minSize pattern.size
  if view.size < minSize1 then Res.ok PatternView.null
  else
    let window := view.subView 0 pattern.size
    let loop := fun (_ : Unit) =>
      match view.data with
      | none => Res.ok PatternView.null
      | some d =>
        FindLeftGuard.loop pattern minQuietZone (d + view.size - minSize1)
          (view.size.toNat + 1) window
    if window.isAtFirstBar then
      match IsPattern window pattern INT_MAX minQuietZone 0 with
      | Res.ok m => if m ≠ 0 then Res.ok window else loop ()
      | Res.outOfRange => Res.outOfRange
      | Res.outOfFuel => Res.outOfFuel
    else loop ()

/-! ## `ean13_reader.h` -/

/-- `L_PATTERNS`. -/
def L_PATTERNS : List (List Nat) :=
  [[3, 2, 1, 1], [2, 2, 2, 1], [2, 1, 2, 2], [1, 4, 1, 1], [1, 1, 3, 2],
   [1, 2, 3, 1], [1, 1, 1, 4], [1, 3, 1, 2], [1, 2, 1, 3], [3, 1, 1, 2]]

/-- `L_AND_G_PATTERNS`. -/
def L_AND_G_PATTERNS : List (List Nat) :=
  [[3, 2, 1, 1], [2, 2, 2, 1], [2, 1, 2, 2], [1, 4, 1, 1], [1, 1, 3, 2],
   [1, 2, 3, 1], [1, 1, 1, 4], [1, 3, 1, 2], [1, 2, 1, 3], [3, 1, 1, 2],
   [1, 1, 2, 3], [1, 2, 2, 2], [2, 2, 1, 2], [1, 1, 4, 1], [2, 3, 1, 1],
   [1, 3, 2, 1], [4, 1, 1, 1], [2, 1, 3, 1], [3, 1, 2, 1], [2, 1, 1, 3]]

/-- `ToDigit<char>(i)`: `'0' + i`, and the character `0` outside `0..9`. -/
def ToDigit (i : Int) : Char :=
  if i < 0 ∨ i > 9 then Char.ofNat 0 else Char.ofNat (48 + i.toNat)

/-- `IndexOf(c, v)`: position of the first element equal to `v`, `-1` when absent. -/
def IndexOf : List Int → Int → Int
  | [], _ => -1
  | x :: xs, v =>
    if x = v then 0
    else
      let r := IndexOf xs v
      if r = -1 then -1 else r + 1

/-- `std::numeric_limits<float>::max()`. -/
def FLT_MAX : ℚ := 340282346638528859811704183484516925440

/-- `std::accumulate(pattern, pattern + length, 0)` over a pattern array. -/
def accumulatePattern (pattern : List Nat) : Nat → Int → Int → Res Int
  | 0, _, acc => Res.ok acc
  | n + 1, i, acc =>
    match readAt pattern i with
    | Res.ok x => accumulatePattern pattern n (i + 1) (acc + x)
    | Res.outOfRange => Res.outOfRange
    | Res.outOfFuel => Res.outOfFuel

/-- The loop of `PatternMatchVariance`: `none` when a run deviates by more than
`maxIndividualVariance`, otherwise the accumulated `totalVariance`. -/
def PatternMatchVariance.loop (counters : PatternView) (pattern : List Nat)
    (unitBarWidth maxIndividualVariance : ℚ) : Nat → Int → ℚ → Res (Option ℚ)
  | 0, _, totalVariance => Res.ok (some totalVariance)
  | n + 1, x, totalVariance =>
    match counters.get x, readAt pattern x with
    | Res.ok c, Res.ok p =>
      let variance : ℚ := |(c : ℚ) - (p : ℚ) * unitBarWidth|
      if variance > maxIndividualVariance then Res.ok none
      else PatternMatchVariance.loop counters pattern unitBarWidth maxIndividualVariance n (x + 1)
        (totalVariance + variance)
    | Res.outOfFuel, _ => Res.outOfFuel
    | _, Res.outOfFuel => Res.outOfFuel
    | _, _ => Res.outOfRange

/-- `PatternMatchVariance(counters, pattern, maxIndividualVariance)` with
`length = counters.size()`. -/
def PatternMatchVariance (counters : PatternView) (pattern : List Nat)
    (maxIndividualVariance : ℚ) : Res ℚ :=
  let length := counters.size.toNat
  match counters.accumulate length 0 0, accumulatePattern pattern length 0 0 with
  | Res.ok total, Res.ok patternLength =>
    if total < patternLength then Res.ok FLT_MAX
    else
      let unitBarWidth : ℚ := (total : ℚ) / (patternLength : ℚ)
      let maxIndividualVariance1 : ℚ := maxIndividualVariance * unitBarWidth
      match PatternMatchVariance.loop counters pattern unitBarWidth maxIndividualVariance1
          length 0 0 with
      | Res.ok none => Res.ok FLT_MAX
      | Res.ok (some totalVariance) => Res.ok (totalVariance / (total : ℚ))
      | Res.outOfRange => Res.outOfRange
      | Res.outOfFuel => Res.outOfFuel
  | Res.outOfFuel, _ => Res.outOfFuel
  | _, Res.outOfFuel => Res.outOfFuel
  | _, _ => Res.outOfRange

/-- `PartialResult`. -/
structure PartialResult where
  txt : List Char
  end_ : PatternView
deriving DecidableEq

/-! ## `ean13_reader.cpp` -/

/-- `CHAR_LEN`. -/
def CHAR_LEN : Int := 4

/-- `END_PATTERN`. -/
def END_PATTERN : FixedPattern := ⟨[1, 1, 1], 3⟩

/-- `MID_PATTERN`. -/
def MID_PATTERN : FixedPattern := ⟨[1, 1, 1, 1, 1], 5⟩

/-- `FIRST_DIGIT_ENCODINGS`. -/
def FIRST_DIGIT_ENCODINGS : List Int :=
  [0x00, 0x0B, 0x0D, 0x0E, 0x13, 0x19, 0x1C, 0x15, 0x16, 0x1A]

/-- `QUIET_ZONE_LEFT`. -/
def QUIET_ZONE_LEFT : ℚ := 6

/-- `QUIET_ZONE_RIGHT_EAN`. -/
def QUIET_ZONE_RIGHT_EAN : ℚ := 3

/-- The loop of the template `DecodeDigit`: state `(bestVariance, bestMatch)`, `i` is the
index of the first pattern of `patterns`. -/
def DecodeDigit.loop (counters : PatternView) (maxIndividualVariance : ℚ)
    (requireUnambiguousMatch : Bool) : List (List Nat) → Int → ℚ → Int → Res Int
  | [], _, _, bestMatch => Res.ok bestMatch
  | pattern :: rest, i, bestVariance, bestMatch =>
    match PatternMatchVariance counters pattern maxIndividualVariance with
    | Res.ok variance =>
      if variance < bestVariance then
        DecodeDigit.loop counters maxIndividualVariance requireUnambiguousMatch rest (i + 1)
          variance i
      else if requireUnambiguousMatch ∧ variance = bestVariance then
        DecodeDigit.loop counters maxIndividualVariance requireUnambiguousMatch rest (i + 1)
          bestVariance (-1)
      else
        DecodeDigit.loop counters maxIndividualVariance requireUnambiguousMatch rest (i + 1)
          bestVariance bestMatch
    | Res.outOfRange => Res.outOfRange
    | Res.outOfFuel => Res.outOfFuel

/-- The template `DecodeDigit(counters, patterns, maxAvgVariance, maxIndividualVariance,
requireUnambiguousMatch)`: the index of the best pattern, `-1` when none matched. -/
def DecodeDigitIndex (counters : PatternView) (patterns : List (List Nat))
    (maxAvgVariance maxIndividualVariance : ℚ) (requireUnambiguousMatch : Bool) : Res Int :=
  DecodeDigit.loop counters maxIndividualVariance requireUnambiguousMatch patterns 0
    maxAvgVariance (-1)

/-- `MAX_AVG_VARIANCE`. -/
def MAX_AVG_VARIANCE : ℚ := 12 / 25

/-- `MAX_INDIVIDUAL_VARIANCE`. -/
def MAX_INDIVIDUAL_VARIANCE : ℚ := 7 / 10

/-- `DecodeDigit(view, txt, lgPattern)`: the result, the text and the parity code
(`none` for `lgPattern == nullptr`). -/
def DecodeDigit (view : PatternView) (txt : List Char) (lgPattern : Option Int) :
    Res (Bool × List Char × Option Int) :=
  let best :=
    match lgPattern with
    | some _ => DecodeDigitIndex view L_AND_G_PATTERNS MAX_AVG_VARIANCE MAX_INDIVIDUAL_VARIANCE false
    | none => DecodeDigitIndex view L_PATTERNS MAX_AVG_VARIANCE MAX_INDIVIDUAL_VARIANCE false
  match best with
  | Res.ok bestMatch =>
    if bestMatch = -1 then Res.ok (false, txt, lgPattern)
    else
      let txt1 := txt ++ [ToDigit (Int.tmod bestMatch 10)]
      match lgPattern with
      | some lg =>
        let bestMatchbool : Int := if bestMatch ≥ 10 then 1 else 0
        Res.ok (true, txt1, some (2 * lg + bestMatchbool))
      | none => Res.ok (true, txt1, none)
  | Res.outOfRange => Res.outOfRange
  | Res.outOfFuel => Res.outOfFuel

/-- `DecodeDigits(digitCount, next, txt, lgPattern)`: the result, the moved view, the text
and the parity code.  `n` counts the remaining iterations. -/
def DecodeDigits : Nat → PatternView → List Char → Option Int →
    Res (Bool × PatternView × List Char × Option Int)
  | 0, next, txt, lgPattern => Res.ok (true, next, txt, lgPattern)
  | n + 1, next, txt, lgPattern =>
    match DecodeDigit next txt lgPattern with
    | Res.ok (false, txt1, lg1) => Res.ok (false, next, txt1, lg1)
    | Res.ok (true, txt1, lg1) => DecodeDigits n next.skipSymbol.2 txt1 lg1
    | Res.outOfRange => Res.outOfRange
    | Res.outOfFuel => Res.outOfFuel

/-- `EAN13(res, begin)`: the result and the updated `res`. -/
def EAN13 (res : PartialResult) (begin : PatternView) : Res (Bool × PartialResult) :=
  let mid := begin.subView 27 MID_PATTERN.size
  let end_ := begin.subView 56 END_PATTERN.size
  if end_.isValid then
    match IsRightGuard end_ END_PATTERN QUIET_ZONE_RIGHT_EAN with
    | Res.ok true =>
      match IsPattern mid MID_PATTERN 0 0 0 with
      | Res.ok m =>
        if m ≠ 0 then
          let next := begin.subView END_PATTERN.size CHAR_LEN
          match DecodeDigits 6 next [' '] (some 0) with
          | Res.ok (true, next1, txt1, lg1) =>
            let next2 := next1.subView MID_PATTERN.size CHAR_LEN
            match DecodeDigits 6 next2 txt1 none with
            | Res.ok (true, _, txt2, _) =>
              let i := IndexOf FIRST_DIGIT_ENCODINGS (lg1.getD 0)
              if i ≠ -1 then Res.ok (true, ⟨txt2.set 0 (ToDigit i), end_⟩)
              else Res.ok (false, ⟨txt2, res.end_⟩)
            | Res.ok (false, _, txt2, _) => Res.ok (false, ⟨txt2, res.end_⟩)
            | Res.outOfRange => Res.outOfRange
            | Res.outOfFuel => Res.outOfFuel
          | Res.ok (false, _, txt1, _) => Res.ok (false, ⟨txt1, res.end_⟩)
          | Res.outOfRange => Res.outOfRange
          | Res.outOfFuel => Res.outOfFuel
        else Res.ok (false, res)
      | Res.outOfRange => Res.outOfRange
      | Res.outOfFuel => Res.outOfFuel
    | Res.ok false => Res.ok (false, res)
    | Res.outOfRange => Res.outOfRange
    | Res.outOfFuel => Res.outOfFuel
  else Res.ok (false, res)

/-- `decodePattern(next, res)`: the result, the updated `next` and the updated `res`. -/
def decodePattern (next : PatternView) (res : PartialResult) :
    Res (Bool × PatternView × PartialResult) :=
  let minSize : Int := 3 + 6 * 4 + 6
  match FindLeftGuard next minSize END_PATTERN QUIET_ZONE_LEFT with
  | Res.ok next1 =>
    if !next1.isValid then Res.ok (false, next1, res)
    else
      match EAN13 res next1 with
      | Res.ok (r, res1) => Res.ok (r, next1, res1)
      | Res.outOfRange => Res.outOfRange
      | Res.outOfFuel => Res.outOfFuel
  | Res.outOfRange => Res.outOfRange
  | Res.outOfFuel => Res.outOfFuel

/-- The pixel loop of `getPatternRow` over the pixels from `p` to `end`: `p` and `lastPos`
are offsets from `begin`. -/
def getPatternRow.scan : List Nat → Int → Int → Bool → List Nat → List Nat
  | [], p, lastPos, _, res => res ++ [narrow16 (p - lastPos)]
  | px :: rest, p, lastPos, lastVal, res =>
    let val : Bool := px == 0
    if val != lastVal then
      getPatternRow.scan rest (p + 1) p val (res ++ [narrow16 (p - lastPos)])
    else getPatternRow.scan rest (p + 1) lastPos lastVal res

/-- `getPatternRow(image, height, width, rowNumber, res)`: the run lengths of one row.  The
pixels `[begin, end)` must lie inside `image`, and so must the pixel `*(end - stride)`.
The index `rowNumber * width` is taken as an unbounded integer; the source computes it in
`int`, which is the same number on every image of fewer than `2 ^ 31` pixels. -/
def getPatternRow (image : List Nat) (_height width rowNumber : Int) : Res (List Nat) :=
  let begin := rowNumber * width
  let end_ := begin + width
  if begin < 0 ∨ width < 0 ∨ end_ > image.length then Res.outOfRange
  else
    let row := (image.drop begin.toNat).take width.toNat
    let res := getPatternRow.scan row 0 0 false []
    match readAt image (end_ - 1) with
    | Res.ok last => if last = 0 then Res.ok (res ++ [0]) else Res.ok res
    | Res.outOfRange => Res.outOfRange
    | Res.outOfFuel => Res.outOfFuel

/-- `std::string::operator<` (comparison of the characters as unsigned values). -/
def strLess : List Char → List Char → Bool
  | [], [] => false
  | [], _ :: _ => true
  | _ :: _, [] => false
  | a :: as, b :: bs =>
    if a.toNat < b.toNat then true
    else if b.toNat < a.toNat then false
    else strLess as bs

/-- `std::set<std::string>::insert` on the increasing list of the elements. -/
def setInsert (s : List Char) : List (List Char) → List (List Char)
  | [] => [s]
  | x :: xs =>
    if strLess s x then s :: x :: xs
    else if strLess x s then x :: setInsert s xs
    else x :: xs

/-- The delimiter loop of `DoDecode` over the characters of `res.txt` that remain to be
searched: `segLen` is the length of the piece since `last_delim`; `txt` is inserted
whenever a piece between delimiters, or the piece after the last one, has 13 characters. -/
def DoDecode.collect (txt : List Char) : List Char → Nat → List (List Char) → List (List Char)
  | [], segLen, result => if segLen = 13 then setInsert txt result else result
  | c :: rest, segLen, result =>
    if c = ' ' then
      DoDecode.collect txt rest 0 (if segLen = 13 then setInsert txt result else result)
    else DoDecode.collect txt rest (segLen + 1) result

/-- The `do`/`while (next.size())` loop of `DoDecode` on one row. -/
def DoDecode.attempts : Nat → PatternView → PartialResult → List (List Char) →
    Res (PartialResult × List (List Char))
  | 0, _, _, _ => Res.outOfFuel
  | fuel + 1, next, res, result =>
    match decodePattern next res with
    | Res.ok (_, next1, res1) =>
      let result1 := DoDecode.collect res1.txt res1.txt 0 result
      let next2 := (next1.shift (2 - Int.tmod next1.index 2)).2
      let next3 := next2.extend
      if next3.size ≠ 0 then DoDecode.attempts fuel next3 res1 result1
      else Res.ok (res1, result1)
    | Res.outOfRange => Res.outOfRange
    | Res.outOfFuel => Res.outOfFuel

/-- The row loop of `DoDecode` from iteration `i` on; `n` counts the iterations left before
`i` reaches `maxLines`.  (`checkRows` is never filled, so its branch is never taken.) -/
def DoDecode.rows (image : List Nat) (width height : Int) :
    Nat → Int → PartialResult → List (List Char) → Res (List (List Char))
  | 0, _, _, result => Res.ok result
  | n + 1, i, res, result =>
    let middle := Int.tdiv height 2
    let rowStep : Int := 1
    let rowStepsAboveOrBelow := Int.tdiv (i + 1) 2
    let isAbove : Bool := Int.tmod i 2 == 0
    let rowNumber := middle + rowStep * (if isAbove then rowStepsAboveOrBelow
      else -rowStepsAboveOrBelow)
    if rowNumber < 0 ∨ rowNumber ≥ height then Res.ok result
    else
      match getPatternRow image height width rowNumber with
      | Res.ok bars =>
        match DoDecode.attempts (bars.length + 1) (PatternView.ofBars bars) res result with
        | Res.ok (res1, result1) => DoDecode.rows image width height n (i + 1) res1 result1
        | Res.outOfRange => Res.outOfRange
        | Res.outOfFuel => Res.outOfFuel
      | Res.outOfRange => Res.outOfRange
      | Res.outOfFuel => Res.outOfFuel

/-- `DoDecode(BinarizedImage, width, height)`. -/
def DoDecode (BinarizedImage : List Nat) (width height : Int) : Res (List (List Char)) :=
  DoDecode.rows BinarizedImage width height height.toNat 0 ⟨[], PatternView.null⟩ []

/-- The iteration of `std::unordered_map<std::string, int>` is unspecified: `order` gives,
for the entries of a map, the sequence in which a range-`for` visits them. -/
abbrev MapOrder := List (List Char × Int) → List (List Char × Int)

/-- `frequencyMap[result]++` on the entries of the map. -/
def frequencyIncr (key : List Char) : List (List Char × Int) → List (List Char × Int)
  | [] => [(key, 0 + 1)]
  | (k, f) :: rest => if k = key then (k, f + 1) :: rest else (k, f) :: frequencyIncr key rest

/-- The second loop of `GetMostFrequentResult`: state `(mostFrequentResult, maxFrequency)`. -/
def GetMostFrequentResult.pick : List (List Char × Int) → List Char → Int → List Char
  | [], mostFrequentResult, _ => mostFrequentResult
  | (result, frequency) :: rest, mostFrequentResult, maxFrequency =>
    if frequency > maxFrequency then GetMostFrequentResult.pick rest result frequency
    else GetMostFrequentResult.pick rest mostFrequentResult maxFrequency

/-- `GetMostFrequentResult(results)`. -/
def GetMostFrequentResult (order : MapOrder) (results : List (List Char)) : List Char :=
  let frequencyMap := results.foldl (fun m result => frequencyIncr result m) []
  GetMostFrequentResult.pick (order frequencyMap) [] 0

/-- The part of `RotateImage` and of the size computation of `DecodeWithRotation` that is
floating-point trigonometry, taken as given: for an image, its width and height and an
angle in degrees, the rotated image and its `newWidth` and `newHeight`. -/
structure Rotation where
  RotateImage : List Nat → Int → Int → Int → List Nat
  newWidth : Int → Int → Int → Int
  newHeight : Int → Int → Int → Int

/-- The `for (angle = 90; angle < 360; angle += 90)` loop of `DecodeWithRotation`. -/
def DecodeWithRotation.loop (rot : Rotation) (image : List Nat) (width height : Int) :
    Nat → Int → List (List Char) → Res (List (List Char))
  | 0, _, _ => Res.outOfFuel
  | fuel + 1, angle, results =>
    if angle < 360 then
      let rotatedImage := rot.RotateImage image width height angle
      let newHeight := rot.newHeight width height angle
      let newWidth := rot.newWidth width height angle
      match DoDecode rotatedImage newWidth newHeight with
      | Res.ok results1 =>
        if results1 ≠ [] then Res.ok results1
        else DecodeWithRotation.loop rot image width height fuel (angle + 90) results1
      | Res.outOfRange => Res.outOfRange
      | Res.outOfFuel => Res.outOfFuel
    else Res.ok results

/-- `DecodeWithRotation` from the binarized, flattened `image` on. -/
def DecodeWithRotation (rot : Rotation) (order : MapOrder) (image : List Nat)
    (width height : Int) : Res (List Char) :=
  match DoDecode image width height with
  | Res.ok results =>
    if results = [] then
      match DecodeWithRotation.loop rot image width height 4 90 results with
      | Res.ok results1 => Res.ok (GetMostFrequentResult order results1)
      | Res.outOfRange => Res.outOfRange
      | Res.outOfFuel => Res.outOfFuel
    else Res.ok (GetMostFrequentResult order results)
  | Res.outOfRange => Res.outOfRange
  | Res.outOfFuel => Res.outOfFuel

/-! ## Synthetic symbols -/

/-- Pixels of a run sequence: runs alternate white (255) and black (0), `black` tells the
colour of the first run. -/
def pixelsOfRuns : Bool → List Nat → List Nat
  | _, [] => []
  | black, r :: rs => List.replicate r (if black then 0 else 255) ++ pixelsOfRuns (!black) rs

/-- Value of a digit character. -/
def digitValue (c : Char) : Nat := c.toNat - 48

/-- A string of `n` ASCII digits. -/
def IsDigitString (n : Nat) (s : List Char) : Prop :=
  s.length = n ∧ ∀ c ∈ s, 48 ≤ c.toNat ∧ c.toNat ≤ 57

instance (n : Nat) (s : List Char) : Decidable (IsDigitString n s) := by
  unfold IsDigitString; infer_instance

/-- Table indices of the six left digits `ds` of a symbol whose parity code is `code` (most
significant bit first): digit `d` uses entry `d` of `L_AND_G_PATTERNS` for a 0 bit and entry
`10 + d` for a 1 bit. -/
def leftIndices (code : Nat) : Nat → List Nat → List Nat
  | _, [] => []
  | bits, d :: ds => (d + 10 * (code / 2 ^ (bits - 1) % 2)) :: leftIndices code (bits - 1) ds

/-- Table indices of the left digits of the symbol of the digit string `s`. -/
def symbolLeftIndices (s : List Char) : List Nat :=
  let ds := s.map digitValue
  leftIndices (FIRST_DIGIT_ENCODINGS.getD (ds.headD 0) 0).toNat 6 ((ds.drop 1).take 6)

/-- Table indices (into `L_PATTERNS`) of the right digits of the symbol of `s`. -/
def symbolRightIndices (s : List Char) : List Nat := (s.map digitValue).drop 7

/-- Module widths of the digits at the table indices `idxs`. -/
def modulesOf (table : List (List Nat)) (idxs : List Nat) : List Nat :=
  (idxs.map (fun i => table.getD i [])).flatten

/-- Module widths of the 59 runs of the EAN-13 symbol of the digit string `s`, from the
first bar of the start guard to the last bar of the end guard. -/
def symbolModules (s : List Char) : List Nat :=
  [1, 1, 1] ++ modulesOf L_AND_G_PATTERNS (symbolLeftIndices s) ++ [1, 1, 1, 1, 1]
    ++ modulesOf L_PATTERNS (symbolRightIndices s) ++ [1, 1, 1]

/-- One pixel row of the rendering of `s` at `k` pixels per module with white quiet zones
of `ql` and `qr` pixels. -/
def renderRow (k : Nat) (s : List Char) (ql qr : Nat) : List Nat :=
  pixelsOfRuns false ([ql] ++ (symbolModules s).map (fun m => k * m) ++ [qr])

/-- The image of `H` equal rows. -/
def imageOfRow (H : Nat) (row : List Nat) : List Nat := (List.replicate H row).flatten

/-- The row visited by iteration `i` of the row loop of `DoDecode`. -/
def rowOfIteration (height i : Int) : Int :=
  Int.tdiv height 2 + 1 * (if (Int.tmod i 2 == 0) = true then Int.tdiv (i + 1) 2
    else -Int.tdiv (i + 1) 2)

/-- An iteration order of the frequency map visits every entry exactly once. -/
def LawfulOrder (order : MapOrder) : Prop := ∀ m, (order m).Perm m

/-- `DoDecode` on the rotation by `angle` degrees, as `DecodeWithRotation` calls it. -/
def decodeRotated (rot : Rotation) (image : List Nat) (width height angle : Int) :
    Res (List (List Char)) :=
  DoDecode (rot.RotateImage image width height angle) (rot.newWidth width height angle)
    (rot.newHeight width height angle)

/-- A rotation that yields a rendered symbol at 180 degrees and a white pixel otherwise. -/
def sampleRotation : Rotation where
  RotateImage := fun _ _ _ angle =>
    if angle = 180 then imageOfRow 1 (renderRow 1 "4006381333931".toList 11 7) else [255]
  newWidth := fun _ _ angle => if angle = 180 then 113 else 1
  newHeight := fun _ _ _ => 1

/-- Three rows of the symbol `0000000000000` above one row of `1111111111111`. -/
def threeZerosOneOnes : List Nat :=
  imageOfRow 3 (renderRow 1 "0000000000000".toList 11 7)
    ++ imageOfRow 1 (renderRow 1 "1111111111111".toList 11 7)

/-- One row of the symbol `0000000000000` above three rows of `1111111111111`. -/
def oneZerosThreeOnes : List Nat :=
  imageOfRow 1 (renderRow 1 "0000000000000".toList 11 7)
    ++ imageOfRow 3 (renderRow 1 "1111111111111".toList 11 7)

/-! ## Windows as lists -/

/-- The runs `w` are the elements of `l` from offset `x` on. -/
def ListReads (l : List Nat) : Int → List Nat → Prop
  | _, [] => True
  | x, c :: cs => readAt l x = Res.ok c ∧ ListReads l (x + 1) cs

/-- Decision procedure for `ListReads`. -/
def ListReads.decide (l : List Nat) : (x : Int) → (w : List Nat) → Decidable (ListReads l x w)
  | _, [] => isTrue trivial
  | x, c :: cs =>
    match decEq (readAt l x) (Res.ok c), ListReads.decide l (x + 1) cs with
    | isTrue h1, isTrue h2 => isTrue ⟨h1, h2⟩
    | isFalse h1, _ => isFalse (fun h => h1 h.1)
    | _, isFalse h2 => isFalse (fun h => h2 h.2)

instance (l : List Nat) (x : Int) (w : List Nat) : Decidable (ListReads l x w) :=
  ListReads.decide l x w

/-- The deviations `|counters[x] - pattern[x] * unitBarWidth|` of a window. -/
def deviations (c p : List Nat) (u : ℚ) : List ℚ :=
  List.zipWith (fun (a b : Nat) => |(a : ℚ) - (b : ℚ) * u|) c p

/-- Value of `PatternMatchVariance` on the window `c`. -/
def varianceOf (c p : List Nat) (lim : ℚ) : ℚ :=
  if (c.sum : Int) < (p.sum : Int) then FLT_MAX
  else
    let u : ℚ := ((c.sum : Int) : ℚ) / ((p.sum : Int) : ℚ)
    if (deviations c p u).any (fun v => decide (v > lim * u)) then FLT_MAX
    else (deviations c p u).sum / ((c.sum : Int) : ℚ)

/-- Value of the template `DecodeDigit` on the variances of the table entries. -/
def pickBest : List ℚ → Int → ℚ → Int → Int
  | [], _, _, bestMatch => bestMatch
  | v :: vs, i, bestVariance, bestMatch =>
    if v < bestVariance then pickBest vs (i + 1) v i
    else pickBest vs (i + 1) bestVariance bestMatch

/-- Value of `IsPattern` on the window `w`. -/
def isPatternOf (w : List Nat) (pattern : FixedPattern) (spaceInPixel : Int)
    (minQuietZone moduleSizeRef : ℚ) : ℚ :=
  if pattern.SUM > pattern.size ∧ (w.sum : Int) < pattern.SUM then 0
  else
    let moduleSize : ℚ := ((w.sum : Int) : ℚ) / (pattern.SUM : ℚ)
    if minQuietZone ≠ 0 ∧ (spaceInPixel : ℚ) < minQuietZone * moduleSize - 1 then 0
    else
      let ref : ℚ := if moduleSizeRef = 0 then moduleSize else moduleSizeRef
      if (deviations w pattern.data ref).any (fun v => decide (v > ref * (1 / 2 + 0 * (1 / 4)) + 1 / 2))
      then 0 else moduleSize

/-- Every run of `w` is within a tenth of the module width `k` of the pattern `p` at that
width: `|w[j] - k * p[j]| ≤ k / 10`. -/
def NearPattern (k : Nat) : List Nat → List Nat → Prop
  | [], [] => True
  | c :: cs, m :: ms => 10 * |(c : Int) - (k : Int) * (m : Int)| ≤ (k : Int) ∧ NearPattern k cs ms
  | _, _ => False

/-- Decision procedure for `NearPattern`. -/
def NearPattern.decide (k : Nat) : (w p : List Nat) → Decidable (NearPattern k w p)
  | [], [] => isTrue trivial
  | c :: cs, m :: ms =>
    match Int.decLe (10 * |(c : Int) - (k : Int) * (m : Int)|) (k : Int),
      NearPattern.decide k cs ms with
    | isTrue h1, isTrue h2 => isTrue ⟨h1, h2⟩
    | isFalse h1, _ => isFalse (fun h => h1 h.1)
    | _, isFalse h2 => isFalse (fun h => h2 h.2)
  | [], _ :: _ => isFalse (fun h => h)
  | _ :: _, [] => isFalse (fun h => h)

instance (k : Nat) (w p : List Nat) : Decidable (NearPattern k w p) := NearPattern.decide k w p

/-- A digit table: distinct patterns of four widths that sum to 7 modules. -/
def GoodTable (patterns : List (List Nat)) : Prop :=
  patterns.Nodup ∧ ∀ p ∈ patterns, p.length = 4 ∧ p.sum = 7

instance (patterns : List (List Nat)) : Decidable (GoodTable patterns) := by
  unfold GoodTable; infer_instance

/-- The digits decoded from windows matched at the table indices `iw.1`. -/
def indexDigits (ws : List (Nat × List Nat)) : List Char :=
  ws.map (fun iw => ToDigit (Int.tmod (iw.1 : Int) 10))

/-- The parity code after the windows matched at the table indices `iw.1`. -/
def parityCode (lg : Int) (ws : List (Nat × List Nat)) : Int :=
  ws.foldl (fun c iw => 2 * c + (if (iw.1 : Int) ≥ 10 then 1 else 0)) lg

/-- The runs of a sequence of windows. -/
def windowRuns (ws : List (Nat × List Nat)) : List Nat := (ws.map Prod.snd).flatten

/-- Every window is near the entry of `table` it is paired with. -/
def WindowsNear (k : Nat) (table : List (List Nat)) (ws : List (Nat × List Nat)) : Prop :=
  ∀ iw ∈ ws, iw.1 < table.length ∧ NearPattern k iw.2 (table.getD iw.1 [])

/-- The text of a symbol whose windows matched at the table indices of `lws` and `rws`. -/
def symbolText (lws rws : List (Nat × List Nat)) : List Char :=
  ToDigit (IndexOf FIRST_DIGIT_ENCODINGS (parityCode 0 lws))
    :: (indexDigits lws ++ indexDigits rws)

/-- The weighted sum of the EAN-13 check digit rule: weights 1, 3, 1, 3, ... from `w` on. -/
def weightedSum : List Nat → Nat → Nat
  | [], _ => 0
  | d :: ds, w => w * d + weightedSum ds (4 - w)

/-- The EAN-13 mod-10 check digit of the first twelve digits of `s`. -/
def checkDigit (s : List Char) : Nat :=
  (10 - weightedSum ((s.take 12).map digitValue) 1 % 10) % 10

/-- The left digit runs of the rendering of `0000000000000` at one pixel per module. -/
def zerosLeftRuns : List Nat :=
  [3, 2, 1, 1, 3, 2, 1, 1, 3, 2, 1, 1, 3, 2, 1, 1, 3, 2, 1, 1, 3, 2, 1, 1]

/-- The right digit runs of `0000000000000` with the last digit's runs `3, 2, 1, 1` changed
to `2, 2, 2, 1`. -/
def zerosRightRunsChanged : List Nat :=
  [3, 2, 1, 1, 3, 2, 1, 1, 3, 2, 1, 1, 3, 2, 1, 1, 3, 2, 1, 1, 2, 2, 2, 1]

/-- Digit runs of the symbol `4006381333931` at 10 pixels per module, each changed by one
pixel. -/
def noisyLeftRuns : List Nat :=
  [29, 21, 10, 10, 11, 10, 19, 30, 10, 9, 11, 40, 10, 41, 9, 10, 31, 10, 19, 10, 10, 21, 19, 20]

/-- Right digit runs of the symbol `4006381333931` at 10 pixels per module, each changed by
at most one pixel. -/
def noisyRightRuns : List Nat :=
  [11, 39, 10, 10, 10, 41, 9, 10, 10, 40, 11, 9, 31, 9, 10, 20, 9, 41, 10, 10, 20, 21, 19, 10]

/-- The runs of the symbol `4006381333931` at one pixel per module with white runs of 11
and 7 pixels around it. -/
def sampleBars : List Nat := 11 :: (symbolModules "4006381333931".toList ++ [7])

/-- The windows from `view` on, one symbol apart, match the table indices `bs` in
`patterns`. -/
def MatchedDigits (patterns : List (List Nat)) : PatternView → List Int → Prop
  | _, [] => True
  | view, b :: bs =>
    DecodeDigitIndex view patterns MAX_AVG_VARIANCE MAX_INDIVIDUAL_VARIANCE false = Res.ok b
      ∧ b ≠ -1 ∧ MatchedDigits patterns view.skipSymbol.2 bs

/-- The parity bit of a matched table index. -/
def parityBit (b : Int) : Int := if b ≥ 10 then 1 else 0

/-- The rows that the row loop of `DoDecode` scans, in order, from iteration `i` on (`n`
iterations left): the loop of `DoDecode.rows` without the work done on each row. -/
def DoDecode.rowSequence (height : Int) : Nat → Int → List Int
  | 0, _ => []
  | n + 1, i =>
    let middle := Int.tdiv height 2
    let rowStep : Int := 1
    let rowStepsAboveOrBelow := Int.tdiv (i + 1) 2
    let isAbove : Bool := Int.tmod i 2 == 0
    let rowNumber := middle + rowStep * (if isAbove then rowStepsAboveOrBelow
      else -rowStepsAboveOrBelow)
    if rowNumber < 0 ∨ rowNumber ≥ height then []
    else rowNumber :: DoDecode.rowSequence height n (i + 1)

/-- The work of `DoDecode` on the rows `rs`, in order. -/
def DoDecode.scanRows (image : List Nat) (width height : Int) :
    List Int → PartialResult → List (List Char) → Res (List (List Char))
  | [], _, result => Res.ok result
  | rowNumber :: rs, res, result =>
    match getPatternRow image height width rowNumber with
    | Res.ok bars =>
      match DoDecode.attempts (bars.length + 1) (PatternView.ofBars bars) res result with
      | Res.ok (res1, result1) => DoDecode.scanRows image width height rs res1 result1
      | Res.outOfRange => Res.outOfRange
      | Res.outOfFuel => Res.outOfFuel
    | Res.outOfRange => Res.outOfRange
    | Res.outOfFuel => Res.outOfFuel

/-- The colour (black or not) of the run that is open when the pixel loop of
`getPatternRow` ends: the last value of `lastVal`. -/
def finalVal : List Nat → Bool → Bool
  | [], lastVal => lastVal
  | px :: rest, _ => finalVal rest (px == 0)

/-- The pixels of row `r` of an image of the given width. -/
def rowPixels (image : List Nat) (width r : Nat) : List Nat :=
  (image.drop (r * width)).take width

/-- Run lengths of the pixels `row` when a run of `c` pixels of colour `lastVal` is open:
the reading of `getPatternRow` without the narrowing of the run lengths. -/
def runLengths : Nat → Bool → List Nat → List Nat
  | c, _, [] => [c]
  | c, lastVal, px :: rest =>
    if (px == 0) != lastVal then c :: runLengths 1 (px == 0) rest
    else runLengths (c + 1) lastVal rest

/-- Colours (black or not) of the pixels of a run sequence whose first run has the colour
`black`. -/
def coloursOfRuns : Bool → List Nat → List Bool
  | _, [] => []
  | black, r :: rs => List.replicate r black ++ coloursOfRuns (!black) rs

/-- A text left behind by a failed `EAN13`: the placeholder space and at most twelve
digits. -/
def PartialTxt (t : List Char) : Prop :=
  ∃ ds : List Char, t = ' ' :: ds ∧ ds.length ≤ 12 ∧ ∀ c ∈ ds, 48 ≤ c.toNat ∧ c.toNat ≤ 57

/-- The texts `res.txt` can hold between two attempts of `DoDecode`: empty, left behind by
a failed attempt, or the thirteen digits of the last success. -/
def TxtInv (t : List Char) : Prop := t = [] ∨ PartialTxt t ∨ IsDigitString 13 t

/-- The `do`/`while` loop of `DoDecode` on one row, recording instead of the candidate set
the texts of the attempts on which `decodePattern` returned `true`, in order. -/
def successfulAttempts : Nat → PatternView → PartialResult →
    Res (PartialResult × List (List Char))
  | 0, _, _ => Res.outOfFuel
  | fuel + 1, next, res =>
    match decodePattern next res with
    | Res.ok (ok, next1, res1) =>
      let next2 := (next1.shift (2 - Int.tmod next1.index 2)).2
      let next3 := next2.extend
      if next3.size ≠ 0 then
        match successfulAttempts fuel next3 res1 with
        | Res.ok (res2, texts) => Res.ok (res2, if ok then res1.txt :: texts else texts)
        | Res.outOfRange => Res.outOfRange
        | Res.outOfFuel => Res.outOfFuel
      else Res.ok (res1, if ok then [res1.txt] else [])
    | Res.outOfRange => Res.outOfRange
    | Res.outOfFuel => Res.outOfFuel

/-- The row loop of `DoDecode`, recording the texts of the successful attempts of every
scanned row. -/
def successfulRows (image : List Nat) (width height : Int) :
    Nat → Int → PartialResult → Res (List (List Char))
  | 0, _, _ => Res.ok []
  | n + 1, i, res =>
    let rowNumber := rowOfIteration height i
    if rowNumber < 0 ∨ rowNumber ≥ height then Res.ok []
    else
      match getPatternRow image height width rowNumber with
      | Res.ok bars =>
        match successfulAttempts (bars.length + 1) (PatternView.ofBars bars) res with
        | Res.ok (res1, texts) =>
          match successfulRows image width height n (i + 1) res1 with
          | Res.ok more => Res.ok (texts ++ more)
          | Res.outOfRange => Res.outOfRange
          | Res.outOfFuel => Res.outOfFuel
        | Res.outOfRange => Res.outOfRange
        | Res.outOfFuel => Res.outOfFuel
      | Res.outOfRange => Res.outOfRange
      | Res.outOfFuel => Res.outOfFuel

/-- The texts of all attempts of `DoDecode` on which `decodePattern` succeeded, over the
rows in scan order. -/
def successfulDecodes (image : List Nat) (width height : Int) : Res (List (List Char)) :=
  successfulRows image width height height.toNat 0 ⟨[], PatternView.null⟩

/-- The unit width of a 4-run window against a 7-module digit pattern: `total / 7`. -/
def unitWidth (w : List Nat) : ℚ := (w.sum : ℚ) / 7

/-- The deviation `|observed[i] - pattern[i] * unitWidth|` of run `i`. -/
def deviationAt (w p : List Nat) (i : Nat) : ℚ :=
  |((w.getD i 0 : Nat) : ℚ) - ((p.getD i 0 : Nat) : ℚ) * unitWidth w|

/-- A table entry passes the checks of a 4-run window: the total is at least 7 pixels and
no run deviates by more than `0.7 * unitWidth`. -/
def PassesChecks (w p : List Nat) : Prop :=
  7 ≤ w.sum ∧ ∀ i : Nat, i < 4 → deviationAt w p i ≤ 7 / 10 * unitWidth w

/-- The variance of a table entry on a 4-run window: the sum of the four deviations divided
by the total. -/
def windowVariance (w p : List Nat) : ℚ :=
  (deviationAt w p 0 + deviationAt w p 1 + deviationAt w p 2 + deviationAt w p 3) / (w.sum : ℚ)

/-- A run sequence with the symbol `0000000000000` at one pixel per module behind a bar of
1 pixel and a space of 5 pixels, followed by a space of 2 pixels and a bar. -/
def narrowQuietBars : List Nat :=
  [3, 1, 5, 1, 1, 1] ++ zerosLeftRuns ++ [1, 1, 1, 1, 1] ++ zerosLeftRuns ++ [1, 1, 1, 2, 1, 0]

/-! ## Binary32 arithmetic

The definitions above take the `float` operations of the source as exact rational
operations.  The definitions below carry the rounding `rnd` of every `float` operation as a
parameter: `rnd = id` gives the definitions above, `rnd = binary32` the arithmetic of the
source. -/

/-- The halving steps of `log2Floor`: for each width `s` of the list, `n` is divided by
`2 ^ s` if it is at least that large, and `s` is added to the count. -/
def log2Floor.go : List Nat → Nat → Nat → Nat
  | [], _, acc => acc
  | s :: ss, n, acc =>
    if 2 ^ s ≤ n then log2Floor.go ss (n / 2 ^ s) (acc + s) else log2Floor.go ss n acc

/-- The floor of the binary logarithm of `n`, for `1 ≤ n < 2 ^ 2048`. -/
def log2Floor (n : Nat) : Nat :=
  log2Floor.go [1024, 512, 256, 128, 64, 32, 16, 8, 4, 2, 1] n 0

/-- The binary exponent of the positive rational `n / d`: the `e` with
`2 ^ e ≤ n / d < 2 ^ (e + 1)`.  The difference of the logarithms is `e` or `e + 1`. -/
def binary32.exponent (n d : Nat) : Int :=
  let e0 : Int := (log2Floor n : Int) - (log2Floor d : Int)
  if 0 ≤ e0 then (if d * 2 ^ e0.toNat ≤ n then e0 else e0 - 1)
  else (if d ≤ n * 2 ^ (-e0).toNat then e0 else e0 - 1)

/-- The natural number nearest to `a / b`, ties to the even one. -/
def roundHalfEven (a b : Nat) : Nat :=
  let q := a / b
  let r := a % b
  if 2 * r < b then q else if b < 2 * r then q + 1 else if q % 2 = 0 then q else q + 1

/-- The IEEE 754 binary32 number nearest to `x` (24 significant bits, ties to even): the
rounding of every `float` operation of the source.  With `e` the binary exponent of `|x|`,
the significand is `|x| * 2 ^ (23 - e)` rounded to a natural number `m`, and the value is
`m * 2 ^ (e - 23)` with the sign of `x`.  Overflow and subnormal numbers are not modelled;
the values that occur here are far from both. -/
def binary32 (x : ℚ) : ℚ :=
  let n := x.num.natAbs
  let d := x.den
  if n = 0 then 0
  else
    let e := binary32.exponent n d
    let m :=
      if e ≤ 23 then roundHalfEven (n * 2 ^ (23 - e).toNat) d
      else roundHalfEven n (d * 2 ^ (e - 23).toNat)
    let y : ℚ :=
      if 23 ≤ e then ((m * 2 ^ (e - 23).toNat : Nat) : ℚ) else mkRat m (2 ^ (23 - e).toNat)
    if x.num < 0 then -y else y

/-- The loop of `PatternMatchVariance` with every `float` operation rounded by `rnd`. -/
def PatternMatchVariance.roundedLoop (rnd : ℚ → ℚ) (counters : PatternView)
    (pattern : List Nat) (unitBarWidth maxIndividualVariance : ℚ) :
    Nat → Int → ℚ → Res (Option ℚ)
  | 0, _, totalVariance => Res.ok (some totalVariance)
  | n + 1, x, totalVariance =>
    match counters.get x, readAt pattern x with
    | Res.ok c, Res.ok p =>
      let variance : ℚ := |rnd (rnd (c : ℚ) - rnd (rnd (p : ℚ) * unitBarWidth))|
      if variance > maxIndividualVariance then Res.ok none
      else PatternMatchVariance.roundedLoop rnd counters pattern unitBarWidth
        maxIndividualVariance n (x + 1) (rnd (totalVariance + variance))
    | Res.outOfFuel, _ => Res.outOfFuel
    | _, Res.outOfFuel => Res.outOfFuel
    | _, _ => Res.outOfRange

/-- `PatternMatchVariance(counters, pattern, maxIndividualVariance)` with every `float`
operation (the conversions of `total` and `patternLength`, the division, the products, the
differences, the running sum) rounded by `rnd`. -/
def PatternMatchVariance.rounded (rnd : ℚ → ℚ) (counters : PatternView) (pattern : List Nat)
    (maxIndividualVariance : ℚ) : Res ℚ :=
  let length := counters.size.toNat
  match counters.accumulate length 0 0, accumulatePattern pattern length 0 0 with
  | Res.ok total, Res.ok patternLength =>
    if total < patternLength then Res.ok FLT_MAX
    else
      let unitBarWidth : ℚ := rnd (rnd (total : ℚ) / rnd (patternLength : ℚ))
      let maxIndividualVariance1 : ℚ := rnd (maxIndividualVariance * unitBarWidth)
      match PatternMatchVariance.roundedLoop rnd counters pattern unitBarWidth
          maxIndividualVariance1 length 0 0 with
      | Res.ok none => Res.ok FLT_MAX
      | Res.ok (some totalVariance) => Res.ok (rnd (totalVariance / rnd (total : ℚ)))
      | Res.outOfRange => Res.outOfRange
      | Res.outOfFuel => Res.outOfFuel
  | Res.outOfFuel, _ => Res.outOfFuel
  | _, Res.outOfFuel => Res.outOfFuel
  | _, _ => Res.outOfRange

/-- The loop of the template `DecodeDigit` over the value `variance pattern` that
`PatternMatchVariance` returns for each pattern, whatever arithmetic computes it. -/
def DecodeDigit.loopWith (variance : List Nat → Res ℚ) (requireUnambiguousMatch : Bool) :
    List (List Nat) → Int → ℚ → Int → Res Int
  | [], _, _, bestMatch => Res.ok bestMatch
  | pattern :: rest, i, bestVariance, bestMatch =>
    match variance pattern with
    | Res.ok v =>
      if v < bestVariance then
        DecodeDigit.loopWith variance requireUnambiguousMatch rest (i + 1) v i
      else if requireUnambiguousMatch ∧ v = bestVariance then
        DecodeDigit.loopWith variance requireUnambiguousMatch rest (i + 1) bestVariance (-1)
      else
        DecodeDigit.loopWith variance requireUnambiguousMatch rest (i + 1) bestVariance
          bestMatch
    | Res.outOfRange => Res.outOfRange
    | Res.outOfFuel => Res.outOfFuel

/-- The comparison loop of `IsPattern` with every `float` operation rounded by `rnd`. -/
def IsPattern.roundedExceeds (rnd : ℚ → ℚ) (view : PatternView) (pattern : List Nat)
    (moduleSizeRef threshold : ℚ) : Nat → Int → Res Bool
  | 0, _ => Res.ok false
  | n + 1, x =>
    match view.get x, readAt pattern x with
    | Res.ok c, Res.ok p =>
      if |rnd (rnd (c : ℚ) - rnd (rnd (p : ℚ) * moduleSizeRef))| > threshold then Res.ok true
      else IsPattern.roundedExceeds rnd view pattern moduleSizeRef threshold n (x + 1)
    | Res.outOfFuel, _ => Res.outOfFuel
    | _, Res.outOfFuel => Res.outOfFuel
    | _, _ => Res.outOfRange

/-- `IsPattern<false>(view, pattern, spaceInPixel, minQuietZone, moduleSizeRef)` with every
`float` operation (the conversions of `width`, `SUM` and `spaceInPixel`, the division, the
products, the sums and differences) rounded by `rnd`. -/
def IsPattern.rounded (rnd : ℚ → ℚ) (view : PatternView) (pattern : FixedPattern)
    (spaceInPixel : Int) (minQuietZone : ℚ) (moduleSizeRef : ℚ) : Res ℚ :=
  match view.sum pattern.size with
  | Res.ok width =>
    if pattern.SUM > pattern.size ∧ width < pattern.SUM then Res.ok 0
    else
      let moduleSize : ℚ := rnd (rnd (width : ℚ) / rnd (pattern.SUM : ℚ))
      if minQuietZone ≠ 0
          ∧ rnd (spaceInPixel : ℚ) < rnd (rnd (minQuietZone * moduleSize) - 1) then Res.ok 0
      else
        let ref : ℚ := if moduleSizeRef = 0 then moduleSize else moduleSizeRef
        let threshold : ℚ := rnd (rnd (ref * rnd (1 / 2 + rnd (0 * (1 / 4)))) + 1 / 2)
        match IsPattern.roundedExceeds rnd view pattern.data ref threshold
            pattern.data.length 0 with
        | Res.ok true => Res.ok 0
        | Res.ok false => Res.ok moduleSize
        | Res.outOfRange => Res.outOfRange
        | Res.outOfFuel => Res.outOfFuel
  | Res.outOfRange => Res.outOfRange
  | Res.outOfFuel => Res.outOfFuel

/-- Conversion `static_cast<int>` of a `float`: truncation toward zero. -/
def truncToInt (x : ℚ) : Int := if 0 ≤ x then Rat.floor x else -Rat.floor (-x)

/-- The size computation of `RotateImage` and `DecodeWithRotation`:
`static_cast<int>(std::abs(a * cos) + std::abs(b * sin))`. -/
def rotatedSize (rnd : ℚ → ℚ) (cos sin : ℚ) (a b : Int) : Int :=
  truncToInt (rnd (|rnd (rnd (a : ℚ) * cos)| + |rnd (rnd (b : ℚ) * sin)|))

/-- The loop over `x` of `RotateImage` in row `y`; `n` counts the columns left. -/
def RotateImage.columns (rnd : ℚ → ℚ) (cos sin : ℚ) (image : List Nat) (width : Int)
    (newWidth newHeight : Int) (centerX centerY newCenterX newCenterY : ℚ) (y : Int) :
    Nat → Int → List Nat → Res (List Nat)
  | 0, _, rotatedImage => Res.ok rotatedImage
  | n + 1, x, rotatedImage =>
    let dx : ℚ := rnd (rnd (x : ℚ) - centerX)
    let dy : ℚ := rnd (rnd (y : ℚ) - centerY)
    let newX : Int := truncToInt (rnd (rnd (rnd (dx * cos) - rnd (dy * sin)) + newCenterX))
    let newY : Int := truncToInt (rnd (rnd (rnd (dx * sin) + rnd (dy * cos)) + newCenterY))
    if newX ≥ 0 ∧ newX < newWidth ∧ newY ≥ 0 ∧ newY < newHeight then
      match readAt image (y * width + x) with
      | Res.ok px =>
        RotateImage.columns rnd cos sin image width newWidth newHeight centerX centerY
          newCenterX newCenterY y n (x + 1)
          (rotatedImage.set (newY * newWidth + newX).toNat px)
      | Res.outOfRange => Res.outOfRange
      | Res.outOfFuel => Res.outOfFuel
    else
      RotateImage.columns rnd cos sin image width newWidth newHeight centerX centerY
        newCenterX newCenterY y n (x + 1) rotatedImage

/-- The loop over `y` of `RotateImage`; `n` counts the rows left. -/
def RotateImage.rows (rnd : ℚ → ℚ) (cos sin : ℚ) (image : List Nat) (width : Int)
    (newWidth newHeight : Int) (centerX centerY newCenterX newCenterY : ℚ) :
    Nat → Int → List Nat → Res (List Nat)
  | 0, _, rotatedImage => Res.ok rotatedImage
  | n + 1, y, rotatedImage =>
    match RotateImage.columns rnd cos sin image width newWidth newHeight centerX centerY
        newCenterX newCenterY y width.toNat 0 rotatedImage with
    | Res.ok rotatedImage1 =>
      RotateImage.rows rnd cos sin image width newWidth newHeight centerX centerY
        newCenterX newCenterY n (y + 1) rotatedImage1
    | Res.outOfRange => Res.outOfRange
    | Res.outOfFuel => Res.outOfFuel

/-- `RotateImage(image, width, height, angle)`, with `cos` and `sin` the values of
`std::cos(angle)` and `std::sin(angle)` and every `float` operation rounded by `rnd`. -/
def RotateImage (rnd : ℚ → ℚ) (cos sin : ℚ) (image : List Nat) (width height : Int) :
    Res (List Nat) :=
  let newHeight := rotatedSize rnd cos sin height width
  let newWidth := rotatedSize rnd cos sin width height
  let rotatedImage := List.replicate (newHeight * newWidth).toNat 255
  let centerX : ℚ := rnd (rnd (width : ℚ) / 2)
  let centerY : ℚ := rnd (rnd (height : ℚ) / 2)
  let newCenterX : ℚ := rnd (rnd (newWidth : ℚ) / 2)
  let newCenterY : ℚ := rnd (rnd (newHeight : ℚ) / 2)
  RotateImage.rows rnd cos sin image width newWidth newHeight centerX centerY newCenterX
    newCenterY height.toNat 0 rotatedImage

/-- The binary32 value of `std::cos(radians)` for `radians = angle * M_PI / 180.0f` rounded
to `float`, at the angles 90, 180 and 270 degrees of `DecodeWithRotation`. -/
def cosDegrees (angle : Int) : ℚ :=
  if angle = 90 then -6151831 / 140737488355328
  else if angle = 180 then -1
  else if angle = 270 then 6713111 / 562949953421312
  else 1

/-- The binary32 value of `std::sin(radians)` at the angles 90, 180 and 270 degrees. -/
def sinDegrees (angle : Int) : ℚ :=
  if angle = 90 then 1
  else if angle = 180 then -6151831 / 70368744177664
  else if angle = 270 then -1
  else 0

/-- The exact cosine of 90, 180 and 270 degrees. -/
def cosExact (angle : Int) : ℚ := if angle = 180 then -1 else if angle = 0 then 1 else 0

/-- The exact sine of 90, 180 and 270 degrees. -/
def sinExact (angle : Int) : ℚ := if angle = 90 then 1 else if angle = 270 then -1 else 0

/-- The rotation of `DecodeWithRotation` from `RotateImage` and the size computation, for
given values of the cosine and the sine at each angle.  On an image of `width * height`
pixels no read of `RotateImage` faults; a faulting rotation is given as the empty image. -/
def sourceRotation (rnd : ℚ → ℚ) (cos sin : Int → ℚ) : Rotation where
  RotateImage := fun image width height angle =>
    match RotateImage rnd (cos angle) (sin angle) image width height with
    | Res.ok rotatedImage => rotatedImage
    | Res.outOfRange => []
    | Res.outOfFuel => []
  newWidth := fun width height angle => rotatedSize rnd (cos angle) (sin angle) width height
  newHeight := fun width height angle => rotatedSize rnd (cos angle) (sin angle) height width

/-- The one-row rendering of `4006381333931` at one pixel per module, turned by 180
degrees: the pixels of the row in reverse order. -/
def upsideDownRow : List Nat := (renderRow 1 "4006381333931".toList 11 7).reverse

/-! # Properties -/

theorem narrow16_natCast (n : Nat) : narrow16 (n : Int) = n % 65536 := by
  unfold narrow16
  omega

theorem scan_replicate (r : Nat) (v : Nat) (rest : List Nat) (p lastPos : Int) (lastVal : Bool)
    (res : List Nat) (hv : (v == 0) = lastVal) :
    getPatternRow.scan (List.replicate r v ++ rest) p lastPos lastVal res
      = getPatternRow.scan rest (p + r) lastPos lastVal res := by
  induction r generalizing p with
  | zero => simp
  | succ r ih =>
    have h := ih (p + 1)
    simp only [List.replicate_succ, List.cons_append, getPatternRow.scan, hv, bne_self_eq_false,
      Bool.false_eq_true, if_false, List.append_eq]
    rw [h]
    congr 1
    push_cast
    ring

theorem readAt_replicate (n v : Nat) (i : Int) (h0 : 0 ≤ i) (h1 : i < n) :
    readAt (List.replicate n v) i = Res.ok v := by
  unfold readAt
  have h2 : i.toNat < n := by omega
  simp [not_lt.mpr h0, List.getElem?_replicate, h2]

theorem drop_take_replicate (w h r v : Nat) (hr : r < h) :
    ((List.replicate (w * h) v).drop (r * w)).take w = List.replicate w v := by
  rw [List.drop_replicate, List.take_replicate]
  congr 1
  have : r * w + w ≤ w * h := by
    calc r * w + w = (r + 1) * w := by ring
      _ ≤ h * w := Nat.mul_le_mul_right w hr
      _ = w * h := by ring
  omega

theorem row_bounds (w h r : Nat) (hr : r < h) : r * w + w ≤ w * h := by
  calc r * w + w = (r + 1) * w := by ring
    _ ≤ h * w := Nat.mul_le_mul_right w hr
    _ = w * h := by ring

/-- Run sequence of a row of a one-colour image. -/
theorem getPatternRow_uniform (w h r v : Nat) (hw : 1 ≤ w) (hr : r < h) :
    getPatternRow (List.replicate (w * h) v) h w r
      = Res.ok (if v = 0 then [0, w % 65536, 0] else [w % 65536]) := by
  have hb := row_bounds w h r hr
  have hb' : (r : Int) * w + w ≤ ((w * h : Nat) : Int) := by exact_mod_cast hb
  unfold getPatternRow
  have hguard : ¬ ((r : Int) * w < 0 ∨ (w : Int) < 0 ∨
      (r : Int) * w + w > ((List.replicate (w * h) v).length : Int)) := by
    simp only [List.length_replicate]
    have h1 : (0 : Int) ≤ (r : Int) * w := by positivity
    omega
  simp only [hguard, if_false]
  have htn : ((r : Int) * w).toNat = r * w := by
    have : ((r : Int) * w) = ((r * w : Nat) : Int) := by push_cast; ring
    rw [this]; exact Int.toNat_natCast _
  rw [htn, Int.toNat_natCast, drop_take_replicate w h r v hr]
  have hread : readAt (List.replicate (w * h) v) ((r : Int) * w + w - 1) = Res.ok v := by
    apply readAt_replicate
    · have h1 : (0 : Int) ≤ (r : Int) * w := by positivity
      omega
    · omega
  rw [hread]
  by_cases hv : v = 0
  · subst hv
    have hs := scan_replicate (w - 1) 0 [] 1 0 true [narrow16 0] (by simp)
    have hrep : List.replicate w 0 = 0 :: (List.replicate (w - 1) 0 ++ []) := by
      cases w with
      | zero => omega
      | succ n => simp [List.replicate_succ]
    rw [hrep]
    simp only [getPatternRow.scan, beq_self_eq_true, Bool.true_bne, Bool.not_false, if_true,
      List.nil_append, sub_zero, zero_add]
    rw [hs]
    simp only [getPatternRow.scan, if_true]
    have h1 : narrow16 ((1 : Int) + ((w - 1 : Nat) : Int) - 0) = w % 65536 := by
      have : (1 : Int) + ((w - 1 : Nat) : Int) - 0 = (w : Int) := by omega
      rw [this, narrow16_natCast]
    rw [h1]
    simp [narrow16]
  · have hs := scan_replicate w v [] 0 0 false [] (by simp [hv])
    simp only [List.append_nil] at hs
    rw [hs]
    simp only [getPatternRow.scan, hv, if_false, List.nil_append, zero_add, sub_zero,
      narrow16_natCast]

theorem FindLeftGuard_short (view : PatternView) (q : ℚ) (h : view.size < 33) :
    FindLeftGuard view (3 + 6 * 4 + 6) END_PATTERN q = Res.ok PatternView.null := by
  unfold FindLeftGuard
  have h1 : view.size < max (3 + 6 * 4 + 6 : Int) END_PATTERN.size := by
    have : END_PATTERN.size = 3 := rfl
    rw [this]
    simp only [Int.reduceMul, Int.reduceAdd]
    omega
  simp only [h1, if_true]

theorem decodePattern_short (view : PatternView) (res : PartialResult) (h : view.size < 33) :
    decodePattern view res = Res.ok (false, PatternView.null, res) := by
  unfold decodePattern
  simp only [QUIET_ZONE_LEFT]
  rw [FindLeftGuard_short view 6 h]
  rfl

theorem attempts_short (fuel : Nat) (bars : List Nat) (res : PartialResult)
    (result : List (List Char)) (h : bars.length < 34) :
    DoDecode.attempts (fuel + 1) (PatternView.ofBars bars) res result
      = Res.ok (res, DoDecode.collect res.txt res.txt 0 result) := by
  have hs : (PatternView.ofBars bars).size < 33 := by
    simp only [PatternView.ofBars]
    omega
  unfold DoDecode.attempts
  rw [decodePattern_short _ res hs]
  rfl

theorem rows_succ (image : List Nat) (width height : Int) (n : Nat) (i : Int)
    (res : PartialResult) (result : List (List Char)) :
    DoDecode.rows image width height (n + 1) i res result
      = if rowOfIteration height i < 0 ∨ rowOfIteration height i ≥ height then Res.ok result
        else
          match getPatternRow image height width (rowOfIteration height i) with
          | Res.ok bars =>
            match DoDecode.attempts (bars.length + 1) (PatternView.ofBars bars) res result with
            | Res.ok (res1, result1) => DoDecode.rows image width height n (i + 1) res1 result1
            | Res.outOfRange => Res.outOfRange
            | Res.outOfFuel => Res.outOfFuel
          | Res.outOfRange => Res.outOfRange
          | Res.outOfFuel => Res.outOfFuel := rfl

theorem rows_no_guard (image : List Nat) (width height : Int) (res : PartialResult)
    (result : List (List Char)) (htxt : res.txt = [])
    (hrow : ∀ r : Int, 0 ≤ r → r < height →
      ∃ bars, getPatternRow image height width r = Res.ok bars ∧ bars.length < 34) :
    ∀ (n : Nat) (i : Int),
      DoDecode.rows image width height n i res result = Res.ok result := by
  intro n
  induction n with
  | zero => intro i; rfl
  | succ n ih =>
    intro i
    rw [rows_succ]
    by_cases hrange : rowOfIteration height i < 0 ∨ rowOfIteration height i ≥ height
    · rw [if_pos hrange]
    · rw [if_neg hrange]
      have hrange' := not_or.mp hrange
      obtain ⟨bars, hb, hlen⟩ := hrow _ (not_lt.mp hrange'.1) (lt_of_not_ge hrange'.2)
      rw [hb]
      simp only
      rw [attempts_short _ bars res result hlen]
      simp only [htxt, DoDecode.collect]
      simp only [Nat.reduceEqDiff, if_false]
      have := ih (i + 1)
      simpa [htxt] using this

/-! ## Blank images -/

theorem GetMostFrequentResult_nil (order : MapOrder) (h : LawfulOrder order) :
    GetMostFrequentResult order [] = [] := by
  unfold GetMostFrequentResult
  have h1 : order [] = [] := List.Perm.eq_nil (h [])
  simp only [List.foldl_nil, h1]
  rfl

theorem DoDecode_uniform (w h v : Nat) (hw : 1 ≤ w) :
    DoDecode (List.replicate (w * h) v) w h = Res.ok [] := by
  unfold DoDecode
  apply rows_no_guard _ _ _ _ _ rfl
  intro r hr0 hrh
  obtain ⟨r', rfl⟩ := Int.eq_ofNat_of_zero_le hr0
  have hr' : r' < h := by exact_mod_cast hrh
  rw [getPatternRow_uniform w h r' v hw hr']
  by_cases hv : v = 0
  · exact ⟨_, by rw [if_pos hv], by simp⟩
  · exact ⟨_, by rw [if_neg hv], by simp⟩

/-- C5 (amended): for every width and height of at least 1 with fewer than `2 ^ 31` pixels
(so that the `int` index `rowNumber * width` of `getPatternRow` does not overflow),
`DoDecode` on the all-white and on the all-black image returns the empty set (a value, so
no read was out of range), `GetMostFrequentResult` of the empty set is the empty string,
every all-white row has the run sequence `[width % 65536]`, every all-black row
`[0, width % 65536, 0]`, and the guard search rejects both. -/
theorem blank_image_decodes_to_nothing (w h : Nat) (hw : 1 ≤ w) (_hh : 1 ≤ h)
    (_hsize : w * h < 2147483648) :
    DoDecode (List.replicate (w * h) 255) w h = Res.ok []
    ∧ DoDecode (List.replicate (w * h) 0) w h = Res.ok []
    ∧ (∀ order, LawfulOrder order → GetMostFrequentResult order [] = [])
    ∧ (∀ r : Nat, r < h →
        getPatternRow (List.replicate (w * h) 255) h w r = Res.ok [w % 65536])
    ∧ (∀ r : Nat, r < h →
        getPatternRow (List.replicate (w * h) 0) h w r = Res.ok [0, w % 65536, 0])
    ∧ FindLeftGuard (PatternView.ofBars [w % 65536]) (3 + 6 * 4 + 6) END_PATTERN
        QUIET_ZONE_LEFT = Res.ok PatternView.null
    ∧ FindLeftGuard (PatternView.ofBars [0, w % 65536, 0]) (3 + 6 * 4 + 6) END_PATTERN
        QUIET_ZONE_LEFT = Res.ok PatternView.null := by
  refine ⟨DoDecode_uniform w h 255 hw, DoDecode_uniform w h 0 hw,
    GetMostFrequentResult_nil, ?_, ?_, ?_, ?_⟩
  · intro r hr
    rw [getPatternRow_uniform w h r 255 hw hr]
    rfl
  · intro r hr
    rw [getPatternRow_uniform w h r 0 hw hr]
    rfl
  · exact FindLeftGuard_short _ _ (by simp [PatternView.ofBars])
  · exact FindLeftGuard_short _ _ (by simp [PatternView.ofBars])

/-- Witness of `blank_image_decodes_to_nothing`: a 5 by 2 image. -/
theorem blank_image_decodes_to_nothing_witness :
    DoDecode (List.replicate (5 * 2) 255) (5 : Nat) (2 : Nat) = Res.ok []
    ∧ DoDecode (List.replicate (5 * 2) 0) (5 : Nat) (2 : Nat) = Res.ok [] :=
  ⟨(blank_image_decodes_to_nothing 5 2 (by decide) (by decide) (by decide)).1,
   (blank_image_decodes_to_nothing 5 2 (by decide) (by decide) (by decide)).2.1⟩

/-- C5 (counterexample): the all-white row of width 65536 has the run sequence `[0]`, not
`[65536]`, and the all-black row of that width `[0, 0, 0]`, because run lengths are narrowed
to 16 bits. -/
theorem blank_row_run_is_narrowed :
    getPatternRow (List.replicate (65536 * 1) 255) (1 : Nat) (65536 : Nat) (0 : Nat)
      = Res.ok [0]
    ∧ getPatternRow (List.replicate (65536 * 1) 255) (1 : Nat) (65536 : Nat) (0 : Nat)
      ≠ Res.ok [65536]
    ∧ getPatternRow (List.replicate (65536 * 1) 0) (1 : Nat) (65536 : Nat) (0 : Nat)
      ≠ Res.ok [0, 65536, 0] := by
  rw [getPatternRow_uniform 65536 1 0 255 (by decide) (by decide),
    getPatternRow_uniform 65536 1 0 0 (by decide) (by decide)]
  decide

/-! ## Orientation retry -/

theorem loop_step (rot : Rotation) (image : List Nat) (width height : Int) (fuel : Nat)
    (angle : Int) (results : List (List Char)) (h : angle < 360) :
    DecodeWithRotation.loop rot image width height (fuel + 1) angle results
      = match decodeRotated rot image width height angle with
        | Res.ok results1 =>
          if results1 ≠ [] then Res.ok results1
          else DecodeWithRotation.loop rot image width height fuel (angle + 90) results1
        | Res.outOfRange => Res.outOfRange
        | Res.outOfFuel => Res.outOfFuel := by
  rw [DecodeWithRotation.loop]
  simp only [h, if_true]
  rfl

theorem DecodeWithRotation_of_nonempty (rot : Rotation) (order : MapOrder) (image : List Nat)
    (width height : Int) (S : List (List Char)) (h0 : DoDecode image width height = Res.ok S)
    (hS : S ≠ []) :
    DecodeWithRotation rot order image width height
      = Res.ok (GetMostFrequentResult order S) := by
  unfold DecodeWithRotation
  rw [h0]
  simp only [hS, if_false]

/-- C7: `DecodeWithRotation` returns the most frequent result of the 0° candidate set when
that set is non-empty; otherwise it decodes the rotations of the original image by 90, 180
and 270 degrees in this order and returns the most frequent result of the first non-empty
set, whatever the later angles would give (even a fault); when all four sets are empty it
returns the empty string. -/
theorem DecodeWithRotation_orientation_retry (rot : Rotation) (order : MapOrder)
    (horder : LawfulOrder order) (image : List Nat) (width height : Int) :
    (∀ S, DoDecode image width height = Res.ok S → S ≠ [] →
      DecodeWithRotation rot order image width height = Res.ok (GetMostFrequentResult order S))
    ∧ (DoDecode image width height = Res.ok [] →
        ∀ S, decodeRotated rot image width height 90 = Res.ok S → S ≠ [] →
        DecodeWithRotation rot order image width height
          = Res.ok (GetMostFrequentResult order S))
    ∧ (DoDecode image width height = Res.ok [] →
        decodeRotated rot image width height 90 = Res.ok [] →
        ∀ S, decodeRotated rot image width height 180 = Res.ok S → S ≠ [] →
        DecodeWithRotation rot order image width height
          = Res.ok (GetMostFrequentResult order S))
    ∧ (DoDecode image width height = Res.ok [] →
        decodeRotated rot image width height 90 = Res.ok [] →
        decodeRotated rot image width height 180 = Res.ok [] →
        ∀ S, decodeRotated rot image width height 270 = Res.ok S → S ≠ [] →
        DecodeWithRotation rot order image width height
          = Res.ok (GetMostFrequentResult order S))
    ∧ (DoDecode image width height = Res.ok [] →
        decodeRotated rot image width height 90 = Res.ok [] →
        decodeRotated rot image width height 180 = Res.ok [] →
        decodeRotated rot image width height 270 = Res.ok [] →
        DecodeWithRotation rot order image width height = Res.ok []) := by
  refine ⟨?_, ?_, ?_, ?_, ?_⟩
  · intro S h0 hS
    exact DecodeWithRotation_of_nonempty rot order image width height S h0 hS
  · intro h0 S h90 hS
    unfold DecodeWithRotation
    rw [h0]
    simp only [if_true]
    rw [loop_step _ _ _ _ _ _ _ (by decide), h90]
    simp only [ne_eq, hS, not_false_eq_true, if_true]
  · intro h0 h90 S h180 hS
    unfold DecodeWithRotation
    rw [h0]
    simp only [if_true]
    rw [loop_step _ _ _ _ _ _ _ (by decide), h90]
    simp only [ne_eq, not_true_eq_false, if_false, Int.reduceAdd]
    rw [loop_step _ _ _ _ _ _ _ (by decide), h180]
    simp only [ne_eq, hS, not_false_eq_true, if_true]
  · intro h0 h90 h180 S h270 hS
    unfold DecodeWithRotation
    rw [h0]
    simp only [if_true]
    rw [loop_step _ _ _ _ _ _ _ (by decide), h90]
    simp only [ne_eq, not_true_eq_false, if_false, Int.reduceAdd]
    rw [loop_step _ _ _ _ _ _ _ (by decide), h180]
    simp only [ne_eq, not_true_eq_false, if_false, Int.reduceAdd]
    rw [loop_step _ _ _ _ _ _ _ (by decide), h270]
    simp only [ne_eq, hS, not_false_eq_true, if_true]
  · intro h0 h90 h180 h270
    unfold DecodeWithRotation
    rw [h0]
    simp only [if_true]
    rw [loop_step _ _ _ _ _ _ _ (by decide), h90]
    simp only [ne_eq, not_true_eq_false, if_false, Int.reduceAdd]
    rw [loop_step _ _ _ _ _ _ _ (by decide), h180]
    simp only [ne_eq, not_true_eq_false, if_false, Int.reduceAdd]
    rw [loop_step _ _ _ _ _ _ _ (by decide), h270]
    simp only [ne_eq, not_true_eq_false, if_false, Int.reduceAdd]
    unfold DecodeWithRotation.loop
    simp only [Int.reduceAdd, lt_self_iff_false, if_false]
    rw [GetMostFrequentResult_nil order horder]

theorem lawfulOrder_id : LawfulOrder id := fun m => List.Perm.refl m

set_option maxRecDepth 1000000 in
/-- Witness of `DecodeWithRotation_orientation_retry`: nothing at 0 and 90 degrees, a symbol
at 180 degrees. -/
theorem DecodeWithRotation_orientation_retry_witness :
    DecodeWithRotation sampleRotation id [255] 1 1
      = Res.ok (GetMostFrequentResult id ["4006381333931".toList]) :=
  (DecodeWithRotation_orientation_retry sampleRotation id lawfulOrder_id [255] 1 1).2.2.1
    (by decide!) (by decide!) ["4006381333931".toList] (by decide!) (by decide)


/-! ## Majority vote -/

set_option maxRecDepth 1000000 in
/-- C6 (code at the failing input): the candidate set keeps no row counts.  The image with
three rows of `0000000000000` and one of `1111111111111` and the image with the counts
exchanged give the same set; every entry of the frequency map is 1; the returned string is
the entry the map iterates first, so for no iteration order is it the majority string of
both images, and for the reversed order the first image returns `1111111111111`. -/
theorem majority_vote_ignores_row_counts :
    DoDecode threeZerosOneOnes 113 4
      = Res.ok ["0000000000000".toList, "1111111111111".toList]
    ∧ DoDecode oneZerosThreeOnes 113 4
      = Res.ok ["0000000000000".toList, "1111111111111".toList]
    ∧ ["0000000000000".toList, "1111111111111".toList].foldl
        (fun m result => frequencyIncr result m) []
      = [("0000000000000".toList, 1), ("1111111111111".toList, 1)]
    ∧ GetMostFrequentResult List.reverse ["0000000000000".toList, "1111111111111".toList]
      = "1111111111111".toList
    ∧ ∀ (rot : Rotation) (order : MapOrder),
        ¬ (DecodeWithRotation rot order threeZerosOneOnes 113 4
            = Res.ok "0000000000000".toList
          ∧ DecodeWithRotation rot order oneZerosThreeOnes 113 4
            = Res.ok "1111111111111".toList) := by
  have h31 : DoDecode threeZerosOneOnes 113 4
      = Res.ok ["0000000000000".toList, "1111111111111".toList] := by decide!
  have h13 : DoDecode oneZerosThreeOnes 113 4
      = Res.ok ["0000000000000".toList, "1111111111111".toList] := by decide!
  refine ⟨h31, h13, by decide!, by decide!, ?_⟩
  intro rot order h
  rw [DecodeWithRotation_of_nonempty rot order _ _ _ _ h31 (by decide)] at h
  rw [DecodeWithRotation_of_nonempty rot order _ _ _ _ h13 (by decide)] at h
  have := h.1.symm.trans h.2
  revert this
  decide

/-! ## Reading windows -/

theorem readAt_cons_succ (a : Nat) (l : List Nat) (x : Int) (hx : 0 ≤ x) :
    readAt (a :: l) (x + 1) = readAt l x := by
  unfold readAt
  have h1 : ¬ (x + 1 < 0) := by omega
  have h2 : ¬ (x < 0) := by omega
  have h3 : (x + 1).toNat = x.toNat + 1 := by omega
  simp only [h1, h2, if_false, h3, List.get?_cons_succ]

theorem readAt_cons_zero (a : Nat) (l : List Nat) : readAt (a :: l) 0 = Res.ok a := by
  simp [readAt]

theorem listReads_cons (a : Nat) (l w : List Nat) (x : Int) (hx : 0 ≤ x)
    (h : ListReads l x w) : ListReads (a :: l) (x + 1) w := by
  induction w generalizing x with
  | nil => trivial
  | cons c cs ih =>
    obtain ⟨h1, h2⟩ := h
    refine ⟨?_, ih (x + 1) (by omega) h2⟩
    rw [readAt_cons_succ a l x hx]
    exact h1

theorem listReads_prefix (w post : List Nat) : ListReads (w ++ post) 0 w := by
  induction w with
  | nil => trivial
  | cons c cs ih =>
    refine ⟨readAt_cons_zero c _, ?_⟩
    exact listReads_cons c (cs ++ post) cs 0 (le_refl 0) ih

theorem listReads_append (pre w post : List Nat) :
    ListReads (pre ++ (w ++ post)) (pre.length : Int) w := by
  induction pre with
  | nil => simpa using listReads_prefix w post
  | cons a as ih =>
    have := listReads_cons a (as ++ (w ++ post)) w (as.length : Int) (by omega) ih
    simpa using this

theorem accumulate_reads (v : PatternView) (d : Int) (hd : v.data = some d) (w : List Nat) :
    ∀ (x acc : Int), ListReads v.bars (d + x) w →
      v.accumulate w.length x acc = Res.ok (acc + (w.sum : Int)) := by
  induction w with
  | nil => intro x acc _; simp [PatternView.accumulate]
  | cons c cs ih =>
    intro x acc h
    obtain ⟨h1, h2⟩ := h
    have hg : v.get x = Res.ok c := by
      unfold PatternView.get
      rw [hd]
      exact h1
    simp only [List.length_cons, PatternView.accumulate, hg]
    rw [ih (x + 1) (acc + c) (by rw [← add_assoc]; exact h2)]
    simp only [List.sum_cons]
    push_cast
    rw [add_assoc]

theorem accumulatePattern_reads (p : List Nat) (w : List Nat) :
    ∀ (x acc : Int), ListReads p x w →
      accumulatePattern p w.length x acc = Res.ok (acc + (w.sum : Int)) := by
  induction w with
  | nil => intro x acc _; simp [accumulatePattern]
  | cons c cs ih =>
    intro x acc h
    obtain ⟨h1, h2⟩ := h
    simp only [List.length_cons, accumulatePattern, h1]
    rw [ih (x + 1) (acc + c) h2]
    simp only [List.sum_cons]
    push_cast
    rw [add_assoc]

theorem variance_loop_reads (v : PatternView) (d : Int) (hd : v.data = some d) (pattern : List Nat)
    (u lim : ℚ) (w : List Nat) :
    ∀ (p : List Nat) (x : Int) (tv : ℚ), p.length = w.length →
      ListReads v.bars (d + x) w → ListReads pattern x p →
      PatternMatchVariance.loop v pattern u lim w.length x tv
        = Res.ok (if (deviations w p u).any (fun a => decide (a > lim))
            then none else some (tv + (deviations w p u).sum)) := by
  induction w with
  | nil =>
    intro p x tv hp _ _
    have : p = [] := List.length_eq_zero.mp hp
    subst this
    simp [PatternMatchVariance.loop, deviations]
  | cons c cs ih =>
    intro p x tv hp hw hpat
    cases p with
    | nil => simp at hp
    | cons m ms =>
      obtain ⟨h1, h2⟩ := hw
      obtain ⟨h3, h4⟩ := hpat
      have hg : v.get x = Res.ok c := by
        unfold PatternView.get
        rw [hd]
        exact h1
      simp only [List.length_cons, PatternMatchVariance.loop, hg, h3]
      by_cases hex : |(c : ℚ) - (m : ℚ) * u| > lim
      · simp [hex, deviations]
      · rw [if_neg hex]
        rw [ih ms (x + 1) _ (by simpa using hp) (by rw [← add_assoc]; exact h2) h4]
        simp only [deviations, List.zipWith_cons_cons, List.any_cons, hex, decide_False,
          Bool.false_or, List.sum_cons, add_assoc]

/-- `PatternMatchVariance` on a view whose window is `w`. -/
theorem PatternMatchVariance_reads (v : PatternView) (d : Int) (hd : v.data = some d)
    (w p : List Nat) (lim : ℚ) (hsize : v.size = w.length) (hp : p.length = w.length)
    (hw : ListReads v.bars d w) :
    PatternMatchVariance v p lim = Res.ok (varianceOf w p lim) := by
  unfold PatternMatchVariance
  have hn : v.size.toNat = w.length := by omega
  have hacc := accumulate_reads v d hd w 0 0 (by simpa using hw)
  have hpl : ListReads p 0 p := by simpa using listReads_prefix p []
  have haccp := accumulatePattern_reads p p 0 0 hpl
  rw [hp] at haccp
  simp only [hn, hacc, haccp, zero_add]
  unfold varianceOf
  by_cases hlt : (w.sum : Int) < (p.sum : Int)
  · simp only [hlt, if_true]
  · simp only [hlt, if_false]
    rw [variance_loop_reads v d hd p _ _ w p 0 0 hp (by simpa using hw) hpl]
    by_cases hany : (deviations w p (((w.sum : Int) : ℚ) / ((p.sum : Int) : ℚ))).any
        (fun a => decide (a > lim * (((w.sum : Int) : ℚ) / ((p.sum : Int) : ℚ)))) = true
    · simp only [hany, if_true]
    · simp only [hany, zero_add]
      simp

/-! ## Variance of a window near a pattern -/

theorem varianceOf_four (c0 c1 c2 c3 p0 p1 p2 p3 : Nat) (lim T P : ℚ)
    (hT : T = (c0 : ℚ) + c1 + c2 + c3) (hP : P = (p0 : ℚ) + p1 + p2 + p3) :
    varianceOf [c0, c1, c2, c3] [p0, p1, p2, p3] lim
      = if T < P then FLT_MAX
        else
          if (|(c0 : ℚ) - p0 * (T / P)| > lim * (T / P) ∨ |(c1 : ℚ) - p1 * (T / P)| > lim * (T / P)
              ∨ |(c2 : ℚ) - p2 * (T / P)| > lim * (T / P)
              ∨ |(c3 : ℚ) - p3 * (T / P)| > lim * (T / P))
          then FLT_MAX
          else (|(c0 : ℚ) - p0 * (T / P)| + (|(c1 : ℚ) - p1 * (T / P)|
            + (|(c2 : ℚ) - p2 * (T / P)| + |(c3 : ℚ) - p3 * (T / P)|))) / T := by
  have hTc : ((((c0 + (c1 + (c2 + c3)) : Nat) : Int)) : ℚ) = T := by
    rw [hT]; push_cast; ring
  have hPc : ((((p0 + (p1 + (p2 + p3)) : Nat) : Int)) : ℚ) = P := by
    rw [hP]; push_cast; ring
  have hlt : (((c0 + (c1 + (c2 + c3)) : Nat) : Int) < ((p0 + (p1 + (p2 + p3)) : Nat) : Int))
      ↔ T < P := by
    rw [← hTc, ← hPc]; exact Int.cast_lt.symm
  unfold varianceOf
  simp only [deviations, List.zipWith_cons_cons, List.zipWith_nil_right,
    List.any_cons, List.any_nil, Bool.or_false, Bool.or_eq_true, decide_eq_true_eq,
    List.sum_cons, List.sum_nil, add_zero, hTc, hPc, hlt]


theorem dev_le (K C P E : ℚ) (hP : 0 ≤ P) :
    |C - P * ((7 * K + E) / 7)| ≤ |C - K * P| + P * |E| / 7 := by
  have h1 : C - P * ((7 * K + E) / 7) = (C - K * P) - P * E / 7 := by ring
  have h2 : |P * E / 7| = P * |E| / 7 := by
    rw [abs_div, abs_mul, abs_of_nonneg hP]
    norm_num
  rw [h1, ← h2]
  exact abs_sub _ _

theorem dev_ge (K C P Q E : ℚ) (hQ : 0 ≤ Q) (hK : 0 ≤ K) :
    |P - Q| * K - |C - K * P| - Q * |E| / 7 ≤ |C - Q * ((7 * K + E) / 7)| := by
  have h1 : C - Q * ((7 * K + E) / 7) = (P - Q) * K + ((C - K * P) - Q * E / 7) := by ring
  have h2 : |Q * E / 7| = Q * |E| / 7 := by
    rw [abs_div, abs_mul, abs_of_nonneg hQ]
    norm_num
  have h3 : |(P - Q) * K| = |P - Q| * K := by rw [abs_mul, abs_of_nonneg hK]
  have h4 : |(C - K * P) - Q * E / 7| ≤ |C - K * P| + |Q * E / 7| := abs_sub _ _
  have h5 : |(P - Q) * K| - |(C - K * P) - Q * E / 7|
      ≤ |(P - Q) * K + ((C - K * P) - Q * E / 7)| := by
    have := abs_sub_abs_le_abs_sub ((P - Q) * K) (-((C - K * P) - Q * E / 7))
    rw [abs_neg, sub_neg_eq_add] at this
    exact this
  rw [h1]
  rw [h3, h2] at *
  linarith

/-- The facts about a window within a tenth of a module of the pattern `P`, in `ℚ`. -/
theorem near_facts (K C0 C1 C2 C3 P0 P1 P2 P3 : ℚ) (_hK : 0 < K)
    (h0 : |C0 - K * P0| ≤ K / 10) (h1 : |C1 - K * P1| ≤ K / 10)
    (h2 : |C2 - K * P2| ≤ K / 10) (h3 : |C3 - K * P3| ≤ K / 10)
    (hP : P0 + P1 + P2 + P3 = 7) :
    |C0 + C1 + C2 + C3 - 7 * K| ≤ 4 * K / 10 ∧ 66 * K / 10 ≤ C0 + C1 + C2 + C3 := by
  have e : C0 + C1 + C2 + C3 - 7 * K
      = (C0 - K * P0) + (C1 - K * P1) + (C2 - K * P2) + (C3 - K * P3) := by
    have : K * (P0 + P1 + P2 + P3) = K * 7 := by rw [hP]
    linarith
  have hE : |C0 + C1 + C2 + C3 - 7 * K| ≤ 4 * K / 10 := by
    rw [e]
    have a1 := abs_add ((C0 - K * P0) + (C1 - K * P1) + (C2 - K * P2)) (C3 - K * P3)
    have a2 := abs_add ((C0 - K * P0) + (C1 - K * P1)) (C2 - K * P2)
    have a3 := abs_add (C0 - K * P0) (C1 - K * P1)
    linarith
  refine ⟨hE, ?_⟩
  have := (abs_le.mp hE).1
  linarith


theorem near_cast (k c p : Nat) (h : 10 * |(c : Int) - (k : Int) * (p : Int)| ≤ (k : Int)) :
    |(c : ℚ) - (k : ℚ) * (p : ℚ)| ≤ (k : ℚ) / 10 := by
  have h1 : ((10 * |(c : Int) - (k : Int) * (p : Int)| : Int) : ℚ) ≤ ((k : Int) : ℚ) := by
    exact_mod_cast h
  push_cast at h1
  linarith

theorem abs_diff_sum_ge_two (p0 p1 p2 p3 q0 q1 q2 q3 : Nat) (hp : p0 + p1 + p2 + p3 = 7)
    (hq : q0 + q1 + q2 + q3 = 7) (hne : [q0, q1, q2, q3] ≠ [p0, p1, p2, p3]) :
    (2 : ℚ) ≤ |(p0 : ℚ) - q0| + |(p1 : ℚ) - q1| + |(p2 : ℚ) - q2| + |(p3 : ℚ) - q3| := by
  have hne' : q0 ≠ p0 ∨ q1 ≠ p1 ∨ q2 ≠ p2 ∨ q3 ≠ p3 := by
    by_contra hcon
    push_neg at hcon
    obtain ⟨a, b, c, d⟩ := hcon
    exact hne (by rw [a, b, c, d])
  have hI : (2 : Int) ≤ |(p0 : Int) - q0| + |(p1 : Int) - q1| + |(p2 : Int) - q2|
      + |(p3 : Int) - q3| := by
    have a0 := le_abs_self ((p0 : Int) - q0)
    have b0 := neg_le_abs ((p0 : Int) - q0)
    have a1 := le_abs_self ((p1 : Int) - q1)
    have b1 := neg_le_abs ((p1 : Int) - q1)
    have a2 := le_abs_self ((p2 : Int) - q2)
    have b2 := neg_le_abs ((p2 : Int) - q2)
    have a3 := le_abs_self ((p3 : Int) - q3)
    have b3 := neg_le_abs ((p3 : Int) - q3)
    generalize |(p0 : Int) - q0| = D0 at *
    generalize |(p1 : Int) - q1| = D1 at *
    generalize |(p2 : Int) - q2| = D2 at *
    generalize |(p3 : Int) - q3| = D3 at *
    omega
  have hQ : ((2 : Int) : ℚ) ≤ ((|(p0 : Int) - q0| + |(p1 : Int) - q1| + |(p2 : Int) - q2|
      + |(p3 : Int) - q3| : Int) : ℚ) := by exact_mod_cast hI
  push_cast at hQ
  exact hQ

/-- A window within a tenth of a module of a pattern of 7 modules is accepted for that
pattern with a variance below the limit, and every other pattern of 7 modules has a
strictly larger variance. -/
theorem variance_near (k c0 c1 c2 c3 p0 p1 p2 p3 : Nat) (hk : 1 ≤ k)
    (hp : p0 + p1 + p2 + p3 = 7)
    (hnear : NearPattern k [c0, c1, c2, c3] [p0, p1, p2, p3]) :
    varianceOf [c0, c1, c2, c3] [p0, p1, p2, p3] (7 / 10) < 12 / 25
    ∧ ∀ q0 q1 q2 q3 : Nat, q0 + q1 + q2 + q3 = 7 → [q0, q1, q2, q3] ≠ [p0, p1, p2, p3] →
      varianceOf [c0, c1, c2, c3] [p0, p1, p2, p3] (7 / 10)
        < varianceOf [c0, c1, c2, c3] [q0, q1, q2, q3] (7 / 10) := by
  obtain ⟨n0, n1, n2, n3, _⟩ := hnear
  have e0 := near_cast k c0 p0 n0
  have e1 := near_cast k c1 p1 n1
  have e2 := near_cast k c2 p2 n2
  have e3 := near_cast k c3 p3 n3
  have hK : (1 : ℚ) ≤ (k : ℚ) := by exact_mod_cast hk
  have hK0 : (0 : ℚ) < (k : ℚ) := by linarith
  have hPq : (p0 : ℚ) + p1 + p2 + p3 = 7 := by exact_mod_cast hp
  obtain ⟨hE, hTlow⟩ := near_facts k c0 c1 c2 c3 p0 p1 p2 p3 hK0 e0 e1 e2 e3 hPq
  -- the total is at least 7
  have hT7n : 7 ≤ c0 + c1 + c2 + c3 := by
    by_contra hcon
    have h6 : c0 + c1 + c2 + c3 ≤ 6 := by omega
    have h6q : ((c0 + c1 + c2 + c3 : Nat) : ℚ) ≤ 6 := by exact_mod_cast h6
    push_cast at h6q
    linarith
  have hT7 : (7 : ℚ) ≤ (c0 : ℚ) + c1 + c2 + c3 := by exact_mod_cast hT7n
  set T : ℚ := (c0 : ℚ) + c1 + c2 + c3 with hT
  set E : ℚ := T - 7 * k with hEdef
  have hTE : T = 7 * (k : ℚ) + E := by rw [hEdef]; ring
  have hTpos : 0 < T := by linarith
  have hA : 0 ≤ |E| := abs_nonneg E
  have hp0 : (0 : ℚ) ≤ p0 := Nat.cast_nonneg _
  have hp1 : (0 : ℚ) ≤ p1 := Nat.cast_nonneg _
  have hp2 : (0 : ℚ) ≤ p2 := Nat.cast_nonneg _
  have hp3 : (0 : ℚ) ≤ p3 := Nat.cast_nonneg _
  have d0 := dev_le k c0 p0 E hp0
  have d1 := dev_le k c1 p1 E hp1
  have d2 := dev_le k c2 p2 E hp2
  have d3 := dev_le k c3 p3 E hp3
  rw [← hTE] at d0 d1 d2 d3
  have m0 : (p0 : ℚ) * |E| ≤ 7 * |E| := mul_le_mul_of_nonneg_right (by linarith) hA
  have m1 : (p1 : ℚ) * |E| ≤ 7 * |E| := mul_le_mul_of_nonneg_right (by linarith) hA
  have m2 : (p2 : ℚ) * |E| ≤ 7 * |E| := mul_le_mul_of_nonneg_right (by linarith) hA
  have m3 : (p3 : ℚ) * |E| ≤ 7 * |E| := mul_le_mul_of_nonneg_right (by linarith) hA
  have msum : (p0 : ℚ) * |E| + p1 * |E| + p2 * |E| + p3 * |E| = 7 * |E| := by
    have : ((p0 : ℚ) + p1 + p2 + p3) * |E| = 7 * |E| := by rw [hPq]
    linarith
  have hvp : varianceOf [c0, c1, c2, c3] [p0, p1, p2, p3] (7 / 10)
      = (|(c0 : ℚ) - p0 * (T / 7)| + (|(c1 : ℚ) - p1 * (T / 7)|
            + (|(c2 : ℚ) - p2 * (T / 7)| + |(c3 : ℚ) - p3 * (T / 7)|))) / T := by
    rw [varianceOf_four c0 c1 c2 c3 p0 p1 p2 p3 (7 / 10) T 7 hT hPq.symm]
    rw [if_neg (by linarith), if_neg]
    intro hex
    rcases hex with h | h | h | h <;> linarith
  have hsum : |(c0 : ℚ) - p0 * (T / 7)| + (|(c1 : ℚ) - p1 * (T / 7)|
      + (|(c2 : ℚ) - p2 * (T / 7)| + |(c3 : ℚ) - p3 * (T / 7)|)) ≤ 8 * k / 10 := by
    linarith
  have hvp_lt : varianceOf [c0, c1, c2, c3] [p0, p1, p2, p3] (7 / 10) < 12 / 25 := by
    rw [hvp, div_lt_iff₀ hTpos]
    linarith
  refine ⟨hvp_lt, ?_⟩
  intro q0 q1 q2 q3 hq hne
  have hQq : (q0 : ℚ) + q1 + q2 + q3 = 7 := by exact_mod_cast hq
  have hD := abs_diff_sum_ge_two p0 p1 p2 p3 q0 q1 q2 q3 hp hq hne
  rw [varianceOf_four c0 c1 c2 c3 q0 q1 q2 q3 (7 / 10) T 7 hT hQq.symm]
  rw [if_neg (by linarith)]
  split
  · have : (12 : ℚ) / 25 < FLT_MAX := by norm_num [FLT_MAX]
    linarith
  · rw [hvp]
    apply div_lt_div_of_pos_right _ hTpos
    have hq0 : (0 : ℚ) ≤ q0 := Nat.cast_nonneg _
    have hq1 : (0 : ℚ) ≤ q1 := Nat.cast_nonneg _
    have hq2 : (0 : ℚ) ≤ q2 := Nat.cast_nonneg _
    have hq3 : (0 : ℚ) ≤ q3 := Nat.cast_nonneg _
    have g0 := dev_ge k c0 p0 q0 E hq0 hK0.le
    have g1 := dev_ge k c1 p1 q1 E hq1 hK0.le
    have g2 := dev_ge k c2 p2 q2 E hq2 hK0.le
    have g3 := dev_ge k c3 p3 q3 E hq3 hK0.le
    rw [← hTE] at g0 g1 g2 g3
    have qsum : (q0 : ℚ) * |E| + q1 * |E| + q2 * |E| + q3 * |E| = 7 * |E| := by
      have : ((q0 : ℚ) + q1 + q2 + q3) * |E| = 7 * |E| := by rw [hQq]
      linarith
    have hDK : 2 * (k : ℚ) ≤ |(p0 : ℚ) - q0| * k + |(p1 : ℚ) - q1| * k + |(p2 : ℚ) - q2| * k
        + |(p3 : ℚ) - q3| * k := by
      have := mul_le_mul_of_nonneg_right hD hK0.le
      linarith
    linarith

/-! ## The best match of the template `DecodeDigit` -/

theorem decodeLoop_reads (v : PatternView) (d : Int) (hd : v.data = some d) (w : List Nat)
    (lim : ℚ) (hsize : v.size = w.length) (hw : ListReads v.bars d w) :
    ∀ (patterns : List (List Nat)) (i : Int) (bv : ℚ) (bm : Int),
      (∀ p ∈ patterns, p.length = w.length) →
      DecodeDigit.loop v lim false patterns i bv bm
        = Res.ok (pickBest (patterns.map (fun p => varianceOf w p lim)) i bv bm) := by
  intro patterns
  induction patterns with
  | nil => intro i bv bm _; rfl
  | cons p ps ih =>
    intro i bv bm hlen
    have hp := hlen p (List.mem_cons_self p ps)
    have hps : ∀ q ∈ ps, q.length = w.length := fun q hq => hlen q (List.mem_cons_of_mem p hq)
    rw [DecodeDigit.loop, PatternMatchVariance_reads v d hd w p lim hsize hp hw]
    simp only [List.map_cons, pickBest]
    by_cases hlt : varianceOf w p lim < bv
    · rw [if_pos hlt, if_pos hlt]
      exact ih (i + 1) _ i hps
    · rw [if_neg hlt, if_neg hlt]
      simp only [Bool.false_eq_true, false_and, if_false]
      exact ih (i + 1) bv bm hps

theorem pickBest_skip (v : ℚ) (rest : List ℚ) :
    ∀ (l1 : List ℚ) (i : Int) (bv : ℚ) (bm : Int), (∀ a ∈ l1, v < a) → v < bv →
      ∃ bv1 bm1, v < bv1 ∧ pickBest (l1 ++ rest) i bv bm = pickBest rest (i + l1.length) bv1 bm1 := by
  intro l1
  induction l1 with
  | nil => intro i bv bm _ hbv; exact ⟨bv, bm, hbv, by simp⟩
  | cons a as ih =>
    intro i bv bm hall hbv
    have ha := hall a (List.mem_cons_self a as)
    have has : ∀ b ∈ as, v < b := fun b hb => hall b (List.mem_cons_of_mem a hb)
    simp only [List.cons_append, pickBest, List.length_cons, List.append_eq]
    by_cases hlt : a < bv
    · rw [if_pos hlt]
      obtain ⟨bv1, bm1, h1, h2⟩ := ih (i + 1) a i has ha
      exact ⟨bv1, bm1, h1, by rw [h2]; congr 1; push_cast; ring⟩
    · rw [if_neg hlt]
      obtain ⟨bv1, bm1, h1, h2⟩ := ih (i + 1) bv bm has hbv
      exact ⟨bv1, bm1, h1, by rw [h2]; congr 1; push_cast; ring⟩

theorem pickBest_keep (v : ℚ) :
    ∀ (l2 : List ℚ) (i : Int) (bm : Int), (∀ a ∈ l2, v ≤ a) → pickBest l2 i v bm = bm := by
  intro l2
  induction l2 with
  | nil => intro i bm _; rfl
  | cons a as ih =>
    intro i bm hall
    have ha := hall a (List.mem_cons_self a as)
    have has : ∀ b ∈ as, v ≤ b := fun b hb => hall b (List.mem_cons_of_mem a hb)
    simp only [pickBest]
    rw [if_neg (not_lt.mpr ha)]
    exact ih (i + 1) bm has

/-- The entry with the strictly smallest variance wins when it is below the limit. -/
theorem pickBest_min (v : ℚ) (l1 l2 : List ℚ) (bv : ℚ) (bm : Int) (h1 : ∀ a ∈ l1, v < a)
    (h2 : ∀ a ∈ l2, v < a) (hbv : v < bv) :
    pickBest (l1 ++ v :: l2) 0 bv bm = l1.length := by
  obtain ⟨bv1, bm1, hb, he⟩ := pickBest_skip v (v :: l2) l1 0 bv bm h1 hbv
  rw [he]
  simp only [pickBest, hb, if_true, zero_add]
  exact pickBest_keep v l2 _ _ (fun a ha => (h2 a ha).le)

theorem list_four (l : List Nat) (h : l.length = 4) : ∃ a b c d, l = [a, b, c, d] := by
  match l, h with
  | [a, b, c, d], _ => exact ⟨a, b, c, d, rfl⟩

theorem nearPattern_length (k : Nat) : ∀ (w p : List Nat), NearPattern k w p → w.length = p.length
  | [], [], _ => rfl
  | _ :: cs, _ :: ms, h => by
    have := nearPattern_length k cs ms h.2
    simp [this]
  | [], _ :: _, h => by cases h
  | _ :: _, [], h => by cases h

theorem goodTable_L_AND_G : GoodTable L_AND_G_PATTERNS := by decide

theorem goodTable_L : GoodTable L_PATTERNS := by decide

/-- In a table of distinct patterns of 7 modules, a window near the entry after `l1` has
that entry as its best match. -/
theorem pickBest_near (patterns l1 l2 : List (List Nat)) (p : List Nat)
    (hgood : GoodTable patterns) (hsplit : patterns = l1 ++ p :: l2) (k : Nat) (hk : 1 ≤ k)
    (w : List Nat) (hnear : NearPattern k w p) :
    pickBest (patterns.map (fun q => varianceOf w q (7 / 10))) 0 (12 / 25) (-1) = l1.length := by
  obtain ⟨hnodup, hall⟩ := hgood
  have hp : p ∈ patterns := by rw [hsplit]; simp
  obtain ⟨hplen, hpsum⟩ := hall p hp
  obtain ⟨p0, p1, p2, p3, rfl⟩ := list_four p hplen
  have hwlen : w.length = 4 := by rw [nearPattern_length k w _ hnear]; rfl
  obtain ⟨c0, c1, c2, c3, rfl⟩ := list_four w hwlen
  have hpsum' : p0 + p1 + p2 + p3 = 7 := by
    simp only [List.sum_cons, List.sum_nil] at hpsum; omega
  obtain ⟨hlt, hother⟩ := variance_near k c0 c1 c2 c3 p0 p1 p2 p3 hk hpsum' hnear
  rw [hsplit] at hnodup
  have hnot1 : [p0, p1, p2, p3] ∉ l1 := by
    intro hmem
    have := List.disjoint_of_nodup_append hnodup hmem
    exact this (List.mem_cons_self _ _)
  have hnot2 : [p0, p1, p2, p3] ∉ l2 := by
    have := (List.nodup_append.mp hnodup).2.1
    exact (List.nodup_cons.mp this).1
  have hq : ∀ q ∈ patterns, q ≠ [p0, p1, p2, p3] →
      varianceOf [c0, c1, c2, c3] [p0, p1, p2, p3] (7 / 10)
        < varianceOf [c0, c1, c2, c3] q (7 / 10) := by
    intro q hqmem hqne
    obtain ⟨hqlen, hqsum⟩ := hall q hqmem
    obtain ⟨q0, q1, q2, q3, rfl⟩ := list_four q hqlen
    have hqsum' : q0 + q1 + q2 + q3 = 7 := by
      simp only [List.sum_cons, List.sum_nil] at hqsum; omega
    exact hother q0 q1 q2 q3 hqsum' hqne
  rw [hsplit, List.map_append, List.map_cons]
  have hmain := pickBest_min (varianceOf [c0, c1, c2, c3] [p0, p1, p2, p3] (7 / 10))
    (l1.map (fun q => varianceOf [c0, c1, c2, c3] q (7 / 10)))
    (l2.map (fun q => varianceOf [c0, c1, c2, c3] q (7 / 10))) (12 / 25) (-1)
  rw [List.length_map] at hmain
  apply hmain
  · intro a ha
    obtain ⟨q, hqmem, rfl⟩ := List.mem_map.mp ha
    exact hq q (by rw [hsplit]; simp [hqmem]) (fun h => hnot1 (h ▸ hqmem))
  · intro a ha
    obtain ⟨q, hqmem, rfl⟩ := List.mem_map.mp ha
    exact hq q (by rw [hsplit]; simp [hqmem]) (fun h => hnot2 (h ▸ hqmem))
  · exact hlt

/-- The template `DecodeDigit` on a view whose window is near entry `i` of the table. -/
theorem DecodeDigitIndex_near (v : PatternView) (d : Int) (hd : v.data = some d) (w : List Nat)
    (hsize : v.size = 4) (hw : ListReads v.bars d w) (patterns : List (List Nat))
    (hgood : GoodTable patterns) (i : Nat) (hi : i < patterns.length) (k : Nat) (hk : 1 ≤ k)
    (hnear : NearPattern k w (patterns.getD i [])) :
    DecodeDigitIndex v patterns (12 / 25) (7 / 10) false = Res.ok (i : Int) := by
  have hget : patterns.getD i [] = patterns[i] := by
    simp [List.getD, List.getElem?_eq_getElem hi]
  rw [hget] at hnear
  have hmem : patterns[i] ∈ patterns := List.getElem_mem hi
  have hwlen : w.length = 4 := by
    rw [nearPattern_length k w _ hnear]; exact (hgood.2 _ hmem).1
  have hsplit : patterns = patterns.take i ++ patterns[i] :: patterns.drop (i + 1) := by
    rw [← List.drop_eq_getElem_cons hi, List.take_append_drop]
  unfold DecodeDigitIndex
  rw [decodeLoop_reads v d hd w (7 / 10) (by rw [hsize, hwlen]; rfl) hw patterns 0 _ _
    (fun p hp => by rw [hwlen]; exact (hgood.2 p hp).1)]
  rw [pickBest_near patterns _ _ _ hgood hsplit k hk w hnear]
  simp [List.length_take, Nat.min_eq_left hi.le]

/-! ## Digits under noise -/

theorem DecodeDigit_near_LG (v : PatternView) (d : Int) (hd : v.data = some d) (w : List Nat)
    (hsize : v.size = 4) (hw : ListReads v.bars d w) (i : Nat) (hi : i < 20) (k : Nat)
    (hk : 1 ≤ k) (hnear : NearPattern k w (L_AND_G_PATTERNS.getD i [])) (txt : List Char)
    (lg : Int) :
    DecodeDigit v txt (some lg)
      = Res.ok (true, txt ++ [ToDigit (Int.tmod (i : Int) 10)],
          some (2 * lg + (if (i : Int) ≥ 10 then 1 else 0))) := by
  have h := DecodeDigitIndex_near v d hd w hsize hw L_AND_G_PATTERNS goodTable_L_AND_G i
    (by simpa [L_AND_G_PATTERNS] using hi) k hk hnear
  unfold DecodeDigit
  simp only [MAX_AVG_VARIANCE, MAX_INDIVIDUAL_VARIANCE, h]
  have hne : ¬ ((i : Int) = -1) := by omega
  simp only [hne, if_false]

theorem DecodeDigit_near_L (v : PatternView) (d : Int) (hd : v.data = some d) (w : List Nat)
    (hsize : v.size = 4) (hw : ListReads v.bars d w) (i : Nat) (hi : i < 10) (k : Nat)
    (hk : 1 ≤ k) (hnear : NearPattern k w (L_PATTERNS.getD i [])) (txt : List Char) :
    DecodeDigit v txt none
      = Res.ok (true, txt ++ [ToDigit (Int.tmod (i : Int) 10)], none) := by
  have h := DecodeDigitIndex_near v d hd w hsize hw L_PATTERNS goodTable_L i
    (by simpa [L_PATTERNS] using hi) k hk hnear
  unfold DecodeDigit
  simp only [MAX_AVG_VARIANCE, MAX_INDIVIDUAL_VARIANCE, h]
  have hne : ¬ ((i : Int) = -1) := by omega
  simp only [hne, if_false]

/-- C9: for a view of four runs `w` (`ListReads`: the runs the view reads) each within a
tenth of the module width `k ≥ 1` of entry `i` of `L_AND_G_PATTERNS` (of `L_PATTERNS`),
the template `DecodeDigit` with limits 0.48 and 0.7 returns index `i`, and `DecodeDigit`
appends the digit `i mod 10` (and shifts the parity bit `i ≥ 10` into the code). -/
theorem DecodeDigit_noise_robust (v : PatternView) (d : Int) (w : List Nat) (k : Nat)
    (hd : v.data = some d) (hsize : v.size = 4) (hw : ListReads v.bars d w) (hk : 1 ≤ k) :
    (∀ i : Nat, i < 20 → NearPattern k w (L_AND_G_PATTERNS.getD i []) →
      DecodeDigitIndex v L_AND_G_PATTERNS MAX_AVG_VARIANCE MAX_INDIVIDUAL_VARIANCE false
        = Res.ok (i : Int)
      ∧ ∀ (txt : List Char) (lg : Int),
        DecodeDigit v txt (some lg)
          = Res.ok (true, txt ++ [ToDigit (Int.tmod (i : Int) 10)],
              some (2 * lg + (if (i : Int) ≥ 10 then 1 else 0))))
    ∧ (∀ i : Nat, i < 10 → NearPattern k w (L_PATTERNS.getD i []) →
      DecodeDigitIndex v L_PATTERNS MAX_AVG_VARIANCE MAX_INDIVIDUAL_VARIANCE false
        = Res.ok (i : Int)
      ∧ ∀ txt : List Char,
        DecodeDigit v txt none = Res.ok (true, txt ++ [ToDigit (Int.tmod (i : Int) 10)], none)) := by
  refine ⟨fun i hi hnear => ⟨?_, fun txt lg => ?_⟩, fun i hi hnear => ⟨?_, fun txt => ?_⟩⟩
  · exact DecodeDigitIndex_near v d hd w hsize hw L_AND_G_PATTERNS goodTable_L_AND_G i
      (by simpa [L_AND_G_PATTERNS] using hi) k hk hnear
  · exact DecodeDigit_near_LG v d hd w hsize hw i hi k hk hnear txt lg
  · exact DecodeDigitIndex_near v d hd w hsize hw L_PATTERNS goodTable_L i
      (by simpa [L_PATTERNS] using hi) k hk hnear
  · exact DecodeDigit_near_L v d hd w hsize hw i hi k hk hnear txt

/-- Witness of `DecodeDigit_noise_robust`: the runs 29, 21, 10, 11 at 10 pixels per module
are near entry 0 (3, 2, 1, 1) and decode to index 0. -/
theorem DecodeDigit_noise_robust_witness :
    DecodeDigitIndex ⟨[0, 29, 21, 10, 11, 0], some 1, 4⟩ L_AND_G_PATTERNS MAX_AVG_VARIANCE
      MAX_INDIVIDUAL_VARIANCE false = Res.ok ((0 : Nat) : Int) :=
  ((DecodeDigit_noise_robust ⟨[0, 29, 21, 10, 11, 0], some 1, 4⟩ 1 [29, 21, 10, 11] 10 rfl rfl
    (by decide) (by decide)).1 0 (by decide) (by decide)).1

/-! ## Guard patterns on windows -/

theorem exceeds_reads (v : PatternView) (d : Int) (hd : v.data = some d) (pattern : List Nat)
    (ref thr : ℚ) (w : List Nat) :
    ∀ (p : List Nat) (x : Int), p.length = w.length →
      ListReads v.bars (d + x) w → ListReads pattern x p →
      IsPattern.exceeds v pattern ref thr w.length x
        = Res.ok ((deviations w p ref).any (fun a => decide (a > thr))) := by
  induction w with
  | nil =>
    intro p x hp _ _
    have : p = [] := List.length_eq_zero.mp hp
    subst this
    simp [IsPattern.exceeds, deviations]
  | cons c cs ih =>
    intro p x hp hw hpat
    cases p with
    | nil => simp at hp
    | cons m ms =>
      obtain ⟨h1, h2⟩ := hw
      obtain ⟨h3, h4⟩ := hpat
      have hg : v.get x = Res.ok c := by
        unfold PatternView.get
        rw [hd]
        exact h1
      simp only [List.length_cons, IsPattern.exceeds, hg, h3]
      by_cases hex : |(c : ℚ) - (m : ℚ) * ref| > thr
      · simp [hex, deviations]
      · rw [if_neg hex]
        rw [ih ms (x + 1) (by simpa using hp) (by rw [← add_assoc]; exact h2) h4]
        simp only [deviations, List.zipWith_cons_cons, List.any_cons, hex, decide_False,
          Bool.false_or]

/-- `IsPattern` on a view whose first runs are `w`. -/
theorem IsPattern_reads (v : PatternView) (d : Int) (hd : v.data = some d) (w : List Nat)
    (pattern : FixedPattern) (sp : Int) (q ref : ℚ) (hlen : pattern.data.length = w.length)
    (hne : w ≠ []) (hw : ListReads v.bars d w) :
    IsPattern v pattern sp q ref = Res.ok (isPatternOf w pattern sp q ref) := by
  have hpos : 0 < w.length := List.length_pos.mpr hne
  have hsz : pattern.size = (w.length : Int) := by unfold FixedPattern.size; rw [hlen]
  have hsum : v.sum pattern.size = Res.ok ((w.sum : Nat) : Int) := by
    unfold PatternView.sum
    have h0 : ¬ (pattern.size = 0) := by rw [hsz]; omega
    rw [if_neg h0, hsz, Int.toNat_natCast]
    have := accumulate_reads v d hd w 0 0 (by simpa using hw)
    rw [this, zero_add]
  have hpl : ListReads pattern.data 0 pattern.data := by
    simpa using listReads_prefix pattern.data []
  unfold IsPattern isPatternOf
  simp only [hsum]
  split
  · rfl
  · split
    · rfl
    · rw [hlen, exceeds_reads v d hd pattern.data _ _ w pattern.data 0 hlen
        (by simpa using hw) hpl]
      generalize (deviations w pattern.data _).any _ = b
      cases b <;> rfl

theorem isPatternOf_end (k : Nat) (sp : Int) (q : ℚ) (hk : 1 ≤ k)
    (hq : ¬ (q ≠ 0 ∧ (sp : ℚ) < q * (k : ℚ) - 1)) :
    isPatternOf [k, k, k] END_PATTERN sp q 0 = (k : ℚ) := by
  have hK : (1 : ℚ) ≤ (k : ℚ) := by exact_mod_cast hk
  have hm : ((([k, k, k].sum : Nat) : Int) : ℚ) / ((END_PATTERN.SUM : Int) : ℚ) = (k : ℚ) := by
    simp only [List.sum_cons, List.sum_nil, END_PATTERN]
    push_cast
    ring
  unfold isPatternOf
  have h1 : ¬ (END_PATTERN.SUM > END_PATTERN.size ∧ (([k, k, k].sum : Nat) : Int) < END_PATTERN.SUM) := by
    intro h
    exact absurd h.1 (by decide)
  rw [if_neg h1]
  simp only [hm]
  rw [if_neg hq]
  have hk0 : ¬ ((k : ℚ) = 0) := by linarith
  simp only [hk0, if_false, deviations, END_PATTERN, List.zipWith_cons_cons,
    List.zipWith_nil_right, List.any_cons, List.any_nil, Nat.cast_one, one_mul, sub_self,
    abs_zero, Bool.or_false, Bool.or_self]
  simp only [gt_iff_lt, ite_eq_right_iff, decide_eq_true_eq]
  intro h
  exfalso
  simp only [if_true, sub_self, abs_zero] at h
  linarith

theorem isPatternOf_mid (k : Nat) (hk : 1 ≤ k) :
    isPatternOf [k, k, k, k, k] MID_PATTERN 0 0 0 = (k : ℚ) := by
  have hK : (1 : ℚ) ≤ (k : ℚ) := by exact_mod_cast hk
  have hm : ((([k, k, k, k, k].sum : Nat) : Int) : ℚ) / ((MID_PATTERN.SUM : Int) : ℚ)
      = (k : ℚ) := by
    simp only [List.sum_cons, List.sum_nil, MID_PATTERN]
    push_cast
    ring
  unfold isPatternOf
  have h1 : ¬ (MID_PATTERN.SUM > MID_PATTERN.size
      ∧ (([k, k, k, k, k].sum : Nat) : Int) < MID_PATTERN.SUM) := by
    intro h
    exact absurd h.1 (by decide)
  rw [if_neg h1]
  simp only [hm]
  have hq : ¬ ((0 : ℚ) ≠ 0 ∧ ((0 : Int) : ℚ) < 0 * (k : ℚ) - 1) := by
    intro h
    exact h.1 rfl
  rw [if_neg hq]
  have hk0 : ¬ ((k : ℚ) = 0) := by linarith
  simp only [hk0, if_false, deviations, MID_PATTERN, List.zipWith_cons_cons,
    List.zipWith_nil_right, List.any_cons, List.any_nil, Nat.cast_one, one_mul, sub_self,
    abs_zero, Bool.or_false, Bool.or_self]
  simp only [gt_iff_lt, ite_eq_right_iff, decide_eq_true_eq]
  intro h
  exfalso
  simp only [if_true, sub_self, abs_zero] at h
  linarith

/-! ## Decoding a sequence of digit windows -/

theorem near_window_length (k : Nat) (table : List (List Nat)) (hgood : GoodTable table)
    (i : Nat) (hi : i < table.length) (w : List Nat) (h : NearPattern k w (table.getD i [])) :
    w.length = 4 := by
  have hget : table.getD i [] = table[i] := by
    simp [List.getD, List.getElem?_eq_getElem hi]
  rw [nearPattern_length k w _ h, hget]
  exact (hgood.2 _ (List.getElem_mem hi)).1

theorem DecodeDigits_LG (k : Nat) (hk : 1 ≤ k) :
    ∀ (ws : List (Nat × List Nat)) (pre post bars : List Nat) (txt : List Char) (lg : Int),
      WindowsNear k L_AND_G_PATTERNS ws → bars = pre ++ (windowRuns ws ++ post) →
      DecodeDigits ws.length ⟨bars, some (pre.length : Int), 4⟩ txt (some lg)
        = Res.ok (true, ⟨bars, some ((pre.length : Int) + 4 * (ws.length : Int)), 4⟩,
            txt ++ indexDigits ws, some (parityCode lg ws)) := by
  intro ws
  induction ws with
  | nil =>
    intro pre post bars txt lg _ _
    simp [DecodeDigits, indexDigits, parityCode]
  | cons iw rest ih =>
    intro pre post bars txt lg hnear hbars
    obtain ⟨hi, hn⟩ := hnear iw (List.mem_cons_self iw rest)
    have hrest : WindowsNear k L_AND_G_PATTERNS rest :=
      fun x hx => hnear x (List.mem_cons_of_mem iw hx)
    have hwl := near_window_length k L_AND_G_PATTERNS goodTable_L_AND_G iw.1 hi iw.2 hn
    have hbars1 : bars = pre ++ (iw.2 ++ (windowRuns rest ++ post)) := by
      rw [hbars]; simp [windowRuns]
    have hreads : ListReads bars (pre.length : Int) iw.2 := by
      rw [hbars1]; exact listReads_append pre iw.2 _
    have hdig := DecodeDigit_near_LG ⟨bars, some (pre.length : Int), 4⟩ (pre.length : Int) rfl
      iw.2 rfl hreads iw.1 (by simpa [L_AND_G_PATTERNS] using hi) k hk hn txt lg
    have hbars2 : bars = (pre ++ iw.2) ++ (windowRuns rest ++ post) := by
      rw [hbars1]; simp
    have hih := ih (pre ++ iw.2) post bars (txt ++ [ToDigit (Int.tmod (iw.1 : Int) 10)])
      (2 * lg + (if (iw.1 : Int) ≥ 10 then 1 else 0)) hrest hbars2
    have hlen : (((pre ++ iw.2).length : Nat) : Int) = (pre.length : Int) + 4 := by
      rw [List.length_append, hwl]; push_cast; ring
    rw [hlen] at hih
    simp only [List.length_cons, DecodeDigits, hdig, PatternView.skipSymbol, PatternView.shift]
    rw [hih]
    simp only [indexDigits, parityCode, List.map_cons, List.foldl_cons, List.append_assoc,
      List.singleton_append]
    congr 3
    push_cast
    ring_nf

theorem DecodeDigits_L (k : Nat) (hk : 1 ≤ k) :
    ∀ (ws : List (Nat × List Nat)) (pre post bars : List Nat) (txt : List Char),
      WindowsNear k L_PATTERNS ws → bars = pre ++ (windowRuns ws ++ post) →
      DecodeDigits ws.length ⟨bars, some (pre.length : Int), 4⟩ txt none
        = Res.ok (true, ⟨bars, some ((pre.length : Int) + 4 * (ws.length : Int)), 4⟩,
            txt ++ indexDigits ws, none) := by
  intro ws
  induction ws with
  | nil =>
    intro pre post bars txt _ _
    simp [DecodeDigits, indexDigits]
  | cons iw rest ih =>
    intro pre post bars txt hnear hbars
    obtain ⟨hi, hn⟩ := hnear iw (List.mem_cons_self iw rest)
    have hrest : WindowsNear k L_PATTERNS rest :=
      fun x hx => hnear x (List.mem_cons_of_mem iw hx)
    have hwl := near_window_length k L_PATTERNS goodTable_L iw.1 hi iw.2 hn
    have hbars1 : bars = pre ++ (iw.2 ++ (windowRuns rest ++ post)) := by
      rw [hbars]; simp [windowRuns]
    have hreads : ListReads bars (pre.length : Int) iw.2 := by
      rw [hbars1]; exact listReads_append pre iw.2 _
    have hdig := DecodeDigit_near_L ⟨bars, some (pre.length : Int), 4⟩ (pre.length : Int) rfl
      iw.2 rfl hreads iw.1 (by simpa [L_PATTERNS] using hi) k hk hn txt
    have hbars2 : bars = (pre ++ iw.2) ++ (windowRuns rest ++ post) := by
      rw [hbars1]; simp
    have hih := ih (pre ++ iw.2) post bars (txt ++ [ToDigit (Int.tmod (iw.1 : Int) 10)])
      hrest hbars2
    have hlen : (((pre ++ iw.2).length : Nat) : Int) = (pre.length : Int) + 4 := by
      rw [List.length_append, hwl]; push_cast; ring
    rw [hlen] at hih
    simp only [List.length_cons, DecodeDigits, hdig, PatternView.skipSymbol, PatternView.shift]
    rw [hih]
    simp only [indexDigits, List.map_cons, List.append_assoc, List.singleton_append]
    congr 3
    push_cast
    ring_nf

/-! ## A complete symbol -/

theorem subView_pos (v : PatternView) (off n : Int) (hn : 0 < n) :
    v.subView off n = ⟨v.bars, v.data.map (fun d => d + off), n⟩ := by
  unfold PatternView.subView
  have h1 : ¬ (n = 0) := by omega
  have h2 : ¬ (n < 0) := by omega
  simp only [h1, h2, if_false]
  congr 1
  omega

theorem windowRuns_length (k : Nat) (table : List (List Nat)) (hgood : GoodTable table) :
    ∀ ws : List (Nat × List Nat), WindowsNear k table ws →
      (windowRuns ws).length = 4 * ws.length := by
  intro ws
  induction ws with
  | nil => intro _; rfl
  | cons iw rest ih =>
    intro h
    obtain ⟨hi, hn⟩ := h iw (List.mem_cons_self iw rest)
    have hwl := near_window_length k table hgood iw.1 hi iw.2 hn
    have := ih (fun x hx => h x (List.mem_cons_of_mem iw hx))
    simp only [windowRuns, List.map_cons, List.flatten_cons, List.length_append,
      List.length_cons] at this ⊢
    rw [hwl, this]
    ring

/-- The runs of a symbol: leading run `a`, start guard, six left windows, middle guard, six
right windows, end guard, trailing run `b`. -/
theorem EAN13_symbol (k : Nat) (hk : 1 ≤ k) (hk2 : k < 65536) (a b : Nat)
    (lws rws : List (Nat × List Nat)) (hl : lws.length = 6) (hr : rws.length = 6)
    (hln : WindowsNear k L_AND_G_PATTERNS lws) (hrn : WindowsNear k L_PATTERNS rws)
    (bars : List Nat)
    (hbars : bars = [a, k, k, k] ++ (windowRuns lws ++ ([k, k, k, k, k]
      ++ (windowRuns rws ++ [k, k, k, b]))))
    (hcode : IndexOf FIRST_DIGIT_ENCODINGS (parityCode 0 lws) ≠ -1) (res : PartialResult) :
    EAN13 res ⟨bars, some 1, 3⟩
      = Res.ok (true, ⟨(' ' :: (indexDigits lws ++ indexDigits rws)).set 0
          (ToDigit (IndexOf FIRST_DIGIT_ENCODINGS (parityCode 0 lws))), ⟨bars, some 57, 3⟩⟩) := by
  have hll := windowRuns_length k L_AND_G_PATTERNS goodTable_L_AND_G lws hln
  have hrl := windowRuns_length k L_PATTERNS goodTable_L rws hrn
  rw [hl] at hll
  rw [hr] at hrl
  have hlen : bars.length = 61 := by
    rw [hbars]; simp only [List.length_append, List.length_cons, List.length_nil, hll, hrl]
  -- the end guard
  have hEndBars : bars = ([a, k, k, k] ++ windowRuns lws ++ [k, k, k, k, k] ++ windowRuns rws)
      ++ ([k, k, k] ++ [b]) := by rw [hbars]; simp
  have hEndReads : ListReads bars 57 [k, k, k] := by
    have := listReads_append ([a, k, k, k] ++ windowRuns lws ++ [k, k, k, k, k] ++ windowRuns rws)
      [k, k, k] [b]
    rw [← hEndBars] at this
    simpa [hll, hrl] using this
  have hEnd : IsPattern ⟨bars, some 57, 3⟩ END_PATTERN INT_MAX QUIET_ZONE_RIGHT_EAN 0
      = Res.ok (k : ℚ) := by
    rw [IsPattern_reads ⟨bars, some 57, 3⟩ 57 rfl [k, k, k] END_PATTERN INT_MAX _ 0 rfl
      (by simp) hEndReads]
    rw [isPatternOf_end k INT_MAX _ hk]
    intro h
    have h2 := h.2
    have hK : (k : ℚ) < 65536 := by exact_mod_cast hk2
    simp only [INT_MAX, QUIET_ZONE_RIGHT_EAN] at h2
    push_cast at h2
    linarith
  -- the middle guard
  have hMidBars : bars = ([a, k, k, k] ++ windowRuns lws)
      ++ ([k, k, k, k, k] ++ (windowRuns rws ++ [k, k, k, b])) := by rw [hbars]; simp
  have hMidReads : ListReads bars 28 [k, k, k, k, k] := by
    have := listReads_append ([a, k, k, k] ++ windowRuns lws) [k, k, k, k, k]
      (windowRuns rws ++ [k, k, k, b])
    rw [← hMidBars] at this
    simpa [hll] using this
  have hMid : IsPattern ⟨bars, some 28, 5⟩ MID_PATTERN 0 0 0 = Res.ok (k : ℚ) := by
    rw [IsPattern_reads ⟨bars, some 28, 5⟩ 28 rfl [k, k, k, k, k] MID_PATTERN 0 0 0 rfl
      (by simp) hMidReads]
    rw [isPatternOf_mid k hk]
  -- the digits
  have hLeft := DecodeDigits_LG k hk lws [a, k, k, k]
    ([k, k, k, k, k] ++ (windowRuns rws ++ [k, k, k, b])) bars [' '] 0 hln hbars
  have hRightBars : bars = ([a, k, k, k] ++ windowRuns lws ++ [k, k, k, k, k])
      ++ (windowRuns rws ++ [k, k, k, b]) := by rw [hbars]; simp
  have hRight := DecodeDigits_L k hk rws ([a, k, k, k] ++ windowRuns lws ++ [k, k, k, k, k])
    [k, k, k, b] bars ([' '] ++ indexDigits lws) hrn hRightBars
  rw [hl] at hLeft
  rw [hr] at hRight
  simp only [List.length_append, List.length_cons, List.length_nil, hll] at hLeft hRight
  norm_num at hLeft hRight
  have hK0 : ¬ ((k : ℚ) = 0) := by
    have : (1 : ℚ) ≤ (k : ℚ) := by exact_mod_cast hk
    linarith
  unfold EAN13
  have hs1 : END_PATTERN.size = 3 := rfl
  have hs2 : MID_PATTERN.size = 5 := rfl
  simp only [hs1, hs2, CHAR_LEN, subView_pos _ _ _ (by decide : (0 : Int) < 3),
    subView_pos _ _ _ (by decide : (0 : Int) < 5), subView_pos _ _ _ (by decide : (0 : Int) < 4),
    Option.map_some']
  norm_num
  have hvalid : PatternView.isValid ⟨bars, some 57, 3⟩ = true := by
    simp [PatternView.isValid, PatternView.isValidN, PatternView.endOff, hlen]
  have hlast : PatternView.isAtLastBar ⟨bars, some 57, 3⟩ = true := by
    simp [PatternView.isAtLastBar, PatternView.endOff, hlen]
  have hRG : IsRightGuard ⟨bars, some 57, 3⟩ END_PATTERN QUIET_ZONE_RIGHT_EAN = Res.ok true := by
    unfold IsRightGuard
    simp only [hlast, if_true, hEnd]
    simp [hK0]
  simp only [hvalid, hRG, hMid, hK0, hLeft]
  have h33 : (Option.map (fun d : Int => d + 5) (some 28)) = some 33 := rfl
  simp only [h33, hRight, Option.getD_some, if_true, if_false, not_true_eq_false,
    not_false_eq_true, hcode, List.set_cons_zero, ne_eq]

/-! ## The guard search never reads outside the row -/

theorem readAt_inRange (l : List Nat) (x : Int) (h0 : 0 ≤ x) (h1 : x < l.length) :
    ∃ c, readAt l x = Res.ok c := by
  unfold readAt
  have h2 : x.toNat < l.length := by omega
  refine ⟨l[x.toNat], ?_⟩
  simp [not_lt.mpr h0, List.getElem?_eq_getElem h2]

theorem listReads_exists (l : List Nat) :
    ∀ (n : Nat) (x : Int), 0 ≤ x → x + n ≤ l.length → ∃ w, w.length = n ∧ ListReads l x w := by
  intro n
  induction n with
  | zero => intro x _ _; exact ⟨[], rfl, trivial⟩
  | succ n ih =>
    intro x h0 h1
    obtain ⟨c, hc⟩ := readAt_inRange l x h0 (by push_cast at h1; omega)
    obtain ⟨cs, hlen, hcs⟩ := ih (x + 1) (by omega) (by push_cast at h1; omega)
    exact ⟨c :: cs, by simp [hlen], hc, hcs⟩

theorem IsPattern_total (v : PatternView) (d : Int) (hd : v.data = some d)
    (pattern : FixedPattern) (sp : Int) (q ref : ℚ) (hne : pattern.data ≠ []) (h0 : 0 ≤ d)
    (h1 : d + pattern.data.length ≤ v.bars.length) :
    ∃ m, IsPattern v pattern sp q ref = Res.ok m := by
  obtain ⟨w, hlen, hw⟩ := listReads_exists v.bars pattern.data.length d h0 h1
  have hwne : w ≠ [] := by
    intro h
    rw [h] at hlen
    exact hne (List.length_eq_zero.mp hlen.symm)
  exact ⟨_, IsPattern_reads v d hd w pattern sp q ref hlen.symm hwne hw⟩

/-- The loop of `FindLeftGuard` returns the null view or a window of three runs inside the
searched range, and never faults. -/
theorem FindLeftGuard_loop_spec (bars : List Nat) (q : ℚ) (endOff : Int)
    (hend : endOff + 2 ≤ bars.length) :
    ∀ (fuel : Nat) (d : Int), 1 ≤ d → 1 ≤ fuel → endOff - d ≤ 2 * ((fuel : Int) - 1) →
      ∃ r, FindLeftGuard.loop END_PATTERN q endOff fuel ⟨bars, some d, 3⟩ = Res.ok r
        ∧ (r = PatternView.null ∨ ∃ d1, r = ⟨bars, some d1, 3⟩ ∧ d ≤ d1 ∧ d1 < endOff) := by
  intro fuel
  induction fuel with
  | zero => intro d _ h _; omega
  | succ fuel ih =>
    intro d hd1 _ hfuel
    rw [FindLeftGuard.loop]
    simp only
    by_cases hlt : d < endOff
    · rw [if_pos hlt]
      obtain ⟨c, hc⟩ := readAt_inRange bars (d + -1) (by omega) (by omega)
      have hget : PatternView.get ⟨bars, some d, 3⟩ (-1) = Res.ok c := hc
      rw [hget]
      simp only
      obtain ⟨m, hm⟩ := IsPattern_total ⟨bars, some d, 3⟩ d rfl END_PATTERN c q 0 (by decide)
        (by omega) (by simp only [END_PATTERN, List.length_cons, List.length_nil]; push_cast; omega)
      rw [hm]
      simp only
      by_cases hm0 : m ≠ 0
      · rw [if_pos hm0]
        exact ⟨_, rfl, Or.inr ⟨d, rfl, le_refl d, hlt⟩⟩
      · rw [if_neg hm0]
        have hstep : (PatternView.skipPair ⟨bars, some d, 3⟩).2 = ⟨bars, some (d + 2), 3⟩ := rfl
        rw [hstep]
        obtain ⟨r, hr, hspec⟩ := ih (d + 2) (by omega) (by push_cast at hfuel; omega)
          (by push_cast at hfuel; omega)
        refine ⟨r, hr, ?_⟩
        rcases hspec with h | ⟨d1, h1, h2, h3⟩
        · exact Or.inl h
        · exact Or.inr ⟨d1, h1, by omega, h3⟩
    · rw [if_neg hlt]
      exact ⟨_, rfl, Or.inl rfl⟩

/-- `FindLeftGuard` on a view inside its row returns the null view or a window of three
runs that starts inside the view with at least 33 runs of the view from it on. -/
theorem FindLeftGuard_spec (bars : List Nat) (d size : Int) (q : ℚ) (hd : 1 ≤ d)
    (hsize : d + size ≤ bars.length) :
    ∃ r, FindLeftGuard ⟨bars, some d, size⟩ (3 + 6 * 4 + 6) END_PATTERN q = Res.ok r
      ∧ (r = PatternView.null
        ∨ ∃ d1, r = ⟨bars, some d1, 3⟩ ∧ d ≤ d1 ∧ d1 + 33 ≤ d + size) := by
  unfold FindLeftGuard
  have hmin : max (3 + 6 * 4 + 6 : Int) END_PATTERN.size = 33 := by decide
  simp only [hmin]
  by_cases hshort : size < 33
  · rw [if_pos hshort]
    exact ⟨_, rfl, Or.inl rfl⟩
  · rw [if_neg hshort]
    have hwin : PatternView.subView ⟨bars, some d, size⟩ 0 END_PATTERN.size
        = ⟨bars, some d, 3⟩ := by
      rw [subView_pos _ _ _ (by decide)]
      simp only [Option.map_some', add_zero]
      rfl
    rw [hwin]
    have hloop := FindLeftGuard_loop_spec bars q (d + size - 33) (by omega)
      (size.toNat + 1) d hd (by omega) (by push_cast; omega)
    obtain ⟨r, hr, hspec⟩ := hloop
    have hspec' : r = PatternView.null
        ∨ ∃ d1, r = ⟨bars, some d1, 3⟩ ∧ d ≤ d1 ∧ d1 + 33 ≤ d + size := by
      rcases hspec with h | ⟨d1, h1, h2, h3⟩
      · exact Or.inl h
      · exact Or.inr ⟨d1, h1, h2, by omega⟩
    by_cases hfirst : PatternView.isAtFirstBar ⟨bars, some d, 3⟩ = true
    · rw [if_pos hfirst]
      obtain ⟨m, hm⟩ := IsPattern_total ⟨bars, some d, 3⟩ d rfl END_PATTERN INT_MAX q 0
        (by decide) (by omega)
        (by simp only [END_PATTERN, List.length_cons, List.length_nil]; push_cast; omega)
      rw [hm]
      simp only
      by_cases hm0 : m ≠ 0
      · rw [if_pos hm0]
        exact ⟨_, rfl, Or.inr ⟨d, rfl, le_refl d, by omega⟩⟩
      · rw [if_neg hm0]
        exact ⟨r, hr, hspec'⟩
    · rw [if_neg hfirst]
      exact ⟨r, hr, hspec'⟩

/-! ## Attempts that cannot hold a whole symbol -/

theorem EAN13_invalid (bars : List Nat) (d : Int) (res : PartialResult)
    (h : (bars.length : Int) < d + 59) :
    EAN13 res ⟨bars, some d, 3⟩ = Res.ok (false, res) := by
  unfold EAN13
  have hs1 : END_PATTERN.size = 3 := rfl
  simp only [hs1, subView_pos _ _ _ (by decide : (0 : Int) < 3), Option.map_some']
  have hinv : PatternView.isValid ⟨bars, some (d + 56), 3⟩ = false := by
    simp only [PatternView.isValid, PatternView.isValidN, PatternView.endOff]
    have : ¬ (d + 56 + 3 ≤ (bars.length : Int)) := by omega
    simp [this]
  rw [hinv]
  rfl

theorem null_isValid : PatternView.null.isValid = false := rfl

/-- When no start guard in the view leaves room for 59 runs, `decodePattern` fails, keeps
`res`, and leaves the null view or a window inside the view. -/
theorem decodePattern_no_room (bars : List Nat) (d size : Int) (res : PartialResult)
    (hd : 1 ≤ d) (hsize : d + size ≤ bars.length) (hroom : (bars.length : Int) < d + 59) :
    ∃ r, decodePattern ⟨bars, some d, size⟩ res = Res.ok (false, r, res)
      ∧ (r = PatternView.null
        ∨ ∃ d1, r = ⟨bars, some d1, 3⟩ ∧ d ≤ d1 ∧ d1 + 33 ≤ d + size) := by
  obtain ⟨r, hr, hspec⟩ := FindLeftGuard_spec bars d size QUIET_ZONE_LEFT hd hsize
  refine ⟨r, ?_, hspec⟩
  unfold decodePattern
  simp only [hr]
  rcases hspec with h | ⟨d1, h1, h2, h3⟩
  · rw [h, null_isValid]
    rfl
  · rw [h1]
    have hv : PatternView.isValid ⟨bars, some d1, 3⟩ = true := by
      simp only [PatternView.isValid, PatternView.isValidN, PatternView.endOff]
      have a1 : (0 : Int) ≤ d1 := by omega
      have a2 : d1 + 3 ≤ (bars.length : Int) := by omega
      simp [a1, a2]
    rw [hv, EAN13_invalid bars d1 res (by omega)]
    rfl

theorem tmod_two_cases (x : Int) (hx : 0 ≤ x) : Int.tmod x 2 = 0 ∨ Int.tmod x 2 = 1 := by
  have h1 : Int.tmod x 2 = x % 2 := by
    rw [Int.tmod_eq_emod hx (by decide)]
  rw [h1]
  omega

/-- The attempts on a view that cannot hold a whole symbol end without a new candidate. -/
theorem attempts_no_room (bars : List Nat) (res : PartialResult) (result : List (List Char))
    (hcollect : DoDecode.collect res.txt res.txt 0 result = result) :
    ∀ (fuel : Nat) (d : Int), 1 ≤ d → d ≤ bars.length → (bars.length : Int) < d + 59 →
      (bars.length : Int) + 1 ≤ fuel + d →
      DoDecode.attempts fuel ⟨bars, some d, (bars.length : Int) - d⟩ res result
        = Res.ok (res, result) := by
  intro fuel
  induction fuel with
  | zero => intro d _ _ _ h; push_cast at h; omega
  | succ fuel ih =>
    intro d hd1 hd2 hroom hfuel
    obtain ⟨r, hr, hspec⟩ := decodePattern_no_room bars d ((bars.length : Int) - d) res hd1
      (by omega) hroom
    rw [DoDecode.attempts, hr]
    simp only [hcollect]
    rcases hspec with h | ⟨d1, h1, h2, h3⟩
    · rw [h]
      rfl
    · rw [h1]
      have hidx : PatternView.index ⟨bars, some d1, 3⟩ = d1 - 1 := rfl
      rw [hidx]
      rcases tmod_two_cases (d1 - 1) (by omega) with ht | ht
      · rw [ht]
        have hnext : (PatternView.extend (PatternView.shift ⟨bars, some d1, 3⟩ (2 - 0)).2)
            = ⟨bars, some (d1 + 2), (bars.length : Int) - (d1 + 2)⟩ := by
          simp only [PatternView.shift, PatternView.extend, PatternView.endOff]
          congr 1
          norm_num
          omega
        rw [hnext]
        have hne : (bars.length : Int) - (d1 + 2) ≠ 0 := by omega
        simp only [hne, ne_eq, not_false_eq_true, if_true]
        exact ih (d1 + 2) (by omega) (by omega) (by omega) (by push_cast at hfuel; omega)
      · rw [ht]
        have hnext : (PatternView.extend (PatternView.shift ⟨bars, some d1, 3⟩ (2 - 1)).2)
            = ⟨bars, some (d1 + 1), (bars.length : Int) - (d1 + 1)⟩ := by
          simp only [PatternView.shift, PatternView.extend, PatternView.endOff]
          congr 1
          norm_num
          omega
        rw [hnext]
        have hne : (bars.length : Int) - (d1 + 1) ≠ 0 := by omega
        simp only [hne, ne_eq, not_false_eq_true, if_true]
        exact ih (d1 + 1) (by omega) (by omega) (by omega) (by push_cast at hfuel; omega)


/-! ## The candidate set -/

theorem strLess_irrefl : ∀ s : List Char, strLess s s = false
  | [] => rfl
  | c :: cs => by
    simp only [strLess, lt_self_iff_false, if_false]
    exact strLess_irrefl cs

theorem strLess_asymm : ∀ a b : List Char, strLess a b = true → strLess b a = false
  | [], [], h => by simp [strLess] at h
  | [], _ :: _, _ => rfl
  | _ :: _, [], h => by simp [strLess] at h
  | x :: xs, y :: ys, h => by
    simp only [strLess] at h ⊢
    by_cases h1 : x.toNat < y.toNat
    · have h2 : ¬ (y.toNat < x.toNat) := by omega
      simp only [h2, if_false, h1, if_true]
    · by_cases h2 : y.toNat < x.toNat
      · simp only [h1, h2, if_false, if_true] at h
        exact absurd h (by decide)
      · simp only [h1, h2, if_false] at h ⊢
        exact strLess_asymm xs ys h

theorem setInsert_idem (s : List Char) :
    ∀ R : List (List Char), setInsert s (setInsert s R) = setInsert s R
  | [] => by simp [setInsert, strLess_irrefl]
  | x :: xs => by
    by_cases h1 : strLess s x = true
    · simp [setInsert, h1, strLess_irrefl]
    · by_cases h2 : strLess x s = true
      · have ih := setInsert_idem s xs
        simp only [setInsert, h1, h2, if_true, if_false, Bool.false_eq_true, ih]
      · simp [setInsert, h1, h2]

theorem collect_no_space (txt : List Char) :
    ∀ (rest : List Char) (n : Nat) (R : List (List Char)), (∀ c ∈ rest, c ≠ ' ') →
      DoDecode.collect txt rest n R
        = if n + rest.length = 13 then setInsert txt R else R := by
  intro rest
  induction rest with
  | nil => intro n R _; simp [DoDecode.collect]
  | cons c cs ih =>
    intro n R h
    have hc := h c (List.mem_cons_self c cs)
    have hcs : ∀ x ∈ cs, x ≠ ' ' := fun x hx => h x (List.mem_cons_of_mem c hx)
    simp only [DoDecode.collect, hc, if_false, List.length_cons]
    rw [ih (n + 1) R hcs]
    have : n + 1 + cs.length = n + (cs.length + 1) := by omega
    rw [this]

theorem ToDigit_ne_space (i : Int) : ToDigit i ≠ ' ' := by
  unfold ToDigit
  by_cases h : i < 0 ∨ i > 9
  · rw [if_pos h]; decide
  · rw [if_neg h]
    have h0 : 0 ≤ i := by omega
    have h9 : i ≤ 9 := by omega
    interval_cases i <;> decide

theorem indexDigits_length (ws : List (Nat × List Nat)) : (indexDigits ws).length = ws.length := by
  simp [indexDigits]

theorem indexDigits_ne_space (ws : List (Nat × List Nat)) : ∀ c ∈ indexDigits ws, c ≠ ' ' := by
  intro c hc
  obtain ⟨iw, _, rfl⟩ := List.mem_map.mp hc
  exact ToDigit_ne_space _

theorem collect_symbolText (lws rws : List (Nat × List Nat)) (hl : lws.length = 6)
    (hr : rws.length = 6) (R : List (List Char)) :
    DoDecode.collect (symbolText lws rws) (symbolText lws rws) 0 R
      = setInsert (symbolText lws rws) R := by
  rw [collect_no_space]
  · have : 0 + (symbolText lws rws).length = 13 := by
      simp [symbolText, indexDigits_length, hl, hr]
    rw [if_pos this]
  · intro c hc
    simp only [symbolText, List.mem_cons, List.mem_append] at hc
    rcases hc with h | h | h
    · rw [h]; exact ToDigit_ne_space _
    · exact indexDigits_ne_space lws c h
    · exact indexDigits_ne_space rws c h

/-- The attempts on the runs of one symbol: the first attempt decodes it, the later ones
add nothing. -/
theorem attempts_symbol (k : Nat) (hk : 1 ≤ k) (hk2 : k < 65536) (a b : Nat)
    (lws rws : List (Nat × List Nat)) (hl : lws.length = 6) (hr : rws.length = 6)
    (hln : WindowsNear k L_AND_G_PATTERNS lws) (hrn : WindowsNear k L_PATTERNS rws)
    (bars : List Nat)
    (hbars : bars = [a, k, k, k] ++ (windowRuns lws ++ ([k, k, k, k, k]
      ++ (windowRuns rws ++ [k, k, k, b]))))
    (hcode : IndexOf FIRST_DIGIT_ENCODINGS (parityCode 0 lws) ≠ -1) (res : PartialResult)
    (R : List (List Char)) :
    DoDecode.attempts (bars.length + 1) (PatternView.ofBars bars) res R
      = Res.ok (⟨symbolText lws rws, ⟨bars, some 57, 3⟩⟩, setInsert (symbolText lws rws) R) := by
  have hll := windowRuns_length k L_AND_G_PATTERNS goodTable_L_AND_G lws hln
  have hrl := windowRuns_length k L_PATTERNS goodTable_L rws hrn
  rw [hl] at hll
  rw [hr] at hrl
  have hlen : bars.length = 61 := by
    rw [hbars]; simp only [List.length_append, List.length_cons, List.length_nil, hll, hrl]
  have hStartReads : ListReads bars 1 [k, k, k] := by
    have := listReads_append [a] [k, k, k] (windowRuns lws ++ ([k, k, k, k, k]
      ++ (windowRuns rws ++ [k, k, k, b])))
    have hb : bars = [a] ++ ([k, k, k] ++ (windowRuns lws ++ ([k, k, k, k, k]
      ++ (windowRuns rws ++ [k, k, k, b])))) := by rw [hbars]; simp
    rw [← hb] at this
    simpa using this
  have hStart : IsPattern ⟨bars, some 1, 3⟩ END_PATTERN INT_MAX QUIET_ZONE_LEFT 0
      = Res.ok (k : ℚ) := by
    rw [IsPattern_reads ⟨bars, some 1, 3⟩ 1 rfl [k, k, k] END_PATTERN INT_MAX _ 0 rfl
      (by simp) hStartReads]
    rw [isPatternOf_end k INT_MAX _ hk]
    intro h
    have h2 := h.2
    have hK : (k : ℚ) < 65536 := by exact_mod_cast hk2
    simp only [INT_MAX, QUIET_ZONE_LEFT] at h2
    push_cast at h2
    linarith
  have hK0 : ¬ ((k : ℚ) = 0) := by
    have : (1 : ℚ) ≤ (k : ℚ) := by exact_mod_cast hk
    linarith
  have hFind : FindLeftGuard (PatternView.ofBars bars) (3 + 6 * 4 + 6) END_PATTERN
      QUIET_ZONE_LEFT = Res.ok ⟨bars, some 1, 3⟩ := by
    unfold FindLeftGuard
    have hmin : max (3 + 6 * 4 + 6 : Int) END_PATTERN.size = 33 := by decide
    have hsz : ¬ ((PatternView.ofBars bars).size < 33) := by
      simp only [PatternView.ofBars, hlen]; decide
    have hwin : PatternView.subView (PatternView.ofBars bars) 0 END_PATTERN.size
        = ⟨bars, some 1, 3⟩ := by
      rw [subView_pos _ _ _ (by decide)]
      rfl
    simp only [hmin, hsz, if_false, hwin]
    have hfirst : PatternView.isAtFirstBar ⟨bars, some 1, 3⟩ = true := rfl
    simp only [hfirst, if_true, hStart, hK0, ne_eq, not_false_eq_true]
  have hDecode : decodePattern (PatternView.ofBars bars) res
      = Res.ok (true, ⟨bars, some 1, 3⟩, ⟨symbolText lws rws, ⟨bars, some 57, 3⟩⟩) := by
    unfold decodePattern
    simp only [hFind]
    have hv : PatternView.isValid ⟨bars, some 1, 3⟩ = true := by
      simp [PatternView.isValid, PatternView.isValidN, PatternView.endOff, hlen]
    simp only [hv, Bool.not_true, Bool.false_eq_true, if_false]
    rw [EAN13_symbol k hk hk2 a b lws rws hl hr hln hrn bars hbars hcode res]
    simp only [symbolText, List.set_cons_zero]
  rw [DoDecode.attempts, hDecode]
  simp only [collect_symbolText lws rws hl hr]
  have hnext : (PatternView.extend (PatternView.shift ⟨bars, some 1, 3⟩
      (2 - Int.tmod (PatternView.index ⟨bars, some 1, 3⟩) 2)).2)
        = ⟨bars, some 3, (bars.length : Int) - 3⟩ := by
    simp only [PatternView.index, PatternView.shift, PatternView.extend, PatternView.endOff, hlen]
    rfl
  rw [hnext]
  have hne : (bars.length : Int) - 3 ≠ 0 := by rw [hlen]; decide
  simp only [hne, ne_eq, not_false_eq_true, if_true]
  have hfuel : bars.length = 61 := hlen
  exact attempts_no_room bars _ _ (by
      simp only [collect_symbolText lws rws hl hr]; exact setInsert_idem _ _)
    bars.length 3 (by decide) (by rw [hlen]; decide) (by rw [hlen]; decide)
    (by rw [hlen]; decide)

/-! ## Images whose rows have the same runs -/

theorem rows_fixed (image : List Nat) (width height : Int) (bars : List Nat)
    (res1 : PartialResult) (R1 : List (List Char))
    (hrow : ∀ r : Int, 0 ≤ r → r < height → getPatternRow image height width r = Res.ok bars)
    (hfix : DoDecode.attempts (bars.length + 1) (PatternView.ofBars bars) res1 R1
      = Res.ok (res1, R1)) :
    ∀ (n : Nat) (i : Int), DoDecode.rows image width height n i res1 R1 = Res.ok R1 := by
  intro n
  induction n with
  | zero => intro i; rfl
  | succ n ih =>
    intro i
    rw [rows_succ]
    by_cases hrange : rowOfIteration height i < 0 ∨ rowOfIteration height i ≥ height
    · rw [if_pos hrange]
    · rw [if_neg hrange]
      have hrange' := not_or.mp hrange
      rw [hrow _ (not_lt.mp hrange'.1) (lt_of_not_ge hrange'.2)]
      simp only
      rw [hfix]
      exact ih (i + 1)

theorem rowOfIteration_zero (height : Int) (hh : 1 ≤ height) :
    0 ≤ rowOfIteration height 0 ∧ rowOfIteration height 0 < height := by
  have h1 : rowOfIteration height 0 = Int.tdiv height 2 := by
    unfold rowOfIteration
    have h2 : Int.tdiv (0 + 1) 2 = 0 := by decide
    have h3 : (Int.tmod 0 2 == 0) = true := by decide
    rw [if_pos h3, h2]
    ring
  rw [h1, Int.tdiv_eq_ediv (by omega) (by decide)]
  omega

/-- `DoDecode` on an image of at least one row whose rows all have the runs `bars`. -/
theorem DoDecode_same_rows (image : List Nat) (width height : Int) (hh : 1 ≤ height)
    (bars : List Nat) (res1 : PartialResult) (R1 : List (List Char))
    (hrow : ∀ r : Int, 0 ≤ r → r < height → getPatternRow image height width r = Res.ok bars)
    (hfirst : DoDecode.attempts (bars.length + 1) (PatternView.ofBars bars)
      ⟨[], PatternView.null⟩ [] = Res.ok (res1, R1))
    (hfix : DoDecode.attempts (bars.length + 1) (PatternView.ofBars bars) res1 R1
      = Res.ok (res1, R1)) :
    DoDecode image width height = Res.ok R1 := by
  unfold DoDecode
  obtain ⟨n, hn⟩ : ∃ n, height.toNat = n + 1 := ⟨height.toNat - 1, by omega⟩
  rw [hn, rows_succ]
  obtain ⟨h0, h1⟩ := rowOfIteration_zero height hh
  have hrange : ¬ (rowOfIteration height 0 < 0 ∨ rowOfIteration height 0 ≥ height) := by
    intro h
    rcases h with h | h <;> omega
  rw [if_neg hrange, hrow _ h0 h1]
  simp only
  rw [hfirst]
  exact rows_fixed image width height bars res1 R1 hrow hfix n (0 + 1)

/-! ## Run lengths of rendered rows -/

theorem pixel_isBlack (c : Bool) : ((if c = true then (0 : Nat) else 255) == 0) = c := by
  cases c <;> rfl

theorem scan_same (v : Nat) (rest : List Nat) (p lp : Int) (lastVal : Bool) (res : List Nat)
    (hv : (v == 0) = lastVal) :
    getPatternRow.scan (v :: rest) p lp lastVal res
      = getPatternRow.scan rest (p + 1) lp lastVal res := by
  simp only [getPatternRow.scan, hv, bne_self_eq_false, Bool.false_eq_true, if_false]

theorem scan_diff (v : Nat) (rest : List Nat) (p lp : Int) (lastVal : Bool) (res : List Nat)
    (hv : (v == 0) = !lastVal) :
    getPatternRow.scan (v :: rest) p lp lastVal res
      = getPatternRow.scan rest (p + 1) p (!lastVal) (res ++ [narrow16 (p - lp)]) := by
  have hne : ((!lastVal) != lastVal) = true := by cases lastVal <;> rfl
  simp only [getPatternRow.scan, hv, hne, if_true]

/-- Scanning the pixels of a run sequence whose runs after the first are not empty gives
the runs back, narrowed to 16 bits. -/
theorem scan_runs : ∀ (rs : List Nat) (c : Bool) (p : Int) (res : List Nat), rs ≠ [] →
    (∀ r ∈ rs.tail, 1 ≤ r) →
    getPatternRow.scan (pixelsOfRuns c rs) p p c res = res ++ rs.map (fun r => r % 65536)
  | [], _, _, _, h, _ => absurd rfl h
  | [r], c, p, res, _, _ => by
    simp only [pixelsOfRuns]
    rw [scan_replicate r _ [] p p c res (pixel_isBlack c)]
    simp only [getPatternRow.scan, List.map_cons, List.map_nil]
    have : p + (r : Int) - p = (r : Int) := by ring
    rw [this, narrow16_natCast]
  | r :: r1 :: rs, c, p, res, _, h => by
    have hr1 : 1 ≤ r1 := h r1 (by simp)
    have htail : ∀ x ∈ (r1 :: rs).tail, 1 ≤ x := fun x hx => h x (by
      simp only [List.tail_cons] at hx ⊢
      exact List.mem_cons_of_mem r1 hx)
    have ih := scan_runs (r1 :: rs) (!c) (p + r) (res ++ [r % 65536]) (by simp) htail
    obtain ⟨r2, rfl⟩ : ∃ r2, r1 = r2 + 1 := ⟨r1 - 1, by omega⟩
    have hpix : pixelsOfRuns (!c) ((r2 + 1) :: rs)
        = (if (!c) = true then (0 : Nat) else 255)
          :: (List.replicate r2 (if (!c) = true then (0 : Nat) else 255) ++ pixelsOfRuns (!!c) rs) := by
      simp only [pixelsOfRuns, List.replicate_succ, List.cons_append]
    rw [hpix, scan_same _ _ _ _ _ _ (pixel_isBlack (!c))] at ih
    have hgoal : pixelsOfRuns c (r :: (r2 + 1) :: rs)
        = List.replicate r (if c = true then (0 : Nat) else 255)
          ++ pixelsOfRuns (!c) ((r2 + 1) :: rs) := rfl
    rw [hgoal, scan_replicate r _ _ p p c res (pixel_isBlack c), hpix]
    rw [scan_diff _ _ _ _ c _ (pixel_isBlack (!c))]
    have : p + (r : Int) - p = (r : Int) := by ring
    rw [this, narrow16_natCast, ih]
    simp

theorem pixelsOfRuns_append_zero : ∀ (rs : List Nat) (c : Bool),
    pixelsOfRuns c (rs ++ [0]) = pixelsOfRuns c rs
  | [], c => by simp [pixelsOfRuns]
  | r :: rs, c => by
    simp only [List.cons_append, pixelsOfRuns, List.append_eq]
    rw [pixelsOfRuns_append_zero rs (!c)]

/-- The last pixel of a run sequence that ends with a non-empty run. -/
theorem pixelsOfRuns_getLast : ∀ (rs : List Nat) (c : Bool) (hne : rs ≠ []),
    1 ≤ rs.getLast hne →
    (pixelsOfRuns c rs).getLast?
      = some (if (if rs.length % 2 = 1 then c else !c) = true then 0 else 255)
  | [], _, h, _ => absurd rfl h
  | [r], c, _, h => by
    simp only [List.getLast_singleton] at h
    obtain ⟨r2, rfl⟩ : ∃ r2, r = r2 + 1 := ⟨r - 1, by omega⟩
    simp [pixelsOfRuns, List.replicate_succ']
  | r :: r1 :: rs, c, _, h => by
    have hl : 1 ≤ (r1 :: rs).getLast (by simp) := by
      simpa [List.getLast_cons] using h
    have ih := pixelsOfRuns_getLast (r1 :: rs) (!c) (by simp) hl
    have hgoal : pixelsOfRuns c (r :: r1 :: rs)
        = List.replicate r (if c = true then (0 : Nat) else 255)
          ++ pixelsOfRuns (!c) (r1 :: rs) := rfl
    have hne2 : pixelsOfRuns (!c) (r1 :: rs) ≠ [] := by
      intro h0
      rw [h0] at ih
      simp at ih
    rw [hgoal, List.getLast?_append_of_ne_nil _ hne2, ih]
    congr 1
    simp only [List.length_cons]
    by_cases hpar : (rs.length + 1) % 2 = 1
    · have : ¬ ((rs.length + 1 + 1) % 2 = 1) := by omega
      simp only [hpar, this, if_true, if_false]
    · have : (rs.length + 1 + 1) % 2 = 1 := by omega
      simp only [hpar, this, if_true, if_false, Bool.not_not]

theorem flatten_replicate_drop_take (row : List Nat) : ∀ (H r : Nat), r < H →
    ((List.replicate H row).flatten.drop (r * row.length)).take row.length = row := by
  intro H r
  induction r generalizing H with
  | zero =>
    intro h
    obtain ⟨H1, rfl⟩ : ∃ H1, H = H1 + 1 := ⟨H - 1, by omega⟩
    simp [List.replicate_succ]
  | succ r ih =>
    intro h
    obtain ⟨H1, rfl⟩ : ∃ H1, H = H1 + 1 := ⟨H - 1, by omega⟩
    have := ih H1 (by omega)
    have hd : (r + 1) * row.length = row.length + r * row.length := by ring
    rw [List.replicate_succ, List.flatten_cons, hd, List.drop_append]
    exact this

theorem imageOfRow_length (H : Nat) (row : List Nat) :
    (imageOfRow H row).length = H * row.length := by
  simp [imageOfRow, List.length_flatten]

theorem readAt_of_drop_take (l row : List Nat) (n : Nat) (h : (l.drop n).take row.length = row)
    (i : Nat) (hi : i < row.length) :
    readAt l ((n : Int) + i) = Res.ok row[i] := by
  unfold readAt
  have h0 : ¬ ((n : Int) + i < 0) := by omega
  have h1 : ((n : Int) + i).toNat = n + i := by omega
  have h2 : l.get? (n + i) = some row[i] := by
    have h3 : row[i]? = some row[i] := List.getElem?_eq_getElem hi
    rw [List.get?_eq_getElem?]
    rw [← h3]
    conv_rhs => rw [← h]
    rw [List.getElem?_take_of_lt hi, List.getElem?_drop]
  simp only [h0, if_false, h1, h2]

/-- Run lengths of row `r` of an image of `H` equal, non-empty rows. -/
theorem getPatternRow_imageOfRow (row : List Nat) (H r : Nat) (hr : r < H) (last : Nat)
    (hlast : row.getLast? = some last) :
    getPatternRow (imageOfRow H row) H row.length r
      = Res.ok (getPatternRow.scan row 0 0 false [] ++ (if last = 0 then [0] else [])) := by
  have hne : row ≠ [] := by
    intro h
    rw [h] at hlast
    simp at hlast
  have hW : 1 ≤ row.length := List.length_pos.mpr hne
  have hb : r * row.length + row.length ≤ H * row.length := by
    have := row_bounds row.length H r hr
    rw [Nat.mul_comm row.length H] at this
    exact this
  unfold getPatternRow
  have hguard : ¬ ((r : Int) * (row.length : Int) < 0 ∨ (row.length : Int) < 0 ∨
      (r : Int) * (row.length : Int) + (row.length : Int) > ((imageOfRow H row).length : Int)) := by
    rw [imageOfRow_length]
    have h1 : (0 : Int) ≤ (r : Int) * (row.length : Int) := by positivity
    have h2 : ((r * row.length + row.length : Nat) : Int) ≤ ((H * row.length : Nat) : Int) := by
      exact_mod_cast hb
    push_cast at h2
    omega
  simp only [hguard, if_false]
  have htn : ((r : Int) * (row.length : Int)).toNat = r * row.length := by
    have : ((r : Int) * (row.length : Int)) = ((r * row.length : Nat) : Int) := by push_cast; ring
    rw [this]; exact Int.toNat_natCast _
  rw [htn, Int.toNat_natCast]
  have hdt : ((imageOfRow H row).drop (r * row.length)).take row.length = row :=
    flatten_replicate_drop_take row H r hr
  rw [hdt]
  have hidx : (r : Int) * (row.length : Int) + (row.length : Int) - 1
      = ((r * row.length : Nat) : Int) + ((row.length - 1 : Nat) : Int) := by
    push_cast
    omega
  have hlt0 : row.length - 1 < row.length := by omega
  rw [hidx, readAt_of_drop_take (imageOfRow H row) row (r * row.length) hdt (row.length - 1)
    hlt0]
  have hlt : row.length - 1 < row.length := by omega
  have hl : row[row.length - 1] = last := by
    rw [List.getLast?_eq_getElem?] at hlast
    rw [List.getElem?_eq_getElem hlt] at hlast
    exact Option.some.inj hlast
  rw [hl]
  by_cases h0 : last = 0
  · simp [h0]
  · simp [h0]

/-- Run lengths of a row that is rendered from a leading white run `a`, an odd number of
non-empty runs `body` (bar, space, ..., bar) and a trailing white run `b`: the runs
themselves, narrowed to 16 bits. -/
theorem getPatternRow_render (a b : Nat) (body : List Nat) (hodd : body.length % 2 = 1)
    (hpos : ∀ r ∈ body, 1 ≤ r) (H r : Nat) (hr : r < H) :
    getPatternRow (imageOfRow H (pixelsOfRuns false (a :: (body ++ [b])))) H
        ((pixelsOfRuns false (a :: (body ++ [b]))).length : Nat) r
      = Res.ok ((a :: (body ++ [b])).map (fun x => x % 65536)) := by
  have hbne : body ≠ [] := by
    intro h
    rw [h] at hodd
    simp at hodd
  by_cases hb : b = 0
  · subst hb
    have hrow : pixelsOfRuns false (a :: (body ++ [0])) = pixelsOfRuns false (a :: body) := by
      have := pixelsOfRuns_append_zero (a :: body) false
      simpa using this
    rw [hrow]
    have hlastrun : 1 ≤ (a :: body).getLast (by simp) := by
      rw [List.getLast_cons hbne]
      exact hpos _ (List.getLast_mem hbne)
    have hlast := pixelsOfRuns_getLast (a :: body) false (by simp) hlastrun
    have hpar : ¬ ((a :: body).length % 2 = 1) := by
      simp only [List.length_cons]; omega
    simp only [hpar, if_false, Bool.not_false, if_true] at hlast
    rw [getPatternRow_imageOfRow _ H r hr 0 hlast]
    rw [scan_runs (a :: body) false 0 [] (by simp) (by simpa using hpos)]
    simp
  · have hb1 : 1 ≤ b := by omega
    have hlastrun : 1 ≤ (a :: (body ++ [b])).getLast (by simp) := by
      simp [List.getLast_cons, hb1]
    have hlast := pixelsOfRuns_getLast (a :: (body ++ [b])) false (by simp) hlastrun
    have hpar : (a :: (body ++ [b])).length % 2 = 1 := by
      simp only [List.length_cons, List.length_append, List.length_nil]; omega
    simp only [hpar, if_true, Bool.false_eq_true, if_false] at hlast
    rw [getPatternRow_imageOfRow _ H r hr 255 hlast]
    rw [scan_runs (a :: (body ++ [b])) false 0 [] (by simp) (by
      intro x hx
      simp only [List.tail_cons, List.mem_append, List.mem_singleton] at hx
      rcases hx with h | h
      · exact hpos x h
      · omega)]
    simp

/-! ## Digit strings and their windows -/

theorem nearPattern_append_split (k : Nat) : ∀ (p ps w : List Nat),
    NearPattern k w (p ++ ps) →
    ∃ w1 w2, w = w1 ++ w2 ∧ NearPattern k w1 p ∧ NearPattern k w2 ps
  | [], ps, w, h => ⟨[], w, rfl, trivial, h⟩
  | m :: ms, ps, [], h => by cases h
  | m :: ms, ps, c :: cs, h => by
    obtain ⟨h1, h2⟩ := h
    obtain ⟨w1, w2, e, n1, n2⟩ := nearPattern_append_split k ms ps cs h2
    exact ⟨c :: w1, w2, by rw [e]; rfl, ⟨h1, n1⟩, n2⟩

/-- Runs near the modules of the digits at `idxs` split into one window per digit. -/
theorem near_split (k : Nat) (table : List (List Nat)) :
    ∀ (idxs : List Nat) (w : List Nat), (∀ i ∈ idxs, i < table.length) →
      NearPattern k w (modulesOf table idxs) →
      ∃ ws : List (Nat × List Nat), ws.map Prod.fst = idxs ∧ windowRuns ws = w
        ∧ WindowsNear k table ws := by
  intro idxs
  induction idxs with
  | nil =>
    intro w _ h
    cases w with
    | nil => exact ⟨[], rfl, rfl, fun _ h => by cases h⟩
    | cons c cs => cases h
  | cons i rest ih =>
    intro w hlt h
    have hm : modulesOf table (i :: rest) = table.getD i [] ++ modulesOf table rest := by
      simp [modulesOf]
    rw [hm] at h
    obtain ⟨w1, w2, e, n1, n2⟩ := nearPattern_append_split k _ _ w h
    obtain ⟨ws, hf, hr, hn⟩ := ih w2 (fun j hj => hlt j (List.mem_cons_of_mem i hj)) n2
    refine ⟨(i, w1) :: ws, by simp [hf], by simp [windowRuns] at hr ⊢; rw [hr, e], ?_⟩
    intro iw hiw
    rcases List.mem_cons.mp hiw with h1 | h1
    · rw [h1]
      exact ⟨hlt i (List.mem_cons_self i rest), n1⟩
    · exact hn iw h1

theorem indexDigits_eq (ws : List (Nat × List Nat)) :
    indexDigits ws = (ws.map Prod.fst).map (fun (i : Nat) => ToDigit (Int.tmod (i : Int) 10)) := by
  simp [indexDigits]

theorem parityCode_eq (ws : List (Nat × List Nat)) : ∀ lg : Int,
    parityCode lg ws
      = (ws.map Prod.fst).foldl (fun (c : Int) (i : Nat) => 2 * c + (if (i : Int) ≥ 10 then 1 else 0)) lg := by
  induction ws with
  | nil => intro lg; rfl
  | cons iw rest ih =>
    intro lg
    simp only [parityCode, List.foldl_cons, List.map_cons] at ih ⊢
    exact ih _

theorem ToDigit_digitValue (c : Char) (h : 48 ≤ c.toNat ∧ c.toNat ≤ 57) :
    ToDigit (digitValue c : Int) = c := by
  unfold ToDigit digitValue
  have h1 : ¬ (((c.toNat - 48 : Nat) : Int) < 0 ∨ ((c.toNat - 48 : Nat) : Int) > 9) := by omega
  rw [if_neg h1]
  have h2 : 48 + ((c.toNat - 48 : Nat) : Int).toNat = c.toNat := by omega
  rw [h2]
  exact Char.ofNat_toNat c

theorem leftIndices_length (code : Nat) : ∀ (ds : List Nat) (bits : Nat),
    (leftIndices code bits ds).length = ds.length
  | [], _ => rfl
  | d :: ds, bits => by
    simp only [leftIndices, List.length_cons]
    rw [leftIndices_length code ds (bits - 1)]

theorem leftIndices_lt (code : Nat) : ∀ (ds : List Nat) (bits : Nat), (∀ d ∈ ds, d < 10) →
    ∀ i ∈ leftIndices code bits ds, i < 20
  | [], _, _, i, hi => by cases hi
  | d :: ds, bits, h, i, hi => by
    simp only [leftIndices, List.mem_cons] at hi
    rcases hi with h1 | h1
    · have hd := h d (List.mem_cons_self d ds)
      have hb : code / 2 ^ (bits - 1) % 2 < 2 := Nat.mod_lt _ (by decide)
      rw [h1]
      omega
    · exact leftIndices_lt code ds (bits - 1) (fun x hx => h x (List.mem_cons_of_mem d hx)) i h1

theorem leftIndices_digits (code : Nat) : ∀ (ds : List Nat) (bits : Nat), (∀ d ∈ ds, d < 10) →
    (leftIndices code bits ds).map (fun (i : Nat) => ToDigit (Int.tmod (i : Int) 10))
      = ds.map (fun (d : Nat) => ToDigit (d : Int))
  | [], _, _ => rfl
  | d :: ds, bits, h => by
    have hd := h d (List.mem_cons_self d ds)
    have ih := leftIndices_digits code ds (bits - 1)
      (fun x hx => h x (List.mem_cons_of_mem d hx))
    simp only [leftIndices, List.map_cons, ih]
    congr 2
    generalize code / 2 ^ (bits - 1) % 2 = bit
    rw [Int.tmod_eq_emod (by omega) (by decide)]
    omega

theorem leftIndices_code (code : Nat) : ∀ (ds : List Nat) (bits : Nat) (c : Int),
    ds.length = bits → (∀ d ∈ ds, d < 10) →
    (leftIndices code bits ds).foldl
        (fun (c : Int) (i : Nat) => 2 * c + (if (i : Int) ≥ 10 then 1 else 0)) c
      = c * 2 ^ bits + ((code % 2 ^ bits : Nat) : Int)
  | [], bits, c, hlen, _ => by
    simp only [List.length_nil] at hlen
    subst hlen
    simp [leftIndices, Nat.mod_one]
  | d :: ds, bits, c, hlen, h => by
    obtain ⟨b, rfl⟩ : ∃ b, bits = b + 1 := ⟨ds.length, by simp at hlen; omega⟩
    have hd := h d (List.mem_cons_self d ds)
    have ih := leftIndices_code code ds b
      (2 * c + ((code / 2 ^ b % 2 : Nat) : Int)) (by simpa using hlen)
      (fun x hx => h x (List.mem_cons_of_mem d hx))
    have hbit : (if ((d + 10 * (code / 2 ^ b % 2) : Nat) : Int) ≥ 10 then (1 : Int) else 0)
        = ((code / 2 ^ b % 2 : Nat) : Int) := by
      have hb : code / 2 ^ b % 2 < 2 := Nat.mod_lt _ (by decide)
      generalize code / 2 ^ b % 2 = bit at hb ⊢
      interval_cases bit
      · have : ¬ (((d + 10 * 0 : Nat) : Int) ≥ 10) := by omega
        simp only [this, if_false]; rfl
      · have : ((d + 10 * 1 : Nat) : Int) ≥ 10 := by omega
        simp only [this, if_true]; rfl
    simp only [leftIndices, List.foldl_cons, Nat.add_sub_cancel, hbit]
    rw [ih, Nat.mod_pow_succ]
    push_cast
    ring

theorem firstDigit_code (d0 : Nat) (h : d0 < 10) :
    (FIRST_DIGIT_ENCODINGS.getD d0 0).toNat < 2 ^ 6
    ∧ IndexOf FIRST_DIGIT_ENCODINGS (((FIRST_DIGIT_ENCODINGS.getD d0 0).toNat : Nat) : Int)
      = (d0 : Int) := by
  interval_cases d0 <;> decide

theorem digitValue_lt (c : Char) (h : 48 ≤ c.toNat ∧ c.toNat ≤ 57) : digitValue c < 10 := by
  unfold digitValue
  omega

/-- The table indices of the symbol of a digit string give the string back. -/
theorem symbol_indices_text (s : List Char) (hs : IsDigitString 13 s) :
    (symbolLeftIndices s).length = 6 ∧ (symbolRightIndices s).length = 6
    ∧ (∀ i ∈ symbolLeftIndices s, i < 20) ∧ (∀ i ∈ symbolRightIndices s, i < 10)
    ∧ IndexOf FIRST_DIGIT_ENCODINGS ((symbolLeftIndices s).foldl
        (fun (c : Int) (i : Nat) => 2 * c + (if (i : Int) ≥ 10 then 1 else 0)) 0) ≠ -1
    ∧ ToDigit (IndexOf FIRST_DIGIT_ENCODINGS ((symbolLeftIndices s).foldl
        (fun (c : Int) (i : Nat) => 2 * c + (if (i : Int) ≥ 10 then 1 else 0)) 0))
      :: ((symbolLeftIndices s).map (fun (i : Nat) => ToDigit (Int.tmod (i : Int) 10))
        ++ (symbolRightIndices s).map (fun (i : Nat) => ToDigit (Int.tmod (i : Int) 10)))
      = s := by
  obtain ⟨hlen, hdig⟩ := hs
  match s, hlen with
  | [c0, c1, c2, c3, c4, c5, c6, c7, c8, c9, c10, c11, c12], _ =>
    have hd : ∀ c ∈ [c0, c1, c2, c3, c4, c5, c6, c7, c8, c9, c10, c11, c12],
        digitValue c < 10 ∧ ToDigit (digitValue c : Int) = c :=
      fun c hc => ⟨digitValue_lt c (hdig c hc), ToDigit_digitValue c (hdig c hc)⟩
    have hleft : symbolLeftIndices [c0, c1, c2, c3, c4, c5, c6, c7, c8, c9, c10, c11, c12]
        = leftIndices (FIRST_DIGIT_ENCODINGS.getD (digitValue c0) 0).toNat 6
          [digitValue c1, digitValue c2, digitValue c3, digitValue c4, digitValue c5,
            digitValue c6] := rfl
    have hright : symbolRightIndices [c0, c1, c2, c3, c4, c5, c6, c7, c8, c9, c10, c11, c12]
        = [digitValue c7, digitValue c8, digitValue c9, digitValue c10, digitValue c11,
            digitValue c12] := rfl
    have hl10 : ∀ d ∈ [digitValue c1, digitValue c2, digitValue c3, digitValue c4,
        digitValue c5, digitValue c6], d < 10 := by
      intro d hd1
      simp only [List.mem_cons, List.mem_singleton, List.not_mem_nil, or_false] at hd1
      rcases hd1 with h | h | h | h | h | h <;> rw [h] <;> exact (hd _ (by simp)).1
    have hr10 : ∀ d ∈ [digitValue c7, digitValue c8, digitValue c9, digitValue c10,
        digitValue c11, digitValue c12], d < 10 := by
      intro d hd1
      simp only [List.mem_cons, List.mem_singleton, List.not_mem_nil, or_false] at hd1
      rcases hd1 with h | h | h | h | h | h <;> rw [h] <;> exact (hd _ (by simp)).1
    obtain ⟨hc64, hidx⟩ := firstDigit_code (digitValue c0) (hd c0 (by simp)).1
    have hcode := leftIndices_code (FIRST_DIGIT_ENCODINGS.getD (digitValue c0) 0).toNat
      [digitValue c1, digitValue c2, digitValue c3, digitValue c4, digitValue c5,
        digitValue c6] 6 0 rfl hl10
    rw [Nat.mod_eq_of_lt hc64] at hcode
    simp only [zero_mul, zero_add] at hcode
    rw [hleft, hright, hcode, hidx]
    refine ⟨by rw [leftIndices_length]; rfl, rfl, leftIndices_lt _ _ _ hl10, hr10, by omega, ?_⟩
    rw [leftIndices_digits _ _ _ hl10]
    have ht : ∀ d : Nat, d < 10 → Int.tmod (d : Int) 10 = (d : Int) := by
      intro d hd1
      rw [Int.tmod_eq_emod (by omega) (by decide)]
      omega
    simp only [List.map_cons, List.map_nil, List.cons_append, List.nil_append,
      ht _ (hd c7 (by simp)).1, ht _ (hd c8 (by simp)).1, ht _ (hd c9 (by simp)).1,
      ht _ (hd c10 (by simp)).1, ht _ (hd c11 (by simp)).1, ht _ (hd c12 (by simp)).1,
      (hd c0 (by simp)).2, (hd c1 (by simp)).2, (hd c2 (by simp)).2, (hd c3 (by simp)).2,
      (hd c4 (by simp)).2, (hd c5 (by simp)).2, (hd c6 (by simp)).2, (hd c7 (by simp)).2,
      (hd c8 (by simp)).2, (hd c9 (by simp)).2, (hd c10 (by simp)).2, (hd c11 (by simp)).2,
      (hd c12 (by simp)).2]

/-! ## Decoding a rendered symbol -/

theorem near_pos (k : Nat) (hk : 1 ≤ k) : ∀ (w p : List Nat), NearPattern k w p →
    (∀ m ∈ p, 1 ≤ m) → ∀ x ∈ w, 1 ≤ x
  | [], [], _, _, x, hx => by cases hx
  | [], _ :: _, h, _, _, _ => by cases h
  | _ :: _, [], h, _, _, _ => by cases h
  | c :: cs, m :: ms, h, hm, x, hx => by
    rcases List.mem_cons.mp hx with h1 | h1
    · rw [h1]
      have hm1 : 1 ≤ m := hm m (List.mem_cons_self m ms)
      have hkm : (k : Int) ≤ (k : Int) * (m : Int) := by
        have : k * 1 ≤ k * m := Nat.mul_le_mul_left k hm1
        have h2 : ((k * 1 : Nat) : Int) ≤ ((k * m : Nat) : Int) := by exact_mod_cast this
        push_cast at h2
        linarith
      have h3 := h.1
      have h4 := neg_le_abs ((c : Int) - (k : Int) * (m : Int))
      generalize (k : Int) * (m : Int) = km at *
      omega
    · exact near_pos k hk cs ms h.2 (fun y hy => hm y (List.mem_cons_of_mem m hy)) x h1

theorem modulesOf_pos (table : List (List Nat)) (htab : ∀ p ∈ table, ∀ m ∈ p, 1 ≤ m)
    (idxs : List Nat) : ∀ m ∈ modulesOf table idxs, 1 ≤ m := by
  intro m hm
  simp only [modulesOf, List.mem_flatten, List.mem_map] at hm
  obtain ⟨p, ⟨i, _, rfl⟩, hmp⟩ := hm
  by_cases hi : i < table.length
  · have hget : table.getD i [] = table[i] := by
      simp [List.getD, List.getElem?_eq_getElem hi]
    rw [hget] at hmp
    exact htab _ (List.getElem_mem hi) m hmp
  · have hget : table.getD i [] = [] := by
      simp [List.getD, List.getElem?_eq_none (not_lt.mp hi)]
    rw [hget] at hmp
    cases hmp

theorem map_mod_of_lt : ∀ (l : List Nat), (∀ x ∈ l, x < 65536) →
    l.map (fun x => x % 65536) = l
  | [], _ => rfl
  | x :: xs, h => by
    rw [List.map_cons, Nat.mod_eq_of_lt (h x (List.mem_cons_self x xs)),
      map_mod_of_lt xs (fun y hy => h y (List.mem_cons_of_mem x hy))]

/-- A row rendered from the symbol of `s` at `k` pixels per module, with digit runs `L` and
`R` within a tenth of a module of their nominal widths and every run below 65536, decodes
to exactly `s`, whatever the leading and trailing white runs and the number of rows. -/
theorem DoDecode_perturbed (s : List Char) (hs : IsDigitString 13 s) (k : Nat) (hk : 1 ≤ k)
    (hk2 : k < 65536) (L R : List Nat)
    (hL : NearPattern k L (modulesOf L_AND_G_PATTERNS (symbolLeftIndices s)))
    (hR : NearPattern k R (modulesOf L_PATTERNS (symbolRightIndices s)))
    (hfit : ∀ x ∈ L ++ R, x < 65536) (H : Nat) (hH : 1 ≤ H) (ql qr : Nat) :
    DoDecode
        (imageOfRow H (pixelsOfRuns false
          (ql :: (([k, k, k] ++ L ++ [k, k, k, k, k] ++ R ++ [k, k, k]) ++ [qr]))))
        ((pixelsOfRuns false
          (ql :: (([k, k, k] ++ L ++ [k, k, k, k, k] ++ R ++ [k, k, k]) ++ [qr]))).length : Nat)
        H
      = Res.ok [s] := by
  obtain ⟨hll, hrl, hl20, hr10, hcode, htext⟩ := symbol_indices_text s hs
  obtain ⟨lws, hlf, hlr, hln⟩ := near_split k L_AND_G_PATTERNS (symbolLeftIndices s) L
    (fun i hi => by simpa [L_AND_G_PATTERNS] using hl20 i hi) hL
  obtain ⟨rws, hrf, hrr, hrn⟩ := near_split k L_PATTERNS (symbolRightIndices s) R
    (fun i hi => by simpa [L_PATTERNS] using hr10 i hi) hR
  have hl6 : lws.length = 6 := by rw [← hll, ← hlf, List.length_map]
  have hr6 : rws.length = 6 := by rw [← hrl, ← hrf, List.length_map]
  have hLlen : L.length = 24 := by
    rw [← hlr, windowRuns_length k L_AND_G_PATTERNS goodTable_L_AND_G lws hln, hl6]
  have hRlen : R.length = 24 := by
    rw [← hrr, windowRuns_length k L_PATTERNS goodTable_L rws hrn, hr6]
  have hLpos := near_pos k hk L _ hL (modulesOf_pos L_AND_G_PATTERNS (by decide) _)
  have hRpos := near_pos k hk R _ hR (modulesOf_pos L_PATTERNS (by decide) _)
  have htxt : symbolText lws rws = s := by
    unfold symbolText
    rw [indexDigits_eq, indexDigits_eq, parityCode_eq, hlf, hrf]
    exact htext
  have hcode' : IndexOf FIRST_DIGIT_ENCODINGS (parityCode 0 lws) ≠ -1 := by
    rw [parityCode_eq, hlf]
    exact hcode
  -- the runs of every row
  have hbodyodd : ([k, k, k] ++ L ++ [k, k, k, k, k] ++ R ++ [k, k, k]).length % 2 = 1 := by
    simp only [List.length_append, List.length_cons, List.length_nil, hLlen, hRlen]
  have hbodypos : ∀ x ∈ [k, k, k] ++ L ++ [k, k, k, k, k] ++ R ++ [k, k, k], 1 ≤ x := by
    intro x hx
    simp only [List.mem_append, List.mem_cons, List.mem_singleton, List.not_mem_nil,
      or_false] at hx
    rcases hx with (((h | h) | h) | h) | h
    · rcases h with h | h | h <;> omega
    · exact hLpos x h
    · rcases h with h | h | h | h | h <;> omega
    · exact hRpos x h
    · rcases h with h | h | h <;> omega
  have hbodyfit : ∀ x ∈ [k, k, k] ++ L ++ [k, k, k, k, k] ++ R ++ [k, k, k], x < 65536 := by
    intro x hx
    simp only [List.mem_append, List.mem_cons, List.mem_singleton, List.not_mem_nil,
      or_false] at hx
    rcases hx with (((h | h) | h) | h) | h
    · rcases h with h | h | h <;> omega
    · exact hfit x (List.mem_append_left _ h)
    · rcases h with h | h | h | h | h <;> omega
    · exact hfit x (List.mem_append_right _ h)
    · rcases h with h | h | h <;> omega
  have hbars : (ql :: (([k, k, k] ++ L ++ [k, k, k, k, k] ++ R ++ [k, k, k]) ++ [qr])).map
        (fun x => x % 65536)
      = [ql % 65536, k, k, k] ++ (windowRuns lws ++ ([k, k, k, k, k]
        ++ (windowRuns rws ++ [k, k, k, qr % 65536]))) := by
    rw [List.map_cons, List.map_append, map_mod_of_lt _ hbodyfit, hlr, hrr]
    simp
  have hrow : ∀ r : Int, 0 ≤ r → r < (H : Int) →
      getPatternRow
        (imageOfRow H (pixelsOfRuns false
          (ql :: (([k, k, k] ++ L ++ [k, k, k, k, k] ++ R ++ [k, k, k]) ++ [qr]))))
        H ((pixelsOfRuns false
          (ql :: (([k, k, k] ++ L ++ [k, k, k, k, k] ++ R ++ [k, k, k]) ++ [qr]))).length : Nat)
        r
      = Res.ok ([ql % 65536, k, k, k] ++ (windowRuns lws ++ ([k, k, k, k, k]
        ++ (windowRuns rws ++ [k, k, k, qr % 65536])))) := by
    intro r h0 h1
    obtain ⟨r1, rfl⟩ := Int.eq_ofNat_of_zero_le h0
    have hr1 : r1 < H := by exact_mod_cast h1
    rw [← hbars]
    exact getPatternRow_render ql qr _ hbodyodd hbodypos H r1 hr1
  obtain ⟨bars, hbdef⟩ : ∃ bars, bars = [ql % 65536, k, k, k] ++ (windowRuns lws
      ++ ([k, k, k, k, k] ++ (windowRuns rws ++ [k, k, k, qr % 65536]))) := ⟨_, rfl⟩
  rw [← hbdef] at hrow
  have hatt := attempts_symbol k hk hk2 (ql % 65536) (qr % 65536) lws rws hl6 hr6 hln hrn bars
    hbdef hcode'
  rw [htxt] at hatt
  have hfirst := hatt ⟨[], PatternView.null⟩ []
  have hfix := hatt ⟨s, ⟨bars, some 57, 3⟩⟩ [s]
  have hins : setInsert s [s] = [s] := setInsert_idem s []
  rw [hins] at hfix
  exact DoDecode_same_rows _ _ (H : Int) (by exact_mod_cast hH) _ _ [s] hrow hfirst hfix

theorem nearPattern_exact (k : Nat) : ∀ p : List Nat, NearPattern k (p.map (fun m => k * m)) p
  | [] => trivial
  | m :: ms => by
    refine ⟨?_, nearPattern_exact k ms⟩
    push_cast
    simp

theorem modulesOf_le_four (table : List (List Nat)) (htab : ∀ p ∈ table, ∀ m ∈ p, m ≤ 4)
    (idxs : List Nat) : ∀ m ∈ modulesOf table idxs, m ≤ 4 := by
  intro m hm
  simp only [modulesOf, List.mem_flatten, List.mem_map] at hm
  obtain ⟨p, ⟨i, _, rfl⟩, hmp⟩ := hm
  by_cases hi : i < table.length
  · have hget : table.getD i [] = table[i] := by
      simp [List.getD, List.getElem?_eq_getElem hi]
    rw [hget] at hmp
    exact htab _ (List.getElem_mem hi) m hmp
  · have hget : table.getD i [] = [] := by
      simp [List.getD, List.getElem?_eq_none (not_lt.mp hi)]
    rw [hget] at hmp
    cases hmp

theorem renderRow_eq (k : Nat) (s : List Char) (ql qr : Nat) :
    renderRow k s ql qr
      = pixelsOfRuns false (ql :: (([k, k, k]
          ++ (modulesOf L_AND_G_PATTERNS (symbolLeftIndices s)).map (fun m => k * m)
          ++ [k, k, k, k, k]
          ++ (modulesOf L_PATTERNS (symbolRightIndices s)).map (fun m => k * m)
          ++ [k, k, k]) ++ [qr])) := by
  simp [renderRow, symbolModules]

/-- The rendering of a digit string at a module width whose widest run fits in 16 bits
decodes to exactly that string. -/
theorem DoDecode_render (s : List Char) (hs : IsDigitString 13 s) (k : Nat) (hk : 1 ≤ k)
    (hk4 : 4 * k < 65536) (H : Nat) (hH : 1 ≤ H) (ql qr : Nat) :
    DoDecode (imageOfRow H (renderRow k s ql qr)) ((renderRow k s ql qr).length : Nat) H
      = Res.ok [s] := by
  rw [renderRow_eq]
  apply DoDecode_perturbed s hs k hk (by omega) _ _ (nearPattern_exact k _)
    (nearPattern_exact k _) _ H hH
  intro x hx
  simp only [List.mem_append, List.mem_map] at hx
  rcases hx with ⟨m, hm, rfl⟩ | ⟨m, hm, rfl⟩
  · have := modulesOf_le_four L_AND_G_PATTERNS (by decide) _ m hm
    have h2 : k * m ≤ k * 4 := Nat.mul_le_mul_left k this
    omega
  · have := modulesOf_le_four L_PATTERNS (by decide) _ m hm
    have h2 : k * m ≤ k * 4 := Nat.mul_le_mul_left k this
    omega

/-- `DoDecode` on an image whose rows are rendered from one run sequence, from the attempts
on the narrowed runs. -/
theorem DoDecode_rendered_row (a b : Nat) (body : List Nat) (hodd : body.length % 2 = 1)
    (hpos : ∀ r ∈ body, 1 ≤ r) (H : Nat) (hH : 1 ≤ H) (res1 : PartialResult)
    (R1 : List (List Char))
    (hfirst : DoDecode.attempts (((a :: (body ++ [b])).map (fun x => x % 65536)).length + 1)
      (PatternView.ofBars ((a :: (body ++ [b])).map (fun x => x % 65536)))
      ⟨[], PatternView.null⟩ [] = Res.ok (res1, R1))
    (hfix : DoDecode.attempts (((a :: (body ++ [b])).map (fun x => x % 65536)).length + 1)
      (PatternView.ofBars ((a :: (body ++ [b])).map (fun x => x % 65536))) res1 R1
      = Res.ok (res1, R1)) :
    DoDecode (imageOfRow H (pixelsOfRuns false (a :: (body ++ [b]))))
        ((pixelsOfRuns false (a :: (body ++ [b]))).length : Nat) H
      = Res.ok R1 := by
  have hrow : ∀ r : Int, 0 ≤ r → r < (H : Int) →
      getPatternRow (imageOfRow H (pixelsOfRuns false (a :: (body ++ [b])))) H
        ((pixelsOfRuns false (a :: (body ++ [b]))).length : Nat) r
      = Res.ok ((a :: (body ++ [b])).map (fun x => x % 65536)) := by
    intro r h0 h1
    obtain ⟨r1, rfl⟩ := Int.eq_ofNat_of_zero_le h0
    have hr1 : r1 < H := by exact_mod_cast h1
    exact getPatternRow_render a b body hodd hpos H r1 hr1
  exact DoDecode_same_rows _ _ (H : Int) (by exact_mod_cast hH) _ res1 R1 hrow hfirst hfix

/-- C3 (amended): for every 13-digit string `s` whose last digit is not the EAN-13 check
digit of its first twelve digits, the rendering of `s` at a module width `k ≥ 1` with
`4 k < 65536`, on an image of fewer than `2 ^ 31` pixels (so that the `int` index
`rowNumber * width` of `getPatternRow` does not overflow), is decoded by `DoDecode` to
`{s}`: no check digit is enforced. -/
theorem no_checksum_enforcement (s : List Char) (hs : IsDigitString 13 s)
    (_hbad : (s.map digitValue).getD 12 0 ≠ checkDigit s) (k : Nat) (hk1 : 1 ≤ k)
    (hk4 : 4 * k < 65536) (H : Nat) (hH : 1 ≤ H) (ql qr : Nat) (_hql : 11 * k ≤ ql)
    (_hqr : 7 * k ≤ qr) (_hsize : H * (renderRow k s ql qr).length < 2147483648) :
    DoDecode (imageOfRow H (renderRow k s ql qr)) ((renderRow k s ql qr).length : Nat) H
      = Res.ok [s] :=
  DoDecode_render s hs k hk1 hk4 H hH ql qr

/-- Witness of `no_checksum_enforcement`: `0000000000001` (check digit 0) at 3 pixels per
module. -/
theorem no_checksum_enforcement_witness :
    DoDecode (imageOfRow 1 (renderRow 3 "0000000000001".toList 33 21))
        ((renderRow 3 "0000000000001".toList 33 21).length : Nat) (1 : Nat)
      = Res.ok ["0000000000001".toList] :=
  no_checksum_enforcement "0000000000001".toList (by decide) (by decide) 3 (by decide)
    (by decide) 1 (by decide) 33 21 (by decide) (by decide) (by decide!)

set_option maxRecDepth 100000 in
/-- C3 (counterexample): at 16384 pixels per module the 4-module runs of the digit 3 are
narrowed from 65536 to 0, and the rendering of the checksum-invalid `0000000000003` is not
decoded: `DoDecode` returns the empty set. -/
theorem wide_modules_are_not_decoded :
    (("0000000000003".toList).map digitValue).getD 12 0 ≠ checkDigit "0000000000003".toList
    ∧ DoDecode (imageOfRow 1 (renderRow 16384 "0000000000003".toList (11 * 16384) (7 * 16384)))
        ((renderRow 16384 "0000000000003".toList (11 * 16384) (7 * 16384)).length : Nat)
        (1 : Nat)
      = Res.ok [] := by
  refine ⟨by decide, ?_⟩
  rw [renderRow_eq]
  exact DoDecode_rendered_row _ _ _ (by decide) (by decide) 1 (by decide)
    ⟨" 00000000000".toList, PatternView.null⟩ [] (by decide!) (by decide!)


theorem IsPattern_start_guard (k : Nat) (hk : 1 ≤ k) (v : PatternView) (d sp : Int)
    (hd : v.data = some d) (hw : ListReads v.bars d [k, k, k]) :
    IsPattern v END_PATTERN sp QUIET_ZONE_LEFT 0
      = Res.ok (if (sp : ℚ) < 6 * (k : ℚ) - 1 then 0 else (k : ℚ)) := by
  rw [IsPattern_reads v d hd [k, k, k] END_PATTERN sp _ 0 rfl (by simp) hw]
  by_cases hsp : (sp : ℚ) < 6 * (k : ℚ) - 1
  · rw [if_pos hsp]
    have hm : ((([k, k, k].sum : Nat) : Int) : ℚ) / ((END_PATTERN.SUM : Int) : ℚ) = (k : ℚ) := by
      simp only [List.sum_cons, List.sum_nil, END_PATTERN]
      push_cast
      ring
    unfold isPatternOf
    have h1 : ¬ (END_PATTERN.SUM > END_PATTERN.size
        ∧ (([k, k, k].sum : Nat) : Int) < END_PATTERN.SUM) := by
      intro h
      exact absurd h.1 (by decide)
    rw [if_neg h1]
    simp only [hm]
    have h2 : QUIET_ZONE_LEFT ≠ 0 ∧ (sp : ℚ) < QUIET_ZONE_LEFT * (k : ℚ) - 1 :=
      ⟨by decide, by simpa [QUIET_ZONE_LEFT] using hsp⟩
    rw [if_pos h2]
  · rw [if_neg hsp]
    rw [isPatternOf_end k sp _ hk]
    intro h
    exact hsp (by simpa [QUIET_ZONE_LEFT] using h.2)

/-- C4 (amended): the rendering of `s` is decoded to `{s}` whatever the width `ql` of the
white run in front of the start guard (less than 6 modules, exactly 6 modules, none),
because the start guard of a rendering is the first bar of its row and is accepted without
a quiet-zone test; for a guard that is not the first bar, `IsPattern` accepts three runs of
`k` pixels exactly when the run before them is at least `6 k - 1` pixels wide. -/
theorem quiet_zone_boundary (s : List Char) (hs : IsDigitString 13 s) (k : Nat) (hk1 : 1 ≤ k)
    (hk4 : 4 * k < 65536) (H : Nat) (hH : 1 ≤ H) (ql qr : Nat) :
    DoDecode (imageOfRow H (renderRow k s ql qr)) ((renderRow k s ql qr).length : Nat) H
      = Res.ok [s]
    ∧ ∀ (v : PatternView) (d sp : Int), v.data = some d → ListReads v.bars d [k, k, k] →
        IsPattern v END_PATTERN sp QUIET_ZONE_LEFT 0
          = Res.ok (if (sp : ℚ) < 6 * (k : ℚ) - 1 then 0 else (k : ℚ)) :=
  ⟨DoDecode_render s hs k hk1 hk4 H hH ql qr,
    fun v d sp hd hw => IsPattern_start_guard k hk1 v d sp hd hw⟩

/-- Witness of `quiet_zone_boundary`: a leading white run of exactly 6 modules. -/
theorem quiet_zone_boundary_witness :
    DoDecode (imageOfRow 1 (renderRow 10 "4006381333931".toList 60 70))
        ((renderRow 10 "4006381333931".toList 60 70).length : Nat) (1 : Nat)
      = Res.ok ["4006381333931".toList] :=
  (quiet_zone_boundary "4006381333931".toList (by decide) 10 (by decide) (by decide) 1
    (by decide) 60 70).1

/-- C4 (counterexample): at 10 pixels per module a leading white run of 59 pixels (5.9
modules) does not prevent decoding: `DoDecode` returns `{4006381333931}`, not the empty
set. -/
theorem short_quiet_zone_is_decoded :
    DoDecode (imageOfRow 1 (renderRow 10 "4006381333931".toList 59 70))
        ((renderRow 10 "4006381333931".toList 59 70).length : Nat) (1 : Nat)
      = Res.ok ["4006381333931".toList]
    ∧ DoDecode (imageOfRow 1 (renderRow 10 "4006381333931".toList 59 70))
        ((renderRow 10 "4006381333931".toList 59 70).length : Nat) (1 : Nat)
      ≠ Res.ok [] := by
  have h := DoDecode_render "4006381333931".toList (by decide) 10 (by decide) (by decide) 1
    (by decide) 59 70
  refine ⟨h, ?_⟩
  rw [h]
  decide

/-- C10 (amended): for every 13-digit string `s` and module width `k ≥ 1`, a row obtained
from the rendering of `s` by changing the width of each digit run by at most a tenth of the
module width (every run staying below 65536) is decoded by `DoDecode` to exactly `{s}`. -/
theorem perturbed_symbol_decodes (s : List Char) (hs : IsDigitString 13 s) (k : Nat)
    (hk : 1 ≤ k) (hk2 : k < 65536) (L R : List Nat)
    (hL : NearPattern k L (modulesOf L_AND_G_PATTERNS (symbolLeftIndices s)))
    (hR : NearPattern k R (modulesOf L_PATTERNS (symbolRightIndices s)))
    (hfit : ∀ x ∈ L ++ R, x < 65536) (H : Nat) (hH : 1 ≤ H) (ql qr : Nat) :
    DoDecode
        (imageOfRow H (pixelsOfRuns false
          (ql :: (([k, k, k] ++ L ++ [k, k, k, k, k] ++ R ++ [k, k, k]) ++ [qr]))))
        ((pixelsOfRuns false
          (ql :: (([k, k, k] ++ L ++ [k, k, k, k, k] ++ R ++ [k, k, k]) ++ [qr]))).length : Nat)
        H
      = Res.ok [s] :=
  DoDecode_perturbed s hs k hk hk2 L R hL hR hfit H hH ql qr

/-- Witness of `perturbed_symbol_decodes`: `4006381333931` at 10 pixels per module with
digit runs changed by one pixel. -/
theorem perturbed_symbol_decodes_witness :
    DoDecode
        (imageOfRow 2 (pixelsOfRuns false
          (110 :: (([10, 10, 10] ++ noisyLeftRuns ++ [10, 10, 10, 10, 10] ++ noisyRightRuns
            ++ [10, 10, 10]) ++ [70]))))
        ((pixelsOfRuns false
          (110 :: (([10, 10, 10] ++ noisyLeftRuns ++ [10, 10, 10, 10, 10] ++ noisyRightRuns
            ++ [10, 10, 10]) ++ [70]))).length : Nat)
        (2 : Nat)
      = Res.ok ["4006381333931".toList] :=
  perturbed_symbol_decodes "4006381333931".toList (by decide) 10 (by decide) (by decide)
    noisyLeftRuns noisyRightRuns (by decide) (by decide) (by decide) 2 (by decide) 110 70

set_option maxRecDepth 1000000 in
/-- C10 (counterexample): in the rendering of `0000000000000` at one pixel per module the
runs 3, 2, 1, 1 of the last digit are changed to 2, 2, 2, 1; `DoDecode` returns
`{0000000000001}`, a 13-digit string different from the rendered one. -/
theorem perturbed_symbol_decodes_wrong :
    renderRow 1 "0000000000000".toList 11 7
      = pixelsOfRuns false (11 :: (([1, 1, 1] ++ zerosLeftRuns ++ [1, 1, 1, 1, 1]
          ++ zerosLeftRuns ++ [1, 1, 1]) ++ [7]))
    ∧ DoDecode
        (imageOfRow 1 (pixelsOfRuns false (11 :: (([1, 1, 1] ++ zerosLeftRuns
          ++ [1, 1, 1, 1, 1] ++ zerosRightRunsChanged ++ [1, 1, 1]) ++ [7]))))
        113 1
      = Res.ok ["0000000000001".toList]
    ∧ "0000000000001".toList ≠ "0000000000000".toList := by
  refine ⟨by decide, by decide!, by decide⟩

/-! ## Constant tables -/

/-- C20: entries 0..9 of `L_AND_G_PATTERNS` are the entries of `L_PATTERNS`, entries 10..19
are these with the four widths reversed; every entry of either table has four widths in
1..4 that sum to 7; the 20 entries of `L_AND_G_PATTERNS` are pairwise distinct. -/
theorem digit_tables :
    L_PATTERNS.length = 10 ∧ L_AND_G_PATTERNS.length = 20
    ∧ (∀ d : Nat, d < 10 → L_AND_G_PATTERNS.getD d [] = L_PATTERNS.getD d []
        ∧ L_AND_G_PATTERNS.getD (10 + d) [] = (L_PATTERNS.getD d []).reverse)
    ∧ (∀ p ∈ L_AND_G_PATTERNS, p.length = 4 ∧ (∀ m ∈ p, 1 ≤ m ∧ m ≤ 4) ∧ p.sum = 7)
    ∧ (∀ p ∈ L_PATTERNS, p.length = 4 ∧ (∀ m ∈ p, 1 ≤ m ∧ m ≤ 4) ∧ p.sum = 7)
    ∧ L_AND_G_PATTERNS.Nodup := by
  decide

/-! ## Malformed buffers -/

/-- C19 (amended): `DoDecode` called with height 0 performs no check: whatever the buffer
and the width, it scans no row and returns the empty candidate set. -/
theorem DoDecode_height_zero (image : List Nat) (width : Int) :
    DoDecode image width 0 = Res.ok [] := rfl

/-- C19 (counterexample): on the empty buffer with width 0 and height 0 `DoDecode` returns
the empty candidate set instead of failing. -/
theorem DoDecode_empty_buffer : DoDecode [] 0 0 = Res.ok [] := rfl

/-! ## First digit and parity code -/

theorem IndexOf_ge (l : List Int) (v : Int) : -1 ≤ IndexOf l v := by
  induction l with
  | nil => simp [IndexOf]
  | cons x xs ih =>
    simp only [IndexOf]
    split
    · omega
    · split <;> omega

theorem IndexOf_lt (l : List Int) (v : Int) : IndexOf l v < l.length := by
  induction l with
  | nil => simp [IndexOf]
  | cons x xs ih =>
    simp only [IndexOf, List.length_cons]
    push_cast
    split
    · omega
    · split <;> omega

theorem IndexOf_eq_neg_one (l : List Int) (v : Int) : IndexOf l v = -1 ↔ v ∉ l := by
  induction l with
  | nil => simp [IndexOf]
  | cons x xs ih =>
    have hge := IndexOf_ge xs v
    simp only [IndexOf, List.mem_cons, not_or]
    by_cases hx : x = v
    · simp [hx]
    · simp only [hx, if_false]
      have hvx : ¬ (v = x) := fun h => hx h.symm
      by_cases hr : IndexOf xs v = -1
      · simp only [hr, if_true, true_iff]
        exact ⟨hvx, ih.mp hr⟩
      · simp only [hr, if_false]
        constructor
        · intro h; omega
        · intro h; exact absurd (ih.mpr h.2) hr

/-- `EAN13` once the guards and the twelve digits have matched: the outcome is decided by
the lookup of the parity code. -/
theorem EAN13_after_digits (res : PartialResult) (begin next1 next2 : PatternView) (m : ℚ)
    (txt1 txt2 : List Char) (code : Int) (lg2 : Option Int)
    (hvalid : (begin.subView 56 END_PATTERN.size).isValid = true)
    (hright : IsRightGuard (begin.subView 56 END_PATTERN.size) END_PATTERN
      QUIET_ZONE_RIGHT_EAN = Res.ok true)
    (hmid : IsPattern (begin.subView 27 MID_PATTERN.size) MID_PATTERN 0 0 0 = Res.ok m)
    (hm : m ≠ 0)
    (hleft : DecodeDigits 6 (begin.subView END_PATTERN.size CHAR_LEN) [' '] (some 0)
      = Res.ok (true, next1, txt1, some code))
    (hrightDigits : DecodeDigits 6 (next1.subView MID_PATTERN.size CHAR_LEN) txt1 none
      = Res.ok (true, next2, txt2, lg2)) :
    EAN13 res begin
      = Res.ok (if IndexOf FIRST_DIGIT_ENCODINGS code ≠ -1
          then (true, ⟨txt2.set 0 (ToDigit (IndexOf FIRST_DIGIT_ENCODINGS code)),
            begin.subView 56 END_PATTERN.size⟩)
          else (false, ⟨txt2, res.end_⟩)) := by
  unfold EAN13
  simp only [hvalid, hright, hmid, hm, hleft, hrightDigits, if_true, ne_eq, not_false_eq_true,
    Option.getD_some]
  split <;> rfl

/-- C16: an `EAN13` attempt whose guards and twelve digits matched succeeds exactly when
the parity code is one of the ten values of `FIRST_DIGIT_ENCODINGS`; the ten values are
0x00, 0x0B, 0x0D, 0x0E, 0x13, 0x19, 0x1C, 0x15, 0x16, 0x1A and pairwise distinct; character
0 of the result is the digit whose table index holds the code; for every other code
`IndexOf` returns -1 and the attempt fails. -/
theorem first_digit_resolution (res : PartialResult) (begin next1 next2 : PatternView)
    (m : ℚ) (txt1 txt2 : List Char) (code : Int) (lg2 : Option Int)
    (hvalid : (begin.subView 56 END_PATTERN.size).isValid = true)
    (hright : IsRightGuard (begin.subView 56 END_PATTERN.size) END_PATTERN
      QUIET_ZONE_RIGHT_EAN = Res.ok true)
    (hmid : IsPattern (begin.subView 27 MID_PATTERN.size) MID_PATTERN 0 0 0 = Res.ok m)
    (hm : m ≠ 0)
    (hleft : DecodeDigits 6 (begin.subView END_PATTERN.size CHAR_LEN) [' '] (some 0)
      = Res.ok (true, next1, txt1, some code))
    (hrightDigits : DecodeDigits 6 (next1.subView MID_PATTERN.size CHAR_LEN) txt1 none
      = Res.ok (true, next2, txt2, lg2)) :
    (code ∈ FIRST_DIGIT_ENCODINGS →
      EAN13 res begin
        = Res.ok (true, ⟨txt2.set 0 (ToDigit (IndexOf FIRST_DIGIT_ENCODINGS code)),
            begin.subView 56 END_PATTERN.size⟩))
    ∧ (code ∉ FIRST_DIGIT_ENCODINGS →
      IndexOf FIRST_DIGIT_ENCODINGS code = -1
      ∧ EAN13 res begin = Res.ok (false, ⟨txt2, res.end_⟩))
    ∧ FIRST_DIGIT_ENCODINGS = [0x00, 0x0B, 0x0D, 0x0E, 0x13, 0x19, 0x1C, 0x15, 0x16, 0x1A]
    ∧ FIRST_DIGIT_ENCODINGS.Nodup
    ∧ (∀ d : Nat, d < 10 →
        IndexOf FIRST_DIGIT_ENCODINGS (FIRST_DIGIT_ENCODINGS.getD d 0) = (d : Int)) := by
  have h := EAN13_after_digits res begin next1 next2 m txt1 txt2 code lg2 hvalid hright hmid
    hm hleft hrightDigits
  refine ⟨?_, ?_, rfl, by decide, by decide⟩
  · intro hin
    have hne : IndexOf FIRST_DIGIT_ENCODINGS code ≠ -1 :=
      fun h1 => (IndexOf_eq_neg_one _ _).mp h1 hin
    rw [h, if_pos hne]
  · intro hnot
    have heq : IndexOf FIRST_DIGIT_ENCODINGS code = -1 := (IndexOf_eq_neg_one _ _).mpr hnot
    refine ⟨heq, ?_⟩
    rw [h, if_neg (by rw [heq]; decide)]

set_option maxRecDepth 100000 in
/-- Witness of `first_digit_resolution`: the symbol `4006381333931`, whose parity code 0x13
is entry 4 of the table. -/
theorem first_digit_resolution_witness :
    EAN13 ⟨[], PatternView.null⟩ ⟨sampleBars, some 1, 3⟩
      = Res.ok (true, ⟨(" 006381333931".toList).set 0
          (ToDigit (IndexOf FIRST_DIGIT_ENCODINGS 0x13)),
          PatternView.subView ⟨sampleBars, some 1, 3⟩ 56 END_PATTERN.size⟩) :=
  (first_digit_resolution ⟨[], PatternView.null⟩ ⟨sampleBars, some 1, 3⟩
    ⟨sampleBars, some 28, 4⟩ ⟨sampleBars, some 57, 4⟩ 1 " 006381".toList
    " 006381333931".toList 0x13 none (by decide) (by decide!) (by decide!) (by decide)
    (by decide!) (by decide!)).1 (by decide)

theorem DecodeDigit_loop_range (counters : PatternView) (lim : ℚ) (amb : Bool) :
    ∀ (patterns : List (List Nat)) (i : Int) (bv : ℚ) (bm r : Int),
      DecodeDigit.loop counters lim amb patterns i bv bm = Res.ok r →
      r = bm ∨ r = -1 ∨ (i ≤ r ∧ r < i + patterns.length) := by
  intro patterns
  induction patterns with
  | nil =>
    intro i bv bm r h
    simp only [DecodeDigit.loop, Res.ok.injEq] at h
    exact Or.inl h.symm
  | cons p ps ih =>
    intro i bv bm r h
    rw [DecodeDigit.loop] at h
    cases hv : PatternMatchVariance counters p lim with
    | outOfRange => rw [hv] at h; cases h
    | outOfFuel => rw [hv] at h; cases h
    | ok v =>
      rw [hv] at h
      simp only at h
      simp only [List.length_cons]
      push_cast
      split at h
      · rcases ih (i + 1) v i r h with h1 | h1 | h1
        · right; right; omega
        · exact Or.inr (Or.inl h1)
        · right; right; omega
      · split at h
        · rcases ih (i + 1) bv (-1) r h with h1 | h1 | h1
          · exact Or.inr (Or.inl h1)
          · exact Or.inr (Or.inl h1)
          · right; right; omega
        · rcases ih (i + 1) bv bm r h with h1 | h1 | h1
          · exact Or.inl h1
          · exact Or.inr (Or.inl h1)
          · right; right; omega

/-- The template `DecodeDigit` returns -1 or an index of the table. -/
theorem DecodeDigitIndex_range (counters : PatternView) (patterns : List (List Nat))
    (avg lim : ℚ) (amb : Bool) (r : Int)
    (h : DecodeDigitIndex counters patterns avg lim amb = Res.ok r) :
    r = -1 ∨ (0 ≤ r ∧ r < patterns.length) := by
  rcases DecodeDigit_loop_range counters lim amb patterns 0 avg (-1) r h with h1 | h1 | h1
  · exact Or.inl h1
  · exact Or.inl h1
  · right; omega

theorem ToDigit_toNat (i : Int) (h0 : 0 ≤ i) (h9 : i ≤ 9) : (ToDigit i).toNat = 48 + i.toNat := by
  unfold ToDigit
  have h : ¬ (i < 0 ∨ i > 9) := by omega
  rw [if_neg h]
  interval_cases i <;> rfl

theorem DecodeDigit_of_index_LG (view : PatternView) (txt : List Char) (lg b : Int)
    (h : DecodeDigitIndex view L_AND_G_PATTERNS MAX_AVG_VARIANCE MAX_INDIVIDUAL_VARIANCE false
      = Res.ok b) :
    DecodeDigit view txt (some lg)
      = Res.ok (if b = -1 then (false, txt, some lg)
          else (true, txt ++ [ToDigit (Int.tmod b 10)], some (2 * lg + parityBit b))) := by
  unfold DecodeDigit
  simp only [h]
  split <;> rfl

theorem DecodeDigit_of_index_L (view : PatternView) (txt : List Char) (b : Int)
    (h : DecodeDigitIndex view L_PATTERNS MAX_AVG_VARIANCE MAX_INDIVIDUAL_VARIANCE false
      = Res.ok b) :
    DecodeDigit view txt none
      = Res.ok (if b = -1 then (false, txt, none)
          else (true, txt ++ [ToDigit (Int.tmod b 10)], none)) := by
  unfold DecodeDigit
  simp only [h]
  split <;> rfl

/-- A successful `DecodeDigits` with a parity code: the matched indices, the appended
digits and the code. -/
theorem DecodeDigits_success_LG : ∀ (n : Nat) (view next1 : PatternView) (txt txt1 : List Char)
    (lg : Int) (lg1 : Option Int),
    DecodeDigits n view txt (some lg) = Res.ok (true, next1, txt1, lg1) →
    ∃ bs : List Int, bs.length = n ∧ MatchedDigits L_AND_G_PATTERNS view bs
      ∧ txt1 = txt ++ bs.map (fun b => ToDigit (Int.tmod b 10))
      ∧ lg1 = some (bs.foldl (fun c b => 2 * c + parityBit b) lg)
  | 0, view, next1, txt, txt1, lg, lg1, h => by
    simp only [DecodeDigits, Res.ok.injEq, Prod.mk.injEq, true_and] at h
    exact ⟨[], rfl, trivial, by simp [h.2.1], by simp [h.2.2]⟩
  | n + 1, view, next1, txt, txt1, lg, lg1, h => by
    rw [DecodeDigits] at h
    cases hb : DecodeDigitIndex view L_AND_G_PATTERNS MAX_AVG_VARIANCE
        MAX_INDIVIDUAL_VARIANCE false with
    | outOfRange =>
      have : DecodeDigit view txt (some lg) = Res.outOfRange := by
        unfold DecodeDigit; simp only [hb]
      rw [this] at h; cases h
    | outOfFuel =>
      have : DecodeDigit view txt (some lg) = Res.outOfFuel := by
        unfold DecodeDigit; simp only [hb]
      rw [this] at h; cases h
    | ok b =>
      rw [DecodeDigit_of_index_LG view txt lg b hb] at h
      by_cases hb1 : b = -1
      · rw [if_pos hb1] at h
        simp at h
      · rw [if_neg hb1] at h
        simp only at h
        obtain ⟨bs, hlen, hm, ht, hl⟩ := DecodeDigits_success_LG n _ next1 _ txt1 _ lg1 h
        refine ⟨b :: bs, by simp [hlen], ⟨hb, hb1, hm⟩, ?_, ?_⟩
        · rw [ht]; simp
        · rw [hl]; simp

/-- C17: when the template `DecodeDigit` matches table index `b` (`b ≠ -1`), `DecodeDigit`
appends exactly one character, the ASCII digit of `b mod 10`, and with the 20-entry table
it replaces the parity code `c` by `2 c + (1 if b ≥ 10 else 0)`; on a failed match (`-1`)
the text and the parity code are unchanged; after six left digits with matched indices
`b1 .. b6` the code is the 6-bit number whose most significant bit belongs to `b1`. -/
theorem digit_value_and_parity (view : PatternView) (txt : List Char) (lg : Int) :
    (∀ b : Int,
      DecodeDigitIndex view L_AND_G_PATTERNS MAX_AVG_VARIANCE MAX_INDIVIDUAL_VARIANCE false
        = Res.ok b →
      (b = -1 → DecodeDigit view txt (some lg) = Res.ok (false, txt, some lg))
      ∧ (b ≠ -1 →
          DecodeDigit view txt (some lg)
            = Res.ok (true, txt ++ [ToDigit (Int.tmod b 10)],
                some (2 * lg + (if b ≥ 10 then 1 else 0)))
          ∧ 0 ≤ b ∧ b < 20 ∧ (ToDigit (Int.tmod b 10)).toNat = 48 + (b % 10).toNat))
    ∧ (∀ b : Int,
      DecodeDigitIndex view L_PATTERNS MAX_AVG_VARIANCE MAX_INDIVIDUAL_VARIANCE false
        = Res.ok b →
      (b = -1 → DecodeDigit view txt none = Res.ok (false, txt, none))
      ∧ (b ≠ -1 →
          DecodeDigit view txt none = Res.ok (true, txt ++ [ToDigit (Int.tmod b 10)], none)
          ∧ 0 ≤ b ∧ b < 10 ∧ (ToDigit (Int.tmod b 10)).toNat = 48 + (b % 10).toNat))
    ∧ (∀ (next1 : PatternView) (txt1 : List Char) (lg1 : Option Int),
      DecodeDigits 6 view txt (some 0) = Res.ok (true, next1, txt1, lg1) →
      ∃ b1 b2 b3 b4 b5 b6 : Int,
        MatchedDigits L_AND_G_PATTERNS view [b1, b2, b3, b4, b5, b6]
        ∧ txt1 = txt ++ [ToDigit (Int.tmod b1 10), ToDigit (Int.tmod b2 10),
            ToDigit (Int.tmod b3 10), ToDigit (Int.tmod b4 10), ToDigit (Int.tmod b5 10),
            ToDigit (Int.tmod b6 10)]
        ∧ lg1 = some (32 * parityBit b1 + 16 * parityBit b2 + 8 * parityBit b3
            + 4 * parityBit b4 + 2 * parityBit b5 + parityBit b6)) := by
  refine ⟨?_, ?_, ?_⟩
  · intro b hb
    have h := DecodeDigit_of_index_LG view txt lg b hb
    refine ⟨fun h1 => by rw [h, if_pos h1], fun h1 => ?_⟩
    have hr := DecodeDigitIndex_range _ _ _ _ _ _ hb
    have hlen : (L_AND_G_PATTERNS.length : Int) = 20 := rfl
    rw [hlen] at hr
    have h0 : 0 ≤ b := by omega
    have h20 : b < 20 := by omega
    refine ⟨by rw [h, if_neg h1]; rfl, h0, h20, ?_⟩
    rw [Int.tmod_eq_emod h0 (by decide)]
    exact ToDigit_toNat _ (by omega) (by omega)
  · intro b hb
    have h := DecodeDigit_of_index_L view txt b hb
    refine ⟨fun h1 => by rw [h, if_pos h1], fun h1 => ?_⟩
    have hr := DecodeDigitIndex_range _ _ _ _ _ _ hb
    have hlen : (L_PATTERNS.length : Int) = 10 := rfl
    rw [hlen] at hr
    have h0 : 0 ≤ b := by omega
    have h10 : b < 10 := by omega
    refine ⟨by rw [h, if_neg h1], h0, h10, ?_⟩
    rw [Int.tmod_eq_emod h0 (by decide)]
    exact ToDigit_toNat _ (by omega) (by omega)
  · intro next1 txt1 lg1 h
    obtain ⟨bs, hlen, hm, ht, hl⟩ := DecodeDigits_success_LG 6 view next1 txt txt1 0 lg1 h
    match bs, hlen with
    | [b1, b2, b3, b4, b5, b6], _ =>
      refine ⟨b1, b2, b3, b4, b5, b6, hm, by simpa using ht, ?_⟩
      rw [hl]
      simp only [List.foldl_cons, List.foldl_nil]
      congr 1
      ring


set_option maxRecDepth 100000 in
/-- Witness of `digit_value_and_parity`: the second digit window of `4006381333931` matches
entry 10 (the mirrored 0). -/
theorem digit_value_and_parity_witness :
    DecodeDigit ⟨sampleBars, some 8, 4⟩ [' ', '0'] (some 0)
      = Res.ok (true, [' ', '0'] ++ [ToDigit (Int.tmod 10 10)],
          some (2 * 0 + (if (10 : Int) ≥ 10 then 1 else 0))) :=
  (((digit_value_and_parity ⟨sampleBars, some 8, 4⟩ [' ', '0'] 0).1 10 (by decide!)).2
    (by decide)).1

/-! ## Row order -/

theorem rowSequence_succ (height : Int) (n : Nat) (i : Int) :
    DoDecode.rowSequence height (n + 1) i
      = if rowOfIteration height i < 0 ∨ rowOfIteration height i ≥ height then []
        else rowOfIteration height i :: DoDecode.rowSequence height n (i + 1) := rfl

/-- The row loop of `DoDecode` does the work of `DoDecode.scanRows` on the rows of
`DoDecode.rowSequence`. -/
theorem rows_eq_scanRows (image : List Nat) (width height : Int) :
    ∀ (n : Nat) (i : Int) (res : PartialResult) (result : List (List Char)),
      DoDecode.rows image width height n i res result
        = DoDecode.scanRows image width height (DoDecode.rowSequence height n i) res result := by
  intro n
  induction n with
  | zero => intro i res result; rfl
  | succ n ih =>
    intro i res result
    rw [rows_succ, rowSequence_succ]
    by_cases hrange : rowOfIteration height i < 0 ∨ rowOfIteration height i ≥ height
    · rw [if_pos hrange, if_pos hrange]
      rfl
    · rw [if_neg hrange, if_neg hrange, DoDecode.scanRows]
      cases hg : getPatternRow image height width (rowOfIteration height i) with
      | outOfRange => rfl
      | outOfFuel => rfl
      | ok bars =>
        simp only
        cases ha : DoDecode.attempts (bars.length + 1) (PatternView.ofBars bars) res result with
        | outOfRange => rfl
        | outOfFuel => rfl
        | ok p =>
          obtain ⟨res1, result1⟩ := p
          simp only
          exact ih (i + 1) res1 result1

theorem rowOfIteration_nat (H i : Nat) :
    rowOfIteration (H : Int) (i : Int)
      = (H : Int) / 2 + (if i % 2 = 0 then ((i : Int) + 1) / 2 else -(((i : Int) + 1) / 2)) := by
  unfold rowOfIteration
  rw [Int.tdiv_eq_ediv (by omega) (by decide), Int.tdiv_eq_ediv (by omega) (by decide),
    Int.tmod_eq_emod (by omega) (by decide)]
  by_cases hpar : i % 2 = 0
  · have h1 : ((i : Int) % 2 == 0) = true := by
      simp only [beq_iff_eq]; omega
    rw [if_pos h1, if_pos hpar]
    ring
  · have h1 : ¬ (((i : Int) % 2 == 0) = true) := by
      simp only [beq_iff_eq]; omega
    rw [if_neg h1, if_neg hpar]
    ring

theorem rowOfIteration_inRange (H i : Nat) (hi : i < H) :
    0 ≤ rowOfIteration (H : Int) (i : Int) ∧ rowOfIteration (H : Int) (i : Int) < (H : Int) := by
  rw [rowOfIteration_nat]
  by_cases hpar : i % 2 = 0
  · rw [if_pos hpar]; omega
  · rw [if_neg hpar]; omega

/-- With `H` iterations over a height of `H` rows no iteration leaves the image. -/
theorem rowSequence_eq_map (H : Nat) : ∀ (n i : Nat), i + n ≤ H →
    DoDecode.rowSequence (H : Int) n (i : Int)
      = (List.range' i n).map (fun j : Nat => rowOfIteration (H : Int) (j : Int)) := by
  intro n
  induction n with
  | zero => intro i _; rfl
  | succ n ih =>
    intro i h
    obtain ⟨h0, h1⟩ := rowOfIteration_inRange H i (by omega)
    have hrange : ¬ (rowOfIteration (H : Int) (i : Int) < 0
        ∨ rowOfIteration (H : Int) (i : Int) ≥ (H : Int)) := by
      intro hc
      rcases hc with hc | hc <;> omega
    rw [rowSequence_succ, if_neg hrange]
    have := ih (i + 1) (by omega)
    push_cast at this
    rw [this]
    rfl


theorem rowSequence_full (H : Nat) :
    DoDecode.rowSequence (H : Int) H 0
      = (List.range H).map (fun i : Nat =>
          (H : Int) / 2 + (if i % 2 = 0 then ((i : Int) + 1) / 2 else -(((i : Int) + 1) / 2))) := by
  have h := rowSequence_eq_map H H 0 (by omega)
  rw [List.range_eq_range']
  simp only [Nat.cast_zero] at h
  rw [h]
  apply List.map_congr_left
  intro j _
  exact rowOfIteration_nat H j

/-- C12 (amended): for every height `H` the `i`-th row `DoDecode` scans is
`middle + (i + 1) / 2` for even `i` and `middle - (i + 1) / 2` for odd `i`, with
`middle = H / 2`: the sequence `middle, middle - 1, middle + 1, middle - 2, middle + 2, ...`,
the row above the middle before the row below it at each distance; `DoDecode` does its
work on exactly these rows in this order, and the loop stops at the first row number
outside `[0, H)`. -/
theorem row_order (H : Nat) :
    DoDecode.rowSequence (H : Int) H 0
      = (List.range H).map (fun i : Nat =>
          (H : Int) / 2 + (if i % 2 = 0 then ((i : Int) + 1) / 2 else -(((i : Int) + 1) / 2)))
    ∧ (∀ (image : List Nat) (width : Int),
        DoDecode image width H
          = DoDecode.scanRows image width H (DoDecode.rowSequence (H : Int) H 0)
              ⟨[], PatternView.null⟩ [])
    ∧ (∀ (n : Nat) (i : Int),
        (rowOfIteration (H : Int) i < 0 ∨ rowOfIteration (H : Int) i ≥ (H : Int)) →
        DoDecode.rowSequence (H : Int) (n + 1) i = []) := by
  refine ⟨rowSequence_full H, ?_, ?_⟩
  · intro image width
    unfold DoDecode
    rw [Int.toNat_natCast]
    exact rows_eq_scanRows image width H H 0 _ _
  · intro n i h
    rw [rowSequence_succ, if_pos h]

/-- Witness of `row_order`: with height 3 the loop would stop at iteration 3, whose row
number 1 - 2 is outside the image. -/
theorem row_order_witness : DoDecode.rowSequence ((3 : Nat) : Int) (0 + 1) 3 = [] :=
  (row_order 3).2.2 0 3 (by decide)

/-- C12 (counterexample): with 3 rows the rows are scanned in the order 1, 0, 2, not in
the order 1, 2, 0 (middle, middle + 1, middle - 1). -/
theorem row_order_above_first :
    DoDecode.rowSequence 3 3 0 = [1, 0, 2] ∧ DoDecode.rowSequence 3 3 0 ≠ [1, 2, 0] := by
  decide

theorem rowOfIteration_injective (H i j : Nat)
    (h : rowOfIteration (H : Int) (i : Int) = rowOfIteration (H : Int) (j : Int)) : i = j := by
  rw [rowOfIteration_nat, rowOfIteration_nat] at h
  by_cases hi : i % 2 = 0 <;> by_cases hj : j % 2 = 0
  · rw [if_pos hi, if_pos hj] at h; omega
  · rw [if_pos hi, if_neg hj] at h; omega
  · rw [if_neg hi, if_pos hj] at h; omega
  · rw [if_neg hi, if_neg hj] at h; omega

/-- C13: for every height `H ≥ 1` the rows `DoDecode` scans are a permutation of
`0 .. H - 1`: all `H` iterations scan a row (the loop is never left early), no row is
scanned twice and every row is scanned. -/
theorem row_coverage (H : Nat) (_hH : 1 ≤ H) :
    (DoDecode.rowSequence (H : Int) H 0).length = H
    ∧ (DoDecode.rowSequence (H : Int) H 0).Nodup
    ∧ (DoDecode.rowSequence (H : Int) H 0).Perm ((List.range H).map (fun r : Nat => (r : Int)))
    ∧ (∀ r : Nat, r < H → (r : Int) ∈ DoDecode.rowSequence (H : Int) H 0) := by
  have h := rowSequence_eq_map H H 0 (by omega)
  simp only [Nat.cast_zero] at h
  rw [← List.range_eq_range'] at h
  have hlen : (DoDecode.rowSequence (H : Int) H 0).length = H := by
    rw [h, List.length_map, List.length_range]
  have hnodup : (DoDecode.rowSequence (H : Int) H 0).Nodup := by
    rw [h]
    exact List.Nodup.map_on (fun x _ y _ hxy => rowOfIteration_injective H x y hxy)
      (List.nodup_range H)
  have hsub : DoDecode.rowSequence (H : Int) H 0 ⊆ (List.range H).map (fun r : Nat => (r : Int)) := by
    intro x hx
    rw [h] at hx
    obtain ⟨i, hi, rfl⟩ := List.mem_map.mp hx
    obtain ⟨h0, h1⟩ := rowOfIteration_inRange H i (List.mem_range.mp hi)
    refine List.mem_map.mpr ⟨(rowOfIteration (H : Int) (i : Int)).toNat, ?_, ?_⟩
    · rw [List.mem_range]; omega
    · omega
  have hperm : (DoDecode.rowSequence (H : Int) H 0).Perm
      ((List.range H).map (fun r : Nat => (r : Int))) := by
    apply List.Subperm.perm_of_length_le (List.subperm_of_subset hnodup hsub)
    rw [hlen, List.length_map, List.length_range]
  refine ⟨hlen, hnodup, hperm, ?_⟩
  intro r hr
  exact hperm.symm.subset (List.mem_map.mpr ⟨r, List.mem_range.mpr hr, rfl⟩)

/-- Witness of `row_coverage`: four rows. -/
theorem row_coverage_witness :
    (DoDecode.rowSequence ((4 : Nat) : Int) 4 0).length = 4 :=
  (row_coverage 4 (by decide)).1

/-! ## Run sequences of arbitrary rows -/

theorem rowPixels_length (image : List Nat) (w r : Nat) (hb : r * w + w ≤ image.length) :
    (rowPixels image w r).length = w := by
  unfold rowPixels
  rw [List.length_take, List.length_drop]
  omega

theorem finalVal_eq_getLast : ∀ (row : List Nat) (lv : Bool) (hne : row ≠ []),
    finalVal row lv = (row.getLast hne == 0)
  | [], _, hne => absurd rfl hne
  | [_], _, _ => rfl
  | px :: q :: qs, lv, _ => by
    rw [finalVal, finalVal_eq_getLast (q :: qs) (px == 0) (by simp)]
    simp [List.getLast_cons]

theorem getD_of_readAt (l : List Nat) (n c : Nat) (h : readAt l (n : Int) = Res.ok c) :
    l.getD n 0 = c := by
  unfold readAt at h
  have h0 : ¬ ((n : Int) < 0) := by omega
  rw [if_neg h0, Int.toNat_natCast] at h
  cases hg : l.get? n with
  | none => rw [hg] at h; cases h
  | some x =>
    rw [hg] at h
    simp only [Res.ok.injEq] at h
    rw [List.get?_eq_getElem?] at hg
    simp [List.getD, hg, h]

/-- The last pixel of a row inside the image is black exactly when the pixel loop ends in a
black run. -/
theorem finalVal_rowPixels (image : List Nat) (w r : Nat) (hw : 1 ≤ w)
    (hb : r * w + w ≤ image.length) :
    finalVal (rowPixels image w r) false = true ↔ image.getD (r * w + w - 1) 0 = 0 := by
  have hlen := rowPixels_length image w r hb
  have hne : rowPixels image w r ≠ [] := by
    intro h
    rw [h] at hlen
    simp at hlen
    omega
  have hdt : (image.drop (r * w)).take (rowPixels image w r).length = rowPixels image w r := by
    rw [hlen]; rfl
  have hlt : w - 1 < (rowPixels image w r).length := by omega
  have hread := readAt_of_drop_take image (rowPixels image w r) (r * w) hdt (w - 1) hlt
  have hcast : ((r * w : Nat) : Int) + ((w - 1 : Nat) : Int) = ((r * w + w - 1 : Nat) : Int) := by
    omega
  rw [hcast] at hread
  rw [getD_of_readAt image _ _ hread, finalVal_eq_getLast _ false hne]
  have hlast : (rowPixels image w r)[w - 1] = (rowPixels image w r).getLast hne := by
    rw [List.getLast_eq_getElem]
    congr 1
    omega
  rw [hlast]
  simp

/-- `getPatternRow` on a row inside the image: the scan of its pixels, and a trailing 0 when
the last pixel is black. -/
theorem getPatternRow_eq (image : List Nat) (height : Int) (w r : Nat) (hw : 1 ≤ w)
    (hb : r * w + w ≤ image.length) :
    getPatternRow image height w r
      = Res.ok (getPatternRow.scan (rowPixels image w r) 0 0 false []
          ++ (if finalVal (rowPixels image w r) false = true then [0] else [])) := by
  have hlen := rowPixels_length image w r hb
  unfold getPatternRow
  have hguard : ¬ ((r : Int) * (w : Int) < 0 ∨ (w : Int) < 0 ∨
      (r : Int) * (w : Int) + (w : Int) > (image.length : Int)) := by
    have h1 : (0 : Int) ≤ (r : Int) * (w : Int) := by positivity
    have h2 : ((r * w + w : Nat) : Int) ≤ (image.length : Int) := by exact_mod_cast hb
    push_cast at h2
    omega
  simp only [hguard, if_false]
  have htn : ((r : Int) * (w : Int)).toNat = r * w := by
    have : ((r : Int) * (w : Int)) = ((r * w : Nat) : Int) := by push_cast; ring
    rw [this]; exact Int.toNat_natCast _
  rw [htn, Int.toNat_natCast]
  have hrow : (image.drop (r * w)).take w = rowPixels image w r := rfl
  rw [hrow]
  have hdt : (image.drop (r * w)).take (rowPixels image w r).length = rowPixels image w r := by
    rw [hlen]; rfl
  have hidx : (r : Int) * (w : Int) + (w : Int) - 1
      = ((r * w : Nat) : Int) + ((w - 1 : Nat) : Int) := by
    push_cast
    omega
  have hlt : w - 1 < (rowPixels image w r).length := by omega
  rw [hidx, readAt_of_drop_take image (rowPixels image w r) (r * w) hdt (w - 1) hlt]
  simp only
  have hne : rowPixels image w r ≠ [] := by
    intro h
    rw [h] at hlen
    simp at hlen
    omega
  have hlast : (rowPixels image w r)[w - 1] = (rowPixels image w r).getLast hne := by
    rw [List.getLast_eq_getElem]
    congr 1
    omega
  rw [finalVal_eq_getLast _ false hne, ← hlast]
  by_cases h0 : (rowPixels image w r)[w - 1] = 0
  · simp [h0]
  · simp [h0]

theorem scan_length_parity : ∀ (row : List Nat) (p lp : Int) (lv : Bool) (res : List Nat),
    (getPatternRow.scan row p lp lv res).length % 2
      = (res.length + 1 + (if finalVal row lv = lv then 0 else 1)) % 2
  | [], p, lp, lv, res => by
    simp [getPatternRow.scan, finalVal]
  | px :: rest, p, lp, lv, res => by
    by_cases hv : (px == 0) = lv
    · rw [scan_same px rest p lp lv res hv, scan_length_parity rest (p + 1) lp lv res]
      simp only [finalVal, hv]
    · have hv2 : (px == 0) = !lv := by
        cases lv <;> cases h : (px == 0) <;> simp_all
      rw [scan_diff px rest p lp lv res hv2, scan_length_parity rest (p + 1) p (!lv) _]
      simp only [finalVal, hv2, List.length_append, List.length_singleton]
      cases hf : finalVal rest (!lv) <;> cases lv <;> simp <;> omega

/-- C14: for every row of width at least 1 inside the image, the run sequence produced by
`getPatternRow` has odd length; it is the scan of the pixels followed by a trailing 0
exactly when the last pixel of the row is black (value 0). -/
theorem getPatternRow_odd_length (image : List Nat) (height : Int) (w r : Nat) (hw : 1 ≤ w)
    (hb : r * w + w ≤ image.length) :
    ∃ runs, getPatternRow image height w r = Res.ok runs ∧ runs.length % 2 = 1
      ∧ (image.getD (r * w + w - 1) 0 = 0 →
          runs = getPatternRow.scan (rowPixels image w r) 0 0 false [] ++ [0])
      ∧ (image.getD (r * w + w - 1) 0 ≠ 0 →
          runs = getPatternRow.scan (rowPixels image w r) 0 0 false []) := by
  have hiff := finalVal_rowPixels image w r hw hb
  have hpar := scan_length_parity (rowPixels image w r) 0 0 false []
  refine ⟨_, getPatternRow_eq image height w r hw hb, ?_, ?_, ?_⟩
  · by_cases hf : finalVal (rowPixels image w r) false = true
    · rw [if_pos hf, List.length_append]
      rw [hf] at hpar
      simp at hpar ⊢
      omega
    · rw [if_neg hf, List.append_nil]
      have hf2 : finalVal (rowPixels image w r) false = false := by
        cases h : finalVal (rowPixels image w r) false
        · rfl
        · exact absurd h hf
      rw [hf2] at hpar
      simpa using hpar
  · intro h0
    rw [if_pos (hiff.mpr h0)]
  · intro h0
    have hf : ¬ (finalVal (rowPixels image w r) false = true) := fun h => h0 (hiff.mp h)
    rw [if_neg hf, List.append_nil]


/-- Witness of `getPatternRow_odd_length`: row 1 of a 3 by 2 image ends with a black
pixel. -/
theorem getPatternRow_odd_length_witness :
    ∃ runs, getPatternRow [255, 0, 0, 255, 255, 0] 2 (3 : Nat) (1 : Nat) = Res.ok runs
      ∧ runs.length % 2 = 1
      ∧ ([255, 0, 0, 255, 255, 0].getD (1 * 3 + 3 - 1) 0 = 0 →
          runs = getPatternRow.scan (rowPixels [255, 0, 0, 255, 255, 0] 3 1) 0 0 false [] ++ [0])
      ∧ ([255, 0, 0, 255, 255, 0].getD (1 * 3 + 3 - 1) 0 ≠ 0 →
          runs = getPatternRow.scan (rowPixels [255, 0, 0, 255, 255, 0] 3 1) 0 0 false []) :=
  getPatternRow_odd_length [255, 0, 0, 255, 255, 0] 2 3 1 (by decide) (by decide)

/-! ## Run-length correctness -/

theorem narrow16_small (x : Int) (h0 : 0 ≤ x) (h1 : x < 65536) : narrow16 x = x.toNat := by
  unfold narrow16
  congr 1
  omega

/-- Below 65536 pixels the scan is `runLengths`. -/
theorem scan_eq_runLengths : ∀ (row : List Nat) (p lp : Int) (lv : Bool) (res : List Nat),
    lp ≤ p → p - lp + row.length < 65536 →
    getPatternRow.scan row p lp lv res = res ++ runLengths (p - lp).toNat lv row
  | [], p, lp, lv, res, h0, h1 => by
    simp only [getPatternRow.scan, runLengths]
    rw [narrow16_small _ (by omega) (by simpa using h1)]
  | px :: rest, p, lp, lv, res, h0, h1 => by
    simp only [List.length_cons] at h1
    push_cast at h1
    by_cases hv : (px == 0) = lv
    · rw [scan_same px rest p lp lv res hv,
        scan_eq_runLengths rest (p + 1) lp lv res (by omega) (by omega)]
      have hne : ((px == 0) != lv) = false := by rw [hv]; simp
      simp only [runLengths, hne, Bool.false_eq_true, if_false]
      congr 2
      omega
    · have hv2 : (px == 0) = !lv := by
        cases lv <;> cases h : (px == 0) <;> simp_all
      rw [scan_diff px rest p lp lv res hv2,
        scan_eq_runLengths rest (p + 1) p (!lv) _ (by omega) (by omega)]
      have hne : ((px == 0) != lv) = true := by rw [hv2]; cases lv <;> rfl
      simp only [runLengths, hne, if_true, hv2]
      rw [narrow16_small _ (by omega) (by omega)]
      have h1' : (p + 1 - p).toNat = 1 := by omega
      rw [h1']
      simp

theorem runLengths_sum : ∀ (row : List Nat) (c : Nat) (lv : Bool),
    (runLengths c lv row).sum = c + row.length
  | [], c, lv => by simp [runLengths]
  | px :: rest, c, lv => by
    simp only [runLengths]
    split
    · rw [List.sum_cons, runLengths_sum rest 1 (px == 0), List.length_cons]; omega
    · rw [runLengths_sum rest (c + 1) lv, List.length_cons]; omega

theorem runLengths_ne_nil : ∀ (row : List Nat) (c : Nat) (lv : Bool), runLengths c lv row ≠ []
  | [], c, lv => by simp [runLengths]
  | px :: rest, c, lv => by
    simp only [runLengths]
    split
    · simp
    · exact runLengths_ne_nil rest (c + 1) lv

theorem runLengths_pos : ∀ (row : List Nat) (c : Nat) (lv : Bool), 1 ≤ c →
    ∀ x ∈ runLengths c lv row, 1 ≤ x
  | [], c, lv, hc, x, hx => by
    simp only [runLengths, List.mem_singleton] at hx
    omega
  | px :: rest, c, lv, hc, x, hx => by
    simp only [runLengths] at hx
    split at hx
    · rcases List.mem_cons.mp hx with h | h
      · omega
      · exact runLengths_pos rest 1 (px == 0) (le_refl 1) x h
    · exact runLengths_pos rest (c + 1) lv (by omega) x hx

theorem runLengths_tail_pos : ∀ (row : List Nat) (c : Nat) (lv : Bool),
    ∀ x ∈ (runLengths c lv row).tail, 1 ≤ x
  | [], c, lv, x, hx => by simp [runLengths] at hx
  | px :: rest, c, lv, x, hx => by
    simp only [runLengths] at hx
    split at hx
    · simp only [List.tail_cons] at hx
      exact runLengths_pos rest 1 (px == 0) (le_refl 1) x hx
    · exact runLengths_tail_pos rest (c + 1) lv x hx

theorem runLengths_colours : ∀ (row : List Nat) (c : Nat) (lv : Bool),
    coloursOfRuns lv (runLengths c lv row)
      = List.replicate c lv ++ row.map (fun px => px == 0)
  | [], c, lv => by simp [runLengths, coloursOfRuns]
  | px :: rest, c, lv => by
    simp only [runLengths]
    by_cases hv : (px == 0) = lv
    · have hne : ((px == 0) != lv) = false := by rw [hv]; simp
      simp only [hne, Bool.false_eq_true, if_false]
      rw [runLengths_colours rest (c + 1) lv, List.replicate_succ', List.map_cons, hv]
      simp
    · have hv2 : (px == 0) = !lv := by
        cases lv <;> cases h : (px == 0) <;> simp_all
      have hne : ((px == 0) != lv) = true := by rw [hv2]; cases lv <;> rfl
      simp only [hne, if_true, coloursOfRuns]
      rw [← hv2, runLengths_colours rest 1 (px == 0), List.map_cons]
      simp

theorem runLengths_head : ∀ (row : List Nat) (c : Nat),
    (runLengths c false row).head? = some (c + (row.takeWhile (fun px => px != 0)).length)
  | [], c => by simp [runLengths]
  | px :: rest, c => by
    simp only [runLengths]
    by_cases hv : (px == 0) = false
    · have hne : ((px == 0) != false) = false := by rw [hv]; rfl
      have hnz : (px != 0) = true := by simp [bne, hv]
      simp only [hne, Bool.false_eq_true, if_false]
      rw [runLengths_head rest (c + 1), List.takeWhile_cons, if_pos hnz, List.length_cons]
      congr 1
      omega
    · have hv2 : (px == 0) = true := by
        cases h : (px == 0)
        · exact absurd h hv
        · rfl
      have hne : ((px == 0) != false) = true := by rw [hv2]; rfl
      have hnz : ¬ ((px != 0) = true) := by simp [bne, hv2]
      simp only [hne, if_true, List.head?_cons]
      rw [List.takeWhile_cons, if_neg hnz]
      simp

theorem coloursOfRuns_append_zero : ∀ (rs : List Nat) (c : Bool),
    coloursOfRuns c (rs ++ [0]) = coloursOfRuns c rs
  | [], c => by simp [coloursOfRuns]
  | r :: rs, c => by
    simp only [List.cons_append, coloursOfRuns, List.append_eq]
    rw [coloursOfRuns_append_zero rs (!c)]

theorem pixelsOfRuns_colours : ∀ (rs : List Nat) (c : Bool),
    (pixelsOfRuns c rs).map (fun px => px == 0) = coloursOfRuns c rs
  | [], c => rfl
  | r :: rs, c => by
    simp only [pixelsOfRuns, coloursOfRuns, List.map_append, List.map_replicate,
      pixelsOfRuns_colours rs (!c), pixel_isBlack]


/-- C15: for every row of width `w` with `1 ≤ w ≤ 65535` inside the image, the sequence
produced by `getPatternRow` starts with the number of leading non-black pixels (0 when the
first pixel is black), every element other than the first and the last is at least 1, the
elements sum to `w`, and expanding the runs back into pixels (white, black, white, ...)
reproduces for every column whether the pixel is black. -/
theorem run_length_correct (image : List Nat) (height : Int) (w r : Nat) (hw : 1 ≤ w)
    (hw2 : w ≤ 65535) (hb : r * w + w ≤ image.length) :
    ∃ runs, getPatternRow image height w r = Res.ok runs
      ∧ runs.head? = some ((rowPixels image w r).takeWhile (fun px => px != 0)).length
      ∧ (∀ x ∈ runs.tail.dropLast, 1 ≤ x)
      ∧ runs.sum = w
      ∧ (pixelsOfRuns false runs).map (fun px => px == 0)
          = (rowPixels image w r).map (fun px => px == 0) := by
  have hlen := rowPixels_length image w r hb
  have hscan : getPatternRow.scan (rowPixels image w r) 0 0 false []
      = runLengths 0 false (rowPixels image w r) := by
    rw [scan_eq_runLengths _ 0 0 false [] (le_refl 0) (by rw [hlen]; push_cast; omega)]
    simp
  have hne := runLengths_ne_nil (rowPixels image w r) 0 false
  have hhead := runLengths_head (rowPixels image w r) 0
  have hsum := runLengths_sum (rowPixels image w r) 0 false
  have htail := runLengths_tail_pos (rowPixels image w r) 0 false
  have hcol := runLengths_colours (rowPixels image w r) 0 false
  rw [zero_add] at hhead
  rw [zero_add, hlen] at hsum
  simp only [List.replicate_zero, List.nil_append] at hcol
  refine ⟨_, getPatternRow_eq image height w r hw hb, ?_, ?_, ?_, ?_⟩
  · rw [hscan, List.head?_append_of_ne_nil _ hne, hhead]
  · rw [hscan]
    intro x hx
    by_cases hf : finalVal (rowPixels image w r) false = true
    · rw [if_pos hf, List.tail_append_of_ne_nil hne, List.dropLast_concat] at hx
      exact htail x hx
    · rw [if_neg hf, List.append_nil] at hx
      exact htail x (List.dropLast_subset _ hx)
  · rw [hscan, List.sum_append, hsum]
    split <;> simp
  · rw [hscan, pixelsOfRuns_colours]
    by_cases hf : finalVal (rowPixels image w r) false = true
    · rw [if_pos hf, coloursOfRuns_append_zero, hcol]
    · rw [if_neg hf, List.append_nil, hcol]

/-- Witness of `run_length_correct`: the row black, white, white, black of a 4 by 1
image. -/
theorem run_length_correct_witness :
    ∃ runs, getPatternRow [0, 255, 255, 0] 1 (4 : Nat) (0 : Nat) = Res.ok runs
      ∧ runs.head? = some ((rowPixels [0, 255, 255, 0] 4 0).takeWhile (fun px => px != 0)).length
      ∧ (∀ x ∈ runs.tail.dropLast, 1 ≤ x)
      ∧ runs.sum = 4
      ∧ (pixelsOfRuns false runs).map (fun px => px == 0)
          = (rowPixels [0, 255, 255, 0] 4 0).map (fun px => px == 0) :=
  run_length_correct [0, 255, 255, 0] 1 4 0 (by decide) (by decide) (by decide)

/-! ## Bounds safety and termination of the attempts -/

theorem FindLeftGuard_loop_parity (pattern : FixedPattern) (q : ℚ) (endOff : Int)
    (bars : List Nat) (size : Int) :
    ∀ (fuel : Nat) (d : Int) (r : PatternView),
      FindLeftGuard.loop pattern q endOff fuel ⟨bars, some d, size⟩ = Res.ok r →
      r = PatternView.null ∨ ∃ d1, r = ⟨bars, some d1, size⟩ ∧ (d1 - d) % 2 = 0 := by
  intro fuel
  induction fuel with
  | zero => intro d r h; simp [FindLeftGuard.loop] at h
  | succ fuel ih =>
    intro d r h
    rw [FindLeftGuard.loop] at h
    simp only at h
    split at h
    · cases hg : PatternView.get ⟨bars, some d, size⟩ (-1) with
      | outOfRange => rw [hg] at h; cases h
      | outOfFuel => rw [hg] at h; cases h
      | ok space =>
        rw [hg] at h
        simp only at h
        cases hp : IsPattern ⟨bars, some d, size⟩ pattern space q 0 with
        | outOfRange => rw [hp] at h; cases h
        | outOfFuel => rw [hp] at h; cases h
        | ok m =>
          rw [hp] at h
          simp only at h
          split at h
          · simp only [Res.ok.injEq] at h
            exact Or.inr ⟨d, h.symm, by simp⟩
          · have hstep : (PatternView.skipPair ⟨bars, some d, size⟩).2
                = ⟨bars, some (d + 2), size⟩ := rfl
            rw [hstep] at h
            rcases ih (d + 2) r h with h1 | ⟨d1, h1, h2⟩
            · exact Or.inl h1
            · exact Or.inr ⟨d1, h1, by omega⟩
    · simp only [Res.ok.injEq] at h
      exact Or.inl h.symm

theorem FindLeftGuard_parity (bars : List Nat) (d size : Int) (q : ℚ) (r : PatternView)
    (h : FindLeftGuard ⟨bars, some d, size⟩ (3 + 6 * 4 + 6) END_PATTERN q = Res.ok r) :
    r = PatternView.null ∨ ∃ d1, r = ⟨bars, some d1, 3⟩ ∧ (d1 - d) % 2 = 0 := by
  unfold FindLeftGuard at h
  have hmin : max (3 + 6 * 4 + 6 : Int) END_PATTERN.size = 33 := by decide
  simp only [hmin] at h
  split at h
  · simp only [Res.ok.injEq] at h
    exact Or.inl h.symm
  · have hwin : PatternView.subView ⟨bars, some d, size⟩ 0 END_PATTERN.size
        = ⟨bars, some d, 3⟩ := by
      rw [subView_pos _ _ _ (by decide)]
      simp only [Option.map_some', add_zero]
      rfl
    rw [hwin] at h
    split at h
    · cases hp : IsPattern ⟨bars, some d, 3⟩ END_PATTERN INT_MAX q 0 with
      | outOfRange => rw [hp] at h; cases h
      | outOfFuel => rw [hp] at h; cases h
      | ok m =>
        rw [hp] at h
        simp only at h
        split at h
        · simp only [Res.ok.injEq] at h
          exact Or.inr ⟨d, h.symm, by simp⟩
        · exact FindLeftGuard_loop_parity END_PATTERN q _ bars 3 _ d r h
    · exact FindLeftGuard_loop_parity END_PATTERN q _ bars 3 _ d r h

/-! ## The text of the partial result -/

theorem ToDigit_isDigit (i : Int) (h0 : 0 ≤ i) (h9 : i ≤ 9) :
    48 ≤ (ToDigit i).toNat ∧ (ToDigit i).toNat ≤ 57 := by
  rw [ToDigit_toNat i h0 h9]
  omega

theorem DecodeDigit_text (view : PatternView) (txt : List Char) (lg : Option Int)
    (b : Bool) (txt1 : List Char) (lg1 : Option Int)
    (h : DecodeDigit view txt lg = Res.ok (b, txt1, lg1)) :
    (b = false ∧ txt1 = txt)
      ∨ (b = true ∧ ∃ c : Char, txt1 = txt ++ [c] ∧ 48 ≤ c.toNat ∧ c.toNat ≤ 57) := by
  have hdig : ∀ r : Int, 0 ≤ r → 48 ≤ (ToDigit (Int.tmod r 10)).toNat
      ∧ (ToDigit (Int.tmod r 10)).toNat ≤ 57 := by
    intro r hr
    have h1 : 0 ≤ Int.tmod r 10 := Int.tmod_nonneg _ hr
    have h2 : Int.tmod r 10 < 10 := Int.tmod_lt_of_pos _ (by decide)
    exact ToDigit_isDigit _ h1 (by omega)
  cases lg with
  | some lg0 =>
    cases hi : DecodeDigitIndex view L_AND_G_PATTERNS MAX_AVG_VARIANCE MAX_INDIVIDUAL_VARIANCE
        false with
    | outOfRange => unfold DecodeDigit at h; simp only [hi] at h; cases h
    | outOfFuel => unfold DecodeDigit at h; simp only [hi] at h; cases h
    | ok r =>
      rw [DecodeDigit_of_index_LG view txt lg0 r hi] at h
      rcases DecodeDigitIndex_range _ _ _ _ _ r hi with hr | hr
      · rw [if_pos hr] at h
        simp only [Res.ok.injEq, Prod.mk.injEq] at h
        exact Or.inl ⟨h.1.symm, h.2.1.symm⟩
      · have hne : ¬ (r = -1) := by omega
        rw [if_neg hne] at h
        simp only [Res.ok.injEq, Prod.mk.injEq] at h
        exact Or.inr ⟨h.1.symm, _, h.2.1.symm, hdig r hr.1⟩
  | none =>
    cases hi : DecodeDigitIndex view L_PATTERNS MAX_AVG_VARIANCE MAX_INDIVIDUAL_VARIANCE
        false with
    | outOfRange => unfold DecodeDigit at h; simp only [hi] at h; cases h
    | outOfFuel => unfold DecodeDigit at h; simp only [hi] at h; cases h
    | ok r =>
      rw [DecodeDigit_of_index_L view txt r hi] at h
      rcases DecodeDigitIndex_range _ _ _ _ _ r hi with hr | hr
      · rw [if_pos hr] at h
        simp only [Res.ok.injEq, Prod.mk.injEq] at h
        exact Or.inl ⟨h.1.symm, h.2.1.symm⟩
      · have hne : ¬ (r = -1) := by omega
        rw [if_neg hne] at h
        simp only [Res.ok.injEq, Prod.mk.injEq] at h
        exact Or.inr ⟨h.1.symm, _, h.2.1.symm, hdig r hr.1⟩

theorem DecodeDigits_text : ∀ (n : Nat) (view : PatternView) (txt : List Char)
    (lg : Option Int) (b : Bool) (v1 : PatternView) (txt1 : List Char) (lg1 : Option Int),
    DecodeDigits n view txt lg = Res.ok (b, v1, txt1, lg1) →
    ∃ ds : List Char, txt1 = txt ++ ds ∧ (∀ c ∈ ds, 48 ≤ c.toNat ∧ c.toNat ≤ 57)
      ∧ ds.length ≤ n ∧ (b = true → ds.length = n)
  | 0, view, txt, lg, b, v1, txt1, lg1, h => by
    simp only [DecodeDigits, Res.ok.injEq, Prod.mk.injEq] at h
    exact ⟨[], by simp [h.2.2.1], by simp, by simp, by simp⟩
  | n + 1, view, txt, lg, b, v1, txt1, lg1, h => by
    rw [DecodeDigits] at h
    cases hd : DecodeDigit view txt lg with
    | outOfRange => rw [hd] at h; cases h
    | outOfFuel => rw [hd] at h; cases h
    | ok r =>
      obtain ⟨b0, t0, l0⟩ := r
      rw [hd] at h
      rcases DecodeDigit_text view txt lg b0 t0 l0 hd with ⟨hb, ht⟩ | ⟨hb, c, ht, hc⟩
      · subst hb
        simp only [Res.ok.injEq, Prod.mk.injEq] at h
        refine ⟨[], ?_, by simp, by simp, ?_⟩
        · rw [← h.2.2.1, ht]; simp
        · intro hb; rw [← h.1] at hb; cases hb
      · subst hb
        simp only at h
        obtain ⟨ds, h1, h2, h3, h4⟩ := DecodeDigits_text n _ _ _ _ _ _ _ h
        refine ⟨c :: ds, ?_, ?_, ?_, ?_⟩
        · rw [h1, ht]; simp
        · intro x hx
          rcases List.mem_cons.mp hx with hx | hx
          · rw [hx]; exact hc
          · exact h2 x hx
        · simp only [List.length_cons]; omega
        · intro hb; simp only [List.length_cons]; rw [h4 hb]

theorem EAN13_text (res : PartialResult) (begin : PatternView) (b : Bool)
    (res1 : PartialResult) (h : EAN13 res begin = Res.ok (b, res1)) :
    (b = true → IsDigitString 13 res1.txt)
      ∧ (b = false → res1.txt = res.txt ∨ PartialTxt res1.txt) := by
  have hsame : (false, res) = (b, res1) → (b = true → IsDigitString 13 res1.txt)
      ∧ (b = false → res1.txt = res.txt ∨ PartialTxt res1.txt) := by
    intro he
    simp only [Prod.mk.injEq] at he
    refine ⟨fun hb => ?_, fun _ => Or.inl (by rw [← he.2])⟩
    rw [← he.1] at hb; cases hb
  have hpart : ∀ t : List Char, PartialTxt t → (false, (⟨t, res.end_⟩ : PartialResult)) = (b, res1) →
      (b = true → IsDigitString 13 res1.txt)
      ∧ (b = false → res1.txt = res.txt ∨ PartialTxt res1.txt) := by
    intro t ht he
    simp only [Prod.mk.injEq] at he
    refine ⟨fun hb => ?_, fun _ => Or.inr (by rw [← he.2]; exact ht)⟩
    rw [← he.1] at hb; cases hb
  unfold EAN13 at h
  simp only at h
  split at h
  · cases hg : IsRightGuard (begin.subView 56 END_PATTERN.size) END_PATTERN
        QUIET_ZONE_RIGHT_EAN with
    | outOfRange => rw [hg] at h; cases h
    | outOfFuel => rw [hg] at h; cases h
    | ok g =>
      rw [hg] at h
      cases g with
      | false => simp only [Res.ok.injEq] at h; exact hsame h
      | true =>
        simp only at h
        cases hm : IsPattern (begin.subView 27 MID_PATTERN.size) MID_PATTERN 0 0 0 with
        | outOfRange => rw [hm] at h; cases h
        | outOfFuel => rw [hm] at h; cases h
        | ok m =>
          rw [hm] at h
          simp only at h
          split at h
          · cases h1 : DecodeDigits 6 (begin.subView END_PATTERN.size CHAR_LEN) [' ']
                (some 0) with
            | outOfRange => rw [h1] at h; cases h
            | outOfFuel => rw [h1] at h; cases h
            | ok r1 =>
              obtain ⟨b1, n1, t1, l1⟩ := r1
              rw [h1] at h
              obtain ⟨ds1, e1, d1, len1, full1⟩ := DecodeDigits_text _ _ _ _ _ _ _ _ h1
              cases b1 with
              | false =>
                simp only [Res.ok.injEq] at h
                refine hpart t1 ⟨ds1, by rw [e1]; rfl, by omega, d1⟩ h
              | true =>
                simp only at h
                have len1 := full1 rfl
                cases h2 : DecodeDigits 6 (n1.subView MID_PATTERN.size CHAR_LEN) t1 none with
                | outOfRange => rw [h2] at h; cases h
                | outOfFuel => rw [h2] at h; cases h
                | ok r2 =>
                  obtain ⟨b2, n2, t2, l2⟩ := r2
                  rw [h2] at h
                  obtain ⟨ds2, e2, d2, len2, full2⟩ := DecodeDigits_text _ _ _ _ _ _ _ _ h2
                  have ht2 : t2 = ' ' :: (ds1 ++ ds2) := by rw [e2, e1]; rfl
                  have hds : ∀ c ∈ ds1 ++ ds2, 48 ≤ c.toNat ∧ c.toNat ≤ 57 := by
                    intro c hc
                    rcases List.mem_append.mp hc with hc | hc
                    · exact d1 c hc
                    · exact d2 c hc
                  have hp2 : PartialTxt t2 :=
                    ⟨ds1 ++ ds2, ht2, by rw [List.length_append]; omega, hds⟩
                  cases b2 with
                  | false =>
                    simp only [Res.ok.injEq] at h
                    exact hpart t2 hp2 h
                  | true =>
                    simp only at h
                    have len2 := full2 rfl
                    split at h
                    · rename_i hi
                      simp only [Res.ok.injEq, Prod.mk.injEq] at h
                      refine ⟨fun _ => ?_, fun hb => ?_⟩
                      · rw [← h.2]
                        simp only [ht2, List.set_cons_zero]
                        have hge := IndexOf_ge FIRST_DIGIT_ENCODINGS (l1.getD 0)
                        have hlt := IndexOf_lt FIRST_DIGIT_ENCODINGS (l1.getD 0)
                        have hl10 : (FIRST_DIGIT_ENCODINGS.length : Int) = 10 := by decide
                        constructor
                        · simp only [List.length_cons, List.length_append]; omega
                        · intro c hc
                          rcases List.mem_cons.mp hc with hc | hc
                          · rw [hc]
                            exact ToDigit_isDigit _ (by omega) (by omega)
                          · exact hds c hc
                      · rw [← h.1] at hb; cases hb
                    · simp only [Res.ok.injEq] at h
                      exact hpart t2 hp2 h
          · simp only [Res.ok.injEq] at h; exact hsame h
  · simp only [Res.ok.injEq] at h; exact hsame h

theorem decodePattern_text (next : PatternView) (res : PartialResult) (b : Bool)
    (next1 : PatternView) (res1 : PartialResult)
    (h : decodePattern next res = Res.ok (b, next1, res1)) :
    (b = true → IsDigitString 13 res1.txt)
      ∧ (b = false → res1.txt = res.txt ∨ PartialTxt res1.txt) := by
  unfold decodePattern at h
  simp only at h
  cases hf : FindLeftGuard next (3 + 6 * 4 + 6) END_PATTERN QUIET_ZONE_LEFT with
  | outOfRange => rw [hf] at h; cases h
  | outOfFuel => rw [hf] at h; cases h
  | ok v =>
    rw [hf] at h
    simp only at h
    split at h
    · simp only [Res.ok.injEq, Prod.mk.injEq] at h
      refine ⟨fun hb => ?_, fun _ => Or.inl (by rw [← h.2.2])⟩
      rw [← h.1] at hb; cases hb
    · cases he : EAN13 res v with
      | outOfRange => rw [he] at h; cases h
      | outOfFuel => rw [he] at h; cases h
      | ok r =>
        obtain ⟨b0, r0⟩ := r
        rw [he] at h
        simp only [Res.ok.injEq, Prod.mk.injEq] at h
        rw [← h.1, ← h.2.2]
        exact EAN13_text res v b0 r0 he

theorem digit_ne_space (c : Char) (h : 48 ≤ c.toNat ∧ c.toNat ≤ 57) : c ≠ ' ' := by
  intro hc
  rw [hc] at h
  exact absurd h.1 (by decide)

theorem partialTxt_not_digits (t : List Char) (h : PartialTxt t) : ¬ IsDigitString 13 t := by
  obtain ⟨ds, rfl, _, _⟩ := h
  intro hd
  have := hd.2 ' ' (List.mem_cons_self _ _)
  exact absurd this.1 (by decide)

theorem collect_txtInv (txt : List Char) (R : List (List Char)) (h : TxtInv txt) :
    DoDecode.collect txt txt 0 R = if IsDigitString 13 txt then setInsert txt R else R := by
  rcases h with h | h | h
  · subst h
    have : ¬ IsDigitString 13 [] := by intro hd; exact absurd hd.1 (by decide)
    rw [if_neg this]
    rfl
  · rw [if_neg (partialTxt_not_digits txt h)]
    obtain ⟨ds, rfl, hlen, hd⟩ := h
    have hns : ∀ c ∈ ds, c ≠ ' ' := fun c hc => digit_ne_space c (hd c hc)
    have h1 : DoDecode.collect (' ' :: ds) (' ' :: ds) 0 R
        = DoDecode.collect (' ' :: ds) ds 0 R := by
      simp [DoDecode.collect]
    rw [h1, collect_no_space _ ds 0 R hns]
    have : ¬ (0 + ds.length = 13) := by omega
    rw [if_neg this]
  · rw [if_pos h]
    have hns : ∀ c ∈ txt, c ≠ ' ' := fun c hc => digit_ne_space c (h.2 c hc)
    rw [collect_no_space _ txt 0 R hns]
    have : 0 + txt.length = 13 := by rw [h.1]
    rw [if_pos this]

theorem char_eq_of_toNat (a b : Char) (h : a.toNat = b.toNat) : a = b := by
  apply Char.ext
  apply UInt32.ext
  exact h

theorem strLess_total : ∀ a b : List Char, strLess a b = false → strLess b a = false → a = b
  | [], [] => by intros; rfl
  | [], _ :: _ => by simp [strLess]
  | _ :: _, [] => by simp [strLess]
  | a :: as, b :: bs => by
    intro h1 h2
    simp only [strLess] at h1 h2
    by_cases hab : a.toNat < b.toNat
    · simp [hab] at h1
    · by_cases hba : b.toNat < a.toNat
      · simp [hba] at h2
      · simp only [hab, hba, if_false] at h1 h2
        have hc : a = b := char_eq_of_toNat a b (by omega)
        rw [hc, strLess_total as bs h1 h2]

theorem mem_setInsert (s t : List Char) : ∀ R : List (List Char),
    t ∈ setInsert s R ↔ t = s ∨ t ∈ R
  | [] => by simp [setInsert]
  | x :: xs => by
    by_cases h1 : strLess s x = true
    · simp [setInsert, h1]
    · by_cases h2 : strLess x s = true
      · have ih := mem_setInsert s t xs
        simp only [setInsert, h1, h2, if_true, if_false, Bool.false_eq_true, List.mem_cons, ih]
        tauto
      · have hsx : s = x := strLess_total s x (by simpa using h1) (by simpa using h2)
        simp only [setInsert, h1, h2, if_false, Bool.false_eq_true, List.mem_cons]
        rw [hsx]
        tauto


/-! ## The candidate set and the successful attempts -/

theorem attempts_trace : ∀ (fuel : Nat) (next : PatternView) (res : PartialResult)
    (R : List (List Char)) (res' : PartialResult) (R' : List (List Char)),
    TxtInv res.txt → (IsDigitString 13 res.txt → res.txt ∈ R) →
    DoDecode.attempts fuel next res R = Res.ok (res', R') →
    ∃ T, successfulAttempts fuel next res = Res.ok (res', T)
      ∧ (∀ t, t ∈ R' ↔ t ∈ R ∨ t ∈ T)
      ∧ TxtInv res'.txt ∧ (IsDigitString 13 res'.txt → res'.txt ∈ R')
      ∧ (∀ t ∈ T, IsDigitString 13 t) := by
  intro fuel
  induction fuel with
  | zero => intro next res R res' R' _ _ h; simp [DoDecode.attempts] at h
  | succ fuel ih =>
    intro next res R res' R' hinv hin h
    rw [DoDecode.attempts] at h
    cases hd : decodePattern next res with
    | outOfRange => rw [hd] at h; cases h
    | outOfFuel => rw [hd] at h; cases h
    | ok r =>
      obtain ⟨b, next1, res1⟩ := r
      rw [hd] at h
      simp only at h
      have htxt := decodePattern_text next res b next1 res1 hd
      have hinv1 : TxtInv res1.txt := by
        cases b with
        | true => exact Or.inr (Or.inr (htxt.1 rfl))
        | false =>
          rcases htxt.2 rfl with h1 | h1
          · rw [h1]; exact hinv
          · exact Or.inr (Or.inl h1)
      have hcol := collect_txtInv res1.txt R hinv1
      have hmem1 : ∀ t, t ∈ DoDecode.collect res1.txt res1.txt 0 R
          ↔ t ∈ R ∨ (b = true ∧ t = res1.txt) := by
        intro t
        rw [hcol]
        cases b with
        | true =>
          rw [if_pos (htxt.1 rfl), mem_setInsert]
          simp only [true_and]
          tauto
        | false =>
          simp only [Bool.false_eq_true, false_and, or_false]
          by_cases hdig : IsDigitString 13 res1.txt
          · rw [if_pos hdig, mem_setInsert]
            rcases htxt.2 rfl with h1 | h1
            · have hmem : res1.txt ∈ R := by
                rw [h1]; apply hin; rw [← h1]; exact hdig
              constructor
              · rintro (h2 | h2)
                · rw [h2]; exact hmem
                · exact h2
              · intro h2; exact Or.inr h2
            · exact absurd hdig (partialTxt_not_digits _ h1)
          · rw [if_neg hdig]
      have hin1 : IsDigitString 13 res1.txt
          → res1.txt ∈ DoDecode.collect res1.txt res1.txt 0 R := by
        intro hdig
        rw [hcol, if_pos hdig, mem_setInsert]
        exact Or.inl rfl
      have hdigT : b = true → IsDigitString 13 res1.txt := htxt.1
      rw [successfulAttempts]
      simp only [hd]
      split at h
      · rename_i hc
        rw [if_pos hc]
        obtain ⟨T, hT, hmem, hinv2, hin2, hT13⟩ := ih _ res1 _ res' R' hinv1 hin1 h
        rw [hT]
        refine ⟨_, rfl, ?_, hinv2, hin2, ?_⟩
        · intro t
          rw [hmem t, hmem1 t]
          cases b with
          | true => simp only [if_true, List.mem_cons, true_and]; tauto
          | false => simp only [Bool.false_eq_true, if_false, false_and, or_false]
        · intro t ht
          cases b with
          | true =>
            simp only [if_true, List.mem_cons] at ht
            rcases ht with ht | ht
            · rw [ht]; exact hdigT rfl
            · exact hT13 t ht
          | false =>
            simp only [Bool.false_eq_true, if_false] at ht
            exact hT13 t ht
      · rename_i hc
        rw [if_neg hc]
        simp only [Res.ok.injEq, Prod.mk.injEq] at h
        obtain ⟨h1, h2⟩ := h
        subst h1
        subst h2
        refine ⟨_, rfl, ?_, hinv1, hin1, ?_⟩
        · intro t
          rw [hmem1 t]
          cases b with
          | true => simp only [if_true, List.mem_singleton, true_and]
          | false => simp
        · intro t ht
          cases b with
          | true =>
            simp only [if_true, List.mem_singleton] at ht
            rw [ht]; exact hdigT rfl
          | false => simp at ht

theorem successfulRows_succ (image : List Nat) (width height : Int) (n : Nat) (i : Int)
    (res : PartialResult) :
    successfulRows image width height (n + 1) i res
      = if rowOfIteration height i < 0 ∨ rowOfIteration height i ≥ height then Res.ok []
        else
          match getPatternRow image height width (rowOfIteration height i) with
          | Res.ok bars =>
            match successfulAttempts (bars.length + 1) (PatternView.ofBars bars) res with
            | Res.ok (res1, texts) =>
              match successfulRows image width height n (i + 1) res1 with
              | Res.ok more => Res.ok (texts ++ more)
              | Res.outOfRange => Res.outOfRange
              | Res.outOfFuel => Res.outOfFuel
            | Res.outOfRange => Res.outOfRange
            | Res.outOfFuel => Res.outOfFuel
          | Res.outOfRange => Res.outOfRange
          | Res.outOfFuel => Res.outOfFuel := rfl

theorem rows_trace (image : List Nat) (width height : Int) :
    ∀ (n : Nat) (i : Int) (res : PartialResult) (R S : List (List Char)),
    TxtInv res.txt → (IsDigitString 13 res.txt → res.txt ∈ R) →
    DoDecode.rows image width height n i res R = Res.ok S →
    ∃ T, successfulRows image width height n i res = Res.ok T
      ∧ (∀ t, t ∈ S ↔ t ∈ R ∨ t ∈ T) ∧ (∀ t ∈ T, IsDigitString 13 t) := by
  intro n
  induction n with
  | zero =>
    intro i res R S _ _ h
    simp only [DoDecode.rows, Res.ok.injEq] at h
    subst h
    exact ⟨[], rfl, by simp, by simp⟩
  | succ n ih =>
    intro i res R S hinv hin h
    rw [rows_succ] at h
    rw [successfulRows_succ]
    by_cases hrow : rowOfIteration height i < 0 ∨ rowOfIteration height i ≥ height
    · rw [if_pos hrow] at h
      rw [if_pos hrow]
      simp only [Res.ok.injEq] at h
      subst h
      exact ⟨[], rfl, by simp, by simp⟩
    · rw [if_neg hrow] at h
      rw [if_neg hrow]
      cases hg : getPatternRow image height width (rowOfIteration height i) with
      | outOfRange => rw [hg] at h; cases h
      | outOfFuel => rw [hg] at h; cases h
      | ok bars =>
        rw [hg] at h
        simp only at h
        cases ha : DoDecode.attempts (bars.length + 1) (PatternView.ofBars bars) res R with
        | outOfRange => rw [ha] at h; cases h
        | outOfFuel => rw [ha] at h; cases h
        | ok r =>
          obtain ⟨res1, R1⟩ := r
          rw [ha] at h
          simp only at h
          obtain ⟨T1, hT1, hmem1, hinv1, hin1, h13⟩ :=
            attempts_trace _ _ res R res1 R1 hinv hin ha
          obtain ⟨T2, hT2, hmem2, h13b⟩ := ih (i + 1) res1 R1 S hinv1 hin1 h
          simp only [hT1, hT2]
          refine ⟨_, rfl, ?_, ?_⟩
          · intro t
            rw [hmem2 t, hmem1 t, List.mem_append]
            tauto
          · intro t ht
            rcases List.mem_append.mp ht with ht | ht
            · exact h13 t ht
            · exact h13b t ht

theorem DoDecode_trace (image : List Nat) (width height : Int) (S : List (List Char))
    (h : DoDecode image width height = Res.ok S) :
    ∃ T, successfulDecodes image width height = Res.ok T
      ∧ (∀ t, t ∈ S ↔ t ∈ T) ∧ (∀ t ∈ T, IsDigitString 13 t) := by
  obtain ⟨T, hT, hmem, h13⟩ := rows_trace image width height height.toNat 0
    ⟨[], PatternView.null⟩ [] S (Or.inl rfl)
    (fun hd => absurd hd.1 (by decide)) h
  refine ⟨T, hT, ?_, h13⟩
  intro t
  rw [hmem t]
  simp

/-! ## The most frequent result -/

theorem frequencyIncr_keys (key : List Char) : ∀ (m : List (List Char × Int))
    (e : List Char × Int), e ∈ frequencyIncr key m → e.1 = key ∨ ∃ e0 ∈ m, e0.1 = e.1
  | [], e, h => by
    simp only [frequencyIncr, List.mem_singleton] at h
    left; rw [h]
  | (k, f) :: rest, e, h => by
    simp only [frequencyIncr] at h
    split at h
    · rename_i hk
      rcases List.mem_cons.mp h with h1 | h1
      · left; rw [h1]; exact hk
      · right; exact ⟨e, List.mem_cons_of_mem _ h1, rfl⟩
    · rcases List.mem_cons.mp h with h1 | h1
      · right; exact ⟨(k, f), List.mem_cons_self _ _, by rw [h1]⟩
      · rcases frequencyIncr_keys key rest e h1 with h2 | ⟨e0, h2, h3⟩
        · left; exact h2
        · right; exact ⟨e0, List.mem_cons_of_mem _ h2, h3⟩

theorem frequencyMap_keys : ∀ (results : List (List Char)) (m : List (List Char × Int))
    (e : List Char × Int),
    e ∈ results.foldl (fun m result => frequencyIncr result m) m →
    e.1 ∈ results ∨ ∃ e0 ∈ m, e0.1 = e.1
  | [], m, e, h => Or.inr ⟨e, h, rfl⟩
  | r :: rs, m, e, h => by
    simp only [List.foldl_cons] at h
    rcases frequencyMap_keys rs _ e h with h1 | ⟨e0, h1, h2⟩
    · left; exact List.mem_cons_of_mem _ h1
    · rcases frequencyIncr_keys r m e0 h1 with h3 | ⟨e1, h3, h4⟩
      · left; rw [← h2, h3]; exact List.mem_cons_self _ _
      · right; exact ⟨e1, h3, by rw [h4, h2]⟩

theorem pick_mem : ∀ (l : List (List Char × Int)) (init : List Char) (mx : Int),
    GetMostFrequentResult.pick l init mx = init
      ∨ ∃ e ∈ l, e.1 = GetMostFrequentResult.pick l init mx
  | [], init, mx => Or.inl rfl
  | (r, f) :: rest, init, mx => by
    simp only [GetMostFrequentResult.pick]
    split
    · rcases pick_mem rest r f with h | ⟨e, h1, h2⟩
      · right; exact ⟨(r, f), List.mem_cons_self _ _, h.symm⟩
      · right; exact ⟨e, List.mem_cons_of_mem _ h1, h2⟩
    · rcases pick_mem rest init mx with h | ⟨e, h1, h2⟩
      · left; exact h
      · right; exact ⟨e, List.mem_cons_of_mem _ h1, h2⟩

theorem GetMostFrequentResult_mem (order : MapOrder) (horder : LawfulOrder order)
    (results : List (List Char)) :
    GetMostFrequentResult order results = []
      ∨ GetMostFrequentResult order results ∈ results := by
  unfold GetMostFrequentResult
  simp only
  rcases pick_mem (order (results.foldl (fun m result => frequencyIncr result m) [])) [] 0
    with h | ⟨e, h1, h2⟩
  · left; exact h
  · right
    have h3 := (horder _).mem_iff.mp h1
    rcases frequencyMap_keys results [] e h3 with h4 | ⟨e0, h4, _⟩
    · rw [← h2]; exact h4
    · cases h4


theorem DecodeDigit_total (bars : List Nat) (d : Int) (txt : List Char) (lg : Option Int)
    (h0 : 0 ≤ d) (h1 : d + 4 ≤ bars.length) :
    ∃ r, DecodeDigit ⟨bars, some d, 4⟩ txt lg = Res.ok r := by
  obtain ⟨w, hlen, hw⟩ := listReads_exists bars 4 d h0 (by push_cast; omega)
  have hall : ∀ patterns : List (List Nat), (∀ p ∈ patterns, p.length = 4) →
      ∃ r, DecodeDigitIndex ⟨bars, some d, 4⟩ patterns MAX_AVG_VARIANCE
        MAX_INDIVIDUAL_VARIANCE false = Res.ok r := by
    intro patterns hp
    refine ⟨pickBest (patterns.map (fun p => varianceOf w p MAX_INDIVIDUAL_VARIANCE)) 0
      MAX_AVG_VARIANCE (-1), ?_⟩
    unfold DecodeDigitIndex
    exact decodeLoop_reads ⟨bars, some d, 4⟩ d rfl w MAX_INDIVIDUAL_VARIANCE
      (by rw [hlen]; rfl) hw patterns 0 MAX_AVG_VARIANCE (-1) (by rw [hlen]; exact hp)
  cases lg with
  | some lg0 =>
    obtain ⟨r, hr⟩ := hall L_AND_G_PATTERNS (by decide)
    exact ⟨_, DecodeDigit_of_index_LG _ txt lg0 r hr⟩
  | none =>
    obtain ⟨r, hr⟩ := hall L_PATTERNS (by decide)
    exact ⟨_, DecodeDigit_of_index_L _ txt r hr⟩

theorem DecodeDigits_total (bars : List Nat) : ∀ (n : Nat) (d : Int) (txt : List Char)
    (lg : Option Int), 0 ≤ d → d + 4 * (n : Int) ≤ bars.length →
    ∃ b v1 txt1 lg1, DecodeDigits n ⟨bars, some d, 4⟩ txt lg = Res.ok (b, v1, txt1, lg1)
      ∧ (b = true → v1 = ⟨bars, some (d + 4 * (n : Int)), 4⟩)
  | 0, d, txt, lg, _, _ => ⟨true, _, txt, lg, rfl, fun _ => by simp⟩
  | n + 1, d, txt, lg, h0, h1 => by
    obtain ⟨r, hr⟩ := DecodeDigit_total bars d txt lg h0 (by push_cast at h1; omega)
    obtain ⟨b0, t0, l0⟩ := r
    rw [DecodeDigits, hr]
    cases b0 with
    | false => exact ⟨false, _, t0, l0, rfl, fun hb => by cases hb⟩
    | true =>
      simp only
      have hskip : (PatternView.skipSymbol ⟨bars, some d, 4⟩).2 = ⟨bars, some (d + 4), 4⟩ := rfl
      rw [hskip]
      obtain ⟨b, v1, txt1, lg1, h2, h3⟩ := DecodeDigits_total bars n (d + 4) t0 l0 (by omega)
        (by push_cast at h1; omega)
      refine ⟨b, v1, txt1, lg1, h2, fun hb => ?_⟩
      rw [h3 hb]
      congr 2
      push_cast
      ring

theorem IsRightGuard_total (bars : List Nat) (d : Int) (pattern : FixedPattern) (q : ℚ)
    (hne : pattern.data ≠ []) (h0 : 0 ≤ d) (hfit : d + pattern.data.length ≤ bars.length)
    (hnext : d + 3 = (bars.length : Int) - 1 ∨ d + 3 < bars.length) :
    ∃ g, IsRightGuard ⟨bars, some d, 3⟩ pattern q = Res.ok g := by
  unfold IsRightGuard
  by_cases hl : PatternView.isAtLastBar ⟨bars, some d, 3⟩ = true
  · obtain ⟨m, hm⟩ := IsPattern_total ⟨bars, some d, 3⟩ d rfl pattern INT_MAX q 0 hne h0 hfit
    simp only [hl, if_true, hm]
    exact ⟨_, rfl⟩
  · have hlt : d + 3 < bars.length := by
      rcases hnext with h | h
      · exfalso
        apply hl
        simp only [PatternView.isAtLastBar, PatternView.endOff, beq_iff_eq]
        exact h
      · exact h
    obtain ⟨c, hc⟩ := readAt_inRange bars (d + 3) (by omega) hlt
    have hget : PatternView.get ⟨bars, some d, 3⟩ (3 : Int) = Res.ok c := hc
    obtain ⟨m, hm⟩ := IsPattern_total ⟨bars, some d, 3⟩ d rfl pattern (c : Int) q 0 hne h0 hfit
    simp only [hl, Bool.false_eq_true, if_false, hget, hm]
    exact ⟨_, rfl⟩

/-- `EAN13` on a start guard at an odd offset of a run sequence of odd length reads only
inside the sequence. -/
theorem EAN13_total (bars : List Nat) (d : Int) (res : PartialResult) (h0 : 0 ≤ d)
    (hd : d % 2 = 1) (hlen : bars.length % 2 = 1) :
    ∃ r, EAN13 res ⟨bars, some d, 3⟩ = Res.ok r := by
  by_cases hroom : (bars.length : Int) < d + 59
  · exact ⟨_, EAN13_invalid bars d res hroom⟩
  · have hfit : d + 59 ≤ (bars.length : Int) := by omega
    obtain ⟨g, hg⟩ := IsRightGuard_total bars (d + 56) END_PATTERN QUIET_ZONE_RIGHT_EAN
      (by decide) (by omega)
      (by simp only [END_PATTERN, List.length_cons, List.length_nil]; push_cast; omega)
      (by omega)
    obtain ⟨m, hm⟩ := IsPattern_total ⟨bars, some (d + 27), 5⟩ (d + 27) rfl MID_PATTERN 0 0 0
      (by decide) (by omega)
      (by simp only [MID_PATTERN, List.length_cons, List.length_nil]; push_cast; omega)
    obtain ⟨b1, v1, t1, l1, h1, hv1⟩ := DecodeDigits_total bars 6 (d + 3) [' '] (some 0)
      (by omega) (by push_cast; omega)
    unfold EAN13
    have hs1 : END_PATTERN.size = 3 := rfl
    have hs2 : MID_PATTERN.size = 5 := rfl
    have hs3 : CHAR_LEN = 4 := rfl
    simp only [hs1, hs2, hs3, subView_pos _ _ _ (by decide : (0 : Int) < 3),
      subView_pos _ _ _ (by decide : (0 : Int) < 5),
      subView_pos _ _ _ (by decide : (0 : Int) < 4), Option.map_some']
    have hvalid : PatternView.isValid ⟨bars, some (d + 56), 3⟩ = true := by
      simp only [PatternView.isValid, PatternView.isValidN, PatternView.endOff]
      have a1 : (0 : Int) ≤ d + 56 := by omega
      have a2 : d + 56 + 3 ≤ (bars.length : Int) := by omega
      simp [a1, a2]
    rw [hvalid]
    simp only [if_true, hg]
    cases g with
    | false => exact ⟨_, rfl⟩
    | true =>
      simp only [hm]
      by_cases hm0 : m ≠ 0
      · rw [if_pos hm0]
        simp only [h1]
        cases b1 with
        | false => exact ⟨_, rfl⟩
        | true =>
          simp only
          rw [hv1 rfl]
          simp only [subView_pos _ _ _ (by decide : (0 : Int) < 4), Option.map_some']
          obtain ⟨b2, v2, t2, l2, h2, _⟩ := DecodeDigits_total bars 6 (d + 3 + 4 * (6 : Nat) + 5)
            t1 none (by omega) (by push_cast; omega)
          simp only [h2]
          cases b2 with
          | false => exact ⟨_, rfl⟩
          | true =>
            simp only
            split
            · exact ⟨_, rfl⟩
            · exact ⟨_, rfl⟩
      · rw [if_neg hm0]
        exact ⟨_, rfl⟩

theorem decodePattern_total (bars : List Nat) (d size : Int) (res : PartialResult)
    (hd : 1 ≤ d) (hodd : d % 2 = 1) (hsize : d + size ≤ bars.length)
    (hlen : bars.length % 2 = 1) :
    ∃ b next1 res1, decodePattern ⟨bars, some d, size⟩ res = Res.ok (b, next1, res1)
      ∧ (next1 = PatternView.null
        ∨ ∃ d1, next1 = ⟨bars, some d1, 3⟩ ∧ d ≤ d1 ∧ d1 + 33 ≤ d + size ∧ d1 % 2 = 1) := by
  obtain ⟨r, hr, hspec⟩ := FindLeftGuard_spec bars d size QUIET_ZONE_LEFT hd hsize
  have hpar := FindLeftGuard_parity bars d size QUIET_ZONE_LEFT r hr
  unfold decodePattern
  simp only [hr]
  rcases hspec with h | ⟨d1, h1, h2, h3⟩
  · rw [h, null_isValid]
    exact ⟨_, _, _, rfl, Or.inl rfl⟩
  · have hd1 : d1 % 2 = 1 := by
      rcases hpar with hp | ⟨d2, hp1, hp2⟩
      · rw [hp] at h1; cases h1
      · rw [hp1] at h1
        simp only [PatternView.mk.injEq, Option.some.injEq] at h1
        omega
    rw [h1]
    have hv : PatternView.isValid ⟨bars, some d1, 3⟩ = true := by
      simp only [PatternView.isValid, PatternView.isValidN, PatternView.endOff]
      have a1 : (0 : Int) ≤ d1 := by omega
      have a2 : d1 + 3 ≤ (bars.length : Int) := by omega
      simp [a1, a2]
    rw [hv]
    obtain ⟨e, he⟩ := EAN13_total bars d1 res (by omega) hd1 hlen
    obtain ⟨b, res1⟩ := e
    simp only [he]
    exact ⟨_, _, _, rfl, Or.inr ⟨d1, rfl, h2, h3, hd1⟩⟩

/-- The attempts on a run sequence of odd length end within `bars.length + 1` rounds and
read only inside the sequence. -/
theorem attempts_total (bars : List Nat) (hlen : bars.length % 2 = 1) :
    ∀ (fuel : Nat) (d : Int) (res : PartialResult) (R : List (List Char)),
      1 ≤ d → d % 2 = 1 → d ≤ bars.length → (bars.length : Int) + 1 ≤ fuel + d →
      ∃ r, DoDecode.attempts fuel ⟨bars, some d, (bars.length : Int) - d⟩ res R = Res.ok r := by
  intro fuel
  induction fuel with
  | zero => intro d _ _ _ _ _ h; push_cast at h; omega
  | succ fuel ih =>
    intro d res R hd1 hodd hd2 hfuel
    obtain ⟨b, next1, res1, hr, hspec⟩ := decodePattern_total bars d ((bars.length : Int) - d)
      res hd1 hodd (by omega) hlen
    rw [DoDecode.attempts, hr]
    simp only
    rcases hspec with h | ⟨d1, h1, h2, h3, h4⟩
    · rw [h]
      exact ⟨_, rfl⟩
    · rw [h1]
      have hidx : PatternView.index ⟨bars, some d1, 3⟩ = d1 - 1 := rfl
      rw [hidx]
      have ht : Int.tmod (d1 - 1) 2 = 0 := by
        rw [Int.tmod_eq_emod (by omega) (by decide)]
        omega
      rw [ht]
      have hnext : (PatternView.extend (PatternView.shift ⟨bars, some d1, 3⟩ (2 - 0)).2)
          = ⟨bars, some (d1 + 2), (bars.length : Int) - (d1 + 2)⟩ := by
        simp only [PatternView.shift, PatternView.extend, PatternView.endOff]
        congr 1
        norm_num
        omega
      rw [hnext]
      have hne : (bars.length : Int) - (d1 + 2) ≠ 0 := by omega
      simp only [hne, ne_eq, not_false_eq_true, if_true]
      exact ih (d1 + 2) res1 _ (by omega) (by omega) (by omega) (by push_cast at hfuel; omega)

theorem getPatternRow_parity (image : List Nat) (height : Int) (w r : Nat) (hw : 1 ≤ w)
    (hb : r * w + w ≤ image.length) :
    ∃ runs, getPatternRow image height w r = Res.ok runs ∧ runs.length % 2 = 1 := by
  have hpar := scan_length_parity (rowPixels image w r) 0 0 false []
  refine ⟨_, getPatternRow_eq image height w r hw hb, ?_⟩
  by_cases hf : finalVal (rowPixels image w r) false = true
  · rw [if_pos hf, List.length_append]
    rw [hf] at hpar
    simp at hpar ⊢
    omega
  · rw [if_neg hf, List.append_nil]
    have hf2 : finalVal (rowPixels image w r) false = false := by
      cases h : finalVal (rowPixels image w r) false
      · rfl
      · exact absurd h hf
    rw [hf2] at hpar
    simpa using hpar

theorem rows_total (image : List Nat) (w h : Nat) (hw : 1 ≤ w) (himg : w * h ≤ image.length) :
    ∀ (n : Nat) (i : Int) (res : PartialResult) (R : List (List Char)),
      ∃ S, DoDecode.rows image w h n i res R = Res.ok S := by
  intro n
  induction n with
  | zero => intro i res R; exact ⟨R, rfl⟩
  | succ n ih =>
    intro i res R
    rw [rows_succ]
    by_cases hrow : rowOfIteration h i < 0 ∨ rowOfIteration h i ≥ h
    · rw [if_pos hrow]; exact ⟨R, rfl⟩
    · rw [if_neg hrow]
      obtain ⟨r, hr⟩ : ∃ r : Nat, rowOfIteration h i = r :=
        Int.eq_ofNat_of_zero_le (by omega)
      rw [hr]
      have hrh : r < h := by omega
      have hb : r * w + w ≤ image.length := by
        have h1 : (r + 1) * w ≤ h * w := Nat.mul_le_mul_right w hrh
        have h2 : h * w = w * h := Nat.mul_comm h w
        have h3 : (r + 1) * w = r * w + w := by ring
        omega
      obtain ⟨bars, hbars, hodd⟩ := getPatternRow_parity image h w r hw hb
      rw [hbars]
      simp only
      have hpos : 1 ≤ bars.length := by omega
      have hview : PatternView.ofBars bars = ⟨bars, some 1, (bars.length : Int) - 1⟩ := rfl
      rw [hview]
      obtain ⟨a, ha⟩ := attempts_total bars hodd (bars.length + 1) 1 res R (by omega)
        (by decide) (by omega) (by push_cast; omega)
      obtain ⟨res1, R1⟩ := a
      rw [ha]
      exact ih (i + 1) res1 R1

theorem DoDecode_total (image : List Nat) (w h : Nat) (hw : 1 ≤ w)
    (himg : w * h ≤ image.length) : ∃ S, DoDecode image w h = Res.ok S :=
  rows_total image w h hw himg _ 0 _ _


/-! ## Output contract, partial results, bounds safety -/

/-- C2: for every image, width and height, every string in the set returned by `DoDecode`
has exactly 13 characters, each an ASCII digit `'0'..'9'`; and the string that
`GetMostFrequentResult` returns from that set, whatever the iteration order of the
frequency map, is empty or exactly 13 ASCII digits. -/
theorem DoDecode_output_digits (image : List Nat) (width height : Int)
    (S : List (List Char)) (h : DoDecode image width height = Res.ok S) :
    (∀ t ∈ S, IsDigitString 13 t)
      ∧ ∀ order : MapOrder, LawfulOrder order →
          GetMostFrequentResult order S = []
            ∨ IsDigitString 13 (GetMostFrequentResult order S) := by
  obtain ⟨T, _, hmem, h13⟩ := DoDecode_trace image width height S h
  have hS : ∀ t ∈ S, IsDigitString 13 t := fun t ht => h13 t ((hmem t).mp ht)
  refine ⟨hS, fun order horder => ?_⟩
  rcases GetMostFrequentResult_mem order horder S with h1 | h1
  · exact Or.inl h1
  · exact Or.inr (hS _ h1)

/-- Witness of `DoDecode_output_digits`: the image of `4006381333931` at 2 pixels per
module on 3 rows. -/
theorem DoDecode_output_digits_witness :
    DoDecode (imageOfRow 3 (renderRow 2 "4006381333931".toList 22 14))
        ((renderRow 2 "4006381333931".toList 22 14).length : Nat) (3 : Nat)
      = Res.ok ["4006381333931".toList]
    ∧ ((∀ t ∈ ["4006381333931".toList], IsDigitString 13 t)
      ∧ ∀ order : MapOrder, LawfulOrder order →
          GetMostFrequentResult order ["4006381333931".toList] = []
            ∨ IsDigitString 13 (GetMostFrequentResult order ["4006381333931".toList])) :=
  ⟨DoDecode_render "4006381333931".toList (by decide) 2 (by decide) (by decide) 3
      (by decide) 22 14,
    DoDecode_output_digits _ _ _ _
      (DoDecode_render "4006381333931".toList (by decide) 2 (by decide) (by decide) 3
        (by decide) 22 14)⟩

/-- C11: no partial results.  `successfulDecodes` lists, over the rows in scan order and
the start-guard positions tried in each row, the text of every attempt on which
`decodePattern` returned `true`.  Whenever `DoDecode` returns a set, a string is in the set
if and only if it is in that list: an attempt that fails adds nothing, although `DoDecode`
ignores the boolean and reuses `res` across attempts and rows. -/
theorem no_partial_results (image : List Nat) (width height : Int) (S : List (List Char))
    (h : DoDecode image width height = Res.ok S) :
    ∃ T, successfulDecodes image width height = Res.ok T ∧ ∀ t, t ∈ S ↔ t ∈ T := by
  obtain ⟨T, hT, hmem, _⟩ := DoDecode_trace image width height S h
  exact ⟨T, hT, hmem⟩

/-- Witness of `no_partial_results`: the image of `5901234123457` at 1 pixel per module on
2 rows. -/
theorem no_partial_results_witness :
    DoDecode (imageOfRow 2 (renderRow 1 "5901234123457".toList 11 7))
        ((renderRow 1 "5901234123457".toList 11 7).length : Nat) (2 : Nat)
      = Res.ok ["5901234123457".toList]
    ∧ ∃ T, successfulDecodes (imageOfRow 2 (renderRow 1 "5901234123457".toList 11 7))
        ((renderRow 1 "5901234123457".toList 11 7).length : Nat) (2 : Nat) = Res.ok T
      ∧ ∀ t, t ∈ ["5901234123457".toList] ↔ t ∈ T :=
  ⟨DoDecode_render "5901234123457".toList (by decide) 1 (by decide) (by decide) 2
      (by decide) 11 7,
    no_partial_results _ _ _ _
      (DoDecode_render "5901234123457".toList (by decide) 1 (by decide) (by decide) 2
        (by decide) 11 7)⟩

/-! ## `shift` -/

/-- C26 (amended): `shift(n)` on a null cursor returns `false` and leaves the cursor
unchanged; on any other cursor it moves the start by `n` runs, keeps the length, and returns
`true` exactly when the end of the shifted window is not beyond the end of the run sequence.
The start is not compared with the beginning of the sequence; when the new start is not
before it, the result is `true` exactly when the shifted window lies inside the sequence. -/
theorem shift_checks_upper_bound (v : PatternView) (n : Int) :
    (v.data = none → v.shift n = (false, v))
    ∧ ∀ d : Int, v.data = some d →
        (v.shift n).2 = ⟨v.bars, some (d + n), v.size⟩
        ∧ ((v.shift n).1 = true ↔ d + n + v.size ≤ v.bars.length)
        ∧ (0 ≤ d + n →
            ((v.shift n).1 = true ↔ 0 ≤ d + n ∧ d + n + v.size ≤ v.bars.length)) := by
  refine ⟨fun h => ?_, fun d h => ?_⟩
  · unfold PatternView.shift
    rw [h]
  · have hs : v.shift n
        = (decide (d + n + v.size ≤ v.endOff), { v with data := some (d + n) }) := by
      unfold PatternView.shift
      rw [h]
    rw [hs]
    refine ⟨rfl, ?_, fun h0 => ?_⟩
    · simp [PatternView.endOff]
    · simp [PatternView.endOff, h0]

/-- Witness of `shift_checks_upper_bound`: a window of 3 runs at offset 1 of 5 runs,
shifted by 2, does not fit. -/
theorem shift_checks_upper_bound_witness :
    (PatternView.shift ⟨[4, 1, 1, 1, 4], some 1, 3⟩ 2).2 = ⟨[4, 1, 1, 1, 4], some (1 + 2), 3⟩
    ∧ ((PatternView.shift ⟨[4, 1, 1, 1, 4], some 1, 3⟩ 2).1 = true
        ↔ (1 : Int) + 2 + 3 ≤ ([4, 1, 1, 1, 4] : List Nat).length)
    ∧ ((0 : Int) ≤ 1 + 2 →
        ((PatternView.shift ⟨[4, 1, 1, 1, 4], some 1, 3⟩ 2).1 = true
          ↔ (0 : Int) ≤ 1 + 2 ∧ (1 : Int) + 2 + 3 ≤ ([4, 1, 1, 1, 4] : List Nat).length)) :=
  (shift_checks_upper_bound ⟨[4, 1, 1, 1, 4], some 1, 3⟩ 2).2 1 rfl

/-- C26 (counterexample): shifting a window of 3 runs at offset 1 by -5 reports success,
although the shifted window starts 4 runs before the run sequence. -/
theorem shift_before_base :
    (PatternView.shift ⟨[4, 1, 1, 1, 4], some 1, 3⟩ (-5)).1 = true
    ∧ (PatternView.shift ⟨[4, 1, 1, 1, 4], some 1, 3⟩ (-5)).2.data = some (-4)
    ∧ ¬ ((0 : Int) ≤ -4) := by
  decide

/-! ## `IsPattern` -/

theorem deviations_any (t u : ℚ) : ∀ (c p : List Nat),
    (deviations c p u).any (fun v => decide (v > t)) = true
      ↔ ∃ i : Nat, i < c.length ∧ i < p.length
          ∧ |((c.getD i 0 : Nat) : ℚ) - ((p.getD i 0 : Nat) : ℚ) * u| > t
  | [], p => by simp [deviations]
  | _ :: _, [] => by simp [deviations]
  | a :: c, b :: p => by
    have ih := deviations_any t u c p
    unfold deviations at ih ⊢
    simp only [List.zipWith_cons_cons, List.any_cons, Bool.or_eq_true, decide_eq_true_eq, ih]
    constructor
    · rintro (h | ⟨i, h1, h2, h3⟩)
      · exact ⟨0, by simp, by simp, by simpa using h⟩
      · exact ⟨i + 1, by simpa using h1, by simpa using h2, by simpa using h3⟩
    · rintro ⟨i, h1, h2, h3⟩
      cases i with
      | zero => left; simpa using h3
      | succ i =>
        right
        exact ⟨i, by simpa using h1, by simpa using h2, by simpa using h3⟩

/-- C23 (amended): for every reference pattern whose module count `SUM` exceeds its number
of runs, `IsPattern` returns the no-match value 0 whenever the sum of the window's runs is
smaller than `SUM`.  For the END pattern (3 runs, sum 3) and the MID pattern (5 runs, sum
5) the module count equals the number of runs and the test is skipped: a window is judged
by the quiet-zone and threshold comparisons alone, whatever its width. -/
theorem IsPattern_min_width (v : PatternView) (pattern : FixedPattern) (sp : Int) (q ref : ℚ) :
    (∀ width : Int, v.sum pattern.size = Res.ok width → pattern.SUM > pattern.size →
        width < pattern.SUM → IsPattern v pattern sp q ref = Res.ok 0)
    ∧ ¬ (END_PATTERN.SUM > END_PATTERN.size) ∧ ¬ (MID_PATTERN.SUM > MID_PATTERN.size)
    ∧ (∀ (d : Int) (w : List Nat), v.data = some d → ListReads v.bars d w → w ≠ [] →
        pattern.data.length = w.length → ¬ (pattern.SUM > pattern.size) →
        IsPattern v pattern sp q ref
          = Res.ok (if q ≠ 0 ∧ (sp : ℚ) < q * (((w.sum : Int) : ℚ) / (pattern.SUM : ℚ)) - 1
              then 0
              else isPatternOf w pattern sp 0 ref)) := by
  refine ⟨fun width hsum hgt hlt => ?_, by decide, by decide, fun d w hd hw hne hlen hsl => ?_⟩
  · unfold IsPattern
    rw [hsum]
    simp only
    rw [if_pos ⟨hgt, hlt⟩]
  · rw [IsPattern_reads v d hd w pattern sp q ref hlen hne hw]
    unfold isPatternOf
    have h1 : ¬ (pattern.SUM > pattern.size ∧ (w.sum : Int) < pattern.SUM) := fun h => hsl h.1
    simp only [h1, if_false]
    by_cases hq : q ≠ 0 ∧ (sp : ℚ) < q * (((w.sum : Int) : ℚ) / (pattern.SUM : ℚ)) - 1
    · rw [if_pos hq, if_pos hq]
    · rw [if_neg hq, if_neg hq]
      simp

/-- Witness of `IsPattern_min_width`: a pattern of 3 runs and 4 modules on a window of 3
pixels. -/
theorem IsPattern_min_width_witness :
    IsPattern ⟨[5, 1, 1, 1, 9], some 1, 3⟩ ⟨[1, 2, 1], 4⟩ 0 0 0 = Res.ok 0 :=
  (IsPattern_min_width ⟨[5, 1, 1, 1, 9], some 1, 3⟩ ⟨[1, 2, 1], 4⟩ 0 0 0).1 3
    (by decide) (by decide) (by decide)

/-- C23 (counterexample): the window 1, 1, 0 has sum 2, smaller than the 3 modules of the
END pattern, and `IsPattern` returns the module size 2/3, not 0; the window 1, 1, 1, 1, 0
has sum 4 and matches the MID pattern with module size 4/5. -/
theorem narrow_window_matches_guard :
    IsPattern ⟨[5, 1, 1, 0, 9], some 1, 3⟩ END_PATTERN 0 0 0 = Res.ok (2 / 3)
    ∧ PatternView.sum ⟨[5, 1, 1, 0, 9], some 1, 3⟩ END_PATTERN.size = Res.ok 2
    ∧ IsPattern ⟨[5, 1, 1, 1, 1, 0, 9], some 1, 5⟩ MID_PATTERN 0 0 0 = Res.ok (4 / 5)
    ∧ PatternView.sum ⟨[5, 1, 1, 1, 1, 0, 9], some 1, 5⟩ MID_PATTERN.size = Res.ok 4 := by
  decide!


/-! ## Best match and ties -/

/-- The permissive loop of the template `DecodeDigit` returns `pickBest` of the variances
that `PatternMatchVariance` gives for the table entries. -/
theorem decodeLoop_variances (v : PatternView) (lim : ℚ) :
    ∀ (patterns : List (List Nat)) (i : Int) (bv : ℚ) (bm r : Int),
      DecodeDigit.loop v lim false patterns i bv bm = Res.ok r →
      ∃ vars : List ℚ, vars.length = patterns.length
        ∧ (∀ k : Nat, k < patterns.length →
            PatternMatchVariance v (patterns.getD k []) lim = Res.ok (vars.getD k 0))
        ∧ r = pickBest vars i bv bm := by
  intro patterns
  induction patterns with
  | nil =>
    intro i bv bm r h
    simp only [DecodeDigit.loop, Res.ok.injEq] at h
    exact ⟨[], rfl, by simp, by simp [pickBest, h]⟩
  | cons p ps ih =>
    intro i bv bm r h
    rw [DecodeDigit.loop] at h
    cases hv : PatternMatchVariance v p lim with
    | outOfRange => rw [hv] at h; cases h
    | outOfFuel => rw [hv] at h; cases h
    | ok x =>
      rw [hv] at h
      simp only [Bool.false_eq_true, false_and, if_false] at h
      have hstep : ∀ vars : List ℚ, vars.length = ps.length →
          (∀ k : Nat, k < ps.length →
            PatternMatchVariance v (ps.getD k []) lim = Res.ok (vars.getD k 0)) →
          (x :: vars).length = (p :: ps).length
          ∧ (∀ k : Nat, k < (p :: ps).length →
            PatternMatchVariance v ((p :: ps).getD k []) lim = Res.ok ((x :: vars).getD k 0)) := by
        intro vars hl hk
        refine ⟨by simp [hl], ?_⟩
        intro k hlt
        cases k with
        | zero => simpa using hv
        | succ k =>
          have := hk k (by simpa using hlt)
          simpa using this
      by_cases hlt : x < bv
      · rw [if_pos hlt] at h
        obtain ⟨vars, hl, hk, hr⟩ := ih (i + 1) x i r h
        obtain ⟨h1, h2⟩ := hstep vars hl hk
        exact ⟨x :: vars, h1, h2, by rw [hr]; simp [pickBest, hlt]⟩
      · rw [if_neg hlt] at h
        obtain ⟨vars, hl, hk, hr⟩ := ih (i + 1) bv bm r h
        obtain ⟨h1, h2⟩ := hstep vars hl hk
        exact ⟨x :: vars, h1, h2, by rw [hr]; simp [pickBest, hlt]⟩

/-- The value of `pickBest`: the initial match when no variance is below the limit,
otherwise the first position of the smallest variance. -/
theorem pickBest_first_min : ∀ (vars : List ℚ) (i : Int) (bv : ℚ) (bm : Int),
    (pickBest vars i bv bm = bm ∧ ∀ k : Nat, k < vars.length → bv ≤ vars.getD k 0)
    ∨ ∃ j : Nat, j < vars.length ∧ pickBest vars i bv bm = i + j ∧ vars.getD j 0 < bv
        ∧ (∀ k : Nat, k < vars.length → vars.getD j 0 ≤ vars.getD k 0)
        ∧ (∀ k : Nat, k < j → vars.getD j 0 < vars.getD k 0)
  | [], i, bv, bm => Or.inl ⟨rfl, by simp⟩
  | x :: vars, i, bv, bm => by
    by_cases hlt : x < bv
    · have hp : pickBest (x :: vars) i bv bm = pickBest vars (i + 1) x i := by
        simp [pickBest, hlt]
      rw [hp]
      rcases pickBest_first_min vars (i + 1) x i with ⟨h1, h2⟩ | ⟨j, h1, h2, h3, h4, h5⟩
      · right
        refine ⟨0, by simp, by simp [h1], by simpa using hlt, ?_, by simp⟩
        intro k hk
        cases k with
        | zero => simp
        | succ k => simpa using h2 k (by simpa using hk)
      · right
        refine ⟨j + 1, by simpa using h1, ?_, ?_, ?_, ?_⟩
        · rw [h2]; push_cast; ring
        · simp only [List.getD_cons_succ]; exact lt_trans h3 hlt
        · intro k hk
          cases k with
          | zero => simp only [List.getD_cons_succ, List.getD_cons_zero]; exact le_of_lt h3
          | succ k => simpa using h4 k (by simpa using hk)
        · intro k hk
          cases k with
          | zero => simp only [List.getD_cons_succ, List.getD_cons_zero]; exact h3
          | succ k => simpa using h5 k (by omega)
    · have hp : pickBest (x :: vars) i bv bm = pickBest vars (i + 1) bv bm := by
        simp [pickBest, hlt]
      rw [hp]
      rcases pickBest_first_min vars (i + 1) bv bm with ⟨h1, h2⟩ | ⟨j, h1, h2, h3, h4, h5⟩
      · left
        refine ⟨h1, ?_⟩
        intro k hk
        cases k with
        | zero => simpa using not_lt.mp hlt
        | succ k => simpa using h2 k (by simpa using hk)
      · right
        refine ⟨j + 1, by simpa using h1, ?_, ?_, ?_, ?_⟩
        · rw [h2]; push_cast; ring
        · simpa using h3
        · intro k hk
          cases k with
          | zero =>
            simp only [List.getD_cons_succ, List.getD_cons_zero]
            exact le_of_lt (lt_of_lt_of_le h3 (not_lt.mp hlt))
          | succ k => simpa using h4 k (by simpa using hk)
        · intro k hk
          cases k with
          | zero =>
            simp only [List.getD_cons_succ, List.getD_cons_zero]
            exact lt_of_lt_of_le h3 (not_lt.mp hlt)
          | succ k => simpa using h5 k (by omega)

/-- The result of the permissive template `DecodeDigit`, from the variances of the table
entries. -/
theorem DecodeDigitIndex_first_min (v : PatternView) (patterns : List (List Nat))
    (avg lim : ℚ) (b : Int) (h : DecodeDigitIndex v patterns avg lim false = Res.ok b) :
    ∃ vars : List ℚ, vars.length = patterns.length
      ∧ (∀ k : Nat, k < patterns.length →
          PatternMatchVariance v (patterns.getD k []) lim = Res.ok (vars.getD k 0))
      ∧ ((b = -1 ∧ ∀ k : Nat, k < patterns.length → avg ≤ vars.getD k 0)
        ∨ ∃ j : Nat, j < patterns.length ∧ b = j ∧ vars.getD j 0 < avg
            ∧ (∀ k : Nat, k < patterns.length → vars.getD j 0 ≤ vars.getD k 0)
            ∧ (∀ k : Nat, k < j → vars.getD j 0 < vars.getD k 0)) := by
  unfold DecodeDigitIndex at h
  obtain ⟨vars, hl, hk, hr⟩ := decodeLoop_variances v lim patterns 0 avg (-1) b h
  refine ⟨vars, hl, hk, ?_⟩
  rcases pickBest_first_min vars 0 avg (-1) with ⟨h1, h2⟩ | ⟨j, h1, h2, h3, h4, h5⟩
  · left
    exact ⟨by rw [hr, h1], fun k hk2 => h2 k (by rw [hl]; exact hk2)⟩
  · right
    exact ⟨j, by rw [← hl]; exact h1, by rw [hr, h2]; simp, h3,
      fun k hk2 => h4 k (by rw [hl]; exact hk2), h5⟩

/-! ## The acceptance thresholds of a digit -/

/-- `PatternMatchVariance` on a 4-run window and a 7-module pattern, in the terms of
`PassesChecks` and `windowVariance`. -/
theorem varianceOf_checks (w p : List Nat) (hw : w.length = 4) (hp : p.length = 4)
    (hsum : p.sum = 7) :
    (PassesChecks w p → varianceOf w p (7 / 10) = windowVariance w p
        ∧ windowVariance w p ≤ 2 / 5)
    ∧ (¬ PassesChecks w p → varianceOf w p (7 / 10) = FLT_MAX) := by
  obtain ⟨c0, c1, c2, c3, rfl⟩ := list_four w hw
  obtain ⟨p0, p1, p2, p3, rfl⟩ := list_four p hp
  have hP : (7 : ℚ) = (p0 : ℚ) + p1 + p2 + p3 := by
    have : p0 + (p1 + (p2 + p3)) = 7 := by simpa using hsum
    have h2 : ((p0 + (p1 + (p2 + p3)) : Nat) : ℚ) = 7 := by rw [this]; norm_num
    push_cast at h2
    linarith
  have hv := varianceOf_four c0 c1 c2 c3 p0 p1 p2 p3 (7 / 10)
    ((c0 : ℚ) + c1 + c2 + c3) 7 rfl hP
  have hT : (([c0, c1, c2, c3] : List Nat).sum : ℚ) = (c0 : ℚ) + c1 + c2 + c3 := by
    simp only [List.sum_cons, List.sum_nil]; push_cast; ring
  have hu : unitWidth [c0, c1, c2, c3] = ((c0 : ℚ) + c1 + c2 + c3) / 7 := by
    unfold unitWidth; rw [hT]
  have hd0 : deviationAt [c0, c1, c2, c3] [p0, p1, p2, p3] 0
      = |(c0 : ℚ) - p0 * (((c0 : ℚ) + c1 + c2 + c3) / 7)| := by
    unfold deviationAt; rw [hu]; rfl
  have hd1 : deviationAt [c0, c1, c2, c3] [p0, p1, p2, p3] 1
      = |(c1 : ℚ) - p1 * (((c0 : ℚ) + c1 + c2 + c3) / 7)| := by
    unfold deviationAt; rw [hu]; rfl
  have hd2 : deviationAt [c0, c1, c2, c3] [p0, p1, p2, p3] 2
      = |(c2 : ℚ) - p2 * (((c0 : ℚ) + c1 + c2 + c3) / 7)| := by
    unfold deviationAt; rw [hu]; rfl
  have hd3 : deviationAt [c0, c1, c2, c3] [p0, p1, p2, p3] 3
      = |(c3 : ℚ) - p3 * (((c0 : ℚ) + c1 + c2 + c3) / 7)| := by
    unfold deviationAt; rw [hu]; rfl
  have hge : (7 ≤ ([c0, c1, c2, c3] : List Nat).sum) ↔ ¬ ((c0 : ℚ) + c1 + c2 + c3 < 7) := by
    rw [not_lt, ← hT]
    exact_mod_cast Iff.rfl
  constructor
  · intro hpass
    obtain ⟨h7, hall⟩ := hpass
    have e0 := hall 0 (by decide)
    have e1 := hall 1 (by decide)
    have e2 := hall 2 (by decide)
    have e3 := hall 3 (by decide)
    rw [hd0, hu] at e0
    rw [hd1, hu] at e1
    rw [hd2, hu] at e2
    rw [hd3, hu] at e3
    have hnot : ¬ (|(c0 : ℚ) - p0 * (((c0 : ℚ) + c1 + c2 + c3) / 7)|
          > 7 / 10 * (((c0 : ℚ) + c1 + c2 + c3) / 7)
        ∨ |(c1 : ℚ) - p1 * (((c0 : ℚ) + c1 + c2 + c3) / 7)|
          > 7 / 10 * (((c0 : ℚ) + c1 + c2 + c3) / 7)
        ∨ |(c2 : ℚ) - p2 * (((c0 : ℚ) + c1 + c2 + c3) / 7)|
          > 7 / 10 * (((c0 : ℚ) + c1 + c2 + c3) / 7)
        ∨ |(c3 : ℚ) - p3 * (((c0 : ℚ) + c1 + c2 + c3) / 7)|
          > 7 / 10 * (((c0 : ℚ) + c1 + c2 + c3) / 7)) := by
      rintro (h | h | h | h)
      · exact absurd e0 (not_le.mpr h)
      · exact absurd e1 (not_le.mpr h)
      · exact absurd e2 (not_le.mpr h)
      · exact absurd e3 (not_le.mpr h)
    have hT7 : ¬ ((c0 : ℚ) + c1 + c2 + c3 < 7) := hge.mp h7
    rw [hv, if_neg hT7, if_neg hnot]
    have hval : windowVariance [c0, c1, c2, c3] [p0, p1, p2, p3]
        = (|(c0 : ℚ) - p0 * (((c0 : ℚ) + c1 + c2 + c3) / 7)|
          + (|(c1 : ℚ) - p1 * (((c0 : ℚ) + c1 + c2 + c3) / 7)|
          + (|(c2 : ℚ) - p2 * (((c0 : ℚ) + c1 + c2 + c3) / 7)|
          + |(c3 : ℚ) - p3 * (((c0 : ℚ) + c1 + c2 + c3) / 7)|))) / ((c0 : ℚ) + c1 + c2 + c3) := by
      unfold windowVariance
      rw [hd0, hd1, hd2, hd3, hT]
      ring
    refine ⟨hval.symm, ?_⟩
    rw [hval]
    have hpos : (0 : ℚ) < (c0 : ℚ) + c1 + c2 + c3 := by linarith [not_lt.mp hT7]
    rw [div_le_iff₀ hpos]
    linarith
  · intro hfail
    by_cases hT7 : (c0 : ℚ) + c1 + c2 + c3 < 7
    · rw [hv, if_pos hT7]
    · rw [hv, if_neg hT7]
      have hex : |(c0 : ℚ) - p0 * (((c0 : ℚ) + c1 + c2 + c3) / 7)|
            > 7 / 10 * (((c0 : ℚ) + c1 + c2 + c3) / 7)
          ∨ |(c1 : ℚ) - p1 * (((c0 : ℚ) + c1 + c2 + c3) / 7)|
            > 7 / 10 * (((c0 : ℚ) + c1 + c2 + c3) / 7)
          ∨ |(c2 : ℚ) - p2 * (((c0 : ℚ) + c1 + c2 + c3) / 7)|
            > 7 / 10 * (((c0 : ℚ) + c1 + c2 + c3) / 7)
          ∨ |(c3 : ℚ) - p3 * (((c0 : ℚ) + c1 + c2 + c3) / 7)|
            > 7 / 10 * (((c0 : ℚ) + c1 + c2 + c3) / 7) := by
        by_contra hcon
        push_neg at hcon
        apply hfail
        refine ⟨hge.mpr hT7, ?_⟩
        intro i hi
        rw [hu]
        interval_cases i
        · rw [hd0]; exact hcon.1
        · rw [hd1]; exact hcon.2.1
        · rw [hd2]; exact hcon.2.2.1
        · rw [hd3]; exact hcon.2.2.2
      rw [if_pos hex]

theorem flt_max_large : (12 / 25 : ℚ) < FLT_MAX := by decide!

/-- On a window of four runs the template `DecodeDigit` evaluates `varianceOf` on every entry
of a 7-module table. -/
theorem DecodeDigitIndex_window (v : PatternView) (d : Int) (hd : v.data = some d)
    (w : List Nat) (hsize : v.size = 4) (hw : ListReads v.bars d w) (hlen : w.length = 4)
    (table : List (List Nat)) (hgood : ∀ p ∈ table, p.length = 4 ∧ p.sum = 7) :
    ∃ b : Int, DecodeDigitIndex v table MAX_AVG_VARIANCE MAX_INDIVIDUAL_VARIANCE false
        = Res.ok b
      ∧ ((b = -1 ∧ ∀ p ∈ table, ¬ PassesChecks w p)
        ∨ ∃ j : Nat, j < table.length ∧ b = j ∧ PassesChecks w (table.getD j [])
            ∧ (∀ q ∈ table, PassesChecks w q →
                windowVariance w (table.getD j []) ≤ windowVariance w q)) := by
  have hread : ∀ p ∈ table, PatternMatchVariance v p MAX_INDIVIDUAL_VARIANCE
      = Res.ok (varianceOf w p (7 / 10)) := by
    intro p hp
    exact PatternMatchVariance_reads v d hd w p _ (by rw [hsize, hlen]; rfl)
      (by rw [hlen]; exact (hgood p hp).1) hw
  have hmemk : ∀ k : Nat, k < table.length → table.getD k [] ∈ table := by
    intro k hk
    have : table.getD k [] = table[k] := by simp [List.getD, List.getElem?_eq_getElem hk]
    rw [this]
    exact List.getElem_mem hk
  have hb : ∃ b : Int, DecodeDigitIndex v table MAX_AVG_VARIANCE MAX_INDIVIDUAL_VARIANCE false
      = Res.ok b := by
    refine ⟨pickBest (table.map (fun p => varianceOf w p MAX_INDIVIDUAL_VARIANCE)) 0
      MAX_AVG_VARIANCE (-1), ?_⟩
    unfold DecodeDigitIndex
    exact decodeLoop_reads v d hd w MAX_INDIVIDUAL_VARIANCE (by rw [hsize, hlen]; rfl) hw
      table 0 MAX_AVG_VARIANCE (-1) (by intro p hp; rw [hlen]; exact (hgood p hp).1)
  obtain ⟨b, hb⟩ := hb
  refine ⟨b, hb, ?_⟩
  obtain ⟨vars, _, hk, hcase⟩ := DecodeDigitIndex_first_min v table _ _ b hb
  have hvar : ∀ k : Nat, k < table.length →
      vars.getD k 0 = varianceOf w (table.getD k []) (7 / 10) := by
    intro k hk2
    have h1 := hk k hk2
    rw [hread _ (hmemk k hk2)] at h1
    simp only [Res.ok.injEq] at h1
    exact h1.symm
  have hchk : ∀ p ∈ table, (PassesChecks w p → varianceOf w p (7 / 10) = windowVariance w p
        ∧ windowVariance w p ≤ 2 / 5)
      ∧ (¬ PassesChecks w p → varianceOf w p (7 / 10) = FLT_MAX) :=
    fun p hp => varianceOf_checks w p hlen (hgood p hp).1 (hgood p hp).2
  have havg : MAX_AVG_VARIANCE = 12 / 25 := rfl
  rcases hcase with ⟨h1, h2⟩ | ⟨j, h1, h2, h3, h4, _⟩
  · left
    refine ⟨h1, ?_⟩
    intro p hp hpass
    obtain ⟨k, hk2, hkp⟩ := List.getElem_of_mem hp
    have hget : table.getD k [] = p := by
      simp [List.getD, List.getElem?_eq_getElem hk2, hkp]
    have h5 := h2 k hk2
    rw [hvar k hk2, hget, ((hchk p hp).1 hpass).1, havg] at h5
    have h6 := ((hchk p hp).1 hpass).2
    linarith
  · right
    have hmj := hmemk j h1
    have hpassj : PassesChecks w (table.getD j []) := by
      by_contra hno
      rw [hvar j h1, (hchk _ hmj).2 hno, havg] at h3
      exact absurd h3 (not_lt.mpr (le_of_lt flt_max_large))
    refine ⟨j, h1, h2, hpassj, ?_⟩
    intro q hq hpassq
    obtain ⟨k, hk2, hkq⟩ := List.getElem_of_mem hq
    have hget : table.getD k [] = q := by
      simp [List.getD, List.getElem?_eq_getElem hk2, hkq]
    have h5 := h4 k hk2
    rw [hvar j h1, hvar k hk2, hget, ((hchk _ hmj).1 hpassj).1, ((hchk q hq).1 hpassq).1] at h5
    exact h5


theorem digit_tables_good (table : List (List Nat))
    (ht : table = L_PATTERNS ∨ table = L_AND_G_PATTERNS) :
    ∀ p ∈ table, p.length = 4 ∧ p.sum = 7 := by
  rcases ht with rfl | rfl <;> decide

theorem not_passesChecks (w p : List Nat) :
    ¬ PassesChecks w p
      ↔ (w.sum < 7 ∨ ∃ i : Nat, i < 4 ∧ deviationAt w p i > 7 / 10 * unitWidth w) := by
  unfold PassesChecks
  constructor
  · intro h
    by_cases h7 : 7 ≤ w.sum
    · right
      by_contra hno
      push_neg at hno
      exact h ⟨h7, hno⟩
    · left; omega
  · rintro (h | ⟨i, hi, hdev⟩) ⟨h7, hall⟩
    · omega
    · exact absurd (hall i hi) (not_le.mpr hdev)

/-- C29: the average-variance limit is never the deciding check.  For every 4-run window
and every entry of `L_PATTERNS` or `L_AND_G_PATTERNS`, `PatternMatchVariance` with per-run
limit 0.7 returns the reject sentinel exactly when the total is below 7 or some run
deviates by more than `0.7 * unitWidth`, and every other value is at most 0.4, below
`MAX_AVG_VARIANCE = 0.48`; hence the template `DecodeDigit` returns -1 exactly when every
entry of its table is rejected. -/
theorem avg_limit_never_decides (v : PatternView) (d : Int) (hd : v.data = some d)
    (w : List Nat) (hsize : v.size = 4) (hw : ListReads v.bars d w) (hlen : w.length = 4) :
    (∀ p ∈ L_AND_G_PATTERNS, ∃ x : ℚ,
        PatternMatchVariance v p MAX_INDIVIDUAL_VARIANCE = Res.ok x
        ∧ (x ≠ FLT_MAX → x ≤ 2 / 5)
        ∧ (x = FLT_MAX
            ↔ (w.sum < 7 ∨ ∃ i : Nat, i < 4 ∧ deviationAt w p i > 7 / 10 * unitWidth w)))
    ∧ (∀ p ∈ L_PATTERNS, p ∈ L_AND_G_PATTERNS)
    ∧ (2 / 5 : ℚ) < MAX_AVG_VARIANCE
    ∧ (∀ table : List (List Nat), table = L_PATTERNS ∨ table = L_AND_G_PATTERNS →
        ∃ b : Int, DecodeDigitIndex v table MAX_AVG_VARIANCE MAX_INDIVIDUAL_VARIANCE false
            = Res.ok b
          ∧ (b = -1 ↔ ∀ p ∈ table,
              PatternMatchVariance v p MAX_INDIVIDUAL_VARIANCE = Res.ok FLT_MAX)) := by
  have hread : ∀ (table : List (List Nat)), (∀ p ∈ table, p.length = 4 ∧ p.sum = 7) →
      ∀ p ∈ table, PatternMatchVariance v p MAX_INDIVIDUAL_VARIANCE
        = Res.ok (varianceOf w p (7 / 10)) := by
    intro table hgood p hp
    exact PatternMatchVariance_reads v d hd w p _ (by rw [hsize, hlen]; rfl)
      (by rw [hlen]; exact (hgood p hp).1) hw
  have hflt : ¬ (FLT_MAX ≤ (2 / 5 : ℚ)) := by decide!
  refine ⟨?_, by decide, by decide!, ?_⟩
  · intro p hp
    have hgood := digit_tables_good L_AND_G_PATTERNS (Or.inr rfl)
    have hchk := varianceOf_checks w p hlen (hgood p hp).1 (hgood p hp).2
    refine ⟨_, hread _ hgood p hp, ?_, ?_⟩
    · intro hne
      by_cases hpass : PassesChecks w p
      · rw [(hchk.1 hpass).1]; exact (hchk.1 hpass).2
      · exact absurd (hchk.2 hpass) hne
    · rw [← not_passesChecks]
      constructor
      · intro hx hpass
        rw [(hchk.1 hpass).1] at hx
        have := (hchk.1 hpass).2
        rw [hx] at this
        exact hflt this
      · exact hchk.2
  · intro table ht
    have hgood := digit_tables_good table ht
    obtain ⟨b, hb, hcase⟩ := DecodeDigitIndex_window v d hd w hsize hw hlen table hgood
    refine ⟨b, hb, ?_⟩
    constructor
    · intro hneg p hp
      rcases hcase with ⟨_, h2⟩ | ⟨j, _, h2, _⟩
      · rw [hread table hgood p hp,
          (varianceOf_checks w p hlen (hgood p hp).1 (hgood p hp).2).2 (h2 p hp)]
      · rw [hneg] at h2; omega
    · intro hall
      rcases hcase with ⟨h1, _⟩ | ⟨j, h1, _, h3, _⟩
      · exact h1
      · exfalso
        have hmem : table.getD j [] ∈ table := by
          have : table.getD j [] = table[j] := by
            simp [List.getD, List.getElem?_eq_getElem h1]
          rw [this]
          exact List.getElem_mem h1
        have h5 := hall _ hmem
        rw [hread table hgood _ hmem] at h5
        simp only [Res.ok.injEq] at h5
        have hchk := varianceOf_checks w _ hlen (hgood _ hmem).1 (hgood _ hmem).2
        rw [(hchk.1 h3).1] at h5
        have := (hchk.1 h3).2
        rw [h5] at this
        exact hflt this

/-- Witness of `avg_limit_never_decides`: the window 3, 2, 1, 1. -/
theorem avg_limit_never_decides_witness :
    ∃ b : Int, DecodeDigitIndex ⟨[5, 3, 2, 1, 1, 5], some 1, 4⟩ L_PATTERNS MAX_AVG_VARIANCE
        MAX_INDIVIDUAL_VARIANCE false = Res.ok b
      ∧ (b = -1 ↔ ∀ p ∈ L_PATTERNS,
          PatternMatchVariance ⟨[5, 3, 2, 1, 1, 5], some 1, 4⟩ p MAX_INDIVIDUAL_VARIANCE
            = Res.ok FLT_MAX) :=
  (avg_limit_never_decides ⟨[5, 3, 2, 1, 1, 5], some 1, 4⟩ 1 rfl [3, 2, 1, 1] rfl
    (by decide) rfl).2.2.2 L_PATTERNS (Or.inl rfl)

/-- C21: for every 4-run window, the template `DecodeDigit` returns a table index exactly
when some table entry passes the checks (total at least 7, every run deviation at most
`0.7 * unitWidth`) and the lowest variance among such entries is at most
`0.48 * unitWidth`; otherwise it returns -1, `DecodeDigit` reports failure and
`DecodeDigits` stops with `false`, which makes `EAN13` fail. -/
theorem digit_acceptance (v : PatternView) (d : Int) (hd : v.data = some d)
    (w : List Nat) (hsize : v.size = 4) (hw : ListReads v.bars d w) (hlen : w.length = 4)
    (table : List (List Nat)) (ht : table = L_PATTERNS ∨ table = L_AND_G_PATTERNS) :
    ∃ b : Int, DecodeDigitIndex v table MAX_AVG_VARIANCE MAX_INDIVIDUAL_VARIANCE false
        = Res.ok b
      ∧ (b = -1 ∨ (0 ≤ b ∧ b < table.length))
      ∧ ((0 ≤ b ∧ b < table.length)
          ↔ ∃ p ∈ table, PassesChecks w p
              ∧ (∀ q ∈ table, PassesChecks w q → windowVariance w p ≤ windowVariance w q)
              ∧ windowVariance w p ≤ 12 / 25 * unitWidth w)
      ∧ (b = -1 → ∀ (txt : List Char) (n : Nat),
          (table = L_PATTERNS → DecodeDigits (n + 1) v txt none = Res.ok (false, v, txt, none))
          ∧ (table = L_AND_G_PATTERNS → ∀ lg : Int,
              DecodeDigits (n + 1) v txt (some lg) = Res.ok (false, v, txt, some lg))) := by
  have hgood := digit_tables_good table ht
  obtain ⟨b, hb, hcase⟩ := DecodeDigitIndex_window v d hd w hsize hw hlen table hgood
  refine ⟨b, hb, ?_, ?_, ?_⟩
  · rcases hcase with ⟨h1, _⟩ | ⟨j, h1, h2, _⟩
    · exact Or.inl h1
    · right; rw [h2]; constructor
      · exact Int.natCast_nonneg j
      · exact_mod_cast h1
  · constructor
    · intro hrange
      rcases hcase with ⟨h1, _⟩ | ⟨j, h1, _, h3, h4⟩
      · omega
      · have hmem : table.getD j [] ∈ table := by
          have : table.getD j [] = table[j] := by
            simp [List.getD, List.getElem?_eq_getElem h1]
          rw [this]
          exact List.getElem_mem h1
        refine ⟨_, hmem, h3, h4, ?_⟩
        have hle := ((varianceOf_checks w _ hlen (hgood _ hmem).1 (hgood _ hmem).2).1 h3).2
        have hu : (1 : ℚ) ≤ unitWidth w := by
          unfold unitWidth
          rw [le_div_iff₀ (by norm_num)]
          have : (7 : ℚ) ≤ (w.sum : ℚ) := by exact_mod_cast h3.1
          linarith
        linarith
    · rintro ⟨p, hp, hpass, _, _⟩
      rcases hcase with ⟨_, h2⟩ | ⟨j, h1, h2, _⟩
      · exact absurd hpass (h2 p hp)
      · rw [h2]; constructor
        · exact Int.natCast_nonneg j
        · exact_mod_cast h1
  · intro hneg txt n
    subst hneg
    refine ⟨fun htab => ?_, fun htab lg => ?_⟩
    · subst htab
      rw [DecodeDigits, DecodeDigit_of_index_L v txt (-1) hb]
      rfl
    · subst htab
      rw [DecodeDigits, DecodeDigit_of_index_LG v txt lg (-1) hb]
      rfl

/-- Witness of `digit_acceptance`: the window 3, 2, 1, 1 with the 20-entry table. -/
theorem digit_acceptance_witness :
    ∃ b : Int, DecodeDigitIndex ⟨[5, 3, 2, 1, 1, 5], some 1, 4⟩ L_AND_G_PATTERNS
        MAX_AVG_VARIANCE MAX_INDIVIDUAL_VARIANCE false = Res.ok b
      ∧ (b = -1 ∨ (0 ≤ b ∧ b < L_AND_G_PATTERNS.length))
      ∧ ((0 ≤ b ∧ b < L_AND_G_PATTERNS.length)
          ↔ ∃ p ∈ L_AND_G_PATTERNS, PassesChecks [3, 2, 1, 1] p
              ∧ (∀ q ∈ L_AND_G_PATTERNS, PassesChecks [3, 2, 1, 1] q →
                  windowVariance [3, 2, 1, 1] p ≤ windowVariance [3, 2, 1, 1] q)
              ∧ windowVariance [3, 2, 1, 1] p ≤ 12 / 25 * unitWidth [3, 2, 1, 1])
      ∧ (b = -1 → ∀ (txt : List Char) (n : Nat),
          (L_AND_G_PATTERNS = L_PATTERNS →
            DecodeDigits (n + 1) ⟨[5, 3, 2, 1, 1, 5], some 1, 4⟩ txt none
              = Res.ok (false, ⟨[5, 3, 2, 1, 1, 5], some 1, 4⟩, txt, none))
          ∧ (L_AND_G_PATTERNS = L_AND_G_PATTERNS → ∀ lg : Int,
              DecodeDigits (n + 1) ⟨[5, 3, 2, 1, 1, 5], some 1, 4⟩ txt (some lg)
                = Res.ok (false, ⟨[5, 3, 2, 1, 1, 5], some 1, 4⟩, txt, some lg))) :=
  digit_acceptance ⟨[5, 3, 2, 1, 1, 5], some 1, 4⟩ 1 rfl [3, 2, 1, 1] rfl (by decide) rfl
    L_AND_G_PATTERNS (Or.inr rfl)

/-! ## Minimum symbol length -/

theorem scan_length_pos : ∀ (row : List Nat) (p lp : Int) (lv : Bool) (res : List Nat),
    1 ≤ (getPatternRow.scan row p lp lv res).length
  | [], p, lp, lv, res => by simp [getPatternRow.scan]
  | px :: rest, p, lp, lv, res => by
    simp only [getPatternRow.scan]
    split
    · exact scan_length_pos rest _ _ _ _
    · exact scan_length_pos rest _ _ _ _

theorem getPatternRow_length_pos (image : List Nat) (height width r : Int) (bars : List Nat)
    (h : getPatternRow image height width r = Res.ok bars) : 1 ≤ bars.length := by
  unfold getPatternRow at h
  simp only at h
  split at h
  · cases h
  · split at h
    · split at h
      · simp only [Res.ok.injEq] at h
        rw [← h]; simp
      · simp only [Res.ok.injEq] at h
        rw [← h]; exact scan_length_pos _ _ _ _ _
    · cases h
    · cases h

/-- On a view that cannot hold a whole symbol no attempt succeeds. -/
theorem successfulAttempts_no_room (bars : List Nat) (res : PartialResult) :
    ∀ (fuel : Nat) (d : Int), 1 ≤ d → d ≤ bars.length → (bars.length : Int) < d + 59 →
      (bars.length : Int) + 1 ≤ fuel + d →
      successfulAttempts fuel ⟨bars, some d, (bars.length : Int) - d⟩ res
        = Res.ok (res, []) := by
  intro fuel
  induction fuel with
  | zero => intro d _ _ _ h; push_cast at h; omega
  | succ fuel ih =>
    intro d hd1 hd2 hroom hfuel
    obtain ⟨r, hr, hspec⟩ := decodePattern_no_room bars d ((bars.length : Int) - d) res hd1
      (by omega) hroom
    rw [successfulAttempts, hr]
    simp only
    rcases hspec with h | ⟨d1, h1, h2, h3⟩
    · rw [h]
      rfl
    · rw [h1]
      have hidx : PatternView.index ⟨bars, some d1, 3⟩ = d1 - 1 := rfl
      rw [hidx]
      rcases tmod_two_cases (d1 - 1) (by omega) with ht | ht
      · rw [ht]
        have hnext : (PatternView.extend (PatternView.shift ⟨bars, some d1, 3⟩ (2 - 0)).2)
            = ⟨bars, some (d1 + 2), (bars.length : Int) - (d1 + 2)⟩ := by
          simp only [PatternView.shift, PatternView.extend, PatternView.endOff]
          congr 1
          norm_num
          omega
        rw [hnext]
        have hne : (bars.length : Int) - (d1 + 2) ≠ 0 := by omega
        simp only [hne, ne_eq, not_false_eq_true, if_true]
        rw [ih (d1 + 2) (by omega) (by omega) (by omega) (by push_cast at hfuel; omega)]
        rfl
      · rw [ht]
        have hnext : (PatternView.extend (PatternView.shift ⟨bars, some d1, 3⟩ (2 - 1)).2)
            = ⟨bars, some (d1 + 1), (bars.length : Int) - (d1 + 1)⟩ := by
          simp only [PatternView.shift, PatternView.extend, PatternView.endOff]
          congr 1
          norm_num
          omega
        rw [hnext]
        have hne : (bars.length : Int) - (d1 + 1) ≠ 0 := by omega
        simp only [hne, ne_eq, not_false_eq_true, if_true]
        rw [ih (d1 + 1) (by omega) (by omega) (by omega) (by push_cast at hfuel; omega)]
        rfl

theorem rows_short (image : List Nat) (width height : Int)
    (hrow : ∀ r : Int, 0 ≤ r → r < height →
      ∃ bars, getPatternRow image height width r = Res.ok bars ∧ bars.length < 60) :
    ∀ (n : Nat) (i : Int),
      DoDecode.rows image width height n i ⟨[], PatternView.null⟩ [] = Res.ok [] := by
  intro n
  induction n with
  | zero => intro i; rfl
  | succ n ih =>
    intro i
    rw [rows_succ]
    by_cases hrange : rowOfIteration height i < 0 ∨ rowOfIteration height i ≥ height
    · rw [if_pos hrange]
    · rw [if_neg hrange]
      have hrange' := not_or.mp hrange
      obtain ⟨bars, hb, hlen⟩ := hrow _ (not_lt.mp hrange'.1) (lt_of_not_ge hrange'.2)
      have hpos := getPatternRow_length_pos _ _ _ _ _ hb
      rw [hb]
      simp only
      have hview : PatternView.ofBars bars = ⟨bars, some 1, (bars.length : Int) - 1⟩ := rfl
      rw [hview, attempts_no_room bars ⟨[], PatternView.null⟩ [] rfl (bars.length + 1) 1
        (by omega) (by omega) (by omega) (by push_cast; omega)]
      exact ih (i + 1)

/-- C30: an `EAN13` attempt from a start guard at position `p` of a run sequence succeeds
only if the sequence has at least `p + 59` elements.  So on a run sequence with fewer than
60 elements no attempt of the row succeeds, the attempts leave `res` and the candidate set
as they were, and an image all of whose rows have fewer than 60 runs yields the empty set;
yet the guard search needs only 33 remaining runs: on 35 runs of one pixel it returns the
guard at the first bar. -/
theorem minimum_symbol_length :
    (∀ (bars : List Nat) (p : Int) (res res1 : PartialResult),
        EAN13 res ⟨bars, some p, 3⟩ = Res.ok (true, res1) → p + 59 ≤ bars.length)
    ∧ (∀ (bars : List Nat) (res : PartialResult), 1 ≤ bars.length → bars.length < 60 →
        successfulAttempts (bars.length + 1) (PatternView.ofBars bars) res = Res.ok (res, [])
        ∧ ∀ R : List (List Char), DoDecode.collect res.txt res.txt 0 R = R →
            DoDecode.attempts (bars.length + 1) (PatternView.ofBars bars) res R
              = Res.ok (res, R))
    ∧ (∀ (image : List Nat) (width height : Int),
        (∀ r : Int, 0 ≤ r → r < height →
          ∃ bars, getPatternRow image height width r = Res.ok bars ∧ bars.length < 60) →
        DoDecode image width height = Res.ok [])
    ∧ FindLeftGuard (PatternView.ofBars (List.replicate 35 1)) (3 + 6 * 4 + 6) END_PATTERN
        QUIET_ZONE_LEFT = Res.ok ⟨List.replicate 35 1, some 1, 3⟩ := by
  refine ⟨?_, ?_, ?_, by decide!⟩
  · intro bars p res res1 h
    by_contra hlt
    rw [EAN13_invalid bars p res (by omega)] at h
    cases h
  · intro bars res hpos hlt
    have hview : PatternView.ofBars bars = ⟨bars, some 1, (bars.length : Int) - 1⟩ := rfl
    rw [hview]
    refine ⟨successfulAttempts_no_room bars res (bars.length + 1) 1 (by omega) (by omega)
      (by omega) (by push_cast; omega), fun R hR => ?_⟩
    exact attempts_no_room bars res R hR (bars.length + 1) 1 (by omega) (by omega) (by omega)
      (by push_cast; omega)
  · intro image width height hrow
    unfold DoDecode
    exact rows_short image width height hrow _ 0

/-- Witness of `minimum_symbol_length`: a row of 35 runs. -/
theorem minimum_symbol_length_witness :
    successfulAttempts ((List.replicate 35 1).length + 1)
        (PatternView.ofBars (List.replicate 35 1)) ⟨[], PatternView.null⟩
      = Res.ok (⟨[], PatternView.null⟩, []) :=
  (minimum_symbol_length.2.1 (List.replicate 35 1) ⟨[], PatternView.null⟩ (by decide)
    (by decide)).1

/-! ## Progress of the attempts on a row -/

/-- Whenever `getPatternRow` returns a run sequence, its length is odd. -/
theorem getPatternRow_ok_odd (image : List Nat) (height width r : Int) (bars : List Nat)
    (h : getPatternRow image height width r = Res.ok bars) : bars.length % 2 = 1 := by
  have hguard : ¬ (r * width < 0 ∨ width < 0 ∨ r * width + width > image.length) := by
    intro hg
    unfold getPatternRow at h
    simp only [hg, if_true] at h
    cases h
  have hw0 : width ≠ 0 := by
    intro h0
    unfold getPatternRow at h
    simp only [hguard, if_false] at h
    have hread : readAt image (r * width + width - 1) = Res.outOfRange := by
      rw [h0]
      simp [readAt]
    rw [hread] at h
    cases h
  have hw1 : 1 ≤ width := by omega
  have hr0 : 0 ≤ r := by
    by_contra hneg
    have : r * width < 0 := by nlinarith
    exact hguard (Or.inl this)
  obtain ⟨w, rfl⟩ := Int.eq_ofNat_of_zero_le (by omega : 0 ≤ width)
  obtain ⟨n, rfl⟩ := Int.eq_ofNat_of_zero_le hr0
  have hb : n * w + w ≤ image.length := by
    have : ¬ ((n : Int) * (w : Int) + (w : Int) > (image.length : Int)) :=
      fun hgt => hguard (Or.inr (Or.inr hgt))
    have h2 : ((n * w + w : Nat) : Int) ≤ (image.length : Int) := by push_cast; omega
    exact_mod_cast h2
  obtain ⟨runs, hruns, hodd⟩ := getPatternRow_parity image height w n (by omega) hb
  rw [hruns] at h
  simp only [Res.ok.injEq] at h
  rw [← h]
  exact hodd

/-- More rounds than needed do not change the result of the attempts. -/
theorem attempts_fuel_mono : ∀ (f1 f2 : Nat) (v : PatternView) (res : PartialResult)
    (R : List (List Char)) (r : PartialResult × List (List Char)), f1 ≤ f2 →
    DoDecode.attempts f1 v res R = Res.ok r → DoDecode.attempts f2 v res R = Res.ok r := by
  intro f1
  induction f1 with
  | zero => intro f2 v res R r _ h; simp [DoDecode.attempts] at h
  | succ f1 ih =>
    intro f2 v res R r hle h
    obtain ⟨g, rfl⟩ : ∃ g, f2 = g + 1 := ⟨f2 - 1, by omega⟩
    rw [DoDecode.attempts] at h ⊢
    cases hd : decodePattern v res with
    | outOfRange => rw [hd] at h; cases h
    | outOfFuel => rw [hd] at h; cases h
    | ok x =>
      obtain ⟨b, next1, res1⟩ := x
      rw [hd] at h
      simp only at h ⊢
      split at h
      · rename_i hc
        rw [if_pos hc]
        exact ih g _ _ _ _ (by omega) h
      · rename_i hc
        rw [if_neg hc]
        exact h

/-- One round of the `do`/`while` loop from a start on a bar: without a guard the loop
ends, with a guard at `d1` the next round starts at `d1 + 2`. -/
theorem attempts_step (bars : List Nat) (hlen : bars.length % 2 = 1) (d : Int)
    (res : PartialResult) (hd1 : 1 ≤ d) (hodd : d % 2 = 1) (_hd2 : d ≤ bars.length) :
    ∃ (b : Bool) (next1 : PatternView) (res1 : PartialResult),
      decodePattern ⟨bars, some d, (bars.length : Int) - d⟩ res = Res.ok (b, next1, res1)
      ∧ ((next1 = PatternView.null
          ∧ ∀ (fuel : Nat) (R : List (List Char)),
              DoDecode.attempts (fuel + 1) ⟨bars, some d, (bars.length : Int) - d⟩ res R
                = Res.ok (res1, DoDecode.collect res1.txt res1.txt 0 R))
        ∨ ∃ d1 : Int, next1 = ⟨bars, some d1, 3⟩ ∧ d ≤ d1 ∧ d1 + 33 ≤ bars.length
            ∧ d1 % 2 = 1
            ∧ ∀ (fuel : Nat) (R : List (List Char)),
                DoDecode.attempts (fuel + 1) ⟨bars, some d, (bars.length : Int) - d⟩ res R
                  = DoDecode.attempts fuel
                      ⟨bars, some (d1 + 2), (bars.length : Int) - (d1 + 2)⟩ res1
                      (DoDecode.collect res1.txt res1.txt 0 R)) := by
  obtain ⟨b, next1, res1, hr, hspec⟩ := decodePattern_total bars d ((bars.length : Int) - d)
    res hd1 hodd (by omega) hlen
  refine ⟨b, next1, res1, hr, ?_⟩
  rcases hspec with h | ⟨d1, h1, h2, h3, h4⟩
  · left
    refine ⟨h, fun fuel R => ?_⟩
    rw [DoDecode.attempts, hr, h]
    rfl
  · right
    refine ⟨d1, h1, h2, by omega, h4, fun fuel R => ?_⟩
    rw [DoDecode.attempts, hr]
    simp only
    rw [h1]
    have hidx : PatternView.index ⟨bars, some d1, 3⟩ = d1 - 1 := rfl
    rw [hidx]
    have ht : Int.tmod (d1 - 1) 2 = 0 := by
      rw [Int.tmod_eq_emod (by omega) (by decide)]
      omega
    rw [ht]
    have hnext : (PatternView.extend (PatternView.shift ⟨bars, some d1, 3⟩ (2 - 0)).2)
        = ⟨bars, some (d1 + 2), (bars.length : Int) - (d1 + 2)⟩ := by
      simp only [PatternView.shift, PatternView.extend, PatternView.endOff]
      congr 1
      norm_num
      omega
    rw [hnext]
    have hne : (bars.length : Int) - (d1 + 2) ≠ 0 := by omega
    simp only [hne, ne_eq, not_false_eq_true, if_true]

/-- The attempts from offset `d` end within `(bars.length - d) / 2 + 1` rounds. -/
theorem attempts_bound (bars : List Nat) (hlen : bars.length % 2 = 1) :
    ∀ (fuel : Nat) (d : Int) (res : PartialResult) (R : List (List Char)),
      1 ≤ d → d % 2 = 1 → d ≤ bars.length → (bars.length : Int) + 2 ≤ 2 * fuel + d →
      ∃ r, DoDecode.attempts fuel ⟨bars, some d, (bars.length : Int) - d⟩ res R = Res.ok r := by
  intro fuel
  induction fuel with
  | zero => intro d _ _ _ _ _ h; push_cast at h; omega
  | succ fuel ih =>
    intro d res R hd1 hodd hd2 hfuel
    obtain ⟨b, next1, res1, _, hcase⟩ := attempts_step bars hlen d res hd1 hodd hd2
    rcases hcase with ⟨_, h2⟩ | ⟨d1, _, h2, h3, h4, h5⟩
    · exact ⟨_, h2 fuel R⟩
    · rw [h5 fuel R]
      exact ih (d1 + 2) res1 _ (by omega) (by omega) (by omega) (by push_cast at hfuel; omega)

/-- C28: for every run sequence `bars` produced by `getPatternRow`, the `do`/`while` loop of
`DoDecode` ends within `bars.length / 2 + 1` rounds, with the result that the loop of
`DoDecode` gives.  The first attempt starts on the first bar (index 0).  An attempt that
starts on a bar (even index) at offset `d` either finds no guard, and then the loop ends
with this attempt, or finds a guard on a bar at `d1 ≥ d` with at least 33 runs from `d1`
on, and then the next attempt starts exactly 2 runs past the guard, again on a bar.  With
fewer than 33 runs left no guard is found. -/
theorem row_scan_progress (image : List Nat) (height width rowNumber : Int)
    (bars : List Nat) (hrow : getPatternRow image height width rowNumber = Res.ok bars) :
    (∀ (res : PartialResult) (R : List (List Char)),
        ∃ r, DoDecode.attempts (bars.length / 2 + 1) (PatternView.ofBars bars) res R = Res.ok r
          ∧ DoDecode.attempts (bars.length + 1) (PatternView.ofBars bars) res R = Res.ok r)
    ∧ (PatternView.ofBars bars).index = 0
    ∧ (∀ (d : Int) (res : PartialResult), 1 ≤ d → d ≤ bars.length →
        Int.tmod (PatternView.index ⟨bars, some d, (bars.length : Int) - d⟩) 2 = 0 →
        ∃ (b : Bool) (next1 : PatternView) (res1 : PartialResult),
          decodePattern ⟨bars, some d, (bars.length : Int) - d⟩ res
            = Res.ok (b, next1, res1)
          ∧ ((next1 = PatternView.null
              ∧ ∀ (fuel : Nat) (R : List (List Char)),
                  DoDecode.attempts (fuel + 1) ⟨bars, some d, (bars.length : Int) - d⟩ res R
                    = Res.ok (res1, DoDecode.collect res1.txt res1.txt 0 R))
            ∨ ∃ d1 : Int, next1 = ⟨bars, some d1, 3⟩ ∧ d ≤ d1 ∧ d1 + 33 ≤ bars.length
                ∧ Int.tmod (PatternView.index next1) 2 = 0
                ∧ Int.tmod (PatternView.index
                    ⟨bars, some (d1 + 2), (bars.length : Int) - (d1 + 2)⟩) 2 = 0
                ∧ ∀ (fuel : Nat) (R : List (List Char)),
                    DoDecode.attempts (fuel + 1) ⟨bars, some d, (bars.length : Int) - d⟩ res R
                      = DoDecode.attempts fuel
                          ⟨bars, some (d1 + 2), (bars.length : Int) - (d1 + 2)⟩ res1
                          (DoDecode.collect res1.txt res1.txt 0 R)))
    ∧ (∀ (view : PatternView) (res : PartialResult), view.size < 33 →
        decodePattern view res = Res.ok (false, PatternView.null, res)) := by
  have hlen := getPatternRow_ok_odd image height width rowNumber bars hrow
  have hview : PatternView.ofBars bars = ⟨bars, some 1, (bars.length : Int) - 1⟩ := rfl
  refine ⟨fun res R => ?_, rfl, fun d res hd1 hd2 hidx => ?_,
    fun view res hs => decodePattern_short view res hs⟩
  · rw [hview]
    obtain ⟨r, hr⟩ := attempts_bound bars hlen (bars.length / 2 + 1) 1 res R (by omega)
      (by decide) (by omega) (by push_cast; omega)
    exact ⟨r, hr, attempts_fuel_mono _ _ _ _ _ _ (by omega) hr⟩
  · have hodd : d % 2 = 1 := by
      have h1 : PatternView.index ⟨bars, some d, (bars.length : Int) - d⟩ = d - 1 := rfl
      rw [h1, Int.tmod_eq_emod (by omega) (by decide)] at hidx
      omega
    obtain ⟨b, next1, res1, hr, hcase⟩ := attempts_step bars hlen d res hd1 hodd hd2
    refine ⟨b, next1, res1, hr, ?_⟩
    rcases hcase with h | ⟨d1, h1, h2, h3, h4, h5⟩
    · exact Or.inl h
    · right
      refine ⟨d1, h1, h2, h3, ?_, ?_, h5⟩
      · rw [h1]
        have h6 : PatternView.index ⟨bars, some d1, 3⟩ = d1 - 1 := rfl
        rw [h6, Int.tmod_eq_emod (by omega) (by decide)]
        omega
      · have h6 : PatternView.index ⟨bars, some (d1 + 2), (bars.length : Int) - (d1 + 2)⟩
            = d1 + 2 - 1 := rfl
        rw [h6, Int.tmod_eq_emod (by omega) (by decide)]
        omega

/-- Witness of `row_scan_progress`: a row of 4 pixels with the runs 1, 2, 1. -/
theorem row_scan_progress_witness :
    ∃ r, DoDecode.attempts (([1, 2, 1] : List Nat).length / 2 + 1)
          (PatternView.ofBars [1, 2, 1]) ⟨[], PatternView.null⟩ [] = Res.ok r
      ∧ DoDecode.attempts (([1, 2, 1] : List Nat).length + 1)
          (PatternView.ofBars [1, 2, 1]) ⟨[], PatternView.null⟩ [] = Res.ok r :=
  (row_scan_progress [255, 0, 0, 255] 1 4 0 [1, 2, 1] (by decide)).1
    ⟨[], PatternView.null⟩ []

/-! ## Symbol layout -/

/-- A successful `DecodeDigits` without a parity code: the matched indices of `L_PATTERNS`
and the appended digits. -/
theorem DecodeDigits_success_L : ∀ (n : Nat) (view next1 : PatternView) (txt txt1 : List Char)
    (lg1 : Option Int),
    DecodeDigits n view txt none = Res.ok (true, next1, txt1, lg1) →
    ∃ bs : List Int, bs.length = n ∧ MatchedDigits L_PATTERNS view bs
      ∧ txt1 = txt ++ bs.map (fun b => ToDigit (Int.tmod b 10))
  | 0, view, next1, txt, txt1, lg1, h => by
    simp only [DecodeDigits, Res.ok.injEq, Prod.mk.injEq, true_and] at h
    exact ⟨[], rfl, trivial, by simp [h.2.1]⟩
  | n + 1, view, next1, txt, txt1, lg1, h => by
    rw [DecodeDigits] at h
    cases hb : DecodeDigitIndex view L_PATTERNS MAX_AVG_VARIANCE
        MAX_INDIVIDUAL_VARIANCE false with
    | outOfRange =>
      have : DecodeDigit view txt none = Res.outOfRange := by
        unfold DecodeDigit; simp only [hb]
      rw [this] at h; cases h
    | outOfFuel =>
      have : DecodeDigit view txt none = Res.outOfFuel := by
        unfold DecodeDigit; simp only [hb]
      rw [this] at h; cases h
    | ok b =>
      rw [DecodeDigit_of_index_L view txt b hb] at h
      by_cases hb1 : b = -1
      · rw [if_pos hb1] at h
        simp at h
      · rw [if_neg hb1] at h
        simp only at h
        obtain ⟨bs, hlen, hm, ht⟩ := DecodeDigits_success_L n _ next1 _ txt1 lg1 h
        refine ⟨b :: bs, by simp [hlen], ⟨hb, hb1, hm⟩, ?_⟩
        rw [ht]; simp

/-- After `n` matched digits the view has moved by `4 n` runs. -/
theorem DecodeDigits_position (bars : List Nat) : ∀ (n : Nat) (d0 : Int) (txt : List Char)
    (lg : Option Int) (v1 : PatternView) (txt1 : List Char) (lg1 : Option Int),
    DecodeDigits n ⟨bars, some d0, 4⟩ txt lg = Res.ok (true, v1, txt1, lg1) →
    v1 = ⟨bars, some (d0 + 4 * (n : Int)), 4⟩
  | 0, d0, txt, lg, v1, txt1, lg1, h => by
    simp only [DecodeDigits, Res.ok.injEq, Prod.mk.injEq, true_and] at h
    rw [← h.1]; simp
  | n + 1, d0, txt, lg, v1, txt1, lg1, h => by
    rw [DecodeDigits] at h
    cases hd : DecodeDigit ⟨bars, some d0, 4⟩ txt lg with
    | outOfRange => rw [hd] at h; cases h
    | outOfFuel => rw [hd] at h; cases h
    | ok r =>
      obtain ⟨b0, t0, l0⟩ := r
      rw [hd] at h
      cases b0 with
      | false => simp at h
      | true =>
        simp only at h
        have hskip : (PatternView.skipSymbol ⟨bars, some d0, 4⟩).2 = ⟨bars, some (d0 + 4), 4⟩ :=
          rfl
        rw [hskip] at h
        rw [DecodeDigits_position bars n (d0 + 4) _ _ _ _ _ h]
        congr 2
        push_cast
        ring

/-- The windows of the matched digits: digit `j` is matched on the four runs at offset
`d0 + 4 j`. -/
theorem matchedDigits_windows (patterns : List (List Nat)) (bars : List Nat) :
    ∀ (bs : List Int) (d0 : Int), MatchedDigits patterns ⟨bars, some d0, 4⟩ bs →
    ∀ j : Nat, j < bs.length →
      DecodeDigitIndex ⟨bars, some (d0 + 4 * (j : Int)), 4⟩ patterns MAX_AVG_VARIANCE
          MAX_INDIVIDUAL_VARIANCE false = Res.ok (bs.getD j 0)
        ∧ bs.getD j 0 ≠ -1
  | [], _, _, j, hj => by simp at hj
  | b :: bs, d0, h, j, hj => by
    obtain ⟨h1, h2, h3⟩ := h
    cases j with
    | zero =>
      simp only [Nat.cast_zero, mul_zero, add_zero, List.getD_cons_zero]
      exact ⟨h1, h2⟩
    | succ j =>
      have hskip : (PatternView.skipSymbol ⟨bars, some d0, 4⟩).2 = ⟨bars, some (d0 + 4), 4⟩ :=
        rfl
      rw [hskip] at h3
      have := matchedDigits_windows patterns bars bs (d0 + 4) h3 j (by simpa using hj)
      have he : d0 + 4 + 4 * (j : Int) = d0 + 4 * ((j + 1 : Nat) : Int) := by
        push_cast; ring
      rw [he] at this
      simpa using this

/-- What a successful `EAN13` has passed through. -/
theorem EAN13_success_inv (res res1 : PartialResult) (begin : PatternView)
    (h : EAN13 res begin = Res.ok (true, res1)) :
    (begin.subView 56 END_PATTERN.size).isValid = true
    ∧ IsRightGuard (begin.subView 56 END_PATTERN.size) END_PATTERN QUIET_ZONE_RIGHT_EAN
        = Res.ok true
    ∧ (∃ m : ℚ, m ≠ 0 ∧ IsPattern (begin.subView 27 MID_PATTERN.size) MID_PATTERN 0 0 0
        = Res.ok m)
    ∧ ∃ (next1 next2 : PatternView) (txt1 txt2 : List Char) (lg1 lg2 : Option Int),
        DecodeDigits 6 (begin.subView END_PATTERN.size CHAR_LEN) [' '] (some 0)
          = Res.ok (true, next1, txt1, lg1)
        ∧ DecodeDigits 6 (next1.subView MID_PATTERN.size CHAR_LEN) txt1 none
          = Res.ok (true, next2, txt2, lg2)
        ∧ IndexOf FIRST_DIGIT_ENCODINGS (lg1.getD 0) ≠ -1
        ∧ res1 = ⟨txt2.set 0 (ToDigit (IndexOf FIRST_DIGIT_ENCODINGS (lg1.getD 0))),
            begin.subView 56 END_PATTERN.size⟩ := by
  unfold EAN13 at h
  simp only at h
  split at h
  · rename_i hvalid
    cases hg : IsRightGuard (begin.subView 56 END_PATTERN.size) END_PATTERN
        QUIET_ZONE_RIGHT_EAN with
    | outOfRange => rw [hg] at h; cases h
    | outOfFuel => rw [hg] at h; cases h
    | ok g =>
      rw [hg] at h
      cases g with
      | false => simp at h
      | true =>
        simp only at h
        cases hm : IsPattern (begin.subView 27 MID_PATTERN.size) MID_PATTERN 0 0 0 with
        | outOfRange => rw [hm] at h; cases h
        | outOfFuel => rw [hm] at h; cases h
        | ok m =>
          rw [hm] at h
          simp only at h
          split at h
          · rename_i hm0
            cases h1 : DecodeDigits 6 (begin.subView END_PATTERN.size CHAR_LEN) [' ']
                (some 0) with
            | outOfRange => rw [h1] at h; cases h
            | outOfFuel => rw [h1] at h; cases h
            | ok r1 =>
              obtain ⟨b1, n1, t1, l1⟩ := r1
              rw [h1] at h
              cases b1 with
              | false => simp at h
              | true =>
                simp only at h
                cases h2 : DecodeDigits 6 (n1.subView MID_PATTERN.size CHAR_LEN) t1 none with
                | outOfRange => rw [h2] at h; cases h
                | outOfFuel => rw [h2] at h; cases h
                | ok r2 =>
                  obtain ⟨b2, n2, t2, l2⟩ := r2
                  rw [h2] at h
                  cases b2 with
                  | false => simp at h
                  | true =>
                    simp only at h
                    split at h
                    · rename_i hi
                      simp only [Res.ok.injEq, Prod.mk.injEq, true_and] at h
                      exact ⟨hvalid, rfl, ⟨m, hm0, rfl⟩, n1, n2, t1, t2, l1, l2, rfl, h2, hi,
                        h.symm⟩
                    · simp at h
          · simp at h
  · simp at h

theorem natCast_abs_sub_ge (a b : Nat) (h : a ≠ b) : (1 : ℚ) ≤ |(a : ℚ) - (b : ℚ)| := by
  have h1 : (1 : Int) ≤ |(a : Int) - (b : Int)| := by
    rcases Nat.lt_or_gt_of_ne h with hlt | hgt
    · rw [abs_of_neg (by omega)]; omega
    · rw [abs_of_pos (by omega)]; omega
  have h2 : ((1 : Int) : ℚ) ≤ ((|(a : Int) - (b : Int)| : Int) : ℚ) := by exact_mod_cast h1
  simpa using h2

/-- A window that is a 7-module pattern `g` at `k` pixels per module passes the checks of
no other 7-module pattern. -/
theorem exact_window_rejects (g p : List Nat) (k : Nat) (hk : 1 ≤ k) (hg : g.length = 4)
    (hp : p.length = 4) (hgs : g.sum = 7) (hne : g ≠ p) :
    ¬ PassesChecks (g.map (fun m => k * m)) p := by
  obtain ⟨g0, g1, g2, g3, rfl⟩ := list_four g hg
  obtain ⟨p0, p1, p2, p3, rfl⟩ := list_four p hp
  have hsum : g0 + (g1 + (g2 + g3)) = 7 := by simpa using hgs
  have hkq : (1 : ℚ) ≤ (k : ℚ) := by exact_mod_cast hk
  have hu : unitWidth ([g0, g1, g2, g3].map (fun m => k * m)) = (k : ℚ) := by
    unfold unitWidth
    simp only [List.map_cons, List.map_nil, List.sum_cons, List.sum_nil, add_zero]
    have : k * g0 + (k * g1 + (k * g2 + k * g3)) = k * 7 := by
      rw [← hsum]; ring
    rw [this]
    push_cast
    ring
  have hdev : ∀ a b : Nat, a ≠ b → ¬ (|((k * a : Nat) : ℚ) - (b : ℚ) * (k : ℚ)|
      ≤ 7 / 10 * (k : ℚ)) := by
    intro a b hab hle
    have h1 := natCast_abs_sub_ge a b hab
    have h2 : |((k * a : Nat) : ℚ) - (b : ℚ) * (k : ℚ)| = (k : ℚ) * |(a : ℚ) - (b : ℚ)| := by
      push_cast
      rw [← abs_of_nonneg (by linarith : (0 : ℚ) ≤ (k : ℚ)), ← abs_mul]
      rw [abs_of_nonneg (by linarith : (0 : ℚ) ≤ (k : ℚ))]
      congr 1
      ring
    rw [h2] at hle
    nlinarith
  intro hpass
  obtain ⟨_, hall⟩ := hpass
  have e0 := hall 0 (by decide)
  have e1 := hall 1 (by decide)
  have e2 := hall 2 (by decide)
  have e3 := hall 3 (by decide)
  unfold deviationAt at e0 e1 e2 e3
  rw [hu] at e0 e1 e2 e3
  simp only [List.map_cons, List.map_nil, List.getD_cons_zero, List.getD_cons_succ] at e0 e1 e2 e3
  by_cases h0 : g0 = p0
  · by_cases h1 : g1 = p1
    · by_cases h2 : g2 = p2
      · by_cases h3 : g3 = p3
        · exact hne (by rw [h0, h1, h2, h3])
        · exact hdev g3 p3 h3 e3
      · exact hdev g2 p2 h2 e2
    · exact hdev g1 p1 h1 e1
  · exact hdev g0 p0 h0 e0

/-- A window that is exactly a mirrored (G) entry is matched by the 20-entry table and by
no entry of `L_PATTERNS`. -/
theorem mirrored_window (v : PatternView) (d0 : Int) (hd : v.data = some d0)
    (hsize : v.size = 4) (i k : Nat) (hi : i < 10) (hk : 1 ≤ k)
    (hw : ListReads v.bars d0 ((L_AND_G_PATTERNS.getD (10 + i) []).map (fun m => k * m))) :
    DecodeDigitIndex v L_AND_G_PATTERNS MAX_AVG_VARIANCE MAX_INDIVIDUAL_VARIANCE false
      = Res.ok ((10 + i : Nat) : Int)
    ∧ DecodeDigitIndex v L_PATTERNS MAX_AVG_VARIANCE MAX_INDIVIDUAL_VARIANCE false
      = Res.ok (-1) := by
  have hmem : L_AND_G_PATTERNS.getD (10 + i) [] ∈ L_AND_G_PATTERNS := by
    interval_cases i <;> decide
  have hgood := digit_tables_good L_AND_G_PATTERNS (Or.inr rfl)
  have hgoodL := digit_tables_good L_PATTERNS (Or.inl rfl)
  have hnotL : ∀ p ∈ L_PATTERNS, L_AND_G_PATTERNS.getD (10 + i) [] ≠ p := by
    interval_cases i <;> decide
  constructor
  · exact DecodeDigitIndex_near v d0 hd _ hsize hw L_AND_G_PATTERNS goodTable_L_AND_G (10 + i)
      (by have : L_AND_G_PATTERNS.length = 20 := rfl
          omega) k hk
      (nearPattern_exact k _)
  · have hlen : ((L_AND_G_PATTERNS.getD (10 + i) []).map (fun m => k * m)).length = 4 := by
      rw [List.length_map]; exact (hgood _ hmem).1
    obtain ⟨b, hb, hcase⟩ := DecodeDigitIndex_window v d0 hd _ hsize hw hlen L_PATTERNS hgoodL
    rcases hcase with ⟨h1, _⟩ | ⟨j, h1, _, h3, _⟩
    · rw [hb, h1]
    · exfalso
      have hmj : L_PATTERNS.getD j [] ∈ L_PATTERNS := by
        have : L_PATTERNS.getD j [] = L_PATTERNS[j] := by
          simp [List.getD, List.getElem?_eq_getElem h1]
        rw [this]
        exact List.getElem_mem h1
      exact exact_window_rejects _ _ k hk (hgood _ hmem).1 (hgoodL _ hmj).1 (hgood _ hmem).2
        (hnotL _ hmj) h3


/-- C27: relative to a start guard at run offset 0 (`d` in the run sequence), a successful
`EAN13` has checked the end guard on runs 56..58 and the middle guard on runs 27..31, has
matched the six left digits on the 4-run windows at offsets 3, 7, 11, 15, 19, 23 against
the 20-entry table `L_AND_G_PATTERNS` and the six right digits on the windows at offsets
32, 36, 40, 44, 48, 52 against the 10-entry table `L_PATTERNS`, and the text after its
first character is the digits of these twelve matches.  So an attempt in which a right
window matches no entry of `L_PATTERNS` fails, also when that window is exactly a mirrored
(G) entry, which the 20-entry table would match. -/
theorem symbol_layout (bars : List Nat) (d : Int) (res : PartialResult) :
    (∀ res1 : PartialResult, EAN13 res ⟨bars, some d, 3⟩ = Res.ok (true, res1) →
        IsRightGuard ⟨bars, some (d + 56), 3⟩ END_PATTERN QUIET_ZONE_RIGHT_EAN = Res.ok true
        ∧ (∃ m : ℚ, m ≠ 0
            ∧ IsPattern ⟨bars, some (d + 27), 5⟩ MID_PATTERN 0 0 0 = Res.ok m)
        ∧ ∃ ls rs : List Int, ls.length = 6 ∧ rs.length = 6
          ∧ (∀ j : Nat, j < 6 →
              DecodeDigitIndex ⟨bars, some (d + 3 + 4 * (j : Int)), 4⟩ L_AND_G_PATTERNS
                  MAX_AVG_VARIANCE MAX_INDIVIDUAL_VARIANCE false = Res.ok (ls.getD j 0)
                ∧ ls.getD j 0 ≠ -1)
          ∧ (∀ j : Nat, j < 6 →
              DecodeDigitIndex ⟨bars, some (d + 32 + 4 * (j : Int)), 4⟩ L_PATTERNS
                  MAX_AVG_VARIANCE MAX_INDIVIDUAL_VARIANCE false = Res.ok (rs.getD j 0)
                ∧ rs.getD j 0 ≠ -1)
          ∧ res1.txt.tail = (ls ++ rs).map (fun b => ToDigit (Int.tmod b 10)))
    ∧ (∀ j : Nat, j < 6 →
        DecodeDigitIndex ⟨bars, some (d + 32 + 4 * (j : Int)), 4⟩ L_PATTERNS
            MAX_AVG_VARIANCE MAX_INDIVIDUAL_VARIANCE false = Res.ok (-1) →
        ∀ res1 : PartialResult, EAN13 res ⟨bars, some d, 3⟩ ≠ Res.ok (true, res1))
    ∧ (∀ j i k : Nat, j < 6 → i < 10 → 1 ≤ k →
        ListReads bars (d + 32 + 4 * (j : Int))
          ((L_AND_G_PATTERNS.getD (10 + i) []).map (fun m => k * m)) →
        DecodeDigitIndex ⟨bars, some (d + 32 + 4 * (j : Int)), 4⟩ L_AND_G_PATTERNS
            MAX_AVG_VARIANCE MAX_INDIVIDUAL_VARIANCE false = Res.ok ((10 + i : Nat) : Int)
        ∧ ∀ res1 : PartialResult, EAN13 res ⟨bars, some d, 3⟩ ≠ Res.ok (true, res1)) := by
  have hlayout : ∀ res1 : PartialResult, EAN13 res ⟨bars, some d, 3⟩ = Res.ok (true, res1) →
      IsRightGuard ⟨bars, some (d + 56), 3⟩ END_PATTERN QUIET_ZONE_RIGHT_EAN = Res.ok true
      ∧ (∃ m : ℚ, m ≠ 0
          ∧ IsPattern ⟨bars, some (d + 27), 5⟩ MID_PATTERN 0 0 0 = Res.ok m)
      ∧ ∃ ls rs : List Int, ls.length = 6 ∧ rs.length = 6
        ∧ (∀ j : Nat, j < 6 →
            DecodeDigitIndex ⟨bars, some (d + 3 + 4 * (j : Int)), 4⟩ L_AND_G_PATTERNS
                MAX_AVG_VARIANCE MAX_INDIVIDUAL_VARIANCE false = Res.ok (ls.getD j 0)
              ∧ ls.getD j 0 ≠ -1)
        ∧ (∀ j : Nat, j < 6 →
            DecodeDigitIndex ⟨bars, some (d + 32 + 4 * (j : Int)), 4⟩ L_PATTERNS
                MAX_AVG_VARIANCE MAX_INDIVIDUAL_VARIANCE false = Res.ok (rs.getD j 0)
              ∧ rs.getD j 0 ≠ -1)
        ∧ res1.txt.tail = (ls ++ rs).map (fun b => ToDigit (Int.tmod b 10)) := by
    intro res1 h
    obtain ⟨_, hg, hm, next1, next2, txt1, txt2, lg1, lg2, h1, h2, _, hres⟩ :=
      EAN13_success_inv res res1 _ h
    have hs1 : END_PATTERN.size = 3 := rfl
    have hs2 : MID_PATTERN.size = 5 := rfl
    have hs3 : CHAR_LEN = 4 := rfl
    simp only [hs1, hs2, hs3, subView_pos _ _ _ (by decide : (0 : Int) < 3),
      subView_pos _ _ _ (by decide : (0 : Int) < 5),
      subView_pos _ _ _ (by decide : (0 : Int) < 4), Option.map_some'] at hg hm h1 h2
    have hpos := DecodeDigits_position bars 6 (d + 3) _ _ _ _ _ h1
    rw [hpos] at h2
    simp only [subView_pos _ _ _ (by decide : (0 : Int) < 4), Option.map_some'] at h2
    have he : d + 3 + 4 * ((6 : Nat) : Int) + 5 = d + 32 := by push_cast; ring
    rw [he] at h2
    obtain ⟨ls, hl1, hl2, hl3, _⟩ := DecodeDigits_success_LG 6 _ _ _ _ 0 _ h1
    obtain ⟨rs, hr1, hr2, hr3⟩ := DecodeDigits_success_L 6 _ _ _ _ _ h2
    refine ⟨hg, hm, ls, rs, hl1, hr1, ?_, ?_, ?_⟩
    · intro j hj
      exact matchedDigits_windows _ bars ls (d + 3) hl2 j (by omega)
    · intro j hj
      exact matchedDigits_windows _ bars rs (d + 32) hr2 j (by omega)
    · rw [hres, hr3, hl3]
      simp
  have hfail : ∀ j : Nat, j < 6 →
      DecodeDigitIndex ⟨bars, some (d + 32 + 4 * (j : Int)), 4⟩ L_PATTERNS
          MAX_AVG_VARIANCE MAX_INDIVIDUAL_VARIANCE false = Res.ok (-1) →
      ∀ res1 : PartialResult, EAN13 res ⟨bars, some d, 3⟩ ≠ Res.ok (true, res1) := by
    intro j hj hidx res1 h
    obtain ⟨_, _, ls, rs, _, _, _, hrs, _⟩ := hlayout res1 h
    obtain ⟨h1, h2⟩ := hrs j hj
    rw [hidx] at h1
    simp only [Res.ok.injEq] at h1
    exact h2 h1.symm
  refine ⟨hlayout, hfail, ?_⟩
  intro j i k hj hi hk hw
  obtain ⟨h1, h2⟩ := mirrored_window ⟨bars, some (d + 32 + 4 * (j : Int)), 4⟩ _ rfl rfl i k
    hi hk hw
  exact ⟨h1, hfail j hj h2⟩

/-- Witness of `symbol_layout`: the runs of `0000000000000` at 1 pixel per module, with the
first right window replaced by the mirrored entry 1, 1, 2, 3. -/
theorem symbol_layout_witness :
    DecodeDigitIndex
        ⟨[11, 1, 1, 1, 3, 2, 1, 1, 3, 2, 1, 1, 3, 2, 1, 1, 3, 2, 1, 1, 3, 2, 1, 1, 3, 2, 1, 1,
          1, 1, 1, 1, 1, 1, 1, 2, 3, 3, 2, 1, 1, 3, 2, 1, 1, 3, 2, 1, 1, 3, 2, 1, 1, 3, 2, 1, 1,
          1, 1, 1, 7], some (1 + 32 + 4 * ((0 : Nat) : Int)), 4⟩ L_AND_G_PATTERNS
        MAX_AVG_VARIANCE MAX_INDIVIDUAL_VARIANCE false = Res.ok ((10 + 0 : Nat) : Int)
    ∧ ∀ res1 : PartialResult,
        EAN13 ⟨[], PatternView.null⟩
          ⟨[11, 1, 1, 1, 3, 2, 1, 1, 3, 2, 1, 1, 3, 2, 1, 1, 3, 2, 1, 1, 3, 2, 1, 1, 3, 2, 1, 1,
            1, 1, 1, 1, 1, 1, 1, 2, 3, 3, 2, 1, 1, 3, 2, 1, 1, 3, 2, 1, 1, 3, 2, 1, 1, 3, 2, 1,
            1, 1, 1, 1, 7], some 1, 3⟩ ≠ Res.ok (true, res1) :=
  (symbol_layout _ 1 ⟨[], PatternView.null⟩).2.2 0 0 1 (by decide) (by decide) (by decide)
    (by decide)

/-! ## Quiet zones of the guards -/

theorem accumulate_ok_reads (v : PatternView) (d : Int) (hd : v.data = some d) :
    ∀ (n : Nat) (x acc s : Int), v.accumulate n x acc = Res.ok s →
      ∃ w : List Nat, w.length = n ∧ ListReads v.bars (d + x) w
  | 0, _, _, _, _ => ⟨[], rfl, trivial⟩
  | n + 1, x, acc, s, h => by
    rw [PatternView.accumulate] at h
    cases hg : v.get x with
    | outOfRange => rw [hg] at h; cases h
    | outOfFuel => rw [hg] at h; cases h
    | ok c =>
      rw [hg] at h
      simp only at h
      obtain ⟨w, hlen, hw⟩ := accumulate_ok_reads v d hd n (x + 1) _ s h
      have hread : readAt v.bars (d + x) = Res.ok c := by
        unfold PatternView.get at hg
        rw [hd] at hg
        exact hg
      refine ⟨c :: w, by simp [hlen], hread, ?_⟩
      have : d + x + 1 = d + (x + 1) := by ring
      rw [this]
      exact hw

/-- A match of the END pattern under a quiet-zone requirement: the three runs of the
window exist and the outside run is at least `q * moduleSize - 1`. -/
theorem IsPattern_end_inv (bars : List Nat) (d : Int) (sp : Int) (q m : ℚ) (hq : q ≠ 0)
    (h : IsPattern ⟨bars, some d, 3⟩ END_PATTERN sp q 0 = Res.ok m) (hm : m ≠ 0) :
    ∃ g0 g1 g2 : Nat, ListReads bars d [g0, g1, g2]
      ∧ q * (((g0 : ℚ) + g1 + g2) / 3) - 1 ≤ (sp : ℚ) := by
  have hsum : ∃ s, PatternView.sum ⟨bars, some d, 3⟩ END_PATTERN.size = Res.ok s := by
    unfold IsPattern at h
    cases hs : PatternView.sum ⟨bars, some d, 3⟩ END_PATTERN.size with
    | outOfRange => rw [hs] at h; cases h
    | outOfFuel => rw [hs] at h; cases h
    | ok s => exact ⟨s, rfl⟩
  obtain ⟨s, hs⟩ := hsum
  have hs2 : PatternView.accumulate ⟨bars, some d, 3⟩ 3 0 0 = Res.ok s := hs
  obtain ⟨w, hlen, hw⟩ := accumulate_ok_reads ⟨bars, some d, 3⟩ d rfl 3 0 0 s hs2
  rw [add_zero] at hw
  obtain ⟨g0, rest, rfl⟩ := List.exists_cons_of_length_eq_add_one hlen
  have hlen1 : rest.length = 2 := by simpa using hlen
  obtain ⟨g1, rest2, rfl⟩ := List.exists_cons_of_length_eq_add_one hlen1
  have hlen2 : rest2.length = 1 := by simpa using hlen1
  obtain ⟨g2, rest3, rfl⟩ := List.exists_cons_of_length_eq_add_one hlen2
  have hnil : rest3 = [] := by
    apply List.length_eq_zero.mp
    simpa using hlen2
  subst hnil
  refine ⟨g0, g1, g2, hw, ?_⟩
  have hval := IsPattern_reads ⟨bars, some d, 3⟩ d rfl [g0, g1, g2] END_PATTERN sp q 0 rfl
    (by simp) hw
  rw [hval] at h
  simp only [Res.ok.injEq] at h
  by_contra hlt
  push_neg at hlt
  apply hm
  rw [← h]
  unfold isPatternOf
  have h1 : ¬ (END_PATTERN.SUM > END_PATTERN.size ∧ (([g0, g1, g2] : List Nat).sum : Int)
      < END_PATTERN.SUM) := fun hc => absurd hc.1 (by decide)
  have hmod : (((([g0, g1, g2] : List Nat).sum : Nat) : Int) : ℚ) / (END_PATTERN.SUM : ℚ)
      = ((g0 : ℚ) + g1 + g2) / 3 := by
    have : (END_PATTERN.SUM : ℚ) = 3 := by
      have : END_PATTERN.SUM = 3 := rfl
      rw [this]; norm_num
    rw [this]
    simp only [List.sum_cons, List.sum_nil, add_zero]
    push_cast
    ring
  simp only [h1, if_false, hmod]
  rw [if_pos ⟨hq, hlt⟩]

/-- What the loop of `FindLeftGuard` returns is the null view or a window that `IsPattern`
accepted with the run before it as the outside run. -/
theorem FindLeftGuard_loop_inv (bars : List Nat) (q : ℚ) (endOff : Int) :
    ∀ (fuel : Nat) (d : Int) (r : PatternView),
      FindLeftGuard.loop END_PATTERN q endOff fuel ⟨bars, some d, 3⟩ = Res.ok r →
      r = PatternView.null
        ∨ ∃ (d1 : Int) (sp : Nat) (m : ℚ), r = ⟨bars, some d1, 3⟩
            ∧ readAt bars (d1 - 1) = Res.ok sp
            ∧ IsPattern ⟨bars, some d1, 3⟩ END_PATTERN sp q 0 = Res.ok m ∧ m ≠ 0 := by
  intro fuel
  induction fuel with
  | zero => intro d r h; simp [FindLeftGuard.loop] at h
  | succ fuel ih =>
    intro d r h
    rw [FindLeftGuard.loop] at h
    simp only at h
    split at h
    · cases hg : PatternView.get ⟨bars, some d, 3⟩ (-1) with
      | outOfRange => rw [hg] at h; cases h
      | outOfFuel => rw [hg] at h; cases h
      | ok space =>
        rw [hg] at h
        simp only at h
        cases hp : IsPattern ⟨bars, some d, 3⟩ END_PATTERN space q 0 with
        | outOfRange => rw [hp] at h; cases h
        | outOfFuel => rw [hp] at h; cases h
        | ok m =>
          rw [hp] at h
          simp only at h
          split at h
          · rename_i hm
            simp only [Res.ok.injEq] at h
            right
            have hread : readAt bars (d - 1) = Res.ok space := hg
            exact ⟨d, space, m, h.symm, hread, hp, hm⟩
          · have hstep : (PatternView.skipPair ⟨bars, some d, 3⟩).2
                = ⟨bars, some (d + 2), 3⟩ := rfl
            rw [hstep] at h
            exact ih (d + 2) r h
    · simp only [Res.ok.injEq] at h
      exact Or.inl h.symm

theorem FindLeftGuard_inv (bars : List Nat) (d size : Int) (q : ℚ) (r : PatternView)
    (h : FindLeftGuard ⟨bars, some d, size⟩ (3 + 6 * 4 + 6) END_PATTERN q = Res.ok r) :
    r = PatternView.null
      ∨ (r = ⟨bars, some 1, 3⟩ ∧ d = 1)
      ∨ ∃ (d1 : Int) (sp : Nat) (m : ℚ), r = ⟨bars, some d1, 3⟩
          ∧ readAt bars (d1 - 1) = Res.ok sp
          ∧ IsPattern ⟨bars, some d1, 3⟩ END_PATTERN sp q 0 = Res.ok m ∧ m ≠ 0 := by
  unfold FindLeftGuard at h
  have hmin : max (3 + 6 * 4 + 6 : Int) END_PATTERN.size = 33 := by decide
  simp only [hmin] at h
  split at h
  · simp only [Res.ok.injEq] at h
    exact Or.inl h.symm
  · have hwin : PatternView.subView ⟨bars, some d, size⟩ 0 END_PATTERN.size
        = ⟨bars, some d, 3⟩ := by
      rw [subView_pos _ _ _ (by decide)]
      simp only [Option.map_some', add_zero]
      rfl
    rw [hwin] at h
    have hloop : ∀ r0, FindLeftGuard.loop END_PATTERN q (d + size - 33) (size.toNat + 1)
        ⟨bars, some d, 3⟩ = Res.ok r0 →
        r0 = PatternView.null
        ∨ (r0 = ⟨bars, some 1, 3⟩ ∧ d = 1)
        ∨ ∃ (d1 : Int) (sp : Nat) (m : ℚ), r0 = ⟨bars, some d1, 3⟩
            ∧ readAt bars (d1 - 1) = Res.ok sp
            ∧ IsPattern ⟨bars, some d1, 3⟩ END_PATTERN sp q 0 = Res.ok m ∧ m ≠ 0 := by
      intro r0 h0
      rcases FindLeftGuard_loop_inv bars q _ _ d r0 h0 with h1 | h1
      · exact Or.inl h1
      · exact Or.inr (Or.inr h1)
    split at h
    · rename_i hfirst
      cases hp : IsPattern ⟨bars, some d, 3⟩ END_PATTERN INT_MAX q 0 with
      | outOfRange => rw [hp] at h; cases h
      | outOfFuel => rw [hp] at h; cases h
      | ok m =>
        rw [hp] at h
        simp only at h
        split at h
        · simp only [Res.ok.injEq] at h
          have hd1 : d = 1 := by
            simpa [PatternView.isAtFirstBar] using hfirst
          right; left
          exact ⟨by rw [← h, hd1], hd1⟩
        · exact hloop r h
    · exact hloop r h

theorem IsRightGuard_inv (bars : List Nat) (d : Int) (q : ℚ)
    (h : IsRightGuard ⟨bars, some d, 3⟩ END_PATTERN q = Res.ok true) :
    d + 3 = (bars.length : Int) - 1
      ∨ ∃ (sp : Nat) (m : ℚ), readAt bars (d + 3) = Res.ok sp
          ∧ IsPattern ⟨bars, some d, 3⟩ END_PATTERN sp q 0 = Res.ok m ∧ m ≠ 0 := by
  unfold IsRightGuard at h
  by_cases hl : PatternView.isAtLastBar ⟨bars, some d, 3⟩ = true
  · left
    simpa [PatternView.isAtLastBar, PatternView.endOff] using hl
  · right
    simp only [hl, Bool.false_eq_true, if_false] at h
    cases hg : PatternView.get ⟨bars, some d, 3⟩ (3 : Int) with
    | outOfRange => rw [hg] at h; cases h
    | outOfFuel => rw [hg] at h; cases h
    | ok sp =>
      rw [hg] at h
      simp only at h
      cases hp : IsPattern ⟨bars, some d, 3⟩ END_PATTERN (sp : Int) q 0 with
      | outOfRange => rw [hp] at h; cases h
      | outOfFuel => rw [hp] at h; cases h
      | ok m =>
        rw [hp] at h
        simp only [Res.ok.injEq, decide_eq_true_eq] at h
        have hread : readAt bars (d + 3) = Res.ok sp := hg
        exact ⟨sp, m, hread, hp, h⟩


/-- C25 (amended): when `decodePattern` succeeds, the start guard it accepted is a window of
three runs that begins at the first bar of the row or whose preceding space run is at least
`6 * m - 1` pixels wide, and the end guard 56 runs further ends at the last bar of the row
or is followed by a space run at least `3 * m - 1` pixels wide, where `m` is the total width
of the respective guard divided by 3: one pixel less than 6 and 3 module widths is
accepted. -/
theorem guard_quiet_zones (bars : List Nat) (d size : Int) (res res1 : PartialResult)
    (next1 : PatternView)
    (h : decodePattern ⟨bars, some d, size⟩ res = Res.ok (true, next1, res1)) :
    ∃ d1 : Int, next1 = ⟨bars, some d1, 3⟩
      ∧ (d1 = 1
        ∨ ∃ sp g0 g1 g2 : Nat, readAt bars (d1 - 1) = Res.ok sp
            ∧ ListReads bars d1 [g0, g1, g2]
            ∧ 6 * (((g0 : ℚ) + g1 + g2) / 3) - 1 ≤ (sp : ℚ))
      ∧ (d1 + 59 = (bars.length : Int) - 1
        ∨ ∃ sp e0 e1 e2 : Nat, readAt bars (d1 + 59) = Res.ok sp
            ∧ ListReads bars (d1 + 56) [e0, e1, e2]
            ∧ 3 * (((e0 : ℚ) + e1 + e2) / 3) - 1 ≤ (sp : ℚ)) := by
  unfold decodePattern at h
  simp only at h
  cases hf : FindLeftGuard ⟨bars, some d, size⟩ (3 + 6 * 4 + 6) END_PATTERN QUIET_ZONE_LEFT with
  | outOfRange => rw [hf] at h; cases h
  | outOfFuel => rw [hf] at h; cases h
  | ok v =>
    rw [hf] at h
    simp only at h
    split at h
    · simp at h
    · rename_i hvalid
      cases he : EAN13 res v with
      | outOfRange => rw [he] at h; cases h
      | outOfFuel => rw [he] at h; cases h
      | ok r =>
        obtain ⟨b0, r0⟩ := r
        rw [he] at h
        simp only [Res.ok.injEq, Prod.mk.injEq] at h
        obtain ⟨hb, hv, hr⟩ := h
        subst hb
        subst hv
        have hq6 : QUIET_ZONE_LEFT ≠ 0 := by decide!
        have hq3 : QUIET_ZONE_RIGHT_EAN ≠ 0 := by decide!
        have hq6v : QUIET_ZONE_LEFT = 6 := rfl
        have hq3v : QUIET_ZONE_RIGHT_EAN = 3 := rfl
        have hend : ∀ d1 : Int, v = ⟨bars, some d1, 3⟩ →
            (d1 + 59 = (bars.length : Int) - 1
              ∨ ∃ sp e0 e1 e2 : Nat, readAt bars (d1 + 59) = Res.ok sp
                  ∧ ListReads bars (d1 + 56) [e0, e1, e2]
                  ∧ 3 * (((e0 : ℚ) + e1 + e2) / 3) - 1 ≤ (sp : ℚ)) := by
          intro d1 hv1
          rw [hv1] at he
          obtain ⟨_, hg, _⟩ := EAN13_success_inv res r0 _ he
          have hs1 : END_PATTERN.size = 3 := rfl
          simp only [hs1, subView_pos _ _ _ (by decide : (0 : Int) < 3),
            Option.map_some'] at hg
          rcases IsRightGuard_inv bars (d1 + 56) _ hg with h1 | ⟨sp, m, h1, h2, h3⟩
          · left; omega
          · right
            obtain ⟨e0, e1, e2, hw, hle⟩ := IsPattern_end_inv bars (d1 + 56) sp _ m hq3 h2 h3
            have he59 : d1 + 56 + 3 = d1 + 59 := by ring
            rw [he59] at h1
            rw [hq3v] at hle
            exact ⟨sp, e0, e1, e2, h1, hw, by simpa using hle⟩
        rcases FindLeftGuard_inv bars d size _ v hf with h1 | ⟨h1, _⟩ | ⟨d1, sp, m, h1, h2, h3, h4⟩
        · rw [h1] at hvalid
          simp [null_isValid] at hvalid
        · exact ⟨1, h1, Or.inl rfl, hend 1 h1⟩
        · refine ⟨d1, h1, Or.inr ?_, hend d1 h1⟩
          obtain ⟨g0, g1, g2, hw, hle⟩ := IsPattern_end_inv bars d1 sp _ m hq6 h3 h4
          rw [hq6v] at hle
          exact ⟨sp, g0, g1, g2, h2, hw, by simpa using hle⟩

/-- C25 (counterexample): the start guard of `narrowQuietBars` at offset 3 is not the first
bar and follows a space of 5 pixels, less than 6 module widths of 1 pixel; the end guard at
offset 59 is not the last bar and is followed by a space of 2 pixels, less than 3 module
widths; `decodePattern` accepts both and decodes `0000000000000`. -/
theorem narrow_quiet_zones_accepted :
    decodePattern (PatternView.ofBars narrowQuietBars) ⟨[], PatternView.null⟩
      = Res.ok (true, ⟨narrowQuietBars, some 3, 3⟩,
          ⟨"0000000000000".toList, ⟨narrowQuietBars, some 59, 3⟩⟩)
    ∧ ListReads narrowQuietBars 2 [5, 1, 1, 1]
    ∧ (5 : ℚ) < 6 * ((1 + 1 + 1) / 3)
    ∧ ListReads narrowQuietBars 59 [1, 1, 1, 2]
    ∧ (2 : ℚ) < 3 * ((1 + 1 + 1) / 3)
    ∧ PatternView.isAtFirstBar ⟨narrowQuietBars, some 3, 3⟩ = false
    ∧ PatternView.isAtLastBar ⟨narrowQuietBars, some 59, 3⟩ = false := by
  decide!

/-- Witness of `guard_quiet_zones`: the symbol `4006381333931` at one pixel per module
between white runs of 11 and 7 pixels. -/
theorem guard_quiet_zones_witness :
    ∃ d1 : Int, (⟨sampleBars, some 1, 3⟩ : PatternView) = ⟨sampleBars, some d1, 3⟩
      ∧ (d1 = 1
        ∨ ∃ sp g0 g1 g2 : Nat, readAt sampleBars (d1 - 1) = Res.ok sp
            ∧ ListReads sampleBars d1 [g0, g1, g2]
            ∧ 6 * (((g0 : ℚ) + g1 + g2) / 3) - 1 ≤ (sp : ℚ))
      ∧ (d1 + 59 = (sampleBars.length : Int) - 1
        ∨ ∃ sp e0 e1 e2 : Nat, readAt sampleBars (d1 + 59) = Res.ok sp
            ∧ ListReads sampleBars (d1 + 56) [e0, e1, e2]
            ∧ 3 * (((e0 : ℚ) + e1 + e2) / 3) - 1 ≤ (sp : ℚ)) :=
  guard_quiet_zones sampleBars 1 ((sampleBars.length : Int) - 1) ⟨[], PatternView.null⟩
    ⟨"4006381333931".toList, ⟨sampleBars, some 57, 3⟩⟩ ⟨sampleBars, some 1, 3⟩ (by decide!)

/-! ## Rounded arithmetic -/

theorem roundedLoop_id (counters : PatternView) (pattern : List Nat) (u lim : ℚ) :
    ∀ (n : Nat) (x : Int) (tv : ℚ),
      PatternMatchVariance.roundedLoop id counters pattern u lim n x tv
        = PatternMatchVariance.loop counters pattern u lim n x tv := by
  intro n
  induction n with
  | zero => intro x tv; rfl
  | succ n ih =>
    intro x tv
    rw [PatternMatchVariance.roundedLoop, PatternMatchVariance.loop]
    simp only [id, ih]

/-- With the rounding `id` the rounded `PatternMatchVariance` is `PatternMatchVariance`. -/
theorem PatternMatchVariance_rounded_id (counters : PatternView) (pattern : List Nat)
    (lim : ℚ) :
    PatternMatchVariance.rounded id counters pattern lim
      = PatternMatchVariance counters pattern lim := by
  unfold PatternMatchVariance.rounded PatternMatchVariance
  simp only [id, roundedLoop_id]

theorem roundedExceeds_id (view : PatternView) (pattern : List Nat) (ref thr : ℚ) :
    ∀ (n : Nat) (x : Int),
      IsPattern.roundedExceeds id view pattern ref thr n x
        = IsPattern.exceeds view pattern ref thr n x := by
  intro n
  induction n with
  | zero => intro x; rfl
  | succ n ih =>
    intro x
    rw [IsPattern.roundedExceeds, IsPattern.exceeds]
    simp only [id, ih]

/-- With the rounding `id` the rounded `IsPattern` is `IsPattern`. -/
theorem IsPattern_rounded_id (view : PatternView) (pattern : FixedPattern) (sp : Int)
    (q ref : ℚ) :
    IsPattern.rounded id view pattern sp q ref = IsPattern view pattern sp q ref := by
  unfold IsPattern.rounded IsPattern
  simp only [id, roundedExceeds_id]

/-- The loop of the template `DecodeDigit` is `DecodeDigit.loopWith` on the values of
`PatternMatchVariance`. -/
theorem loop_eq_loopWith (counters : PatternView) (lim : ℚ) (amb : Bool) :
    ∀ (patterns : List (List Nat)) (i : Int) (bv : ℚ) (bm : Int),
      DecodeDigit.loop counters lim amb patterns i bv bm
        = DecodeDigit.loopWith (fun p => PatternMatchVariance counters p lim) amb patterns
            i bv bm := by
  intro patterns
  induction patterns with
  | nil => intro i bv bm; rfl
  | cons p ps ih =>
    intro i bv bm
    rw [DecodeDigit.loop, DecodeDigit.loopWith]
    simp only [ih]

/-- The permissive loop returns `pickBest` of the variances of the table entries, whatever
computes them. -/
theorem loopWith_variances (variance : List Nat → Res ℚ) :
    ∀ (patterns : List (List Nat)) (i : Int) (bv : ℚ) (bm r : Int),
      DecodeDigit.loopWith variance false patterns i bv bm = Res.ok r →
      ∃ vars : List ℚ, vars.length = patterns.length
        ∧ (∀ k : Nat, k < patterns.length →
            variance (patterns.getD k []) = Res.ok (vars.getD k 0))
        ∧ r = pickBest vars i bv bm := by
  intro patterns
  induction patterns with
  | nil =>
    intro i bv bm r h
    simp only [DecodeDigit.loopWith, Res.ok.injEq] at h
    exact ⟨[], rfl, by simp, by simp [pickBest, h]⟩
  | cons p ps ih =>
    intro i bv bm r h
    rw [DecodeDigit.loopWith] at h
    cases hv : variance p with
    | outOfRange => rw [hv] at h; cases h
    | outOfFuel => rw [hv] at h; cases h
    | ok x =>
      rw [hv] at h
      simp only [Bool.false_eq_true, false_and, if_false] at h
      have hstep : ∀ vars : List ℚ, vars.length = ps.length →
          (∀ k : Nat, k < ps.length → variance (ps.getD k []) = Res.ok (vars.getD k 0)) →
          (x :: vars).length = (p :: ps).length
          ∧ (∀ k : Nat, k < (p :: ps).length →
            variance ((p :: ps).getD k []) = Res.ok ((x :: vars).getD k 0)) := by
        intro vars hl hk
        refine ⟨by simp [hl], ?_⟩
        intro k hlt
        cases k with
        | zero => simpa using hv
        | succ k =>
          have := hk k (by simpa using hlt)
          simpa using this
      by_cases hlt : x < bv
      · rw [if_pos hlt] at h
        obtain ⟨vars, hl, hk, hr⟩ := ih (i + 1) x i r h
        obtain ⟨h1, h2⟩ := hstep vars hl hk
        exact ⟨x :: vars, h1, h2, by rw [hr]; simp [pickBest, hlt]⟩
      · rw [if_neg hlt] at h
        obtain ⟨vars, hl, hk, hr⟩ := ih (i + 1) bv bm r h
        obtain ⟨h1, h2⟩ := hstep vars hl hk
        exact ⟨x :: vars, h1, h2, by rw [hr]; simp [pickBest, hlt]⟩

/-- C22 (amended): in the permissive mode (`requireUnambiguousMatch = false`), whenever the
template `DecodeDigit` returns an index `b ≠ -1`, `b` is the smallest table index whose
variance, as `PatternMatchVariance` computes it, equals the minimum of the computed
variances over the whole table: every entry has a computed variance at least that of `b`,
every entry before `b` a strictly larger one; an entry with the same computed variance
neither replaces nor invalidates the match.  The statement holds for every function
`variance` that gives the value returned for a table entry, so also for the binary32
arithmetic of the source, in which entries of equal exact variance may get different
values. -/
theorem tie_breaking (variance : List Nat → Res ℚ) (patterns : List (List Nat)) (avg : ℚ)
    (b : Int) (h : DecodeDigit.loopWith variance false patterns 0 avg (-1) = Res.ok b)
    (hb : b ≠ -1) :
    ∃ (j : Nat) (vj : ℚ), b = j ∧ j < patterns.length
      ∧ variance (patterns.getD j []) = Res.ok vj ∧ vj < avg
      ∧ ∀ k : Nat, k < patterns.length →
          ∃ vk : ℚ, variance (patterns.getD k []) = Res.ok vk
            ∧ vj ≤ vk ∧ (k < j → vj < vk) := by
  obtain ⟨vars, hl, hk, hr⟩ := loopWith_variances variance patterns 0 avg (-1) b h
  rcases pickBest_first_min vars 0 avg (-1) with ⟨h1, _⟩ | ⟨j, h1, h2, h3, h4, h5⟩
  · exact absurd (by rw [hr, h1]) hb
  · have hj : j < patterns.length := by rw [← hl]; exact h1
    exact ⟨j, vars.getD j 0, by rw [hr, h2]; simp, hj, hk j hj, h3,
      fun k hk2 => ⟨vars.getD k 0, hk k hk2, h4 k (by rw [hl]; exact hk2), h5 k⟩⟩

/-- Witness of `tie_breaking`: on the window 3, 3, 4, 3 in binary32 arithmetic entry 2 of
`L_PATTERNS` is returned; its computed variance is below that of entry 1. -/
theorem tie_breaking_witness :
    ∃ (j : Nat) (vj : ℚ), (2 : Int) = j ∧ j < L_PATTERNS.length
      ∧ PatternMatchVariance.rounded binary32 ⟨[5, 3, 3, 4, 3, 5], some 1, 4⟩
          (L_PATTERNS.getD j []) (binary32 MAX_INDIVIDUAL_VARIANCE) = Res.ok vj
      ∧ vj < binary32 MAX_AVG_VARIANCE
      ∧ ∀ k : Nat, k < L_PATTERNS.length →
          ∃ vk : ℚ, PatternMatchVariance.rounded binary32 ⟨[5, 3, 3, 4, 3, 5], some 1, 4⟩
              (L_PATTERNS.getD k []) (binary32 MAX_INDIVIDUAL_VARIANCE) = Res.ok vk
            ∧ vj ≤ vk ∧ (k < j → vj < vk) :=
  tie_breaking
    (fun p => PatternMatchVariance.rounded binary32 ⟨[5, 3, 3, 4, 3, 5], some 1, 4⟩ p
      (binary32 MAX_INDIVIDUAL_VARIANCE))
    L_PATTERNS (binary32 MAX_AVG_VARIANCE) 2 (by decide!) (by decide)

/-- C22 (counterexample): on the window 3, 3, 4, 3 the template `DecodeDigit` returns
index 2 in the binary32 arithmetic of the source: the computed variances of the entries 1
(2, 2, 2, 1) and 2 (2, 1, 2, 2) of `L_PATTERNS` are 14749201/67108864 and 921825/4194304,
and the second is smaller.  In exact arithmetic both entries have the variance 20/91, the
minimum over the table (every other entry is rejected), so the smallest index of the
minimum variance is 1. -/
theorem rounding_breaks_tie :
    DecodeDigit.loopWith
        (fun p => PatternMatchVariance.rounded binary32 ⟨[5, 3, 3, 4, 3, 5], some 1, 4⟩ p
          (binary32 MAX_INDIVIDUAL_VARIANCE))
        false L_PATTERNS 0 (binary32 MAX_AVG_VARIANCE) (-1) = Res.ok 2
    ∧ PatternMatchVariance.rounded binary32 ⟨[5, 3, 3, 4, 3, 5], some 1, 4⟩
        (L_PATTERNS.getD 1 []) (binary32 MAX_INDIVIDUAL_VARIANCE)
        = Res.ok (14749201 / 67108864)
    ∧ PatternMatchVariance.rounded binary32 ⟨[5, 3, 3, 4, 3, 5], some 1, 4⟩
        (L_PATTERNS.getD 2 []) (binary32 MAX_INDIVIDUAL_VARIANCE)
        = Res.ok (921825 / 4194304)
    ∧ PatternMatchVariance ⟨[5, 3, 3, 4, 3, 5], some 1, 4⟩ (L_PATTERNS.getD 1 [])
        MAX_INDIVIDUAL_VARIANCE = Res.ok (20 / 91)
    ∧ PatternMatchVariance ⟨[5, 3, 3, 4, 3, 5], some 1, 4⟩ (L_PATTERNS.getD 2 [])
        MAX_INDIVIDUAL_VARIANCE = Res.ok (20 / 91)
    ∧ (∀ k : Nat, k < 10 → k ≠ 1 → k ≠ 2 →
        PatternMatchVariance ⟨[5, 3, 3, 4, 3, 5], some 1, 4⟩ (L_PATTERNS.getD k [])
          MAX_INDIVIDUAL_VARIANCE = Res.ok FLT_MAX) := by
  decide!

/-- C24 (amended): for the END and MID patterns as the program calls `IsPattern` (no
reference module size supplied, quiet-zone requirement 0, 3 or 6) and a window `w` of runs
below 65536, with `m = sum(w) / SUM`: under a quiet-zone requirement `q ≠ 0`, `IsPattern`
returns 0 whenever the outside run is smaller than `q * m - 1`; otherwise it returns `m`
if `|w[i] - pattern[i] * m| < m * 0.5 + 0.5` at every run position, and 0 if some run
exceeds that threshold.  A run whose deviation equals the threshold is left out: there the
rounding of the `float` operations decides. -/
theorem IsPattern_formula (v : PatternView) (d : Int) (hd : v.data = some d) (w : List Nat)
    (hw : ListReads v.bars d w) (_hfit : ∀ x ∈ w, x < 65536) (pattern : FixedPattern)
    (hp : pattern = END_PATTERN ∨ pattern = MID_PATTERN)
    (hlen : pattern.data.length = w.length) (sp : Int) (q : ℚ)
    (_hq : q = 0 ∨ q = QUIET_ZONE_RIGHT_EAN ∨ q = QUIET_ZONE_LEFT) (m : ℚ)
    (hm : m = ((w.sum : Int) : ℚ) / (pattern.SUM : ℚ)) :
    (q ≠ 0 → (sp : ℚ) < q * m - 1 → IsPattern v pattern sp q 0 = Res.ok 0)
    ∧ (¬ (q ≠ 0 ∧ (sp : ℚ) < q * m - 1) →
        (∀ i : Nat, i < w.length →
          |((w.getD i 0 : Nat) : ℚ) - ((pattern.data.getD i 0 : Nat) : ℚ) * m|
            < m * (1 / 2) + 1 / 2) →
        IsPattern v pattern sp q 0 = Res.ok m)
    ∧ (¬ (q ≠ 0 ∧ (sp : ℚ) < q * m - 1) →
        (∃ i : Nat, i < w.length ∧
          |((w.getD i 0 : Nat) : ℚ) - ((pattern.data.getD i 0 : Nat) : ℚ) * m|
            > m * (1 / 2) + 1 / 2) →
        IsPattern v pattern sp q 0 = Res.ok 0) := by
  have hne : w ≠ [] := by
    intro h
    rw [h] at hlen
    rcases hp with rfl | rfl <;> simp [END_PATTERN, MID_PATTERN] at hlen
  have hwidth : ¬ (pattern.SUM > pattern.size ∧ (w.sum : Int) < pattern.SUM) := by
    intro h
    rcases hp with rfl | rfl
    · exact absurd h.1 (by decide)
    · exact absurd h.1 (by decide)
  have hval := IsPattern_reads v d hd w pattern sp q 0 hlen hne hw
  have hthr : ∀ x : ℚ, x * (1 / 2 + 0 * (1 / 4)) + 1 / 2 = x * (1 / 2) + 1 / 2 := by
    intro x; ring
  have hany := deviations_any (m * (1 / 2) + 1 / 2) m w pattern.data
  unfold isPatternOf at hval
  simp only [hwidth, if_false, ← hm, if_true, hthr] at hval
  refine ⟨fun hq hsp => ?_, fun hq hall => ?_, fun hq hex => ?_⟩
  · rw [hval, if_pos ⟨hq, hsp⟩]
  · rw [hval, if_neg hq]
    have hno : ¬ ((deviations w pattern.data m).any
        (fun v => decide (v > m * (1 / 2) + 1 / 2)) = true) := by
      rw [hany]
      rintro ⟨i, h1, _, h3⟩
      exact absurd (hall i h1) (not_lt.mpr (le_of_lt h3))
    rw [if_neg hno]
  · rw [hval, if_neg hq]
    have hyes : (deviations w pattern.data m).any
        (fun v => decide (v > m * (1 / 2) + 1 / 2)) = true := by
      rw [hany]
      obtain ⟨i, h1, h3⟩ := hex
      exact ⟨i, h1, by rw [hlen]; exact h1, h3⟩
    rw [if_pos hyes]

/-- Witness of `IsPattern_formula`: the window 2, 2, 2 against the END pattern with a quiet
zone of 6 modules and an outside run of 10 pixels, below `6 * 2 - 1`. -/
theorem IsPattern_formula_witness :
    IsPattern ⟨[10, 2, 2, 2, 9], some 1, 3⟩ END_PATTERN 10 QUIET_ZONE_LEFT 0 = Res.ok 0 :=
  (IsPattern_formula ⟨[10, 2, 2, 2, 9], some 1, 3⟩ 1 rfl [2, 2, 2] (by decide) (by decide)
    END_PATTERN (Or.inl rfl) (by decide) 10 QUIET_ZONE_LEFT (Or.inr (Or.inr rfl)) 2
    (by decide!)).1 (by decide!) (by decide!)

/-- C24 (counterexample): the window 1, 1, 3 passes the width check of the END pattern,
with `m = 5/3` every run deviates by at most the threshold `m * 0.5 + 0.5 = 4/3` (the run
3 by exactly 4/3), and without a quiet-zone requirement `IsPattern` in the binary32
arithmetic of the source returns 0, not `m`: the rounded threshold 11184810/8388608 is
below the rounded deviation 11184811/8388608. -/
theorem threshold_equal_window_is_rejected :
    IsPattern.rounded binary32 ⟨[5, 1, 1, 3, 9], some 1, 3⟩ END_PATTERN 0 0 0 = Res.ok 0
    ∧ (∀ i : Nat, i < 3 →
        |((([1, 1, 3] : List Nat).getD i 0 : Nat) : ℚ)
            - ((END_PATTERN.data.getD i 0 : Nat) : ℚ) * (5 / 3)|
          ≤ 5 / 3 * (1 / 2) + 1 / 2)
    ∧ binary32 (binary32 (binary32 (5 / 3) * (1 / 2)) + 1 / 2) = 11184810 / 8388608
    ∧ |binary32 (3 - binary32 (1 * binary32 (5 / 3)))| = 11184811 / 8388608
    ∧ IsPattern ⟨[5, 1, 1, 3, 9], some 1, 3⟩ END_PATTERN 0 0 0 = Res.ok (5 / 3) := by
  decide!

/-! ## Rotation -/

/-- Binary32 rounding at sample values: one third and one tenth are rounded to 24 significant
bits, `2 ^ 24 + 1` is a tie and goes to the even significand, `2 ^ 24 + 3` goes up, and a
binary32 number is left as it is. -/
theorem binary32_samples :
    binary32 (1 / 3) = 11184811 / 33554432
    ∧ binary32 (1 / 10) = 13421773 / 134217728
    ∧ binary32 16777217 = 16777216
    ∧ binary32 16777219 = 16777220
    ∧ binary32 (-(5 / 4)) = -(5 / 4)
    ∧ binary32 0 = 0 := by
  decide!

/-- When neither the image nor any of its three rotations decodes, the loop over the angles
of `DecodeWithRotation` ends with the empty candidate set. -/
theorem DecodeWithRotation_loop_nothing (rot : Rotation) (image : List Nat)
    (width height : Int)
    (h90 : DoDecode (rot.RotateImage image width height 90) (rot.newWidth width height 90)
      (rot.newHeight width height 90) = Res.ok [])
    (h180 : DoDecode (rot.RotateImage image width height 180) (rot.newWidth width height 180)
      (rot.newHeight width height 180) = Res.ok [])
    (h270 : DoDecode (rot.RotateImage image width height 270) (rot.newWidth width height 270)
      (rot.newHeight width height 270) = Res.ok []) :
    DecodeWithRotation.loop rot image width height 4 90 [] = Res.ok [] := by
  have e1 : (90 : Int) + 90 = 180 := by norm_num
  have e2 : (180 : Int) + 90 = 270 := by norm_num
  have e3 : (270 : Int) + 90 = 360 := by norm_num
  simp [DecodeWithRotation.loop, h90, h180, h270, e1, e2, e3]

/-- When neither the image nor any of its three rotations decodes, `DecodeWithRotation`
returns the empty string. -/
theorem DecodeWithRotation_nothing (rot : Rotation) (image : List Nat) (width height : Int)
    (h0 : DoDecode image width height = Res.ok [])
    (h90 : DoDecode (rot.RotateImage image width height 90) (rot.newWidth width height 90)
      (rot.newHeight width height 90) = Res.ok [])
    (h180 : DoDecode (rot.RotateImage image width height 180) (rot.newWidth width height 180)
      (rot.newHeight width height 180) = Res.ok [])
    (h270 : DoDecode (rot.RotateImage image width height 270) (rot.newWidth width height 270)
      (rot.newHeight width height 270) = Res.ok []) :
    DecodeWithRotation rot id image width height = Res.ok [] := by
  have hl := DecodeWithRotation_loop_nothing rot image width height h90 h180 h270
  have hg : GetMostFrequentResult id [] = [] := by decide
  simp [DecodeWithRotation, h0, hl, hg]

/-- The upside-down row does not decode. -/
theorem upsideDownRow_decodes_nothing : DoDecode upsideDownRow 113 1 = Res.ok [] := by
  decide!

set_option maxRecDepth 100000 in
/-- The upside-down row turned by 90 degrees in binary32 does not decode. -/
theorem upsideDownRow_turned_90 :
    DoDecode ((sourceRotation binary32 cosDegrees sinDegrees).RotateImage upsideDownRow 113 1 90)
      ((sourceRotation binary32 cosDegrees sinDegrees).newWidth 113 1 90)
      ((sourceRotation binary32 cosDegrees sinDegrees).newHeight 113 1 90) = Res.ok [] := by
  decide!

set_option maxRecDepth 100000 in
/-- The upside-down row turned by 180 degrees in binary32 does not decode. -/
theorem upsideDownRow_turned_180 :
    DoDecode ((sourceRotation binary32 cosDegrees sinDegrees).RotateImage upsideDownRow 113 1 180)
      ((sourceRotation binary32 cosDegrees sinDegrees).newWidth 113 1 180)
      ((sourceRotation binary32 cosDegrees sinDegrees).newHeight 113 1 180) = Res.ok [] := by
  decide!

set_option maxRecDepth 100000 in
/-- The upside-down row turned by 270 degrees in binary32 does not decode. -/
theorem upsideDownRow_turned_270 :
    DoDecode ((sourceRotation binary32 cosDegrees sinDegrees).RotateImage upsideDownRow 113 1 270)
      ((sourceRotation binary32 cosDegrees sinDegrees).newWidth 113 1 270)
      ((sourceRotation binary32 cosDegrees sinDegrees).newHeight 113 1 270) = Res.ok [] := by
  decide!

set_option maxRecDepth 100000 in
/-- C8: the rendering of `4006381333931` on one row of 113 pixels decodes to that string,
but for the same row turned by 180 degrees (`upsideDownRow`) `DoDecode` finds nothing at 0
degrees and, with `RotateImage` in the binary32 arithmetic of the source as well as in
exact arithmetic with the exact cosine and sine, nothing at 90, 180 and 270 degrees:
`DecodeWithRotation` returns the empty string. -/
theorem rotation_retry_loses_one_row_image :
    DoDecode (renderRow 1 "4006381333931".toList 11 7) 113 1
      = Res.ok ["4006381333931".toList]
    ∧ upsideDownRow.length = 113
    ∧ DoDecode upsideDownRow 113 1 = Res.ok []
    ∧ DecodeWithRotation (sourceRotation binary32 cosDegrees sinDegrees) id upsideDownRow
        113 1 = Res.ok []
    ∧ DecodeWithRotation (sourceRotation id cosExact sinExact) id upsideDownRow 113 1
        = Res.ok [] :=
  ⟨by decide!, by decide!, upsideDownRow_decodes_nothing,
    DecodeWithRotation_nothing _ _ _ _ upsideDownRow_decodes_nothing upsideDownRow_turned_90
      upsideDownRow_turned_180 upsideDownRow_turned_270,
    by decide!⟩

/-! ## Cursor bounds safety -/

/-- C18: cursor bounds safety.  Every read of a run through a `PatternView` is checked here
(`readAt` answers `outOfRange` outside the run sequence and the answer is passed on) and
the loops carry fuel.  For every run sequence `bars` that `getPatternRow` produces, from
whatever state `res` and candidate set the row is entered, the decode attempts of `DoDecode`
on that row return a value: no read of `window[-1]`, of `*view.end()`, of a guard window or
of a digit window left `bars`, and the attempts ended.  A start guard whose end guard at
offset 56 does not fit makes that window invalid, and `EAN13` fails and keeps `res`.  On an
image that holds `w * h` pixels with `w ≥ 1` and fewer than `2 ^ 31` pixels (so that the
`int` index `rowNumber * width` does not overflow) the pixel reads stay inside the image
too, and `DoDecode` returns a candidate set. -/
theorem cursor_bounds_safety :
    (∀ (image : List Nat) (height width rowNumber : Int) (bars : List Nat),
        getPatternRow image height width rowNumber = Res.ok bars →
        ∀ (res : PartialResult) (R : List (List Char)),
          ∃ r, DoDecode.attempts (bars.length + 1) (PatternView.ofBars bars) res R = Res.ok r)
    ∧ (∀ (bars : List Nat) (d : Int) (res : PartialResult), (bars.length : Int) < d + 59 →
        (PatternView.subView ⟨bars, some d, 3⟩ 56 END_PATTERN.size).isValid = false
          ∧ EAN13 res ⟨bars, some d, 3⟩ = Res.ok (false, res))
    ∧ (∀ (image : List Nat) (w h : Nat), 1 ≤ w → w * h ≤ image.length →
        w * h < 2147483648 → ∃ S, DoDecode image w h = Res.ok S) := by
  refine ⟨?_, fun bars d res hroom => ⟨?_, EAN13_invalid bars d res hroom⟩,
    fun image w h hw himg _ => DoDecode_total image w h hw himg⟩
  · intro image height width rowNumber bars hrow res R
    have hodd := getPatternRow_ok_odd image height width rowNumber bars hrow
    have hview : PatternView.ofBars bars = ⟨bars, some 1, (bars.length : Int) - 1⟩ := rfl
    rw [hview]
    exact attempts_total bars hodd (bars.length + 1) 1 res R (by omega) (by decide)
      (by omega) (by push_cast; omega)
  · have hs1 : END_PATTERN.size = 3 := rfl
    simp only [hs1, subView_pos _ _ _ (by decide : (0 : Int) < 3), Option.map_some']
    simp only [PatternView.isValid, PatternView.isValidN, PatternView.endOff]
    have : ¬ (d + 56 + 3 ≤ (bars.length : Int)) := by omega
    simp [this]

set_option maxRecDepth 100000 in
/-- Witness of `cursor_bounds_safety`: the row of the symbol `4006381333931` at one pixel per
module, on which the guard search, both guards, the middle guard and the twelve digit
windows are read. -/
theorem cursor_bounds_safety_witness :
    getPatternRow (renderRow 1 "4006381333931".toList 11 7) 1 113 0 = Res.ok sampleBars
    ∧ ∃ r, DoDecode.attempts (sampleBars.length + 1) (PatternView.ofBars sampleBars)
        ⟨[], PatternView.null⟩ [] = Res.ok r :=
  ⟨by decide!,
    cursor_bounds_safety.1 (renderRow 1 "4006381333931".toList 11 7) 1 113 0 sampleBars
      (by decide!) ⟨[], PatternView.null⟩ []⟩

end TritonVisionApp
